import Mathlib

/-!
The message formatter of the confidence coach front-end

A shallow embedding of `src/frontend/src/components/FormattedMessage.jsx`
(`formatMathNotation`, `formatInlineText`, `formatContent` with its inner
`closeCurrentSection`).

JavaScript strings are modelled as lists of characters (`Str`); the input
domain is the well-formed Unicode strings.  None of the regular expressions of
the component can tell a code point from a pair of surrogates (the classes
that are matched positively are all inside the basic plane), so matching on
code points gives the same result as matching on UTF-16 code units.

Every regular expression of the source is translated into a structurally
recursive matcher; the doc comment of each matcher quotes the expression.
-/

namespace FormattedMessage

/-- JavaScript string values. -/
abbrev Str := List Char

/-! ## Character classes -/

/-- The class `\s` of a JavaScript regular expression, which is also the set
of characters removed by `String.prototype.trim`: white space and line
terminators. -/
def isSpace (c : Char) : Bool :=
  let n := c.toNat
  n == 0x09 || n == 0x0A || n == 0x0B || n == 0x0C || n == 0x0D || n == 0x20 ||
  n == 0xA0 || n == 0x1680 || (0x2000 ≤ n && n ≤ 0x200A) || n == 0x2028 ||
  n == 0x2029 || n == 0x202F || n == 0x205F || n == 0x3000 || n == 0xFEFF

/-- Line terminators, the characters that `.` does not match. -/
def isLineTerminator (c : Char) : Bool :=
  let n := c.toNat
  n == 0x0A || n == 0x0D || n == 0x2028 || n == 0x2029

/-- The class `[0-9]`. -/
def isDigit (c : Char) : Bool := 48 ≤ c.toNat && c.toNat ≤ 57

/-- The class `[a-z]`. -/
def isLower (c : Char) : Bool := 97 ≤ c.toNat && c.toNat ≤ 122

/-- The class `[A-Z]`. -/
def isUpper (c : Char) : Bool := 65 ≤ c.toNat && c.toNat ≤ 90

/-- The class `[a-zA-Z]`. -/
def isLetter (c : Char) : Bool := isLower c || isUpper c

/-- The class `[a-z0-9]` under the flag `i`.  Without the flag `u` the case
folding of a regular expression never maps a character outside ASCII to an
ASCII one, so the class holds the ASCII letters and digits only. -/
def isAlnum (c : Char) : Bool := isLetter c || isDigit c

/-- The class `\w`, that is `[A-Za-z0-9_]`. -/
def isWord (c : Char) : Bool := isAlnum c || c.toNat == 95

/-- The backtick character. -/
def backtick : Char := Char.ofNat 96

/-- The upper-case form of an ASCII letter; every other character is kept. -/
def asciiUpper (c : Char) : Char :=
  if isLower c then Char.ofNat (c.toNat - 32) else c

/-- Whether the input character `c` matches the pattern character `p` under
the flag `i` (for an ASCII pattern character). -/
def eqIgnoreCase (p c : Char) : Bool := asciiUpper p == asciiUpper c

/-! ## String helpers -/

/-- `String.prototype.split` with a one-character separator. -/
def split (sep : Char) : Str → List Str
  | [] => [[]]
  | c :: cs =>
    if c = sep then [] :: split sep cs
    else match split sep cs with
      | [] => [[c]]
      | l :: ls => (c :: l) :: ls

/-- `Array.prototype.join`. -/
def join (sep : Str) (parts : List Str) : Str := sep.intercalate parts

/-- `line.replace(/\r$/, '')`: one carriage return at the very end goes. -/
def stripCR (line : Str) : Str :=
  if line.getLast? = some '\r' then line.dropLast else line

/-- `line.replace(/\s+$/, '')`: the whole trailing run of white space goes. -/
def trimEnd (line : Str) : Str := line.rdropWhile isSpace

/-- `String.prototype.trim`. -/
def trim (s : Str) : Str := (s.dropWhile isSpace).rdropWhile isSpace

/-- The length of the capture of `line.match(/^(\s*)/)`. -/
def indentSize (line : Str) : Nat := (line.takeWhile isSpace).length

/-- Removes the literal `lit` from the start of `s`, if it is there. -/
def dropLiteral : Str → Str → Option Str
  | [], s => some s
  | _ :: _, [] => none
  | p :: ps, c :: cs => if p = c then dropLiteral ps cs else none

/-- Removes the literal `lit` from the start of `s` under the flag `i`;
returns the text that matched and the rest. -/
def dropLiteralCI : Str → Str → Option (Str × Str)
  | [], s => some ([], s)
  | _ :: _, [] => none
  | p :: ps, c :: cs =>
    if eqIgnoreCase p c then
      match dropLiteralCI ps cs with
      | some (m, r) => some (c :: m, r)
      | none => none
    else none

/-- `String.prototype.includes`. -/
def includes (needle : Str) : Str → Bool
  | [] => needle.isEmpty
  | c :: cs => (dropLiteral needle (c :: cs)).isSome || includes needle cs

/-- `text.replace(/c/g, rep)` for a single literal character `c`. -/
def replaceChar (c : Char) (rep : Str) : Str → Str
  | [] => []
  | x :: xs => if x = c then rep ++ replaceChar c rep xs else x :: replaceChar c rep xs

/-- `String.prototype.replace` with a global regular expression.  `m s` is the
match of the expression anchored at the start of `s`: the replacement text and
what is left of `s` after the match.  The scan goes left to right; where the
expression matches, the replacement is emitted and the scan resumes after the
match (the first argument counts the characters of that match still to be
skipped); elsewhere the character is copied.  Every expression used here
matches at least one character. -/
def replaceAll (m : Str → Option (Str × Str)) : Nat → Str → Str
  | _, [] => []
  | skip + 1, _ :: cs => replaceAll m skip cs
  | 0, c :: cs =>
    match m (c :: cs) with
    | some (rep, rest) => rep ++ replaceAll m (cs.length - rest.length) cs
    | none => c :: replaceAll m 0 cs

/-- The lazy group `(.*?)` followed by the literal `delim`: the shortest run of
characters other than line terminators after which `delim` stands.  Returns the
capture and what follows `delim`. -/
def lazyUntil (delim : Str) : Str → Option (Str × Str)
  | [] => if delim.isEmpty then some ([], []) else none
  | c :: cs =>
    match dropLiteral delim (c :: cs) with
    | some rest => some ([], rest)
    | none =>
      if isLineTerminator c then none
      else match lazyUntil delim cs with
        | some (cap, rest) => some (c :: cap, rest)
        | none => none

/-! ## formatMathNotation -/

/-- `\\?\(`: an optional backslash and an opening bracket. -/
def openBracket : Str → Option Str
  | '\\' :: '(' :: r => some r
  | '(' :: r => some r
  | _ => none

/-- `\\?\)`: an optional backslash and a closing bracket. -/
def closeBracket : Str → Option Str
  | '\\' :: ')' :: r => some r
  | ')' :: r => some r
  | _ => none

/-- The opening tag of the span of the first three math rules. -/
def mathSpanOpen : Str := "<span class=\"font-serif italic text-purple-800\">".toList

/-- The opening tag of the span of the general math rule. -/
def mathExprSpanOpen : Str :=
  "<span class=\"font-serif italic text-purple-800 bg-purple-50 px-1 rounded\">".toList

/-- The closing tag `</span>`. -/
def spanClose : Str := "</span>".toList

/-- The opening tag of a superscript. -/
def supOpen : Str := "<sup class=\"text-xs\">".toList

/-- The closing tag `</sup>`. -/
def supClose : Str := "</sup>".toList

/-- The spacing span put around an operator. -/
def operatorSpan (op : Str) : Str := "<span class=\"mx-1\">".toList ++ op ++ spanClose

/-- `/\\?\(([a-z0-9])\\?\)/gi` with its replacement
`<span class="font-serif italic text-purple-800">$1</span>`. -/
def matchVariable (s : Str) : Option (Str × Str) :=
  match openBracket s with
  | some (c :: r) =>
    if isAlnum c then
      match closeBracket r with
      | some rest => some (mathSpanOpen ++ [c] ++ spanClose, rest)
      | none => none
    else none
  | _ => none

/-- `/\\?\(([a-z0-9]+\([a-z0-9]+\))\\?\)/gi` with its replacement
`<span class="font-serif italic text-purple-800">$1</span>`.  Each `+` takes
the whole run of letters and digits: the character that follows has to be a
bracket, which is outside the class. -/
def matchFunction (s : Str) : Option (Str × Str) :=
  match openBracket s with
  | some r =>
    let name := r.takeWhile isAlnum
    match name, r.dropWhile isAlnum with
    | _ :: _, '(' :: r2 =>
      let arg := r2.takeWhile isAlnum
      match arg, r2.dropWhile isAlnum with
      | _ :: _, ')' :: r3 =>
        match closeBracket r3 with
        | some rest => some (mathSpanOpen ++ (name ++ '(' :: arg ++ [')']) ++ spanClose, rest)
        | none => none
      | _, _ => none
    | _, _ => none
  | none => none

/-- `/\\?\(([a-z0-9])\^([0-9]+)\\?\)/gi` with its replacement
`<span class="font-serif italic text-purple-800">$1<sup class="text-xs">$2</sup></span>`. -/
def matchSuperscript (s : Str) : Option (Str × Str) :=
  match openBracket s with
  | some (c :: '^' :: r) =>
    if isAlnum c then
      let digits := r.takeWhile isDigit
      match digits, closeBracket (r.dropWhile isDigit) with
      | _ :: _, some rest =>
        some (mathSpanOpen ++ [c] ++ supOpen ++ digits ++ supClose ++ spanClose, rest)
      | _, _ => none
    else none
  | _ => none

/-- `/\^([0-9]+)/g` with its replacement `<sup class="text-xs">$1</sup>`. -/
def matchExponent : Str → Option (Str × Str)
  | '^' :: r =>
    match r.takeWhile isDigit with
    | [] => none
    | d :: ds => some (supOpen ++ (d :: ds) ++ supClose, r.dropWhile isDigit)
  | _ => none

/-- The replacement function of the general math rule, applied to the capture
`p1`: exponents first, then `+`, `-`, `=`, `*` and `/`, each substitution
running over the output of the one before. -/
def formatExpression (p1 : Str) : Str :=
  mathExprSpanOpen ++
    replaceChar '/' (operatorSpan "//".toList)
      (replaceChar '*' (operatorSpan "*".toList)
        (replaceChar '=' (operatorSpan "=".toList)
          (replaceChar '-' (operatorSpan "-".toList)
            (replaceChar '+' (operatorSpan "+".toList)
              (replaceAll matchExponent 0 p1))))) ++
    spanClose

/-- `/\\?\(([^)]+)\\?\)/g` with the replacement function.  The class `[^)]+`
takes every character up to the next closing bracket, a backslash before that
bracket included, so the match exists when that run is not empty and a closing
bracket follows it. -/
def matchExpression (s : Str) : Option (Str × Str) :=
  match openBracket s with
  | some r =>
    match r.takeWhile (fun c => c != ')'), r.dropWhile (fun c => c != ')') with
    | c :: p1, ')' :: rest => some (formatExpression (c :: p1), rest)
    | _, _ => none
  | none => none

/-- The function `formatMathNotation` of the source. -/
def formatMathNotation (text : Str) : Str :=
  replaceAll matchExpression 0
    (replaceAll matchSuperscript 0
      (replaceAll matchFunction 0
        (replaceAll matchVariable 0 text)))

/-! ## formatInlineText -/

/-- `/\*\*\*(.*?)\*\*\*/g` with its replacement
`<span class="font-bold italic text-purple-800">$1</span>`. -/
def matchBoldItalic (s : Str) : Option (Str × Str) :=
  match dropLiteral "***".toList s with
  | some r =>
    match lazyUntil "***".toList r with
    | some (cap, rest) =>
      some ("<span class=\"font-bold italic text-purple-800\">".toList ++ cap ++ spanClose, rest)
    | none => none
  | none => none

/-- `/\*\*(.*?)\*\*/g` with its replacement
`<span class="font-bold text-purple-700">$1</span>`. -/
def matchBold (s : Str) : Option (Str × Str) :=
  match dropLiteral "**".toList s with
  | some r =>
    match lazyUntil "**".toList r with
    | some (cap, rest) =>
      some ("<span class=\"font-bold text-purple-700\">".toList ++ cap ++ spanClose, rest)
    | none => none
  | none => none

/-- `/\*((?!\*)[^*]+)\*/g` with its replacement
`<span class="italic text-purple-600">$1</span>`: a star, the whole run of
characters other than a star, which must not be empty, and a star. -/
def matchItalic : Str → Option (Str × Str)
  | '*' :: r =>
    match r.takeWhile (fun c => c != '*'), r.dropWhile (fun c => c != '*') with
    | c :: cap, '*' :: rest =>
      some ("<span class=\"italic text-purple-600\">".toList ++ (c :: cap) ++ spanClose, rest)
    | _, _ => none
  | _ => none

/-- The inline code pattern: a backtick, `(.*?)`, a backtick, with its replacement
`<code class="bg-purple-50 border border-purple-200 px-1.5 py-0.5 rounded font-mono text-sm text-purple-800">$1</code>`. -/
def matchInlineCode : Str → Option (Str × Str)
  | [] => none
  | c :: r =>
    if c = backtick then
      match lazyUntil [backtick] r with
      | some (cap, rest) =>
        some ("<code class=\"bg-purple-50 border border-purple-200 px-1.5 py-0.5 rounded font-mono text-sm text-purple-800\">".toList
          ++ cap ++ "</code>".toList, rest)
      | none => none
    else none

/-- The alternatives of the key-term pattern, in the order of the source. -/
def keywords : List Str :=
  ["confidence".toList, "strategy".toList, "growth".toList, "progress".toList,
   "achievement".toList, "believe".toList, "overcome".toList, "challenge".toList]

/-- The first alternative of `alts` that matches at the start of `s` under the
flag `i`: the text that matched and the rest. -/
def matchAlternatives : List Str → Str → Option (Str × Str)
  | [], _ => none
  | k :: ks, s =>
    match dropLiteralCI k s with
    | some r => some r
    | none => matchAlternatives ks s

/-- `/(confidence|strategy|growth|progress|achievement|believe|overcome|challenge)/gi`
with its replacement
`<span class="bg-purple-100 text-purple-800 px-1 rounded-sm font-medium">$1</span>`. -/
def matchKeyword (s : Str) : Option (Str × Str) :=
  match matchAlternatives keywords s with
  | some (m, rest) =>
    some ("<span class=\"bg-purple-100 text-purple-800 px-1 rounded-sm font-medium\">".toList
      ++ m ++ spanClose, rest)
  | none => none

/-- The function `formatInlineText` of the source, on strings.  (Within the
component it is only ever called with a string; the first guard then returns
the empty string for the empty string.) -/
def formatInlineText (text : Str) : Str :=
  if text.isEmpty then []
  else if includes "<span class=\"font-serif".toList text
      || includes "<sup class=\"text-xs\">".toList text then text
  else
    replaceAll matchKeyword 0
      (replaceAll matchInlineCode 0
        (replaceAll matchItalic 0
          (replaceAll matchBold 0
            (replaceAll matchBoldItalic 0
              (formatMathNotation text)))))

/-! ## Values, blocks and the state of `formatContent` -/

/-- The values `formatContent` can be called with.  Of a number only its being
zero matters here, so numbers are modelled by the integers and `NaN`; `object`
stands for every value whose `typeof` is not a primitive type. -/
inductive JsValue where
  | undefined
  | null
  | boolean (b : Bool)
  | number (n : Int)
  | nan
  | string (s : Str)
  | object
  deriving DecidableEq, Repr

/-- The truth value of `text` in `!text`. -/
def JsValue.truthy : JsValue → Bool
  | .undefined => false
  | .null => false
  | .boolean b => b
  | .number n => n != 0
  | .nan => false
  | .string s => !s.isEmpty
  | .object => true

/-- Whether `typeof text === 'string'`. -/
def JsValue.isString : JsValue → Bool
  | .string _ => true
  | _ => false

/-- The error a JavaScript property access on `null` or `undefined` raises. -/
inductive JsError where
  | typeError
  deriving DecidableEq, Repr

/-- A React key made by a template literal: the tag, a hyphen and the index. -/
structure Key where
  tag : String
  index : Nat
  deriving DecidableEq, Repr

/-- An `li` element: its key, the nesting level its class name encodes, the
text of its marker span and the inner HTML of its content span. -/
structure ListItem where
  key : Key
  nestLevel : Nat
  marker : Str
  html : Str
  deriving DecidableEq, Repr

/-- The elements `formatContent` returns.  A paragraph, heading or callout
carries its inner HTML; a code block carries the value of `codeLanguage` when
it was closed and the lines whose `join('\n')` is its text. -/
inductive Block where
  | paragraph (key : Key) (html : Str)
  | code (key : Key) (language : Str) (lines : List Str)
  | divider (key : Key)
  | heading (level : Nat) (key : Key) (ordinal : Option Nat) (html : Str)
  | callout (key : Key) (html : Str)
  | list (ordered : Bool) (key : Key) (items : List ListItem)
  deriving DecidableEq, Repr

/-- An entry of the array `formattedSections`: a finished element, or a list
section object (`type`, `items`, `level`), which is pushed when the list is
opened and mutated through `currentSection` afterwards. -/
inductive Entry where
  | element (e : Block)
  | listSection (ordered : Bool) (items : List ListItem) (level : Nat)
  deriving DecidableEq, Repr

/-- The variable `currentSection`.  Paragraph and code objects are reachable
from it alone and are held by value.  A list object is shared with
`formattedSections`: it is held as a reference, the position of the object in
that array, together with its immutable `type`. -/
inductive Current where
  | null
  | paragraph (content : List Str)
  | code (content : List Str)
  | list (ordered : Bool) (ref : Nat)
  deriving DecidableEq, Repr

/-- The variables of `formatContent` that the line loop reads and writes. -/
structure State where
  formattedSections : List Entry
  currentSection : Current
  listLevel : Nat
  inCodeBlock : Bool
  codeLanguage : Str
  sectionCount : Nat
  deriving DecidableEq, Repr

/-- The state before the first line. -/
def State.init : State :=
  { formattedSections := [], currentSection := .null, listLevel := 0,
    inCodeBlock := false, codeLanguage := [], sectionCount := 0 }

/-- `formattedSections.push(e)`. -/
def State.push (st : State) (e : Entry) : State :=
  { st with formattedSections := st.formattedSections ++ [e] }

/-! ## The patterns of the line classifier -/

/-- The fence pattern: three backticks, `(\w*)`, end of the trimmed line.
Returns the capture. -/
def matchFence : Str → Option Str
  | a :: b :: c :: rest =>
    if a = backtick ∧ b = backtick ∧ c = backtick ∧ rest.all isWord then some rest else none
  | _ => none

/-- `/^---+$/`. -/
def matchDivider : Str → Bool
  | '-' :: '-' :: c :: rest => c == '-' && rest.all (fun x => x == '-')
  | _ => false

/-- `\s+[^#]` anchored at the start: a white space character, after which
either the pattern matches again or a character other than `#` stands. -/
def spacesThenNotHash : Str → Bool
  | [] => false
  | c :: rest =>
    isSpace c && (spacesThenNotHash rest ||
      match rest with
      | [] => false
      | d :: _ => d != '#')

/-- `/^#\s+[^#]/`. -/
def matchH1 : Str → Bool
  | '#' :: rest => spacesThenNotHash rest
  | _ => false

/-- `/^#...#\s+/` with `n` characters `#`; returns what the pattern leaves,
the value of `trimmedLine.replace(/^#...#\s+/, '')` when it matches.  (After a
match of `matchH1` the subject of `replace(/^#\s+/, '')` matches too.) -/
def matchHashes : Nat → Str → Option Str
  | 0, c :: rest => if isSpace c then some (rest.dropWhile isSpace) else none
  | n + 1, '#' :: rest => matchHashes n rest
  | _, _ => none

/-- `/^Core Idea:/i`; returns what follows the prefix. -/
def matchCoreIdea (t : Str) : Option Str :=
  match dropLiteralCI "Core Idea:".toList t with
  | some (_, rest) => some rest
  | none => none

/-- The class of the markers of the unordered list pattern, as it stands in the
source file: `*`, `-` and the three characters U+00E2, U+20AC, U+00A2. -/
def isBulletChar (c : Char) : Bool :=
  c == '*' || c == '-' || c.toNat == 0xE2 || c.toNat == 0x20AC || c.toNat == 0xA2

/-- The text of the marker span of an unordered item, as it stands in the
source file: the three characters U+00E2, U+20AC, U+00A2. -/
def bulletGlyph : Str := [Char.ofNat 0xE2, Char.ofNat 0x20AC, Char.ofNat 0xA2]

/-- The unordered list pattern `^\s*[...]\s` with the class `isBulletChar`;
returns what the pattern leaves.  The run `\s*` takes all leading white space:
the class holds no white space character. -/
def matchUnordered (t : Str) : Option Str :=
  match t.dropWhile isSpace with
  | m :: s :: rest => if isBulletChar m && isSpace s then some rest else none
  | _ => none

/-- `/^\s*([0-9]+|[a-zA-Z])\.\s/`; returns the capture and what the pattern
leaves.  The run `[0-9]+` takes every digit: a dot has to follow. -/
def matchOrdered (t : Str) : Option (Str × Str) :=
  let r := t.dropWhile isSpace
  match r.takeWhile isDigit, r.dropWhile isDigit with
  | d :: ds, '.' :: s :: rest => if isSpace s then some (d :: ds, rest) else none
  | _ :: _, _ => none
  | [], _ =>
    match r with
    | l :: '.' :: s :: rest => if isLetter l && isSpace s then some ([l], rest) else none
    | _ => none

/-- `[A-Z][a-z]+` at the start; returns what follows the run of lower-case
letters. -/
def capitalizedWord : Str → Option Str
  | u :: l :: rest => if isUpper u && isLower l then some (rest.dropWhile isLower) else none
  | _ => none

/-- `\s+` at the start; returns what follows the run. -/
def spaces : Str → Option Str
  | c :: rest => if isSpace c then some (rest.dropWhile isSpace) else none
  | [] => none

/-- `/^[0-9]+\.\s+[A-Z][a-z]+\s+[A-Z][a-z]+/`.  Every run is followed by a
character outside its class, so each takes all it can. -/
def isSectionHeader (t : Str) : Bool :=
  match t.takeWhile isDigit, t.dropWhile isDigit with
  | _ :: _, '.' :: r =>
    match spaces r with
    | some r1 =>
      match capitalizedWord r1 with
      | some r2 =>
        match spaces r2 with
        | some r3 => (capitalizedWord r3).isSome
        | none => false
      | none => false
    | none => false
  | _, _ => false

/-! ## closeCurrentSection and the line loop -/

/-- The inner function `closeCurrentSection(index)`. -/
def closeCurrentSection (index : Nat) (st : State) : State :=
  match st.currentSection with
  | .null => st
  | .paragraph content =>
    { st.push (.element (.paragraph ⟨"p", index⟩ (formatInlineText (join [' '] content))))
      with currentSection := .null }
  | .code content =>
    { st.push (.element (.code ⟨"code-container", index⟩ st.codeLanguage content))
      with currentSection := .null }
  | .list _ _ => { st with currentSection := .null }

/-- `currentSection.content.push(line)`: paragraph and code objects have the
field `content`; on `null` or on a list object the access raises. -/
def pushContent (line : Str) (st : State) : Except JsError State :=
  match st.currentSection with
  | .paragraph content => .ok { st with currentSection := .paragraph (content ++ [line]) }
  | .code content => .ok { st with currentSection := .code (content ++ [line]) }
  | _ => .error .typeError

/-- The mutation `items.push(item)` of the list object at position `ref` of
`formattedSections`. -/
def pushItemAt (item : ListItem) : Nat → List Entry → Except JsError (List Entry)
  | 0, .listSection ordered items level :: es =>
    .ok (.listSection ordered (items ++ [item]) level :: es)
  | n + 1, e :: es =>
    match pushItemAt item n es with
    | .ok es1 => .ok (e :: es1)
    | .error err => .error err
  | _, _ => .error .typeError

/-- `currentSection.items.push(item)`: only list objects have the field
`items`. -/
def pushItem (item : ListItem) (st : State) : Except JsError State :=
  match st.currentSection with
  | .list _ ref =>
    match pushItemAt item ref st.formattedSections with
    | .ok es => .ok { st with formattedSections := es }
    | .error err => .error err
  | _ => .error .typeError

/-- The test `!currentSection || currentSection.type !== type || listLevel !== nestLevel`
of the two list branches. -/
def needsNewList (ordered : Bool) (nestLevel : Nat) (st : State) : Bool :=
  match st.currentSection with
  | .list o _ => o != ordered || st.listLevel != nestLevel
  | _ => true

/-- The body of that test: close the open section, create a list object, push
it on `formattedSections` and make it the current section. -/
def openList (ordered : Bool) (nestLevel index : Nat) (st : State) : State :=
  let st1 := closeCurrentSection index st
  { st1 with
    formattedSections := st1.formattedSections ++ [.listSection ordered [] nestLevel],
    currentSection := .list ordered st1.formattedSections.length,
    listLevel := nestLevel }

/-- The statements `if (!currentSection || currentSection.type !== 'paragraph') ...`
and `currentSection.content.push(trimmedLine)` of the paragraph branches. -/
def addParagraphLine (index : Nat) (trimmedLine : Str) (st : State) : Except JsError State :=
  let st1 :=
    match st.currentSection with
    | .paragraph _ => st
    | _ => { closeCurrentSection index st with currentSection := .paragraph [] }
  pushContent trimmedLine st1

/-- The common body of the two list branches: open a new list object when the
test `needsNewList` says so, then push the `li` element on `currentSection.items`. -/
def addListItem (ordered : Bool) (index nestLevel : Nat) (marker listItemContent : Str)
    (st : State) : Except JsError State :=
  let st1 :=
    if needsNewList ordered nestLevel st then openList ordered nestLevel index st else st
  pushItem ⟨⟨if ordered then "ol" else "ul", index⟩, nestLevel, marker,
    formatInlineText listItemContent⟩ st1

/-- The part of the callback of `sections.forEach` that follows the code block
handling: the divider test and the chain of `if ... else if ...` from the
headings down to the empty lines, for the trimmed line and the indent size. -/
def classifyLine (index : Nat) (trimmedLine : Str) (indent : Nat) (st : State) :
    Except JsError State :=
  if matchDivider trimmedLine then
    .ok ((closeCurrentSection index st).push (.element (.divider ⟨"divider", index⟩)))
  else if matchH1 trimmedLine then
    let st1 := closeCurrentSection index st
    let st2 := { st1 with sectionCount := st1.sectionCount + 1 }
    .ok (st2.push (.element (.heading 1 ⟨"h1", index⟩ (some st2.sectionCount)
      (formatInlineText ((trimmedLine.drop 1).dropWhile isSpace)))))
  else
  match matchHashes 2 trimmedLine with
  | some text =>
    .ok ((closeCurrentSection index st).push
      (.element (.heading 2 ⟨"h2", index⟩ none (formatInlineText text))))
  | none =>
  match matchHashes 3 trimmedLine with
  | some text =>
    .ok ((closeCurrentSection index st).push
      (.element (.heading 3 ⟨"h3", index⟩ none (formatInlineText text))))
  | none =>
  match matchHashes 4 trimmedLine with
  | some text =>
    .ok ((closeCurrentSection index st).push
      (.element (.heading 4 ⟨"h4", index⟩ none (formatInlineText text))))
  | none =>
  match matchCoreIdea trimmedLine with
  | some rest =>
    .ok ((closeCurrentSection index st).push
      (.element (.callout ⟨"core-idea", index⟩ (formatInlineText (trim rest)))))
  | none =>
  match matchUnordered trimmedLine with
  | some listItemContent =>
    addListItem false index (indent / 2) bulletGlyph listItemContent st
  | none =>
  match matchOrdered trimmedLine with
  | some (bullet, listItemContent) =>
    if !isSectionHeader trimmedLine then
      addListItem true index (indent / 2) bullet listItemContent st
    else
      addParagraphLine index trimmedLine st
  | none =>
    if !(trim trimmedLine).isEmpty then
      addParagraphLine index trimmedLine st
    else if trimmedLine.isEmpty then
      .ok { closeCurrentSection index st with listLevel := 0 }
    else
      .ok st

/-- The callback of `sections.forEach`, for the line `line` at `index`: the
code block handling, then `classifyLine`.  (Every element of `sections` is a
string, so the conversion `String(line)` at the top of the callback never
applies.) -/
def processLine (index : Nat) (line : Str) (st : State) : Except JsError State :=
  let trimmedLine := trimEnd line
  let indent := indentSize line
  match matchFence trimmedLine with
  | some language =>
    if !st.inCodeBlock then
      .ok { closeCurrentSection index st with
            inCodeBlock := true, codeLanguage := language, currentSection := .code [] }
    else
      .ok { closeCurrentSection index { st with inCodeBlock := false } with codeLanguage := [] }
  | none =>
    if st.inCodeBlock && (match st.currentSection with | .code _ => true | _ => false) then
      pushContent line st
    else
      classifyLine index trimmedLine indent st

/-- `sections.forEach(...)`, from the line at `index` on. -/
def forEachLine : Nat → List Str → State → Except JsError State
  | _, [], st => .ok st
  | index, line :: lines, st =>
    match processLine index line st with
    | .ok st1 => forEachLine (index + 1) lines st1
    | .error err => .error err

/-- The callback of the final `formattedSections.map`, from position `index`
on: elements are kept, list objects become `ul` and `ol` elements. -/
def renderSections : Nat → List Entry → List Block
  | _, [] => []
  | index, .element e :: es => e :: renderSections (index + 1) es
  | index, .listSection false items _ :: es =>
    .list false ⟨"ul", index⟩ items :: renderSections (index + 1) es
  | index, .listSection true items _ :: es =>
    .list true ⟨"ol", index⟩ items :: renderSections (index + 1) es

/-- `text.split('\n').map(line => line.replace(/\r$/, ''))`. -/
def splitLines (text : Str) : List Str := (split '\n' text).map stripCR

/-- The array `formattedSections` as it stands before the final `map`: the
line loop over `sections` followed by `closeCurrentSection(sections.length)`. -/
def formatSections (sections : List Str) : Except JsError (List Entry) :=
  match forEachLine 0 sections State.init with
  | .ok st => .ok (closeCurrentSection sections.length st).formattedSections
  | .error err => .error err

/-- The function `formatContent` of the source. -/
def formatContent (text : JsValue) : Except JsError (List Block) :=
  if !text.truthy || !text.isString then .ok []
  else
    match text with
    | .string s =>
      match formatSections (splitLines s) with
      | .ok entries => .ok (renderSections 0 entries)
      | .error err => .error err
    | _ => .ok []

/-! ## Predicates used in the statements -/

/-- The reference invariant of the line loop: an open list object is the last
entry of `formattedSections`, and `currentSection` points at it. -/
def Inv (st : State) : Prop :=
  ∀ o ref, st.currentSection = .list o ref →
    ∃ pre items level,
      st.formattedSections = pre ++ [.listSection o items level] ∧ ref = pre.length

/-- The number of lines of `lines` that the fence pattern matches. -/
def fenceCount (lines : List Str) : Nat :=
  lines.countP fun l => (matchFence (trimEnd l)).isSome

/-- The text `t` is not empty and its first character satisfies `p`. -/
def headSatisfies (p : Char → Bool) : Str → Bool
  | [] => false
  | c :: _ => p c

/-- The text `t` is not empty and its last character is no white space. -/
def endsWithNonSpace (t : Str) : Bool :=
  match t.getLast? with
  | some c => !isSpace c
  | none => false

/-- The marker `m` of an ordered item: a non-empty string of digits, or a
single letter. -/
def isOrderedMarker (m : Str) : Bool :=
  (!m.isEmpty && m.all isDigit) || (m.length == 1 && m.all isLetter)

/-- The number of divider elements among the entries of `formattedSections`. -/
def countDividers (es : List Entry) : Nat :=
  es.countP fun e =>
    match e with
    | .element (.divider _) => true
    | _ => false

/-- The three backticks of a fence delimiter. -/
def fence : Str := [backtick, backtick, backtick]

/-- The line is plain text for the classifier: once its trailing white space is
removed it matches no fence, divider, heading, callout or list pattern, and it
is not blank. -/
def isPlainText (line : Str) : Bool :=
  (matchFence (trimEnd line)).isNone && !matchDivider (trimEnd line) &&
  !matchH1 (trimEnd line) && (matchHashes 2 (trimEnd line)).isNone &&
  (matchHashes 3 (trimEnd line)).isNone && (matchHashes 4 (trimEnd line)).isNone &&
  (matchCoreIdea (trimEnd line)).isNone && (matchUnordered (trimEnd line)).isNone &&
  (matchOrdered (trimEnd line)).isNone && !(trim (trimEnd line)).isEmpty

/-- The line made of the digits `ds`, a dot, a space, the capitalized word
`u1 l1`, the white space `ws`, the capitalized word `u2 l2` and the rest. -/
def numberedHeaderLine (ds : Str) (u1 : Char) (l1 ws : Str) (u2 : Char) (l2 rest : Str) : Str :=
  ds ++ '.' :: ' ' :: u1 :: (l1 ++ (ws ++ u2 :: (l2 ++ rest)))

/-! ## The line loop with the origin of every section

For the claim on source order the state is paired with a record of origins: for
each entry of `formattedSections`, and for the open section, the index of the
line whose callback created the object.  The state is computed by the
functions above; only the record is added. -/

/-- A state of the line loop with the origins of its sections: `origins` runs
parallel to `formattedSections`, `current` is the origin of `currentSection`
when a section is open. -/
structure Traced where
  state : State
  origins : List Nat
  current : Nat

/-- The traced state before the first line. -/
def Traced.init : Traced := ⟨State.init, [], 0⟩

/-- The origins after `closeCurrentSection`: a paragraph or code object is
pushed on `formattedSections` when it is closed and brings the index of the
line that opened it; closing a list object or nothing pushes nothing. -/
def closeOrigins (t : Traced) : List Nat :=
  match t.state.currentSection with
  | .paragraph _ => t.origins ++ [t.current]
  | .code _ => t.origins ++ [t.current]
  | _ => t.origins

/-- The origins after a list branch (`addListItem`) at `index`: a new list
object, pushed when it is opened, has the origin `index`; an item added to the
open list changes nothing. -/
def listOrigins (ordered : Bool) (nestLevel index : Nat) (t : Traced) : List Nat × Nat :=
  if needsNewList ordered nestLevel t.state then (closeOrigins t ++ [index], index)
  else (t.origins, t.current)

/-- The origins after a paragraph branch (`addParagraphLine`) at `index`: a new
paragraph object has the origin `index` and is not pushed yet. -/
def paragraphOrigins (index : Nat) (t : Traced) : List Nat × Nat :=
  match t.state.currentSection with
  | .paragraph _ => (t.origins, t.current)
  | _ => (closeOrigins t, index)

/-- The origins after the callback for `line` at `index`, branch by branch as
in `processLine` and `classifyLine`: an opening fence creates the code object,
a divider, heading or callout is created and pushed at once. -/
def lineOrigins (index : Nat) (line : Str) (t : Traced) : List Nat × Nat :=
  match matchFence (trimEnd line) with
  | some _ =>
    if !t.state.inCodeBlock then (closeOrigins t, index) else (closeOrigins t, t.current)
  | none =>
    if t.state.inCodeBlock &&
        (match t.state.currentSection with | .code _ => true | _ => false) then
      (t.origins, t.current)
    else if matchDivider (trimEnd line) || matchH1 (trimEnd line) ||
        (matchHashes 2 (trimEnd line)).isSome || (matchHashes 3 (trimEnd line)).isSome ||
        (matchHashes 4 (trimEnd line)).isSome || (matchCoreIdea (trimEnd line)).isSome then
      (closeOrigins t ++ [index], t.current)
    else if (matchUnordered (trimEnd line)).isSome then
      listOrigins false (indentSize line / 2) index t
    else
      match matchOrdered (trimEnd line) with
      | some _ =>
        if !isSectionHeader (trimEnd line) then listOrigins true (indentSize line / 2) index t
        else paragraphOrigins index t
      | none =>
        if !(trim (trimEnd line)).isEmpty then paragraphOrigins index t
        else if (trimEnd line).isEmpty then (closeOrigins t, t.current)
        else (t.origins, t.current)

/-- The callback of `sections.forEach` on traced states: the state is the one
`processLine` computes. -/
def processLineTraced (index : Nat) (line : Str) (t : Traced) : Except JsError Traced :=
  match processLine index line t.state with
  | .ok st => .ok ⟨st, (lineOrigins index line t).1, (lineOrigins index line t).2⟩
  | .error err => .error err

/-- The line loop on traced states. -/
def forEachLineTraced : Nat → List Str → Traced → Except JsError Traced
  | _, [], t => .ok t
  | index, line :: lines, t =>
    match processLineTraced index line t with
    | .ok t1 => forEachLineTraced (index + 1) lines t1
    | .error err => .error err

/-- The array `formattedSections` before the final `map`, with the origin of
each entry. -/
def formatSectionsTraced (sections : List Str) : Except JsError (List Entry × List Nat) :=
  match forEachLineTraced 0 sections Traced.init with
  | .ok t => .ok ((closeCurrentSection sections.length t.state).formattedSections, closeOrigins t)
  | .error err => .error err

/-- The invariant of the traced line loop before the line at `index`: one
origin per entry, the origins increase strictly and lie before `index`, and an
open paragraph or code object was opened before `index` and after every entry. -/
def TraceInv (index : Nat) (t : Traced) : Prop :=
  t.origins.length = t.state.formattedSections.length ∧
  t.origins.Pairwise (fun a b => a < b) ∧
  (∀ o ∈ t.origins, o < index) ∧
  (match t.state.currentSection with
   | .paragraph _ => t.current < index ∧ ∀ o ∈ t.origins, o < t.current
   | .code _ => t.current < index ∧ ∀ o ∈ t.origins, o < t.current
   | _ => True)

/-! ## Predicates on inline text -/

/-- One of the eight key terms occurs in `s`, in any letter case: the key-term
pattern matches somewhere in `s`. -/
def hasKeyword : Str → Bool
  | [] => false
  | c :: cs => (matchAlternatives keywords (c :: cs)).isSome || hasKeyword cs

/-- No ASCII letter stands at the start of `s`: `s` is empty or starts with
another character. -/
def noLetterAtStart : Str → Bool
  | [] => true
  | c :: _ => !isLetter c

/-- No ASCII letter stands at the end of `s`: `s` is empty or ends with another
character. -/
def noLetterAtEnd (s : Str) : Bool := noLetterAtStart s.reverse

/-- The text `r` stands in `t` as a word of its own: before it and after it
there is no ASCII letter. -/
def HasRun (r t : Str) : Prop :=
  ∃ a b, t = a ++ (r ++ b) ∧ noLetterAtEnd a = true ∧ noLetterAtStart b = true

/-- A tag: a text that is not empty, starts and ends with a character that is
not a letter, and holds no key term. -/
def IsTag (x : Str) : Prop :=
  x ≠ [] ∧ noLetterAtStart x = true ∧ noLetterAtEnd x = true ∧ hasKeyword x = false

/-- The shape shared by the substitutions of the inline formatter: a match is
an opening delimiter `o`, a capture, and a closing delimiter `cl`, the
delimiters free of letters; it is replaced by the capture, rewritten by `g`,
between two tags. -/
def TagLike (g : Str → Str) (m : Str → Option (Str × Str)) : Prop :=
  ∀ t rep rest, m t = some (rep, rest) →
    ∃ o cap cl o1 cl1, t = o ++ (cap ++ (cl ++ rest)) ∧ rep = o1 ++ (g cap ++ cl1) ∧
      o ≠ [] ∧ (∀ c ∈ o, isLetter c = false) ∧ (∀ c ∈ cl, isLetter c = false) ∧
      (cl = [] → cap = []) ∧ IsTag o1 ∧ IsTag cl1

/-- The pattern of a single literal character `c` with the replacement `rep`. -/
def matchChar (c : Char) (rep : Str) : Str → Option (Str × Str)
  | [] => none
  | x :: r => if x = c then some (rep, r) else none

/-- The substitutions that the replacement function of the general math rule
applies to the capture `p1`, without the span put around their result. -/
def formatOperators (p1 : Str) : Str :=
  replaceChar '/' (operatorSpan "//".toList)
    (replaceChar '*' (operatorSpan "*".toList)
      (replaceChar '=' (operatorSpan "=".toList)
        (replaceChar '-' (operatorSpan "-".toList)
          (replaceChar '+' (operatorSpan "+".toList)
            (replaceAll matchExponent 0 p1)))))

/-- A key term begins in `u`, read with `w` after it: at some position of `u`
the key-term pattern matches `u ++ w`. -/
def keywordBeginsIn : Str → Str → Bool
  | [], _ => false
  | c :: cs, w => (matchAlternatives keywords (c :: cs ++ w)).isSome || keywordBeginsIn cs w

/-! ## The line loop as a sequence of operations -/

/-- What a line asks of the line loop: the branch of the callback it takes,
with the texts the branch uses. -/
inductive LineOp where
  | fence (language : Str)
  | codeLine (line : Str)
  | divider
  | heading1 (text : Str)
  | heading (level : Nat) (text : Str)
  | callout (text : Str)
  | item (ordered : Bool) (nestLevel : Nat) (marker content : Str)
  | paragraph (trimmedLine : Str)
  | blank
  | skip
  deriving DecidableEq, Repr

/-- The branch of `classifyLine` that the trimmed line takes. -/
def classifyOp (trimmedLine : Str) (indent : Nat) : LineOp :=
  if matchDivider trimmedLine then .divider
  else if matchH1 trimmedLine then .heading1 ((trimmedLine.drop 1).dropWhile isSpace)
  else
  match matchHashes 2 trimmedLine with
  | some text => .heading 2 text
  | none =>
  match matchHashes 3 trimmedLine with
  | some text => .heading 3 text
  | none =>
  match matchHashes 4 trimmedLine with
  | some text => .heading 4 text
  | none =>
  match matchCoreIdea trimmedLine with
  | some rest => .callout (trim rest)
  | none =>
  match matchUnordered trimmedLine with
  | some listItemContent => .item false (indent / 2) bulletGlyph listItemContent
  | none =>
  match matchOrdered trimmedLine with
  | some (bullet, listItemContent) =>
    if !isSectionHeader trimmedLine then .item true (indent / 2) bullet listItemContent
    else .paragraph trimmedLine
  | none =>
    if !(trim trimmedLine).isEmpty then .paragraph trimmedLine
    else if trimmedLine.isEmpty then .blank
    else .skip

/-- The branch of the callback that the line takes; `inCode` says whether a
code block is open (`inCodeBlock && currentSection?.type === 'code'`). -/
def lineOp (inCode : Bool) (line : Str) : LineOp :=
  match matchFence (trimEnd line) with
  | some language => .fence language
  | none => if inCode then .codeLine line else classifyOp (trimEnd line) (indentSize line)

/-- Whether a code block is open: `inCodeBlock && currentSection?.type === 'code'`. -/
def State.inCode (st : State) : Bool :=
  st.inCodeBlock && (match st.currentSection with | .code _ => true | _ => false)

/-- The body of the branch `op` of the callback, at the line `index`. -/
def applyOp (index : Nat) (op : LineOp) (st : State) : Except JsError State :=
  match op with
  | .fence language =>
    if !st.inCodeBlock then
      .ok { closeCurrentSection index st with
            inCodeBlock := true, codeLanguage := language, currentSection := .code [] }
    else
      .ok { closeCurrentSection index { st with inCodeBlock := false } with codeLanguage := [] }
  | .codeLine line => pushContent line st
  | .divider =>
    .ok ((closeCurrentSection index st).push (.element (.divider ⟨"divider", index⟩)))
  | .heading1 text =>
    let st1 := closeCurrentSection index st
    let st2 := { st1 with sectionCount := st1.sectionCount + 1 }
    .ok (st2.push (.element (.heading 1 ⟨"h1", index⟩ (some st2.sectionCount)
      (formatInlineText text))))
  | .heading level text =>
    .ok ((closeCurrentSection index st).push
      (.element (.heading level ⟨"h" ++ toString level, index⟩ none (formatInlineText text))))
  | .callout text =>
    .ok ((closeCurrentSection index st).push
      (.element (.callout ⟨"core-idea", index⟩ (formatInlineText text))))
  | .item ordered nestLevel marker content =>
    addListItem ordered index nestLevel marker content st
  | .paragraph trimmedLine => addParagraphLine index trimmedLine st
  | .blank => .ok { closeCurrentSection index st with listLevel := 0 }
  | .skip => .ok st

/-! ## Predicates on list objects -/

/-- The open block is a list only with the tracked level: when
`currentSection` is a list object, it is the last entry of `formattedSections`
and its field `level` equals `listLevel`. -/
def OpenListLevel (st : State) : Prop :=
  ∀ o ref, st.currentSection = .list o ref →
    ∃ pre items,
      st.formattedSections = pre ++ [.listSection o items st.listLevel] ∧ ref = pre.length

/-- Every list object among the entries holds at least one item, and each of
its items was made from a line of `lines` (the line whose index is in the key
of the item) whose nesting level, half its indent rounded down, is the level
of the object. -/
def ListsWellFormed (lines : List Str) (es : List Entry) : Prop :=
  ∀ o items level, Entry.listSection o items level ∈ es →
    items ≠ [] ∧ ∀ it ∈ items, it.nestLevel = level ∧
      ∃ line, lines.get? it.key.index = some line ∧ it.nestLevel = indentSize line / 2

/-- The callback without the statement `listLevel = 0` of its empty-line
branch.  A line that is empty once trimmed takes that branch when no code block
is open (the empty text matches none of the patterns); every other line is
processed by the callback as it is. -/
def processLineNoReset (index : Nat) (line : Str) (st : State) : Except JsError State :=
  if !st.inCode && (trimEnd line).isEmpty then .ok (closeCurrentSection index st)
  else processLine index line st

/-- The line loop with `processLineNoReset` as its callback. -/
def forEachLineNoReset : Nat → List Str → State → Except JsError State
  | _, [], st => .ok st
  | index, line :: lines, st =>
    match processLineNoReset index line st with
    | .ok st1 => forEachLineNoReset (index + 1) lines st1
    | .error err => .error err

/-- The array `formattedSections` that the loop without the reset yields. -/
def formatSectionsNoReset (sections : List Str) : Except JsError (List Entry) :=
  match forEachLineNoReset 0 sections State.init with
  | .ok st => .ok (closeCurrentSection sections.length st).formattedSections
  | .error err => .error err

/-- The two states differ at most in `listLevel`, and not even there while a
list is open. -/
def SameUpToLevel (st st1 : State) : Prop :=
  st1.formattedSections = st.formattedSections ∧ st1.currentSection = st.currentSection ∧
  st1.inCodeBlock = st.inCodeBlock ∧ st1.codeLanguage = st.codeLanguage ∧
  st1.sectionCount = st.sectionCount ∧
  ∀ o ref, st.currentSection = .list o ref → st1.listLevel = st.listLevel

/-- No finished element among the entries is a list element: the `ul` and `ol`
elements are made by the final `map` only. -/
def ElementsNotLists (es : List Entry) : Prop :=
  ∀ o key items, Entry.element (.list o key items) ∉ es

/-- Every `ul` and `ol` element among the blocks holds at least one item, and
all its items were made from lines of `lines` (the line whose index is in the
key of the item) of one nesting level, half the indent rounded down. -/
def ListBlocksWellFormed (lines : List Str) (bs : List Block) : Prop :=
  ∀ o key items, Block.list o key items ∈ bs →
    items ≠ [] ∧ ∃ level, ∀ it ∈ items, it.nestLevel = level ∧
      ∃ line, lines.get? it.key.index = some line ∧ indentSize line / 2 = level

/-! ## Blocks without their render keys -/

/-- The key that stands for every key once the keys are ignored. -/
def Key.erased : Key := ⟨"", 0⟩

/-- The `li` element without its key. -/
def ListItem.eraseKey (it : ListItem) : ListItem := { it with key := Key.erased }

/-- The element without its key and without the keys of its `li` elements. -/
def Block.eraseKeys : Block → Block
  | .paragraph _ html => .paragraph Key.erased html
  | .code _ language lines => .code Key.erased language lines
  | .divider _ => .divider Key.erased
  | .heading level _ ordinal html => .heading level Key.erased ordinal html
  | .callout _ html => .callout Key.erased html
  | .list ordered _ items => .list ordered Key.erased (items.map ListItem.eraseKey)

/-- The entry of `formattedSections` without the keys it holds. -/
def Entry.eraseKeys : Entry → Entry
  | .element e => .element e.eraseKeys
  | .listSection ordered items level => .listSection ordered (items.map ListItem.eraseKey) level

/-- The current section of the second state is that of the first, a reference
to a list object being moved `n` places up. -/
def CurrentShifted (n : Nat) : Current → Current → Prop
  | .null, .null => True
  | .paragraph c, .paragraph d => d = c
  | .code c, .code d => d = c
  | .list o r, .list p q => p = o ∧ q = n + r
  | _, _ => False

/-- The state `st1` is the state `st` behind the entries `pre`, keys apart:
its array `formattedSections` is `pre` followed by the entries of `st` up to
their keys, its current section is that of `st` (a list reference moved behind
`pre`), and the other variables are equal. -/
def SameBehind (pre : List Entry) (st st1 : State) : Prop :=
  (∃ es, st1.formattedSections = pre ++ es ∧
    es.map Entry.eraseKeys = st.formattedSections.map Entry.eraseKeys) ∧
  CurrentShifted pre.length st.currentSection st1.currentSection ∧
  st1.listLevel = st.listLevel ∧ st1.inCodeBlock = st.inCodeBlock ∧
  st1.codeLanguage = st.codeLanguage ∧ st1.sectionCount = st.sectionCount

/-- No code block is open or was left open, and no level-1 heading was counted. -/
def Unfenced (st : State) : Prop :=
  st.inCodeBlock = false ∧ st.codeLanguage = [] ∧ st.sectionCount = 0

/-! ## estimateConfidenceScore (src/ai.jsx) -/

/-- The lower-case form of an ASCII letter; every other character is kept. -/
def asciiLower (c : Char) : Char :=
  if isUpper c then Char.ofNat (c.toNat + 32) else c

/-- The array `negativePhrases`. -/
def negativePhrases : List Str :=
  ["very anxious".toList, "terrified".toList, "extremely nervous".toList, "panic".toList]

/-- The array `moderatePhrases`. -/
def moderatePhrases : List Str :=
  ["somewhat nervous".toList, "uncomfortable".toList, "worried".toList]

/-- The array `positivePhrases`. -/
def positivePhrases : List Str :=
  ["some confidence".toList, "getting better".toList, "improving".toList]

/-- The function `estimateConfidenceScore` of the source, for a string `text`.
The built-in `String.prototype.toLowerCase` is a parameter of the embedding;
the three `forEach` loops are folds over the three arrays, each step being
`if (text.toLowerCase().includes(phrase)) score -= 10` (or `-= 5`, `+= 10`),
and the result is `Math.max(0, Math.min(100, score))`. -/
def estimateConfidenceScore (toLowerCase : Str → Str) (text : Str) : Int :=
  let score : Int := 50
  let score := negativePhrases.foldl
    (fun score phrase => if includes phrase (toLowerCase text) then score - 10 else score) score
  let score := moderatePhrases.foldl
    (fun score phrase => if includes phrase (toLowerCase text) then score - 5 else score) score
  let score := positivePhrases.foldl
    (fun score phrase => if includes phrase (toLowerCase text) then score + 10 else score) score
  max 0 (min 100 score)

/-- What the lower-case form of the character `c` may be, as far as a search
for ASCII text can tell.  An ASCII character has the one-character form
`asciiLower c`.  Outside ASCII, the form of the Kelvin sign U+212A is `k`, the
form of U+0130 is `i` followed by U+0307, and the form of every other
character is not empty and holds no ASCII character. -/
def LowerImage (c : Char) (image : Str) : Prop :=
  if c.toNat < 128 then image = [asciiLower c]
  else if c = Char.ofNat 0x212A then image = ['k']
  else if c = Char.ofNat 0x130 then image = ['i', Char.ofNat 0x307]
  else image ≠ [] ∧ ∀ d ∈ image, 128 ≤ d.toNat

/-- What is assumed of the built-in `toLowerCase`: the result is the
concatenation of the lower-case forms of the characters of the text, in order
(the form of a character may depend on its context). -/
def IsLowerCase (toLowerCase : Str → Str) : Prop :=
  ∀ text, ∃ images, List.Forall₂ LowerImage text images ∧ toLowerCase text = images.flatten

/-- A lower-casing that satisfies `IsLowerCase`: ASCII letters, the Kelvin sign
and U+0130 get their lower-case forms, every other character is kept. -/
def toLowerCaseBasic (text : Str) : Str :=
  (text.map fun c =>
    if c = Char.ofNat 0x212A then ['k']
    else if c = Char.ofNat 0x130 then ['i', Char.ofNat 0x307]
    else [asciiLower c]).flatten

/-- Whether `phrase` is present in `text` when case is ignored: both are
brought to lower case, ASCII letters only, before the search. -/
def presentIgnoreCase (phrase text : Str) : Bool :=
  includes (phrase.map asciiLower) (text.map asciiLower)

/-- The number of phrases of `phrases` present in `text`, each counted once. -/
def countPresent (phrases : List Str) (text : Str) : Nat :=
  (phrases.filter fun phrase => presentIgnoreCase phrase text).length

/-- The function `clamp` to the range from 0 to 100. -/
def clamp (x : Int) : Int :=
  if x < 0 then 0 else if 100 < x then 100 else x

/-- The score as the specification words it: 50, less 10 for every negative
phrase present, less 5 for every moderate phrase present, plus 10 for every
positive phrase present, clamped. -/
def confidenceFormula (text : Str) : Int :=
  clamp (50 - 10 * countPresent negativePhrases text - 5 * countPresent moderatePhrases text
    + 10 * countPresent positivePhrases text)

/-- A phrase that a search in lower-cased text finds at ASCII characters
only: its characters are ASCII, none is an upper-case letter or `k`, and the
last one is not `i`. -/
def plainPhrase : Str → Bool
  | [] => true
  | [d] => decide (d.toNat < 128) && !isUpper d && d != 'k' && d != 'i'
  | d :: p => decide (d.toNat < 128) && !isUpper d && d != 'k' && plainPhrase p

/-- A lower-case form that no occurrence of a plain phrase can touch. -/
def Untouched (image : Str) : Prop :=
  image = ['k'] ∨ image = ['i', Char.ofNat 0x307] ∨ (image ≠ [] ∧ ∀ d ∈ image, 128 ≤ d.toNat)

/-- Two lower-case forms that a search for a plain phrase cannot tell apart:
the same single character, or two forms that no occurrence can touch. -/
def SameForSearch (image image1 : Str) : Prop :=
  (∃ a, image = [a] ∧ image1 = [a]) ∨ (Untouched image ∧ Untouched image1)

/-! ## The output as the lines are read -/

/-- The blocks `formatContent` makes of the first `n` lines of `lines`: the
line loop over these lines, the final `closeCurrentSection` and the final
`map`. -/
def blocksAfter (lines : List Str) (n : Nat) : List Block :=
  match formatSections (lines.take n) with
  | .ok entries => renderSections 0 entries
  | .error _ => []

/-- The block `b1` is the block `b` with more lines in it: the same block, a
paragraph for a paragraph, a code block of the same language with more lines
at its end, or a list of the same kind and key with more items at its end. -/
def Block.GrowsTo (b b1 : Block) : Prop :=
  b1 = b ∨
  (∃ key html key1 html1, b = .paragraph key html ∧ b1 = .paragraph key1 html1) ∨
  (∃ key key1 language lines more,
    b = .code key language lines ∧ b1 = .code key1 language (lines ++ more)) ∨
  (∃ ordered key items more, b = .list ordered key items ∧ b1 = .list ordered key (items ++ more))

/-- What one more line may do to the blocks: nothing, give more lines to the
last block, or put one new block at the end. -/
def Grows (bs bs1 : List Block) : Prop :=
  bs1 = bs ∨
  (∃ pre b b1, bs = pre ++ [b] ∧ bs1 = pre ++ [b1] ∧ b.GrowsTo b1) ∨
  (∃ b, bs1 = bs ++ [b])

/-- The line `n` is the first source line that contributed to the block at
position `p` of the output: with the lines up to `n` the output has a block at
position `p`, with fewer lines it has none. -/
def IsFirstLine (lines : List Str) (p n : Nat) : Prop :=
  p < (blocksAfter lines (n + 1)).length ∧ ∀ j, j < n → (blocksAfter lines (j + 1)).length ≤ p

/-! ## Basic facts -/

theorem split_of_not_mem {sep : Char} {l : Str} (h : sep ∉ l) : split sep l = [l] := by
  induction l with
  | nil => rfl
  | cons c cs ih =>
    have hc : c ≠ sep := fun e => h (e ▸ List.mem_cons_self _ _)
    have hcs : sep ∉ cs := fun m => h (List.mem_cons_of_mem _ m)
    simp [split, hc, ih hcs]

theorem split_append_sep {sep : Char} {l : Str} (r : Str) (h : sep ∉ l) :
    split sep (l ++ sep :: r) = l :: split sep r := by
  induction l with
  | nil => simp [split]
  | cons c cs ih =>
    have hc : c ≠ sep := fun e => h (e ▸ List.mem_cons_self _ _)
    have hcs : sep ∉ cs := fun m => h (List.mem_cons_of_mem _ m)
    simp [split, hc, ih hcs]

theorem join_singleton (sep l : Str) : join sep [l] = l := by
  simp [join, List.intercalate]

theorem join_cons_cons (sep x y : Str) (xs : List Str) :
    join sep (x :: y :: xs) = x ++ sep ++ join sep (y :: xs) := by
  simp [join, List.intercalate]

theorem split_join {lines : List Str} (hne : lines ≠ []) (h : ∀ l ∈ lines, '\n' ∉ l) :
    split '\n' (join ['\n'] lines) = lines := by
  induction lines with
  | nil => exact absurd rfl hne
  | cons x xs ih =>
    cases xs with
    | nil => rw [join_singleton]; exact split_of_not_mem (h x (List.mem_cons_self _ _))
    | cons y ys =>
      rw [join_cons_cons, List.append_assoc, List.singleton_append,
        split_append_sep _ (h x (List.mem_cons_self _ _)),
        ih (by simp) (fun l hl => h l (List.mem_cons_of_mem _ hl))]

theorem stripCR_of_getLast {l : Str} (h : l.getLast? ≠ some '\r') : stripCR l = l := by
  simp [stripCR, h]

theorem trimEnd_of_getLast {l : Str} (h : ∀ c, l.getLast? = some c → isSpace c = false) :
    trimEnd l = l := by
  unfold trimEnd
  rw [List.rdropWhile_eq_self_iff]
  intro hl
  have := h (l.getLast hl) (List.getLast?_eq_getLast _ hl)
  simp [this]

/-! ## The reference invariant and totality -/

@[simp] theorem closeCurrentSection_currentSection (i : Nat) (st : State) :
    (closeCurrentSection i st).currentSection = .null := by
  obtain ⟨fs, cur, ll, icb, cl, sc⟩ := st
  cases cur <;> rfl

@[simp] theorem closeCurrentSection_inCodeBlock (i : Nat) (st : State) :
    (closeCurrentSection i st).inCodeBlock = st.inCodeBlock := by
  obtain ⟨fs, cur, ll, icb, cl, sc⟩ := st
  cases cur <;> rfl

@[simp] theorem closeCurrentSection_sectionCount (i : Nat) (st : State) :
    (closeCurrentSection i st).sectionCount = st.sectionCount := by
  obtain ⟨fs, cur, ll, icb, cl, sc⟩ := st
  cases cur <;> rfl

@[simp] theorem closeCurrentSection_listLevel (i : Nat) (st : State) :
    (closeCurrentSection i st).listLevel = st.listLevel := by
  obtain ⟨fs, cur, ll, icb, cl, sc⟩ := st
  cases cur <;> rfl

@[simp] theorem closeCurrentSection_codeLanguage (i : Nat) (st : State) :
    (closeCurrentSection i st).codeLanguage = st.codeLanguage := by
  obtain ⟨fs, cur, ll, icb, cl, sc⟩ := st
  cases cur <;> rfl

theorem closeCurrentSection_of_null {i : Nat} {st : State} (h : st.currentSection = .null) :
    closeCurrentSection i st = st := by
  unfold closeCurrentSection; rw [h]

theorem inv_of_not_list {st : State} (h : ∀ o ref, st.currentSection ≠ .list o ref) : Inv st :=
  fun o ref e => absurd e (h o ref)

theorem inv_of_null {st : State} (h : st.currentSection = .null) : Inv st :=
  inv_of_not_list (by simp [h])

theorem inv_init : Inv State.init := inv_of_null rfl

theorem pushItemAt_last (item : ListItem) (pre : List Entry) (o : Bool)
    (items : List ListItem) (level : Nat) :
    pushItemAt item pre.length (pre ++ [.listSection o items level])
      = .ok (pre ++ [.listSection o (items ++ [item]) level]) := by
  induction pre with
  | nil => rfl
  | cons e es ih => simp [pushItemAt, ih]

theorem pushItem_of_inv {st : State} (item : ListItem) (hinv : Inv st) {o : Bool} {ref : Nat}
    (h : st.currentSection = .list o ref) :
    ∃ st1, pushItem item st = .ok st1 ∧ Inv st1 ∧ st1.inCodeBlock = st.inCodeBlock := by
  obtain ⟨pre, items, level, hfs, href⟩ := hinv o ref h
  refine ⟨{ st with formattedSections := pre ++ [.listSection o (items ++ [item]) level] }, ?_, ?_, rfl⟩
  · simp [pushItem, h, hfs, href, pushItemAt_last]
  · intro o1 ref1 h1
    simp only [h] at h1
    injection h1 with ho hr
    exact ⟨pre, items ++ [item], level, by rw [ho], by rw [← hr, href]⟩

theorem inv_openList (ordered : Bool) (nestLevel index : Nat) (st : State) :
    Inv (openList ordered nestLevel index st) := by
  intro o ref h
  simp only [openList] at h
  injection h with ho hr
  exact ⟨_, [], nestLevel, by simp [openList, ho], hr.symm⟩

theorem addListItem_ok (ordered : Bool) (index nestLevel : Nat) (marker content : Str)
    {st : State} (hinv : Inv st) :
    ∃ st1, addListItem ordered index nestLevel marker content st = .ok st1 ∧ Inv st1 ∧
      st1.inCodeBlock = st.inCodeBlock := by
  unfold addListItem
  by_cases hn : needsNewList ordered nestLevel st = true
  · simp only [hn, if_true]
    obtain ⟨st1, h1, h2, h3⟩ := @pushItem_of_inv _
      ⟨⟨if ordered then "ol" else "ul", index⟩, nestLevel, marker, formatInlineText content⟩
      (inv_openList ordered nestLevel index st)
      ordered (closeCurrentSection index st).formattedSections.length rfl
    exact ⟨st1, h1, h2, by rw [h3]; simp [openList]⟩
  · simp only [hn]
    unfold needsNewList at hn
    cases hc : st.currentSection with
    | list o ref => exact pushItem_of_inv _ hinv hc
    | null => simp [hc] at hn
    | paragraph c => simp [hc] at hn
    | code c => simp [hc] at hn

theorem addParagraphLine_ok (index : Nat) (t : Str) (st : State) :
    ∃ st1, addParagraphLine index t st = .ok st1 ∧ Inv st1 ∧ st1.inCodeBlock = st.inCodeBlock := by
  obtain ⟨fs, cur, ll, icb, cl, sc⟩ := st
  cases cur <;>
    exact ⟨_, rfl, inv_of_not_list (fun _ _ h => by cases h), rfl⟩

theorem pushContent_code_ok (line : Str) {st : State}
    (h : (match st.currentSection with | .code _ => true | _ => false) = true) :
    ∃ st1, pushContent line st = .ok st1 ∧ Inv st1 ∧ st1.inCodeBlock = st.inCodeBlock := by
  obtain ⟨fs, cur, ll, icb, cl, sc⟩ := st
  cases cur with
  | code c => exact ⟨_, rfl, inv_of_not_list (fun _ _ h => by cases h), rfl⟩
  | null => simp at h
  | paragraph c => simp at h
  | list o r => simp at h

theorem classifyLine_ok (index : Nat) (t : Str) (indent : Nat) {st : State} (hinv : Inv st) :
    ∃ st1, classifyLine index t indent st = .ok st1 ∧ Inv st1 ∧
      st1.inCodeBlock = st.inCodeBlock := by
  unfold classifyLine
  by_cases h1 : matchDivider t = true
  · simp only [h1, if_true]
    exact ⟨_, rfl, inv_of_null (by simp [State.push]), by simp [State.push]⟩
  simp only [h1]
  by_cases h2 : matchH1 t = true
  · simp only [h2, if_true]
    exact ⟨_, rfl, inv_of_null (by simp [State.push]), by simp [State.push]⟩
  simp only [h2]
  cases matchHashes 2 t with
  | some x => exact ⟨_, rfl, inv_of_null (by simp [State.push]), by simp [State.push]⟩
  | none =>
  cases matchHashes 3 t with
  | some x => exact ⟨_, rfl, inv_of_null (by simp [State.push]), by simp [State.push]⟩
  | none =>
  cases matchHashes 4 t with
  | some x => exact ⟨_, rfl, inv_of_null (by simp [State.push]), by simp [State.push]⟩
  | none =>
  cases matchCoreIdea t with
  | some x => exact ⟨_, rfl, inv_of_null (by simp [State.push]), by simp [State.push]⟩
  | none =>
  cases matchUnordered t with
  | some x => exact addListItem_ok false index _ _ _ hinv
  | none =>
  cases matchOrdered t with
  | some x =>
    obtain ⟨bullet, content⟩ := x
    by_cases h3 : (!isSectionHeader t) = true
    · simp only [h3, if_true]
      exact addListItem_ok true index _ _ _ hinv
    · simp only [h3]
      exact addParagraphLine_ok index _ st
  | none =>
    by_cases h4 : (!(trim t).isEmpty) = true
    · simp only [h4, if_true]
      exact addParagraphLine_ok index _ st
    simp only [h4]
    by_cases h5 : t.isEmpty = true
    · simp only [h5, if_true]
      exact ⟨_, rfl, inv_of_null (by simp), by simp⟩
    · simp only [h5]
      exact ⟨_, rfl, hinv, rfl⟩

theorem processLine_fence (index : Nat) {line g : Str} (st : State)
    (hf : matchFence (trimEnd line) = some g) :
    processLine index line st =
      if !st.inCodeBlock then
        .ok { closeCurrentSection index st with
              inCodeBlock := true, codeLanguage := g, currentSection := .code [] }
      else
        .ok { closeCurrentSection index { st with inCodeBlock := false } with
              codeLanguage := [] } := by
  simp only [processLine, hf]

theorem processLine_noFence (index : Nat) {line : Str} (st : State)
    (hf : matchFence (trimEnd line) = none) :
    processLine index line st =
      if st.inCodeBlock && (match st.currentSection with | .code _ => true | _ => false) then
        pushContent line st
      else classifyLine index (trimEnd line) (indentSize line) st := by
  simp only [processLine, hf]

theorem processLine_ok (index : Nat) (line : Str) {st : State} (hinv : Inv st) :
    ∃ st1, processLine index line st = .ok st1 ∧ Inv st1 ∧
      st1.inCodeBlock = xor st.inCodeBlock (matchFence (trimEnd line)).isSome := by
  cases hf : matchFence (trimEnd line) with
  | some g =>
    rw [processLine_fence index st hf]
    cases hb : st.inCodeBlock
    · exact ⟨_, rfl, inv_of_not_list (fun _ _ h => by cases h), by simp⟩
    · exact ⟨_, rfl, inv_of_null (by simp), by simp⟩
  | none =>
    rw [processLine_noFence index st hf]
    simp only [Option.isSome_none, Bool.xor_false]
    by_cases h1 : (st.inCodeBlock && match st.currentSection with | .code _ => true | _ => false) = true
    · simp only [h1, if_true]
      simp only [Bool.and_eq_true] at h1
      exact pushContent_code_ok line h1.2
    · simp only [h1]
      exact classifyLine_ok index _ _ hinv

theorem forEachLine_ok (lines : List Str) (index : Nat) {st : State} (hinv : Inv st) :
    ∃ st1, forEachLine index lines st = .ok st1 ∧ Inv st1 ∧
      st1.inCodeBlock = xor st.inCodeBlock (decide (fenceCount lines % 2 = 1)) := by
  induction lines generalizing index st with
  | nil => exact ⟨st, rfl, hinv, by simp [fenceCount]⟩
  | cons l ls ih =>
    obtain ⟨st1, h1, i1, c1⟩ := processLine_ok index l hinv
    obtain ⟨st2, h2, i2, c2⟩ := ih (index + 1) i1
    refine ⟨st2, by simp [forEachLine, h1, h2], i2, ?_⟩
    rw [c2, c1]
    unfold fenceCount
    rw [List.countP_cons]
    have hp : ∀ n : Nat, decide ((n + 1) % 2 = 1) = !decide (n % 2 = 1) := by
      intro n
      rcases Nat.mod_two_eq_zero_or_one n with h | h <;> simp [Nat.add_mod, h]
    cases st.inCodeBlock <;> cases (matchFence (trimEnd l)).isSome <;> simp [hp]

/-! ## From the text to the lines -/

theorem ne_cr_of_not_space {c : Char} (h : isSpace c = false) : c ≠ '\r' := by
  rintro rfl; revert h; decide

theorem getLast?_of_endsWithNonSpace {t : Str} (h : endsWithNonSpace t = true) :
    ∃ c, t.getLast? = some c ∧ isSpace c = false := by
  unfold endsWithNonSpace at h
  cases hl : t.getLast? with
  | none => simp [hl] at h
  | some c => exact ⟨c, rfl, by simpa [hl] using h⟩

theorem ne_nil_of_endsWithNonSpace {t : Str} (h : endsWithNonSpace t = true) : t ≠ [] := by
  rintro rfl; simp [endsWithNonSpace] at h

theorem endsWithNonSpace_append (pre : Str) {t : Str} (h : endsWithNonSpace t = true) :
    endsWithNonSpace (pre ++ t) = true := by
  have hne := ne_nil_of_endsWithNonSpace h
  unfold endsWithNonSpace at h ⊢
  rwa [List.getLast?_append_of_ne_nil _ hne]

theorem trimEnd_of_endsWithNonSpace {t : Str} (h : endsWithNonSpace t = true) :
    trimEnd t = t := by
  obtain ⟨c, hc, hs⟩ := getLast?_of_endsWithNonSpace h
  exact trimEnd_of_getLast (fun d hd => by rw [hc] at hd; cases hd; exact hs)

theorem stripCR_of_endsWithNonSpace {t : Str} (h : endsWithNonSpace t = true) :
    stripCR t = t := by
  obtain ⟨c, hc, hs⟩ := getLast?_of_endsWithNonSpace h
  apply stripCR_of_getLast
  rw [hc]; intro e; cases e; exact ne_cr_of_not_space hs rfl

theorem splitLines_join {lines : List Str} (hne : lines ≠ []) (hnl : ∀ l ∈ lines, '\n' ∉ l)
    (hcr : ∀ l ∈ lines, stripCR l = l) : splitLines (join ['\n'] lines) = lines := by
  unfold splitLines
  rw [split_join hne hnl]
  exact (List.map_congr_left hcr).trans (List.map_id _)

theorem join_ne_nil (sep : Str) {l : Str} (ls : List Str) (h : l ≠ []) :
    join sep (l :: ls) ≠ [] := by
  cases ls with
  | nil => rwa [join_singleton]
  | cons y ys => rw [join_cons_cons]; simp [h]

theorem formatContent_of_sections {s : Str} {entries : List Entry} (hs : s ≠ [])
    (h : formatSections (splitLines s) = .ok entries) :
    formatContent (.string s) = .ok (renderSections 0 entries) := by
  cases s with
  | nil => exact absurd rfl hs
  | cons c cs => simp [formatContent, JsValue.truthy, JsValue.isString, h]

theorem renderSections_elements (index : Nat) (bs : List Block) :
    renderSections index (bs.map .element) = bs := by
  induction bs generalizing index with
  | nil => rfl
  | cons b bs ih => simp [renderSections, ih]

theorem renderSections_append_element (index : Nat) (es : List Entry) (b : Block) :
    renderSections index (es ++ [.element b]) = renderSections index es ++ [b] := by
  induction es generalizing index with
  | nil => rfl
  | cons e es ih =>
    cases e with
    | element e => simp [renderSections, ih]
    | listSection o items level => cases o <;> simp [renderSections, ih]

/-! ## The branches of the classifier -/

theorem matchFence_cons_of_ne {c : Char} (r : Str) (h : c ≠ backtick) :
    matchFence (c :: r) = none := by
  match r with
  | [] => rfl
  | [_] => rfl
  | _ :: _ :: _ => simp [matchFence, h]

theorem matchDivider_cons_of_ne {c : Char} (r : Str) (h : c ≠ '-') :
    matchDivider (c :: r) = false := by
  unfold matchDivider
  split
  · rename_i heq; injection heq with h1 _; exact absurd h1 h
  · rfl

theorem matchH1_cons_of_ne {c : Char} (r : Str) (h : c ≠ '#') : matchH1 (c :: r) = false := by
  unfold matchH1
  split
  · rename_i heq; injection heq with h1 _; exact absurd h1 h
  · rfl

theorem matchHashes_succ_cons_of_ne (n : Nat) {c : Char} (r : Str) (h : c ≠ '#') :
    matchHashes (n + 1) (c :: r) = none := by
  unfold matchHashes
  split
  · rename_i heq _; cases heq
  · rename_i heq h1; injection h1 with h1 _; exact absurd h1 h
  · rfl

/-! ## Empty and non-string input, totality -/

/-- C1: `formatContent` returns the empty block sequence, without raising, for
the empty string and for every input that is not a string (`undefined`,
`null`, booleans, numbers, `NaN`, objects). -/
theorem formatContent_empty_or_nonString :
    formatContent (.string []) = .ok [] ∧
    ∀ v : JsValue, v.isString = false → formatContent v = .ok [] := by
  refine ⟨rfl, ?_⟩
  intro v hv
  cases v <;> simp_all [formatContent, JsValue.truthy, JsValue.isString]

/-- Witness of C1: the input `null`. -/
theorem formatContent_empty_or_nonString_witness : formatContent .null = .ok [] :=
  formatContent_empty_or_nonString.2 .null rfl

/-- C2: for every string input `formatContent` returns a sequence of blocks: no
path through the line classifier, `closeCurrentSection` or `formatInlineText`
raises.  The same holds for the line loop on any sequence of lines. -/
theorem formatContent_total :
    (∀ lines : List Str, ∃ entries, formatSections lines = .ok entries) ∧
    ∀ s : Str, ∃ blocks, formatContent (.string s) = .ok blocks := by
  have hsec : ∀ lines : List Str, ∃ entries, formatSections lines = .ok entries := by
    intro lines
    obtain ⟨st, h, _, _⟩ := forEachLine_ok lines 0 inv_init
    exact ⟨(closeCurrentSection lines.length st).formattedSections, by simp [formatSections, h]⟩
  refine ⟨hsec, ?_⟩
  intro s
  cases s with
  | nil => exact ⟨[], rfl⟩
  | cons c cs =>
    obtain ⟨entries, h⟩ := hsec (splitLines (c :: cs))
    exact ⟨_, formatContent_of_sections (by simp) h⟩

/-! ## Level-1 headings -/

theorem processLine_h1Line (index : Nat) {t : Str} (fs : List Entry) (ll : Nat) (cl : Str)
    (sc : Nat) (h1 : headSatisfies (fun c => c != '#' && !isSpace c) t = true)
    (h2 : endsWithNonSpace t = true) :
    processLine index ('#' :: ' ' :: t) ⟨fs, .null, ll, false, cl, sc⟩ =
      .ok ⟨fs ++ [.element (.heading 1 ⟨"h1", index⟩ (some (sc + 1)) (formatInlineText t))],
        .null, ll, false, cl, sc + 1⟩ := by
  have ht : trimEnd ('#' :: ' ' :: t) = '#' :: ' ' :: t :=
    trimEnd_of_endsWithNonSpace (endsWithNonSpace_append ['#', ' '] h2)
  rw [processLine_noFence index _ (by rw [ht]; exact matchFence_cons_of_ne _ (by decide)), ht]
  cases t with
  | nil => simp [headSatisfies] at h1
  | cons c r =>
    simp only [headSatisfies, Bool.and_eq_true, bne_iff_ne, ne_eq, Bool.not_eq_true'] at h1
    have hsp : isSpace ' ' = true := by decide
    simp [classifyLine, matchDivider_cons_of_ne, matchH1, spacesThenNotHash, hsp, h1.1, h1.2,
      closeCurrentSection, State.push, List.dropWhile]

theorem forEachLine_h1Lines (ts : List Str) (index k : Nat) (fs : List Entry) (ll : Nat)
    (cl : Str) (sc : Nat) (hk : sc + 1 = index + k)
    (h : ∀ t ∈ ts, headSatisfies (fun c => c != '#' && !isSpace c) t = true ∧
      endsWithNonSpace t = true) :
    forEachLine index (ts.map fun t => '#' :: ' ' :: t) ⟨fs, .null, ll, false, cl, sc⟩ =
      .ok ⟨fs ++ ((ts.enumFrom index).map fun p => .element
          (.heading 1 ⟨"h1", p.1⟩ (some (p.1 + k)) (formatInlineText p.2))),
        .null, ll, false, cl, sc + ts.length⟩ := by
  induction ts generalizing index fs sc with
  | nil => simp [forEachLine]
  | cons t ts ih =>
    have ht := h t (List.mem_cons_self _ _)
    simp only [List.map_cons, forEachLine, processLine_h1Line index fs ll cl sc ht.1 ht.2]
    rw [ih (index + 1) _ (sc + 1) (by omega) (fun t' ht' => h t' (List.mem_cons_of_mem _ ht'))]
    have e : index + k + ts.length = sc + (ts.length + 1) := by omega
    simp only [List.enumFrom_cons, List.map_cons, List.append_assoc, List.singleton_append,
      List.length_cons, hk, e]

/-- C3: for every n ≥ 1 and texts t_1..t_n, each not empty, without a line feed,
starting with a character that is neither `#` nor white space and ending with a
character that is no white space, `formatContent` of the lines `"# " + t_i`
joined by line feeds is exactly the n level-1 headings, in input order, with
the ordinals 1, 2, ..., n and the texts `formatInlineText(t_i)`. -/
theorem formatContent_level1_headings (ts : List Str) (hn : 1 ≤ ts.length)
    (h : ∀ t ∈ ts, headSatisfies (fun c => c != '#' && !isSpace c) t = true ∧
      endsWithNonSpace t = true ∧ '\n' ∉ t) :
    formatContent (.string (join ['\n'] (ts.map fun t => '#' :: ' ' :: t))) =
      .ok (ts.enum.map fun p =>
        .heading 1 ⟨"h1", p.1⟩ (some (p.1 + 1)) (formatInlineText p.2)) := by
  have hne : (ts.map fun t => '#' :: ' ' :: t) ≠ [] := by
    cases ts with
    | nil => simp at hn
    | cons t ts => simp
  have hjoin : join ['\n'] (ts.map fun t => '#' :: ' ' :: t) ≠ [] := by
    cases ts with
    | nil => simp at hn
    | cons t ts => exact join_ne_nil _ _ (by simp)
  have hsplit : splitLines (join ['\n'] (ts.map fun t => '#' :: ' ' :: t))
      = ts.map fun t => '#' :: ' ' :: t := by
    apply splitLines_join hne
    · intro l hl
      obtain ⟨t, ht, rfl⟩ := List.mem_map.1 hl
      have := (h t ht).2.2
      simp only [List.mem_cons, not_or]
      exact ⟨by decide, by decide, this⟩
    · intro l hl
      obtain ⟨t, ht, rfl⟩ := List.mem_map.1 hl
      exact stripCR_of_endsWithNonSpace (endsWithNonSpace_append ['#', ' '] (h t ht).2.1)
  have hrun := forEachLine_h1Lines ts 0 1 [] 0 [] 0 rfl (fun t ht => ⟨(h t ht).1, (h t ht).2.1⟩)
  have hsec : formatSections (splitLines (join ['\n'] (ts.map fun t => '#' :: ' ' :: t))) =
      .ok ((ts.enum.map fun p =>
        Block.heading 1 ⟨"h1", p.1⟩ (some (p.1 + 1)) (formatInlineText p.2)).map .element) := by
    rw [hsplit]
    unfold formatSections
    rw [show State.init = ⟨[], .null, 0, false, [], 0⟩ from rfl, hrun]
    simp [closeCurrentSection, List.enum]
  rw [formatContent_of_sections hjoin hsec, renderSections_elements]

/-- Witness of C3: the two lines `# Title` and `# Next`. -/
theorem formatContent_level1_headings_witness :
    formatContent (.string (join ['\n']
        (["Title".toList, "Next".toList].map fun t => '#' :: ' ' :: t))) =
      .ok (["Title".toList, "Next".toList].enum.map fun p =>
        .heading 1 ⟨"h1", p.1⟩ (some (p.1 + 1)) (formatInlineText p.2)) :=
  formatContent_level1_headings ["Title".toList, "Next".toList] (by decide) (by decide)

/-! ## Headings of level 2 to 4 -/

theorem dropWhile_spaces_append {ws t : Str} (hall : ∀ c ∈ ws, isSpace c = true)
    (ht : headSatisfies (fun c => !isSpace c) t = true) :
    (ws ++ t).dropWhile isSpace = t := by
  induction ws with
  | nil =>
    cases t with
    | nil => simp [headSatisfies] at ht
    | cons c r =>
      simp only [headSatisfies, Bool.not_eq_true'] at ht
      simp [List.dropWhile, ht]
  | cons w ws ih =>
    have hw := hall w (List.mem_cons_self _ _)
    simp only [List.cons_append, List.dropWhile, hw]
    exact ih (fun c hc => hall c (List.mem_cons_of_mem _ hc))

theorem matchHashes_zero_spaces {ws t : Str} (hne : ws ≠ []) (hall : ∀ c ∈ ws, isSpace c = true)
    (ht : headSatisfies (fun c => !isSpace c) t = true) :
    matchHashes 0 (ws ++ t) = some t := by
  cases ws with
  | nil => exact absurd rfl hne
  | cons w ws =>
    have hw := hall w (List.mem_cons_self _ _)
    have hd := dropWhile_spaces_append (fun c hc => hall c (List.mem_cons_of_mem _ hc)) ht
    simp only [List.cons_append, matchHashes, hw, if_true]
    exact congrArg some hd

theorem processLine_hashLine (k : Nat) (hk : k = 2 ∨ k = 3 ∨ k = 4) {ws t : Str} (hne : ws ≠ [])
    (hall : ∀ c ∈ ws, isSpace c = true) (ht : headSatisfies (fun c => !isSpace c) t = true)
    (he : endsWithNonSpace t = true) (index : Nat) (st : State) (hc : st.inCodeBlock = false) :
    processLine index (List.replicate k '#' ++ ws ++ t) st =
      .ok ((closeCurrentSection index st).push
        (.element (.heading k ⟨"h" ++ toString k, index⟩ none (formatInlineText t)))) := by
  have hh := matchHashes_zero_spaces hne hall ht
  have hsp : isSpace '#' = false := by decide
  have htrim : trimEnd (List.replicate k '#' ++ ws ++ t) = List.replicate k '#' ++ ws ++ t :=
    trimEnd_of_endsWithNonSpace (endsWithNonSpace_append _ he)
  rcases hk with rfl | rfl | rfl
  all_goals
    rw [processLine_noFence index _ (by rw [htrim]; exact matchFence_cons_of_ne _ (by decide)),
      htrim]
    simp only [hc, Bool.false_and, Bool.false_eq_true, if_false]
    simp only [List.replicate, List.cons_append, List.append_assoc, List.nil_append] at hh ⊢
    simp [classifyLine, matchDivider_cons_of_ne, matchH1, spacesThenNotHash, hsp, matchHashes, hh]
    rfl

theorem formatContent_join {lines : List Str} {st : State} (hs : join ['\n'] lines ≠ [])
    (hnl : ∀ l ∈ lines, '\n' ∉ l) (hcr : ∀ l ∈ lines, stripCR l = l)
    (hrun : forEachLine 0 lines State.init = .ok st) :
    formatContent (.string (join ['\n'] lines)) =
      .ok (renderSections 0 (closeCurrentSection lines.length st).formattedSections) := by
  have hne : lines ≠ [] := by rintro rfl; exact hs rfl
  apply formatContent_of_sections hs
  rw [splitLines_join hne hnl hcr]
  simp [formatSections, hrun]

/-- C4, as amended: for k in {2, 3, 4}, a line made of exactly k characters `#`, a non-empty
run of white space and a text t that neither starts nor ends with white space
is classified as a heading of level k with text `formatInlineText(t)` and no
ordinal, whatever the state outside a code fence; the counter of level-1
headings is left as it was, so a following line `"# " + x` gets the ordinal it
would have had without the level-k heading (ordinal 1 at the start). -/
theorem heading_levels_2_to_4 (k : Nat) (hk : k = 2 ∨ k = 3 ∨ k = 4) (ws t : Str)
    (hne : ws ≠ []) (hall : ∀ c ∈ ws, isSpace c = true) (hnl : '\n' ∉ ws ++ t)
    (ht : headSatisfies (fun c => !isSpace c) t = true) (he : endsWithNonSpace t = true) :
    (∀ index st, st.inCodeBlock = false →
      ∃ st1, processLine index (List.replicate k '#' ++ ws ++ t) st = .ok st1 ∧
        st1.formattedSections = (closeCurrentSection index st).formattedSections ++
          [.element (.heading k ⟨"h" ++ toString k, index⟩ none (formatInlineText t))] ∧
        st1.sectionCount = st.sectionCount) ∧
    formatContent (.string (List.replicate k '#' ++ ws ++ t)) =
      .ok [.heading k ⟨"h" ++ toString k, 0⟩ none (formatInlineText t)] ∧
    ∀ x, headSatisfies (fun c => c != '#' && !isSpace c) x = true → endsWithNonSpace x = true →
      '\n' ∉ x →
      formatContent (.string (List.replicate k '#' ++ ws ++ t ++ '\n' :: '#' :: ' ' :: x)) =
        .ok [.heading k ⟨"h" ++ toString k, 0⟩ none (formatInlineText t),
             .heading 1 ⟨"h1", 1⟩ (some 1) (formatInlineText x)] := by
  have hline := fun index st hc => processLine_hashLine k hk hne hall ht he index st hc
  have hnl1 : '\n' ∉ List.replicate k '#' ++ ws ++ t := by
    intro hm
    rw [List.append_assoc, List.mem_append] at hm
    rcases hm with hm | hm
    · have := List.eq_of_mem_replicate hm
      revert this; decide
    · exact hnl hm
  have hcr1 : stripCR (List.replicate k '#' ++ ws ++ t) = List.replicate k '#' ++ ws ++ t :=
    stripCR_of_endsWithNonSpace (endsWithNonSpace_append _ he)
  have hne1 : List.replicate k '#' ++ ws ++ t ≠ [] := by
    have := ne_nil_of_endsWithNonSpace he
    simp [this]
  refine ⟨fun index st hc => ⟨_, hline index st hc, by simp [State.push], by simp [State.push]⟩,
    ?_, ?_⟩
  · have h := @formatContent_join [List.replicate k '#' ++ ws ++ t] _
      (by rw [join_singleton]; exact hne1) (by simpa using hnl1) (by simpa using hcr1)
      (by simp only [forEachLine]; rw [hline 0 State.init rfl])
    rw [join_singleton] at h
    rw [h]
    rfl
  · intro x hx1 hx2 hx3
    have h := @formatContent_join
      [List.replicate k '#' ++ ws ++ t, '#' :: ' ' :: x] _
      (join_ne_nil _ _ hne1)
      (by
        intro l hl
        simp only [List.mem_cons, List.mem_singleton, List.not_mem_nil, or_false] at hl
        rcases hl with rfl | rfl
        · exact hnl1
        · simp only [List.mem_cons, not_or]
          exact ⟨by decide, by decide, hx3⟩)
      (by
        intro l hl
        simp only [List.mem_cons, List.mem_singleton, List.not_mem_nil, or_false] at hl
        rcases hl with rfl | rfl
        · exact hcr1
        · exact stripCR_of_endsWithNonSpace (endsWithNonSpace_append ['#', ' '] hx2))
      (by
        simp only [forEachLine]
        rw [hline 0 State.init rfl]
        simp only [closeCurrentSection, State.init, State.push, List.nil_append]
        rw [processLine_h1Line 1 _ 0 [] 0 hx1 hx2])
    rw [join_cons_cons, join_singleton] at h
    simp only [List.append_assoc, List.singleton_append] at h ⊢
    rw [h]
    rfl

/-- Witness of C4: `"#### Deep\n# Top"` gives a level-4 heading, then a level-1
heading with ordinal 1. -/
theorem heading_levels_2_to_4_witness :
    formatContent (.string "#### Deep\n# Top".toList) =
      .ok [.heading 4 ⟨"h4", 0⟩ none "Deep".toList,
           .heading 1 ⟨"h1", 1⟩ (some 1) "Top".toList] :=
  (heading_levels_2_to_4 4 (by decide) " ".toList "Deep".toList (by decide) (by decide)
    (by decide) (by decide) (by decide)).2.2 "Top".toList (by decide) (by decide) (by decide)

/-- Counterexample to C4 as stated: the line `"#### Deep "` is made of four
characters `#`, one space and the non-blank text t = "Deep " that ends in a
space.  The line is trimmed of its trailing white space before the heading
patterns are tried, so the heading text is "Deep", while `formatInlineText(t)`
keeps the space. -/
theorem heading_levels_2_to_4_counterexample :
    formatContent (.string (List.replicate 4 '#' ++ " ".toList ++ "Deep ".toList)) =
      .ok [.heading 4 ⟨"h4", 0⟩ none "Deep".toList] ∧
    formatInlineText "Deep ".toList = "Deep ".toList ∧
    ¬ ∃ key ordinal,
      formatContent (.string (List.replicate 4 '#' ++ " ".toList ++ "Deep ".toList)) =
        .ok [.heading 4 key ordinal (formatInlineText "Deep ".toList)] := by
  refine ⟨by rfl, by rfl, ?_⟩
  rintro ⟨key, ordinal, h⟩
  rw [show formatContent (.string (List.replicate 4 '#' ++ " ".toList ++ "Deep ".toList)) =
      .ok [.heading 4 ⟨"h4", 0⟩ none "Deep".toList] from by rfl,
    show formatInlineText "Deep ".toList = "Deep ".toList from by rfl] at h
  injection h with h
  injection h with h _
  injection h with _ _ _ h
  revert h
  decide

/-! ## Facts on the character classes -/

theorem isDigit_iff (c : Char) : isDigit c = true ↔ 48 ≤ c.toNat ∧ c.toNat ≤ 57 := by
  simp [isDigit]

theorem isLetter_iff (c : Char) :
    isLetter c = true ↔ (97 ≤ c.toNat ∧ c.toNat ≤ 122) ∨ (65 ≤ c.toNat ∧ c.toNat ≤ 90) := by
  simp [isLetter, isLower, isUpper]

theorem isSpace_eq_false_of_lt {c : Char} (h1 : 33 ≤ c.toNat) (h2 : c.toNat < 160) :
    isSpace c = false := by
  simp only [isSpace, Bool.or_eq_false_iff, beq_eq_false_iff_ne, ne_eq, Bool.and_eq_false_iff,
    decide_eq_false_iff_not]
  omega

theorem isBulletChar_eq_false_of_range {c : Char} (h1 : 48 ≤ c.toNat) (h2 : c.toNat ≤ 122) :
    isBulletChar c = false := by
  have e1 : c ≠ '*' := by rintro rfl; revert h1; decide
  have e2 : c ≠ '-' := by rintro rfl; revert h1; decide
  simp only [isBulletChar, Bool.or_eq_false_iff, beq_eq_false_iff_ne, ne_eq]
  refine ⟨⟨⟨⟨e1, e2⟩, ?_⟩, ?_⟩, ?_⟩ <;> omega

theorem alnum_range {c : Char} (h : isDigit c = true ∨ isLetter c = true) :
    48 ≤ c.toNat ∧ c.toNat ≤ 122 := by
  rw [isDigit_iff, isLetter_iff] at h
  omega

theorem alnum_ne {c : Char} (h : isDigit c = true ∨ isLetter c = true) :
    c ≠ backtick ∧ c ≠ '-' ∧ c ≠ '#' := by
  rw [isDigit_iff, isLetter_iff] at h
  refine ⟨?_, ?_, ?_⟩ <;> (rintro rfl; revert h; decide)

theorem isDigit_eq_false_of_letter {c : Char} (h : isLetter c = true) : isDigit c = false := by
  rw [isLetter_iff] at h
  cases hd : isDigit c with
  | false => rfl
  | true => rw [isDigit_iff] at hd; omega

/-! ## Lists -/

theorem addListItem_of_null (ordered : Bool) (index nestLevel : Nat) (marker content : Str)
    (fs : List Entry) (ll : Nat) (icb : Bool) (cl : Str) (sc : Nat) :
    addListItem ordered index nestLevel marker content ⟨fs, .null, ll, icb, cl, sc⟩ =
      .ok ⟨fs ++ [.listSection ordered
          [⟨⟨if ordered then "ol" else "ul", index⟩, nestLevel, marker,
            formatInlineText content⟩] nestLevel],
        .list ordered fs.length, nestLevel, icb, cl, sc⟩ := by
  have h := pushItemAt_last
    ⟨⟨if ordered then "ol" else "ul", index⟩, nestLevel, marker, formatInlineText content⟩
    fs ordered [] nestLevel
  simp only [addListItem, needsNewList, if_true, openList, closeCurrentSection, pushItem, h,
    List.nil_append]

theorem addListItem_of_open (ordered : Bool) (index nestLevel : Nat) (marker content : Str)
    (pre : List Entry) (items : List ListItem) (level : Nat) (icb : Bool) (cl : Str) (sc : Nat) :
    addListItem ordered index nestLevel marker content
        ⟨pre ++ [.listSection ordered items level], .list ordered pre.length, nestLevel, icb, cl,
          sc⟩ =
      .ok ⟨pre ++ [.listSection ordered
          (items ++ [⟨⟨if ordered then "ol" else "ul", index⟩, nestLevel, marker,
            formatInlineText content⟩]) level],
        .list ordered pre.length, nestLevel, icb, cl, sc⟩ := by
  have h := pushItemAt_last
    ⟨⟨if ordered then "ol" else "ul", index⟩, nestLevel, marker, formatInlineText content⟩
    pre ordered items level
  simp [addListItem, needsNewList, pushItem, h]

/-- A run of lines each of which the classifier hands to `addListItem` at
nesting level 0, started with no section open: one list object with one item
per line. -/
theorem forEachLine_listRun {α : Type} (ordered : Bool) (line marker content : α → Str)
    (x : α) (xs : List α)
    (hline : ∀ y ∈ x :: xs, ∀ index st, st.inCodeBlock = false →
      processLine index (line y) st = addListItem ordered index 0 (marker y) (content y) st)
    (index : Nat) (fs : List Entry) (ll : Nat) (cl : Str) (sc : Nat) :
    forEachLine index ((x :: xs).map line) ⟨fs, .null, ll, false, cl, sc⟩ =
      .ok ⟨fs ++ [.listSection ordered
          (((x :: xs).enumFrom index).map fun p =>
            ⟨⟨if ordered then "ol" else "ul", p.1⟩, 0, marker p.2,
              formatInlineText (content p.2)⟩) 0],
        .list ordered fs.length, 0, false, cl, sc⟩ := by
  have hrest : ∀ (ys : List α), (∀ y ∈ ys, y ∈ x :: xs) → ∀ (index : Nat) (items : List ListItem),
      forEachLine index (ys.map line)
          ⟨fs ++ [.listSection ordered items 0], .list ordered fs.length, 0, false, cl, sc⟩ =
        .ok ⟨fs ++ [.listSection ordered
            (items ++ (ys.enumFrom index).map fun p =>
              ⟨⟨if ordered then "ol" else "ul", p.1⟩, 0, marker p.2,
                formatInlineText (content p.2)⟩) 0],
          .list ordered fs.length, 0, false, cl, sc⟩ := by
    intro ys
    induction ys with
    | nil => intro _ index items; simp [forEachLine]
    | cons y ys ih =>
      intro hmem index items
      simp only [List.map_cons, forEachLine]
      rw [hline y (hmem y (List.mem_cons_self _ _)) index _ rfl, addListItem_of_open]
      simp only []
      rw [ih (fun z hz => hmem z (List.mem_cons_of_mem _ hz))]
      simp [List.enumFrom_cons]
  simp only [List.map_cons, forEachLine]
  rw [hline x (List.mem_cons_self _ _) index _ rfl, addListItem_of_null]
  simp only []
  rw [hrest xs (fun z hz => List.mem_cons_of_mem _ hz)]
  simp [List.enumFrom_cons]

theorem indentSize_cons_of_not_space {c : Char} (r : Str) (h : isSpace c = false) :
    indentSize (c :: r) = 0 := by
  simp [indentSize, List.takeWhile, h]

theorem matchCoreIdea_cons_of_ne {c : Char} (r : Str) (h : eqIgnoreCase 'C' c = false) :
    matchCoreIdea (c :: r) = none := by
  simp [matchCoreIdea, dropLiteralCI, h]

theorem matchUnordered_cons_of_not_bullet {c : Char} (r : Str) (hs : isSpace c = false)
    (hb : isBulletChar c = false) : matchUnordered (c :: r) = none := by
  unfold matchUnordered
  simp only [List.dropWhile, hs]
  cases r with
  | nil => rfl
  | cons d r => simp [hb]

theorem processLine_unorderedLine {c : Str} (he : endsWithNonSpace c = true) (index : Nat)
    (st : State) (hc : st.inCodeBlock = false) :
    processLine index ('-' :: ' ' :: c) st = addListItem false index 0 bulletGlyph c st := by
  have htrim : trimEnd ('-' :: ' ' :: c) = '-' :: ' ' :: c :=
    trimEnd_of_endsWithNonSpace (endsWithNonSpace_append ['-', ' '] he)
  rw [processLine_noFence index _ (by rw [htrim]; exact matchFence_cons_of_ne _ (by decide)),
    htrim]
  simp only [hc, Bool.false_and, Bool.false_eq_true, if_false]
  have h1 : matchDivider ('-' :: ' ' :: c) = false := by
    cases c with
    | nil => rfl
    | cons d r => simp [matchDivider]
  have h2 : matchH1 ('-' :: ' ' :: c) = false := matchH1_cons_of_ne _ (by decide)
  have h3 : ∀ n, matchHashes (n + 1) ('-' :: ' ' :: c) = none :=
    fun n => matchHashes_succ_cons_of_ne n _ (by decide)
  have h4 : matchCoreIdea ('-' :: ' ' :: c) = none := matchCoreIdea_cons_of_ne _ (by decide)
  have h5 : matchUnordered ('-' :: ' ' :: c) = some c := by
    have e1 : isSpace '-' = false := by decide
    have e2 : isSpace ' ' = true := by decide
    have e3 : isBulletChar '-' = true := by decide
    simp [matchUnordered, List.dropWhile, e1, e2, e3]
  have h6 : indentSize ('-' :: ' ' :: c) = 0 := indentSize_cons_of_not_space _ (by decide)
  simp [classifyLine, h1, h2, h3, h4, h5, h6]

/-- Both stages of `formatContent` on a text given by its lines: the array
`formattedSections` before the final `map`, and the blocks returned. -/
theorem formatContent_stages {lines : List Str} {st : State} (hs : join ['\n'] lines ≠ [])
    (hnl : ∀ l ∈ lines, '\n' ∉ l) (hcr : ∀ l ∈ lines, stripCR l = l)
    (hrun : forEachLine 0 lines State.init = .ok st) :
    formatSections (splitLines (join ['\n'] lines)) =
        .ok (closeCurrentSection lines.length st).formattedSections ∧
      formatContent (.string (join ['\n'] lines)) =
        .ok (renderSections 0 (closeCurrentSection lines.length st).formattedSections) := by
  have hne : lines ≠ [] := by rintro rfl; exact hs rfl
  refine ⟨?_, formatContent_join hs hnl hcr hrun⟩
  rw [splitLines_join hne hnl hcr]
  simp [formatSections, hrun]

/-- C5: for every n ≥ 1 and contents c_1..c_n, each not empty, without a line
feed and not ending in white space, `formatContent` of the unindented lines
`"- " + c_i` with no blank line between them is exactly one unordered list
block holding the n items in input order, item i with the content
`formatInlineText(c_i)`; the list object has nesting level 0, and so has every
item. -/
theorem bulletLines_single_list (cs : List Str) (hn : 1 ≤ cs.length)
    (h : ∀ c ∈ cs, endsWithNonSpace c = true ∧ '\n' ∉ c) :
    formatSections (splitLines (join ['\n'] (cs.map fun c => '-' :: ' ' :: c))) =
        .ok [.listSection false
          (cs.enum.map fun p => ⟨⟨"ul", p.1⟩, 0, bulletGlyph, formatInlineText p.2⟩) 0] ∧
      formatContent (.string (join ['\n'] (cs.map fun c => '-' :: ' ' :: c))) =
        .ok [.list false ⟨"ul", 0⟩
          (cs.enum.map fun p => ⟨⟨"ul", p.1⟩, 0, bulletGlyph, formatInlineText p.2⟩)] := by
  cases cs with
  | nil => simp at hn
  | cons c cs =>
    have hrun := forEachLine_listRun false (fun c => '-' :: ' ' :: c) (fun _ => bulletGlyph)
      (fun c => c) c cs
      (fun y hy index st hc => processLine_unorderedLine (h y hy).1 index st hc) 0 [] 0 [] 0
    have hst := @formatContent_stages ((c :: cs).map fun c => '-' :: ' ' :: c) _
      (join_ne_nil _ _ (by simp))
      (by
        intro l hl
        obtain ⟨t, ht, rfl⟩ := List.mem_map.1 hl
        simp only [List.mem_cons, not_or]
        exact ⟨by decide, by decide, (h t ht).2⟩)
      (by
        intro l hl
        obtain ⟨t, ht, rfl⟩ := List.mem_map.1 hl
        exact stripCR_of_endsWithNonSpace (endsWithNonSpace_append ['-', ' '] (h t ht).1))
      hrun
    simpa [closeCurrentSection, renderSections, List.enum] using hst

/-- Witness of C5: `"- item one\n- item two"` gives one unordered list with the
items "item one" and "item two". -/
theorem bulletLines_single_list_witness :
    formatContent (.string "- item one\n- item two".toList) =
      .ok [.list false ⟨"ul", 0⟩
        [⟨⟨"ul", 0⟩, 0, bulletGlyph, "item one".toList⟩,
         ⟨⟨"ul", 1⟩, 0, bulletGlyph, "item two".toList⟩]] :=
  (bulletLines_single_list ["item one".toList, "item two".toList] (by decide) (by decide)).2

theorem takeWhile_dropWhile_append_stop {p : Char → Bool} {m : Str} {x : Char} (r : Str)
    (hall : ∀ c ∈ m, p c = true) (hx : p x = false) :
    (m ++ x :: r).takeWhile p = m ∧ (m ++ x :: r).dropWhile p = x :: r := by
  induction m with
  | nil => simp [List.takeWhile, List.dropWhile, hx]
  | cons a m ih =>
    have ha := hall a (List.mem_cons_self _ _)
    have := ih (fun c hc => hall c (List.mem_cons_of_mem _ hc))
    simp [List.takeWhile, List.dropWhile, ha, this]

theorem eqIgnoreCase_C_of_digit {c : Char} (h : isDigit c = true) :
    eqIgnoreCase 'C' c = false := by
  have hl : isLower c = false := by
    rw [isDigit_iff] at h
    cases hl : isLower c with
    | false => rfl
    | true => simp [isLower] at hl; omega
  have hne : c ≠ 'C' := by rintro rfl; revert h; decide
  have hu : asciiUpper 'C' = 'C' := by decide
  simp only [eqIgnoreCase, asciiUpper, hl, hu, Bool.false_eq_true, if_false, beq_eq_false_iff_ne,
    ne_eq]
  exact fun e => hne e.symm

theorem matchCoreIdea_of_second_dot (a : Char) (r : Str) :
    matchCoreIdea (a :: '.' :: r) = none := by
  have h : eqIgnoreCase 'o' '.' = false := by decide
  simp only [matchCoreIdea, show "Core Idea:".toList = 'C' :: 'o' :: "re Idea:".toList from rfl,
    dropLiteralCI, h, Bool.false_eq_true, if_false]
  split
  · rename_i heq; split at heq <;> cases heq
  · rfl

theorem matchOrdered_digits {m c : Str} (hne : m ≠ []) (hall : ∀ d ∈ m, isDigit d = true) :
    matchOrdered (m ++ '.' :: ' ' :: c) = some (m, c) := by
  cases m with
  | nil => exact absurd rfl hne
  | cons a m' =>
    have ha := hall a (List.mem_cons_self _ _)
    have hsp : isSpace a = false :=
      isSpace_eq_false_of_lt (by rw [isDigit_iff] at ha; omega) (by rw [isDigit_iff] at ha; omega)
    have hdot : isDigit '.' = false := by decide
    have e2 : isSpace ' ' = true := by decide
    obtain ⟨ht, hd⟩ := takeWhile_dropWhile_append_stop (' ' :: c) hall hdot
    have hdw : List.dropWhile isSpace (a :: m' ++ '.' :: ' ' :: c) = a :: m' ++ '.' :: ' ' :: c := by
      simp [List.dropWhile, hsp]
    unfold matchOrdered
    simp only [hdw, ht, hd, e2, if_true]

theorem matchOrdered_letter {l : Char} (c : Str) (hl : isLetter l = true) :
    matchOrdered (l :: '.' :: ' ' :: c) = some ([l], c) := by
  have hr := alnum_range (Or.inr hl)
  have hsp : isSpace l = false := isSpace_eq_false_of_lt (by omega) (by omega)
  have hd := isDigit_eq_false_of_letter hl
  have e2 : isSpace ' ' = true := by decide
  simp [matchOrdered, List.dropWhile, List.takeWhile, hsp, hd, hl, e2]

theorem processLine_orderedLine {m c : Str} (hm : isOrderedMarker m = true)
    (he : endsWithNonSpace c = true) (hh : isSectionHeader (m ++ '.' :: ' ' :: c) = false)
    (index : Nat) (st : State) (hc : st.inCodeBlock = false) :
    processLine index (m ++ '.' :: ' ' :: c) st = addListItem true index 0 m c st := by
  have htrim : trimEnd (m ++ '.' :: ' ' :: c) = m ++ '.' :: ' ' :: c := by
    have := trimEnd_of_endsWithNonSpace (endsWithNonSpace_append (m ++ ['.', ' ']) he)
    simpa using this
  -- the first character of the line is a digit or a letter
  obtain ⟨a, m', rfl, ha, hord, hcore⟩ : ∃ a m', m = a :: m' ∧
      (isDigit a = true ∨ isLetter a = true) ∧
      matchOrdered (a :: m' ++ '.' :: ' ' :: c) = some (a :: m', c) ∧
      matchCoreIdea (a :: m' ++ '.' :: ' ' :: c) = none := by
    simp only [isOrderedMarker, Bool.or_eq_true, Bool.and_eq_true, Bool.not_eq_true',
      List.isEmpty_eq_false, List.all_eq_true, beq_iff_eq] at hm
    rcases hm with ⟨hne, hall⟩ | ⟨hlen, hall⟩
    · cases m with
      | nil => simp at hne
      | cons a m' =>
        have ha := hall a (List.mem_cons_self _ _)
        exact ⟨a, m', rfl, Or.inl ha, matchOrdered_digits (by simp) hall,
          matchCoreIdea_cons_of_ne _ (eqIgnoreCase_C_of_digit ha)⟩
    · match m, hlen, hall with
      | [l], _, hall =>
        have hl := hall l (List.mem_cons_self _ _)
        exact ⟨l, [], rfl, Or.inr hl, matchOrdered_letter c hl, matchCoreIdea_of_second_dot l _⟩
  have hr := alnum_range ha
  obtain ⟨n1, n2, n3⟩ := alnum_ne ha
  have hsp : isSpace a = false := isSpace_eq_false_of_lt (by omega) (by omega)
  have hb : isBulletChar a = false := isBulletChar_eq_false_of_range hr.1 hr.2
  rw [processLine_noFence index _ (by rw [htrim]; exact matchFence_cons_of_ne _ n1), htrim]
  simp only [hc, Bool.false_and, Bool.false_eq_true, if_false]
  have h1 : matchDivider (a :: m' ++ '.' :: ' ' :: c) = false := matchDivider_cons_of_ne _ n2
  have h2 : matchH1 (a :: m' ++ '.' :: ' ' :: c) = false := matchH1_cons_of_ne _ n3
  have h3 : ∀ n, matchHashes (n + 1) (a :: m' ++ '.' :: ' ' :: c) = none :=
    fun n => matchHashes_succ_cons_of_ne n _ n3
  have h5 : matchUnordered (a :: m' ++ '.' :: ' ' :: c) = none :=
    matchUnordered_cons_of_not_bullet _ hsp hb
  have h6 : indentSize (a :: m' ++ '.' :: ' ' :: c) = 0 := indentSize_cons_of_not_space _ hsp
  simp only [classifyLine, h1, h2, h3, hcore, h5, hord, hh, h6, Bool.false_eq_true, if_false,
    Bool.not_false, if_true, Nat.zero_div]

theorem alnum_of_isOrderedMarker {m : Str} (hm : isOrderedMarker m = true) :
    ∀ c ∈ m, isDigit c = true ∨ isLetter c = true := by
  simp only [isOrderedMarker, Bool.or_eq_true, Bool.and_eq_true, List.all_eq_true] at hm
  intro c hc
  rcases hm with ⟨_, hall⟩ | ⟨_, hall⟩
  · exact Or.inl (hall c hc)
  · exact Or.inr (hall c hc)

/-- C6, as amended: for every non-empty run of consecutive unindented lines
`m_i + ". " + c_i`, where m_i is a digit string or a single letter, c_i is not
empty, has no line feed and does not end in white space, and the line is not
section-header-like, `formatContent` yields exactly one ordered list block
whose items appear in input order, item i carrying the marker m_i and the
content `formatInlineText(c_i)`. -/
theorem numberedLines_single_list (rows : List (Str × Str)) (hn : 1 ≤ rows.length)
    (h : ∀ r ∈ rows, isOrderedMarker r.1 = true ∧ endsWithNonSpace r.2 = true ∧ '\n' ∉ r.2 ∧
      isSectionHeader (r.1 ++ '.' :: ' ' :: r.2) = false) :
    formatSections (splitLines (join ['\n'] (rows.map fun r => r.1 ++ '.' :: ' ' :: r.2))) =
        .ok [.listSection true
          (rows.enum.map fun p => ⟨⟨"ol", p.1⟩, 0, p.2.1, formatInlineText p.2.2⟩) 0] ∧
      formatContent (.string (join ['\n'] (rows.map fun r => r.1 ++ '.' :: ' ' :: r.2))) =
        .ok [.list true ⟨"ol", 0⟩
          (rows.enum.map fun p => ⟨⟨"ol", p.1⟩, 0, p.2.1, formatInlineText p.2.2⟩)] := by
  cases rows with
  | nil => simp at hn
  | cons r rs =>
    have hrun := forEachLine_listRun true (fun r : Str × Str => r.1 ++ '.' :: ' ' :: r.2)
      (fun r => r.1) (fun r => r.2) r rs
      (fun y hy index st hc =>
        processLine_orderedLine (h y hy).1 (h y hy).2.1 (h y hy).2.2.2 index st hc) 0 [] 0 [] 0
    have hst := @formatContent_stages
      ((r :: rs).map fun r : Str × Str => r.1 ++ '.' :: ' ' :: r.2) _
      (join_ne_nil _ _ (by simp))
      (by
        intro l hl
        obtain ⟨t, ht, rfl⟩ := List.mem_map.1 hl
        simp only [List.mem_append, List.mem_cons, not_or]
        refine ⟨fun hm => ?_, by decide, by decide, (h t ht).2.2.1⟩
        have := alnum_of_isOrderedMarker (h t ht).1 _ hm
        revert this; decide)
      (by
        intro l hl
        obtain ⟨t, ht, rfl⟩ := List.mem_map.1 hl
        have := stripCR_of_endsWithNonSpace
          (endsWithNonSpace_append (t.1 ++ ['.', ' ']) (h t ht).2.1)
        simpa using this)
      hrun
    simpa [closeCurrentSection, renderSections, List.enum] using hst

/-- Witness of C6: `"1. First\n2. Second"` gives one ordered list with the
markers "1" and "2". -/
theorem numberedLines_single_list_witness :
    formatContent (.string "1. First\n2. Second".toList) =
      .ok [.list true ⟨"ol", 0⟩
        [⟨⟨"ol", 0⟩, 0, "1".toList, "First".toList⟩,
         ⟨⟨"ol", 1⟩, 0, "2".toList, "Second".toList⟩]] :=
  (numberedLines_single_list [("1".toList, "First".toList), ("2".toList, "Second".toList)]
    (by decide) (by decide)).2

/-- Counterexample to C6 as stated: the line `"1. "` has the form
`m + ". " + c` with the digit string m = "1" and the empty c, and it is not
section-header-like; its trailing space is trimmed before the ordered list
pattern is tried, so it becomes the paragraph "1." and no list block. -/
theorem numberedLines_single_list_counterexample :
    isOrderedMarker "1".toList = true ∧
    isSectionHeader ("1".toList ++ '.' :: ' ' :: []) = false ∧
    formatContent (.string ("1".toList ++ '.' :: ' ' :: [])) =
      .ok [.paragraph ⟨"p", 1⟩ "1.".toList] ∧
    ¬ ∃ key items, formatContent (.string ("1".toList ++ '.' :: ' ' :: [])) =
      .ok [.list true key items] := by
  refine ⟨by decide, by decide, by rfl, ?_⟩
  rintro ⟨key, items, h⟩
  rw [show formatContent (.string ("1".toList ++ '.' :: ' ' :: [])) =
    .ok [.paragraph ⟨"p", 1⟩ "1.".toList] from by rfl] at h
  cases h

/-! ## Dividers -/

theorem matchDivider_replicate (n : Nat) (hn : 3 ≤ n) :
    matchDivider (List.replicate n '-') = true := by
  obtain ⟨k, rfl⟩ : ∃ k, n = k + 3 := ⟨n - 3, by omega⟩
  simp [List.replicate, matchDivider]

theorem endsWithNonSpace_replicate (n : Nat) (hn : 1 ≤ n) {c : Char} (hc : isSpace c = false) :
    endsWithNonSpace (List.replicate n c) = true := by
  obtain ⟨k, rfl⟩ : ∃ k, n = k + 1 := ⟨n - 1, by omega⟩
  have : (List.replicate (k + 1) c).getLast? = some c := by
    rw [List.getLast?_eq_getLast _ (by simp)]
    simp
  simp [endsWithNonSpace, this, hc]

theorem countDividers_closeCurrentSection (index : Nat) (st : State) :
    countDividers (closeCurrentSection index st).formattedSections =
      countDividers st.formattedSections := by
  obtain ⟨fs, cur, ll, icb, cl, sc⟩ := st
  cases cur <;> simp [closeCurrentSection, State.push, countDividers]

theorem countDividers_addParagraphLine (index : Nat) (t : Str) (st : State) :
    ∃ st1, addParagraphLine index t st = .ok st1 ∧
      countDividers st1.formattedSections = countDividers st.formattedSections := by
  obtain ⟨fs, cur, ll, icb, cl, sc⟩ := st
  cases cur <;>
    exact ⟨_, rfl, by simp [closeCurrentSection, State.push, countDividers]⟩

theorem processLine_hyphens (line : Str) (hl : line = ['-'] ∨ line = ['-', '-']) (index : Nat)
    (st : State) :
    processLine index line st =
      if st.inCodeBlock && (match st.currentSection with | .code _ => true | _ => false) then
        pushContent line st
      else addParagraphLine index line st := by
  rcases hl with rfl | rfl
  · rw [processLine_noFence index st (by decide)]
    have h : classifyLine index (trimEnd ['-']) (indentSize ['-']) st
        = addParagraphLine index ['-'] st := by
      rw [show trimEnd ['-'] = ['-'] from by decide]
      simp only [classifyLine, show matchDivider ['-'] = false from by decide,
        show matchH1 ['-'] = false from by decide,
        show matchHashes 2 ['-'] = none from by decide,
        show matchHashes 3 ['-'] = none from by decide,
        show matchHashes 4 ['-'] = none from by decide,
        show matchCoreIdea ['-'] = none from by decide,
        show matchUnordered ['-'] = none from by decide,
        show matchOrdered ['-'] = none from by decide,
        show (!(trim ['-']).isEmpty) = true from by decide, Bool.false_eq_true, if_false, if_true]
    rw [h]
  · rw [processLine_noFence index st (by decide)]
    have h : classifyLine index (trimEnd ['-', '-']) (indentSize ['-', '-']) st
        = addParagraphLine index ['-', '-'] st := by
      rw [show trimEnd ['-', '-'] = ['-', '-'] from by decide]
      simp only [classifyLine, show matchDivider ['-', '-'] = false from by decide,
        show matchH1 ['-', '-'] = false from by decide,
        show matchHashes 2 ['-', '-'] = none from by decide,
        show matchHashes 3 ['-', '-'] = none from by decide,
        show matchHashes 4 ['-', '-'] = none from by decide,
        show matchCoreIdea ['-', '-'] = none from by decide,
        show matchUnordered ['-', '-'] = none from by decide,
        show matchOrdered ['-', '-'] = none from by decide,
        show (!(trim ['-', '-']).isEmpty) = true from by decide, Bool.false_eq_true, if_false,
        if_true]
    rw [h]

/-- C7: a single line that consists solely of three or more hyphens gives
exactly one block, a divider.  A line of one or two hyphens is never a divider:
alone it gives a paragraph, and in every state of the line loop it is taken as
a line of the open code block or as paragraph text, which adds no divider to
the output. -/
theorem divider_line (n : Nat) (hn : 3 ≤ n) :
    formatContent (.string (List.replicate n '-')) = .ok [.divider ⟨"divider", 0⟩] ∧
    ∀ line : Str, line = ['-'] ∨ line = ['-', '-'] →
      formatContent (.string line) = .ok [.paragraph ⟨"p", 1⟩ line] ∧
      ∀ index st, ∃ st1, processLine index line st = .ok st1 ∧
        countDividers st1.formattedSections = countDividers st.formattedSections := by
  constructor
  · have he : endsWithNonSpace (List.replicate n '-') = true :=
      endsWithNonSpace_replicate n (by omega) (by decide)
    have hline : processLine 0 (List.replicate n '-') State.init =
        .ok ⟨[.element (.divider ⟨"divider", 0⟩)], .null, 0, false, [], 0⟩ := by
      have hf : matchFence (trimEnd (List.replicate n '-')) = none := by
        rw [trimEnd_of_endsWithNonSpace he]
        obtain ⟨k, rfl⟩ : ∃ k, n = k + 1 := ⟨n - 1, by omega⟩
        exact matchFence_cons_of_ne _ (by decide)
      rw [processLine_noFence 0 _ hf, trimEnd_of_endsWithNonSpace he]
      simp [classifyLine, matchDivider_replicate n hn, State.init, closeCurrentSection,
        State.push]
    have h := @formatContent_join [List.replicate n '-'] _
      (by
        rw [join_singleton]
        exact ne_nil_of_endsWithNonSpace he)
      (by
        intro l hl
        simp only [List.mem_singleton] at hl
        subst hl
        intro hm
        have := List.eq_of_mem_replicate hm
        revert this; decide)
      (by
        intro l hl
        simp only [List.mem_singleton] at hl
        subst hl
        exact stripCR_of_endsWithNonSpace he)
      (by simp only [forEachLine]; rw [hline])
    rw [join_singleton] at h
    rw [h]
    rfl
  · intro line hl
    constructor
    · rcases hl with rfl | rfl <;> rfl
    · intro index st
      rw [processLine_hyphens line hl index st]
      by_cases h1 :
          (st.inCodeBlock && match st.currentSection with | .code _ => true | _ => false) = true
      · simp only [h1, if_true]
        obtain ⟨fs, cur, ll, icb, cl, sc⟩ := st
        cases cur with
        | code c => exact ⟨_, rfl, rfl⟩
        | null => simp at h1
        | paragraph c => simp at h1
        | list o r => simp at h1
      · simp only [h1]
        exact countDividers_addParagraphLine index line st

/-- Witness of C7: the line `---`. -/
theorem divider_line_witness :
    formatContent (.string "---".toList) = .ok [.divider ⟨"divider", 0⟩] :=
  (divider_line 3 (by decide)).1

/-! ## Code fences -/

theorem isSpace_eq_false_of_isWord {c : Char} (h : isWord c = true) : isSpace c = false := by
  have hr : 48 ≤ c.toNat ∧ c.toNat ≤ 122 := by
    simp only [isWord, isAlnum, Bool.or_eq_true, beq_iff_eq] at h
    rcases h with (h | h) | h
    · exact alnum_range (Or.inr h)
    · exact alnum_range (Or.inl h)
    · omega
  exact isSpace_eq_false_of_lt (by omega) (by omega)

theorem endsWithNonSpace_fence (g : Str) (hg : ∀ c ∈ g, isWord c = true) :
    endsWithNonSpace (fence ++ g) = true := by
  rcases List.eq_nil_or_concat g with rfl | ⟨g', c, rfl⟩
  · decide
  · have hc := isSpace_eq_false_of_isWord (hg c (by simp))
    have : (fence ++ (g' ++ [c])).getLast? = some c := by
      rw [← List.append_assoc, List.getLast?_append_of_ne_nil _ (by simp)]
      rfl
    simp [endsWithNonSpace, this, hc]

theorem matchFence_fence (g : Str) (hg : ∀ c ∈ g, isWord c = true) :
    matchFence (fence ++ g) = some g := by
  have : g.all isWord = true := List.all_eq_true.2 hg
  simp [fence, matchFence, this]

theorem not_mem_newline_fence (g : Str) (hg : ∀ c ∈ g, isWord c = true) :
    '\n' ∉ fence ++ g := by
  intro hm
  rcases List.mem_append.1 hm with h | h
  · revert h; decide
  · have := hg _ h
    revert this; decide

/-- The lines between the fence delimiters go to the open code block as they
are. -/
theorem forEachLine_codeBody (L : List Str) (hL : ∀ l ∈ L, matchFence (trimEnd l) = none)
    (index : Nat) (fs : List Entry) (content : List Str) (ll : Nat) (cl : Str) (sc : Nat) :
    forEachLine index L ⟨fs, .code content, ll, true, cl, sc⟩ =
      .ok ⟨fs, .code (content ++ L), ll, true, cl, sc⟩ := by
  induction L generalizing index content with
  | nil => simp [forEachLine]
  | cons l L ih =>
    simp only [forEachLine]
    rw [processLine_noFence index _ (hL l (List.mem_cons_self _ _))]
    simp only [Bool.and_self, if_true, pushContent]
    rw [ih (fun x hx => hL x (List.mem_cons_of_mem _ hx))]
    simp

theorem forEachLine_append (a b : List Str) (index : Nat) (st st1 : State)
    (h : forEachLine index a st = .ok st1) :
    forEachLine index (a ++ b) st = forEachLine (index + a.length) b st1 := by
  induction a generalizing index st with
  | nil => simp only [forEachLine] at h; cases h; rfl
  | cons l a ih =>
    simp only [forEachLine, List.cons_append] at h ⊢
    cases hp : processLine index l st with
    | error e => rw [hp] at h; cases h
    | ok st2 =>
      rw [hp] at h
      simp only [] at h ⊢
      have := ih (index + 1) st2 h
      simp only [List.length_cons]
      rw [show index + (a.length + 1) = index + 1 + a.length from by omega]
      exact this

/-- C8: for every language tag g of word characters (possibly empty) and every
list L of body lines none of which is a fence delimiter (a line that the fence
pattern matches once its trailing white space is removed) or contains a
carriage return or a line feed, `formatContent` of the opening fence with g,
the lines of L and the closing fence is exactly one code block with language g
and the lines L as they are; the counter of level-1 headings stays 0. -/
theorem fenced_code_block (g : Str) (L : List Str) (hg : ∀ c ∈ g, isWord c = true)
    (hL : ∀ l ∈ L, matchFence (trimEnd l) = none ∧ '\r' ∉ l ∧ '\n' ∉ l) :
    formatContent (.string (join ['\n'] ((fence ++ g) :: (L ++ [fence])))) =
        .ok [.code ⟨"code-container", L.length + 1⟩ g L] ∧
      ∃ st, forEachLine 0 (splitLines (join ['\n'] ((fence ++ g) :: (L ++ [fence]))))
          State.init = .ok st ∧ st.sectionCount = 0 := by
  have he := endsWithNonSpace_fence g hg
  have hnl : ∀ l ∈ (fence ++ g) :: (L ++ [fence]), '\n' ∉ l := by
    intro l hl
    simp only [List.mem_cons, List.mem_append, List.mem_singleton, List.not_mem_nil,
      or_false] at hl
    rcases hl with rfl | hl | rfl
    · exact not_mem_newline_fence g hg
    · exact (hL l hl).2.2
    · decide
  have hcr : ∀ l ∈ (fence ++ g) :: (L ++ [fence]), stripCR l = l := by
    intro l hl
    simp only [List.mem_cons, List.mem_append, List.mem_singleton, List.not_mem_nil,
      or_false] at hl
    rcases hl with rfl | hl | rfl
    · exact stripCR_of_endsWithNonSpace he
    · apply stripCR_of_getLast
      intro hlast
      exact (hL l hl).2.1 (List.mem_of_getLast?_eq_some hlast)
    · decide
  have hopen : processLine 0 (fence ++ g) State.init =
      .ok ⟨[], .code [], 0, true, g, 0⟩ := by
    rw [processLine_fence 0 State.init
      (by rw [trimEnd_of_endsWithNonSpace he]; exact matchFence_fence g hg)]
    rfl
  have hbody := forEachLine_codeBody L (fun l hl => (hL l hl).1) 1 [] [] 0 g 0
  have hclose : processLine (1 + L.length) fence ⟨[], .code ([] ++ L), 0, true, g, 0⟩ =
      .ok ⟨[.element (.code ⟨"code-container", 1 + L.length⟩ g L)], .null, 0, false, [], 0⟩ := by
    rw [processLine_fence _ _ (show matchFence (trimEnd fence) = some [] from by decide)]
    simp [closeCurrentSection, State.push]
  have hrun : forEachLine 0 ((fence ++ g) :: (L ++ [fence])) State.init =
      .ok ⟨[.element (.code ⟨"code-container", 1 + L.length⟩ g L)], .null, 0, false, [], 0⟩ := by
    simp only [forEachLine, hopen]
    rw [forEachLine_append L [fence] (0 + 1) _ _ hbody]
    simp only [forEachLine, Nat.zero_add, hclose]
  have hjoin : join ['\n'] ((fence ++ g) :: (L ++ [fence])) ≠ [] :=
    join_ne_nil _ _ (ne_nil_of_endsWithNonSpace he)
  constructor
  · rw [formatContent_join hjoin hnl hcr hrun]
    simp [closeCurrentSection, renderSections, Nat.add_comm]
  · refine ⟨⟨[.element (.code ⟨"code-container", 1 + L.length⟩ g L)], .null, 0, false, [], 0⟩,
      ?_, rfl⟩
    rw [splitLines_join (by simp) hnl hcr, hrun]

/-- Witness of C8: the fenced text with the tag `js` and the body line
`code line`. -/
theorem fenced_code_block_witness :
    formatContent (.string "```js\ncode line\n```".toList) =
      .ok [.code ⟨"code-container", 2⟩ "js".toList ["code line".toList]] :=
  (fenced_code_block "js".toList ["code line".toList] (by decide) (by decide)).1

/-- C9: take any input whose lines (as `formatContent` splits them) are `pre`,
then a fence line for the language tag g, then `post`, where `pre` holds an
even number of fence delimiters, so that the fence line opens a code block, and
no line of `post` is a fence delimiter.  Then `formatContent` succeeds and its
final block is a code block with language g holding all the lines of `post`,
in order and as they are. -/
theorem unterminated_fence (s : Str) (pre post : List Str) (f g : Str)
    (hsplit : splitLines s = pre ++ f :: post) (hpre : fenceCount pre % 2 = 0)
    (hf : trimEnd f = fence ++ g) (hg : ∀ c ∈ g, isWord c = true)
    (hpost : ∀ l ∈ post, matchFence (trimEnd l) = none) :
    ∃ blocks, formatContent (.string s) =
      .ok (blocks ++ [.code ⟨"code-container", pre.length + 1 + post.length⟩ g post]) := by
  have hs : s ≠ [] := by
    rintro rfl
    have h1 : (pre ++ f :: post).length = 1 := by rw [← hsplit]; rfl
    have hp : pre = [] := by
      cases pre with
      | nil => rfl
      | cons a pre => simp at h1
    subst hp
    have hf0 : f = [] := by
      have : [([] : Str)] = f :: post := hsplit
      injection this with e _
      exact e.symm
    subst hf0
    revert hf
    simp [fence, trimEnd]
  obtain ⟨st1, h1, _, c1⟩ := forEachLine_ok pre 0 inv_init
  have hc : st1.inCodeBlock = false := by
    rw [c1]
    simp [State.init, hpre]
  have hfence : matchFence (trimEnd f) = some g := by rw [hf]; exact matchFence_fence g hg
  have hopen : processLine pre.length f st1 =
      .ok ⟨(closeCurrentSection pre.length st1).formattedSections, .code [],
        (closeCurrentSection pre.length st1).listLevel, true, g,
        (closeCurrentSection pre.length st1).sectionCount⟩ := by
    rw [processLine_fence _ st1 hfence]
    simp [hc]
  have hbody := forEachLine_codeBody post hpost (pre.length + 1)
    (closeCurrentSection pre.length st1).formattedSections []
    (closeCurrentSection pre.length st1).listLevel g
    (closeCurrentSection pre.length st1).sectionCount
  have hrun : forEachLine 0 (pre ++ f :: post) State.init =
      .ok ⟨(closeCurrentSection pre.length st1).formattedSections, .code ([] ++ post),
        (closeCurrentSection pre.length st1).listLevel, true, g,
        (closeCurrentSection pre.length st1).sectionCount⟩ := by
    rw [forEachLine_append pre (f :: post) 0 _ _ h1]
    simp only [forEachLine, Nat.zero_add, hopen, hbody]
  refine ⟨renderSections 0 (closeCurrentSection pre.length st1).formattedSections, ?_⟩
  rw [@formatContent_of_sections s
    ((closeCurrentSection pre.length st1).formattedSections ++
      [.element (.code ⟨"code-container", pre.length + 1 + post.length⟩ g post)]) hs
    (by
      rw [hsplit]
      simp only [formatSections, hrun]
      simp [closeCurrentSection, State.push, Nat.add_assoc]
      omega),
    renderSections_append_element]

/-- Witness of C9: a paragraph line, then a fence that is never closed. -/
theorem unterminated_fence_witness :
    ∃ blocks, formatContent (.string "intro\n```js\nlet x\n  y".toList) =
      .ok (blocks ++ [.code ⟨"code-container", 1 + 1 + 2⟩ "js".toList
        ["let x".toList, "  y".toList]]) :=
  unterminated_fence "intro\n```js\nlet x\n  y".toList ["intro".toList]
    ["let x".toList, "  y".toList] "```js".toList "js".toList (by decide) (by decide)
    (by decide) (by decide) (by decide)

/-! ## The callout -/

theorem trimEnd_stripCR (x : Str) : trimEnd (stripCR x) = trimEnd x := by
  unfold stripCR
  split
  · rename_i h
    rcases List.eq_nil_or_concat x with rfl | ⟨y, c, rfl⟩
    · simp at h
    · simp only [List.concat_eq_append] at h ⊢
      rw [List.getLast?_concat] at h
      injection h with h
      subst h
      rw [List.dropLast_concat]
      unfold trimEnd
      rw [List.rdropWhile_concat_pos _ _ _ (show isSpace '\r' = true from by decide)]
  · rfl

theorem trimEnd_append_of_endsWithNonSpace {p : Str} (b : Str) (hp : endsWithNonSpace p = true) :
    trimEnd (p ++ b) = p ++ trimEnd b := by
  induction b using List.reverseRecOn with
  | nil =>
    rw [List.append_nil, trimEnd_of_endsWithNonSpace hp]
    simp [trimEnd]
  | append_singleton b c ih =>
    unfold trimEnd at ih ⊢
    rw [← List.append_assoc, List.rdropWhile_concat, List.rdropWhile_concat]
    split
    · exact ih
    · simp

theorem rdropWhile_dropWhile_concat {p : Char → Bool} (l : Str) {a : Char} (ha : p a = true) :
    (List.dropWhile p (l ++ [a])).rdropWhile p = (List.dropWhile p l).rdropWhile p := by
  induction l with
  | nil => simp [List.dropWhile, ha]
  | cons x l ih =>
    by_cases hx : p x = true
    · simp only [List.cons_append, List.dropWhile, hx]
      exact ih
    · simp only [List.cons_append, List.dropWhile, hx]
      exact List.rdropWhile_concat_pos p (x :: l) a ha

theorem trim_trimEnd (b : Str) : trim (trimEnd b) = trim b := by
  unfold trim trimEnd
  induction b using List.reverseRecOn with
  | nil => rfl
  | append_singleton b c ih =>
    by_cases hc : isSpace c = true
    · rw [List.rdropWhile_concat_pos _ _ _ hc, ih, rdropWhile_dropWhile_concat b hc]
    · rw [List.rdropWhile_concat_neg _ _ _ hc]

theorem dropLiteralCI_append (lit p r : Str) (h : p.map asciiUpper = lit.map asciiUpper) :
    dropLiteralCI lit (p ++ r) = some (p, r) := by
  induction lit generalizing p with
  | nil =>
    cases p with
    | nil => cases r <;> rfl
    | cons a p => simp at h
  | cons x lit ih =>
    cases p with
    | nil => simp at h
    | cons a p =>
      simp only [List.map_cons, List.cons.injEq] at h
      simp [dropLiteralCI, eqIgnoreCase, h.1, ih p h.2]

theorem asciiUpper_of_isSpace {c : Char} (h : isSpace c = true) : asciiUpper c = c := by
  have hl : isLower c = false := by
    cases hl : isLower c with
    | false => rfl
    | true =>
      have hr : 97 ≤ c.toNat ∧ c.toNat ≤ 122 := by simpa [isLower] using hl
      rw [isSpace_eq_false_of_lt (by omega) (by omega)] at h
      cases h
  simp [asciiUpper, hl]

/-- C10: for every single-line input made of the prefix "Core Idea:" in any
letter case followed by a text b, `formatContent` returns exactly one callout
block, whose body is `formatInlineText` of b with its leading and trailing
white space removed. -/
theorem core_idea_line (p b : Str) (hp : p.map asciiUpper = "CORE IDEA:".toList)
    (hb : '\n' ∉ b) :
    formatContent (.string (p ++ b)) =
      .ok [.callout ⟨"core-idea", 0⟩ (formatInlineText (trim b))] := by
  have hnlp : '\n' ∉ p := by
    intro hm
    have : asciiUpper '\n' ∈ p.map asciiUpper := List.mem_map_of_mem _ hm
    rw [hp] at this
    revert this; decide
  have hlast : endsWithNonSpace p = true := by
    have h1 : (p.map asciiUpper).getLast? = some ':' := by rw [hp]; rfl
    rw [List.getLast?_map] at h1
    cases hl : p.getLast? with
    | none => rw [hl] at h1; cases h1
    | some c =>
      rw [hl] at h1
      simp only [Option.map_some', Option.some.injEq] at h1
      cases hs : isSpace c with
      | false => simp [endsWithNonSpace, hl, hs]
      | true =>
        rw [asciiUpper_of_isSpace hs] at h1
        subst h1
        exact absurd hs (by decide)
  obtain ⟨a, p', rfl, ha⟩ : ∃ a p', p = a :: p' ∧ asciiUpper a = 'C' := by
    cases p with
    | nil => cases hp
    | cons a p' =>
      simp only [List.map_cons] at hp
      injection hp with h1 _
      exact ⟨a, p', rfl, h1⟩
  have n1 : a ≠ backtick := by rintro rfl; revert ha; decide
  have n2 : a ≠ '-' := by rintro rfl; revert ha; decide
  have n3 : a ≠ '#' := by rintro rfl; revert ha; decide
  have htrim : trimEnd (stripCR (a :: p' ++ b)) = a :: p' ++ trimEnd b := by
    rw [trimEnd_stripCR, trimEnd_append_of_endsWithNonSpace b hlast]
  have hcore : matchCoreIdea (a :: p' ++ trimEnd b) = some (trimEnd b) := by
    unfold matchCoreIdea
    rw [dropLiteralCI_append "Core Idea:".toList (a :: p') (trimEnd b) (by rw [hp]; rfl)]
  have hline : processLine 0 (stripCR (a :: p' ++ b)) State.init =
      .ok ⟨[.element (.callout ⟨"core-idea", 0⟩ (formatInlineText (trim b)))], .null, 0, false,
        [], 0⟩ := by
    rw [processLine_noFence 0 _ (by rw [htrim]; exact matchFence_cons_of_ne _ n1), htrim]
    have h1 : matchDivider (a :: p' ++ trimEnd b) = false := matchDivider_cons_of_ne _ n2
    have h2 : matchH1 (a :: p' ++ trimEnd b) = false := matchH1_cons_of_ne _ n3
    have h3 : ∀ n, matchHashes (n + 1) (a :: p' ++ trimEnd b) = none :=
      fun n => matchHashes_succ_cons_of_ne n _ n3
    simp only [State.init, Bool.false_and, Bool.false_eq_true, if_false]
    simp only [classifyLine, h1, h2, h3, hcore, Bool.false_eq_true, if_false, trim_trimEnd]
    rfl
  have hsplit : splitLines (a :: p' ++ b) = [stripCR (a :: p' ++ b)] := by
    unfold splitLines
    rw [split_of_not_mem (by
      intro hm
      rcases List.mem_append.1 hm with h | h
      · exact hnlp h
      · exact hb h)]
    rfl
  rw [@formatContent_of_sections (a :: p' ++ b)
    [.element (.callout ⟨"core-idea", 0⟩ (formatInlineText (trim b)))] (by simp)
    (by rw [hsplit]; simp only [formatSections, forEachLine, hline, closeCurrentSection])]
  rfl

/-- Witness of C10: `"Core Idea: stay calm"` gives one callout with the body
"stay calm". -/
theorem core_idea_line_witness :
    formatContent (.string "Core Idea: stay calm".toList) =
      .ok [.callout ⟨"core-idea", 0⟩ "stay calm".toList] :=
  core_idea_line "Core Idea:".toList " stay calm".toList (by decide) (by decide)

/-! ## Paragraphs -/

theorem addParagraphLine_of_null (index : Nat) (t : Str) (fs : List Entry) (ll : Nat)
    (icb : Bool) (cl : Str) (sc : Nat) :
    addParagraphLine index t ⟨fs, .null, ll, icb, cl, sc⟩ =
      .ok ⟨fs, .paragraph [t], ll, icb, cl, sc⟩ := rfl

theorem addParagraphLine_of_paragraph (index : Nat) (t : Str) (fs : List Entry)
    (content : List Str) (ll : Nat) (icb : Bool) (cl : Str) (sc : Nat) :
    addParagraphLine index t ⟨fs, .paragraph content, ll, icb, cl, sc⟩ =
      .ok ⟨fs, .paragraph (content ++ [t]), ll, icb, cl, sc⟩ := rfl

theorem isPlainText_stripCR (line : Str) : isPlainText (stripCR line) = isPlainText line := by
  simp only [isPlainText, trimEnd_stripCR]

theorem processLine_plainText {line : Str} (h : isPlainText line = true) (index : Nat)
    (st : State) (hc : st.inCodeBlock = false) :
    processLine index line st = addParagraphLine index (trimEnd line) st := by
  simp only [isPlainText, Bool.and_eq_true, Option.isNone_iff_eq_none, Bool.not_eq_true'] at h
  obtain ⟨⟨⟨⟨⟨⟨⟨⟨⟨h0, h1⟩, h2⟩, h3⟩, h4⟩, h5⟩, h6⟩, h7⟩, h8⟩, h9⟩ := h
  rw [processLine_noFence index st h0]
  simp only [hc, Bool.false_and, Bool.false_eq_true, if_false]
  simp only [classifyLine, h1, h2, h3, h4, h5, h6, h7, h8, h9, Bool.false_eq_true, if_false,
    Bool.not_false, if_true]

/-- A run of lines each of which the classifier takes as paragraph text,
started with no section open: one open paragraph holding the trimmed lines. -/
theorem forEachLine_paragraphRun (l : Str) (ls : List Str)
    (h : ∀ x ∈ l :: ls, ∀ index st, st.inCodeBlock = false →
      processLine index x st = addParagraphLine index (trimEnd x) st)
    (index : Nat) (fs : List Entry) (ll : Nat) (cl : Str) (sc : Nat) :
    forEachLine index (l :: ls) ⟨fs, .null, ll, false, cl, sc⟩ =
      .ok ⟨fs, .paragraph ((l :: ls).map trimEnd), ll, false, cl, sc⟩ := by
  have hrest : ∀ (ys : List Str), (∀ y ∈ ys, y ∈ l :: ls) → ∀ (index : Nat)
      (content : List Str),
      forEachLine index ys ⟨fs, .paragraph content, ll, false, cl, sc⟩ =
        .ok ⟨fs, .paragraph (content ++ ys.map trimEnd), ll, false, cl, sc⟩ := by
    intro ys
    induction ys with
    | nil => intro _ index content; simp [forEachLine]
    | cons y ys ih =>
      intro hmem index content
      simp only [forEachLine]
      rw [h y (hmem y (List.mem_cons_self _ _)) index _ rfl, addParagraphLine_of_paragraph]
      simp only []
      rw [ih (fun z hz => hmem z (List.mem_cons_of_mem _ hz))]
      simp
  simp only [forEachLine]
  rw [h l (List.mem_cons_self _ _) index _ rfl, addParagraphLine_of_null]
  simp only []
  rw [hrest ls (fun z hz => List.mem_cons_of_mem _ hz)]
  simp

theorem processLine_blank (index : Nat) (fs : List Entry) (content : List Str) (ll : Nat)
    (cl : Str) (sc : Nat) :
    processLine index [] ⟨fs, .paragraph content, ll, false, cl, sc⟩ =
      .ok ⟨fs ++ [.element (.paragraph ⟨"p", index⟩ (formatInlineText (join [' '] content)))],
        .null, 0, false, cl, sc⟩ := rfl

theorem splitLines_two_paragraphs {a b : Str} (ha : '\n' ∉ a) (hb : '\n' ∉ b) :
    splitLines (a ++ '\n' :: '\n' :: b) = [stripCR a, [], stripCR b] := by
  unfold splitLines
  rw [split_append_sep _ ha, show ('\n' :: b) = [] ++ '\n' :: b from rfl,
    split_append_sep _ (by simp), split_of_not_mem hb]
  rfl

theorem splitLines_two_lines {a b : Str} (ha : '\n' ∉ a) (hb : '\n' ∉ b) :
    splitLines (a ++ '\n' :: b) = [stripCR a, stripCR b] := by
  unfold splitLines
  rw [split_append_sep _ ha, split_of_not_mem hb]
  rfl

/-- C11, as amended: for every two plain-text lines a and b (lines that match
no fence, divider, heading, callout or list pattern and are not blank),
`formatContent(a + "\n\n" + b)` is exactly two paragraph blocks, the first with
content `formatInlineText` of a without its trailing white space and the second
with content `formatInlineText` of b without its trailing white space: a blank
line always ends the open paragraph. -/
theorem blank_line_separates_paragraphs (a b : Str) (ha : isPlainText a = true)
    (hb : isPlainText b = true) (hna : '\n' ∉ a) (hnb : '\n' ∉ b) :
    formatContent (.string (a ++ '\n' :: '\n' :: b)) =
      .ok [.paragraph ⟨"p", 1⟩ (formatInlineText (trimEnd a)),
           .paragraph ⟨"p", 3⟩ (formatInlineText (trimEnd b))] := by
  have hpa := fun index st hc =>
    processLine_plainText (by rw [isPlainText_stripCR]; exact ha : isPlainText (stripCR a) = true)
      index st hc
  have hpb := fun index st hc =>
    processLine_plainText (by rw [isPlainText_stripCR]; exact hb : isPlainText (stripCR b) = true)
      index st hc
  have hrun : forEachLine 0 [stripCR a, [], stripCR b] State.init =
      .ok ⟨[.element (.paragraph ⟨"p", 1⟩ (formatInlineText (trimEnd a)))],
        .paragraph [trimEnd b], 0, false, [], 0⟩ := by
    simp only [forEachLine]
    rw [hpa 0 State.init rfl, trimEnd_stripCR]
    simp only [State.init, addParagraphLine_of_null, processLine_blank, join_singleton,
      List.nil_append]
    rw [hpb 2 _ rfl, trimEnd_stripCR, addParagraphLine_of_null]
  rw [@formatContent_of_sections (a ++ '\n' :: '\n' :: b)
    [.element (.paragraph ⟨"p", 1⟩ (formatInlineText (trimEnd a))),
     .element (.paragraph ⟨"p", 3⟩ (formatInlineText (trimEnd b)))] (by simp)
    (by
      rw [splitLines_two_paragraphs hna hnb]
      simp only [formatSections, hrun]
      simp [closeCurrentSection, State.push, join_singleton])]
  rfl

/-- Witness of C11 as amended: two plain lines around a blank line. -/
theorem blank_line_separates_paragraphs_witness :
    formatContent (.string "alpha \n\nbeta".toList) =
      .ok [.paragraph ⟨"p", 1⟩ "alpha".toList, .paragraph ⟨"p", 3⟩ "beta".toList] :=
  blank_line_separates_paragraphs "alpha ".toList "beta".toList (by decide) (by decide)
    (by decide) (by decide)

/-- Counterexample to C11 as stated: the plain-text line `"x "` ends in a space;
the paragraph holds the trimmed line, so its content is "x" and not
`formatInlineText("x ")`, which is "x ". -/
theorem blank_line_separates_paragraphs_counterexample :
    isPlainText "x ".toList = true ∧ isPlainText "y".toList = true ∧
    formatContent (.string ("x ".toList ++ '\n' :: '\n' :: "y".toList)) =
      .ok [.paragraph ⟨"p", 1⟩ "x".toList, .paragraph ⟨"p", 3⟩ "y".toList] ∧
    formatInlineText "x ".toList = "x ".toList ∧
    ¬ ∃ k1 k2, formatContent (.string ("x ".toList ++ '\n' :: '\n' :: "y".toList)) =
      .ok [.paragraph k1 (formatInlineText "x ".toList),
           .paragraph k2 (formatInlineText "y".toList)] := by
  refine ⟨by decide, by decide, by rfl, by rfl, ?_⟩
  rintro ⟨k1, k2, h⟩
  rw [show formatContent (.string ("x ".toList ++ '\n' :: '\n' :: "y".toList)) =
    .ok [.paragraph ⟨"p", 1⟩ "x".toList, .paragraph ⟨"p", 3⟩ "y".toList] from by rfl,
    show formatInlineText "x ".toList = "x ".toList from by rfl] at h
  injection h with h
  injection h with h _
  injection h with _ h
  revert h
  decide

/-- C12: for every two plain-text lines a and b without leading or trailing
white space (matching no fence, divider, heading, callout or list pattern, not
blank), `formatContent(a + "\n" + b)` is exactly one paragraph block whose
content is `formatInlineText(a + " " + b)`: the inline formatter is applied
once, to the joined text. -/
theorem adjacent_lines_one_paragraph (a b : Str) (ha : isPlainText a = true)
    (hb : isPlainText b = true) (hna : '\n' ∉ a) (hnb : '\n' ∉ b)
    (haw : headSatisfies (fun c => !isSpace c) a = true ∧ endsWithNonSpace a = true)
    (hbw : headSatisfies (fun c => !isSpace c) b = true ∧ endsWithNonSpace b = true) :
    formatContent (.string (a ++ '\n' :: b)) =
      .ok [.paragraph ⟨"p", 2⟩ (formatInlineText (a ++ ' ' :: b))] := by
  have hsa := stripCR_of_endsWithNonSpace haw.2
  have hsb := stripCR_of_endsWithNonSpace hbw.2
  have hrun := forEachLine_paragraphRun a [b]
    (by
      intro x hx index st hc
      simp only [List.mem_cons, List.mem_singleton, List.not_mem_nil, or_false] at hx
      rcases hx with rfl | rfl
      · exact processLine_plainText ha index st hc
      · exact processLine_plainText hb index st hc) 0 [] 0 [] 0
  rw [@formatContent_of_sections (a ++ '\n' :: b)
    [.element (.paragraph ⟨"p", 2⟩ (formatInlineText (a ++ ' ' :: b)))] (by simp)
    (by
      rw [splitLines_two_lines hna hnb, hsa, hsb]
      simp only [formatSections, State.init, hrun]
      simp [closeCurrentSection, State.push, join_cons_cons, join_singleton,
        trimEnd_of_endsWithNonSpace haw.2, trimEnd_of_endsWithNonSpace hbw.2])]
  rfl

/-- Witness of C12: the lines "alpha" and "beta". -/
theorem adjacent_lines_one_paragraph_witness :
    formatContent (.string "alpha\nbeta".toList) =
      .ok [.paragraph ⟨"p", 2⟩ "alpha beta".toList] :=
  adjacent_lines_one_paragraph "alpha".toList "beta".toList (by decide) (by decide) (by decide)
    (by decide) (by decide) (by decide)

/-! ## Numbered section headers -/

theorem isUpper_iff (c : Char) : isUpper c = true ↔ 65 ≤ c.toNat ∧ c.toNat ≤ 90 := by
  simp [isUpper]

theorem isLower_iff (c : Char) : isLower c = true ↔ 97 ≤ c.toNat ∧ c.toNat ≤ 122 := by
  simp [isLower]

theorem isSpace_eq_false_of_isUpper {c : Char} (h : isUpper c = true) : isSpace c = false := by
  rw [isUpper_iff] at h
  exact isSpace_eq_false_of_lt (by omega) (by omega)

theorem isSpace_eq_false_of_isLower {c : Char} (h : isLower c = true) : isSpace c = false := by
  rw [isLower_iff] at h
  exact isSpace_eq_false_of_lt (by omega) (by omega)

theorem isLower_eq_false_of_isSpace {c : Char} (h : isSpace c = true) : isLower c = false := by
  cases hl : isLower c with
  | false => rfl
  | true => rw [isSpace_eq_false_of_isLower hl] at h; cases h

theorem isSectionHeader_of_shape {ds l1 ws l2 : Str} {u1 u2 : Char} (r : Str)
    (hds : ds ≠ [] ∧ ∀ c ∈ ds, isDigit c = true) (hu1 : isUpper u1 = true)
    (hl1 : l1 ≠ [] ∧ ∀ c ∈ l1, isLower c = true) (hws : ws ≠ [] ∧ ∀ c ∈ ws, isSpace c = true)
    (hu2 : isUpper u2 = true) (hl2 : l2 ≠ [] ∧ ∀ c ∈ l2, isLower c = true) :
    isSectionHeader (ds ++ '.' :: ' ' :: u1 :: (l1 ++ (ws ++ u2 :: (l2 ++ r)))) = true := by
  obtain ⟨d, ds', rfl⟩ := List.exists_cons_of_ne_nil hds.1
  obtain ⟨a, l1', rfl⟩ := List.exists_cons_of_ne_nil hl1.1
  obtain ⟨w, ws', rfl⟩ := List.exists_cons_of_ne_nil hws.1
  obtain ⟨b, l2', rfl⟩ := List.exists_cons_of_ne_nil hl2.1
  have hdot : isDigit '.' = false := by decide
  have hsp : isSpace ' ' = true := by decide
  have hw := hws.2 w (List.mem_cons_self _ _)
  have ha := hl1.2 a (List.mem_cons_self _ _)
  have hb := hl2.2 b (List.mem_cons_self _ _)
  obtain ⟨e1, e2⟩ := takeWhile_dropWhile_append_stop
    (' ' :: u1 :: (a :: l1' ++ (w :: ws' ++ u2 :: (b :: l2' ++ r)))) hds.2 hdot
  obtain ⟨_, e3⟩ := @takeWhile_dropWhile_append_stop isLower _ _
    (ws' ++ u2 :: (b :: l2' ++ r)) (fun c hc => hl1.2 c (List.mem_cons_of_mem _ hc))
    (isLower_eq_false_of_isSpace hw)
  obtain ⟨_, e4⟩ := @takeWhile_dropWhile_append_stop isSpace _ _
    (b :: l2' ++ r) (fun c hc => hws.2 c (List.mem_cons_of_mem _ hc))
    (isSpace_eq_false_of_isUpper hu2)
  unfold isSectionHeader
  rw [e1, e2]
  simp only [List.cons_append] at e3 e4 ⊢
  simp only [spaces, hsp, if_true, List.dropWhile, isSpace_eq_false_of_isUpper hu1,
    capitalizedWord, hu1, ha, hw, hu2, hb, Bool.and_self, e3, e4, Option.isSome_some]

theorem stripCR_append_of_endsWithNonSpace {p : Str} (r : Str) (hp : endsWithNonSpace p = true) :
    stripCR (p ++ r) = p ++ stripCR r := by
  rcases List.eq_nil_or_concat r with rfl | ⟨r', c, rfl⟩
  · rw [List.append_nil, stripCR_of_endsWithNonSpace hp]
    simp [stripCR]
  · simp only [List.concat_eq_append]
    unfold stripCR
    rw [← List.append_assoc, List.getLast?_concat, List.getLast?_concat, List.dropLast_concat,
      List.dropLast_concat]
    split <;> simp

theorem splitLines_join_map {lines : List Str} (hne : lines ≠ [])
    (hnl : ∀ l ∈ lines, '\n' ∉ l) : splitLines (join ['\n'] lines) = lines.map stripCR := by
  unfold splitLines
  rw [split_join hne hnl]

theorem endsWithNonSpace_headerPrefix (ds l1 ws : Str) (u1 u2 : Char) {l2 : Str}
    (hl2 : l2 ≠ [] ∧ ∀ c ∈ l2, isLower c = true) :
    endsWithNonSpace (ds ++ '.' :: ' ' :: u1 :: (l1 ++ (ws ++ u2 :: l2))) = true := by
  have h2 : endsWithNonSpace l2 = true := by
    rcases List.eq_nil_or_concat l2 with rfl | ⟨l2', c, rfl⟩
    · exact absurd rfl hl2.1
    · have := isSpace_eq_false_of_isLower (hl2.2 c (by simp))
      simp [endsWithNonSpace, List.getLast?_concat, this]
  have := endsWithNonSpace_append (ds ++ '.' :: ' ' :: u1 :: (l1 ++ (ws ++ [u2]))) h2
  simpa using this

theorem processLine_sectionHeader {ds l1 ws l2 : Str} {u1 u2 : Char} (r : Str)
    (hds : ds ≠ [] ∧ ∀ c ∈ ds, isDigit c = true) (hu1 : isUpper u1 = true)
    (hl1 : l1 ≠ [] ∧ ∀ c ∈ l1, isLower c = true) (hws : ws ≠ [] ∧ ∀ c ∈ ws, isSpace c = true)
    (hu2 : isUpper u2 = true) (hl2 : l2 ≠ [] ∧ ∀ c ∈ l2, isLower c = true)
    (index : Nat) (st : State) (hc : st.inCodeBlock = false) :
    processLine index (ds ++ '.' :: ' ' :: u1 :: (l1 ++ (ws ++ u2 :: (l2 ++ r)))) st =
      addParagraphLine index
        (trimEnd (ds ++ '.' :: ' ' :: u1 :: (l1 ++ (ws ++ u2 :: (l2 ++ r))))) st := by
  have hend := endsWithNonSpace_headerPrefix ds l1 ws u1 u2 hl2
  have htrim : trimEnd (ds ++ '.' :: ' ' :: u1 :: (l1 ++ (ws ++ u2 :: (l2 ++ r)))) =
      ds ++ '.' :: ' ' :: u1 :: (l1 ++ (ws ++ u2 :: (l2 ++ trimEnd r))) := by
    have := trimEnd_append_of_endsWithNonSpace r hend
    simpa using this
  rw [htrim]
  obtain ⟨d, ds', rfl⟩ := List.exists_cons_of_ne_nil hds.1
  have hd := hds.2 d (List.mem_cons_self _ _)
  have hr := alnum_range (Or.inl hd)
  obtain ⟨n1, n2, n3⟩ := alnum_ne (Or.inl hd)
  have hsp : isSpace d = false := isSpace_eq_false_of_lt (by omega) (by omega)
  have hb : isBulletChar d = false := isBulletChar_eq_false_of_range hr.1 hr.2
  have hhead := isSectionHeader_of_shape (trimEnd r) hds hu1 hl1 hws hu2 hl2
  have hord := @matchOrdered_digits (d :: ds') (u1 :: (l1 ++ (ws ++ u2 :: (l2 ++ trimEnd r))))
    (by simp) hds.2
  have hcore : matchCoreIdea
      (d :: ds' ++ '.' :: ' ' :: u1 :: (l1 ++ (ws ++ u2 :: (l2 ++ trimEnd r)))) = none :=
    matchCoreIdea_cons_of_ne _ (eqIgnoreCase_C_of_digit hd)
  rw [processLine_noFence index st (by rw [htrim]; exact matchFence_cons_of_ne _ n1), htrim]
  simp only [hc, Bool.false_and, Bool.false_eq_true, if_false]
  have h1 : matchDivider
      (d :: ds' ++ '.' :: ' ' :: u1 :: (l1 ++ (ws ++ u2 :: (l2 ++ trimEnd r)))) = false :=
    matchDivider_cons_of_ne _ n2
  have h2 : matchH1
      (d :: ds' ++ '.' :: ' ' :: u1 :: (l1 ++ (ws ++ u2 :: (l2 ++ trimEnd r)))) = false :=
    matchH1_cons_of_ne _ n3
  have h3 : ∀ n, matchHashes (n + 1)
      (d :: ds' ++ '.' :: ' ' :: u1 :: (l1 ++ (ws ++ u2 :: (l2 ++ trimEnd r)))) = none :=
    fun n => matchHashes_succ_cons_of_ne n _ n3
  have h5 : matchUnordered
      (d :: ds' ++ '.' :: ' ' :: u1 :: (l1 ++ (ws ++ u2 :: (l2 ++ trimEnd r)))) = none :=
    matchUnordered_cons_of_not_bullet _ hsp hb
  simp only [classifyLine, h1, h2, h3, hcore, h5, hord, hhead, Bool.false_eq_true, if_false,
    Bool.not_true]

/-- C13: every line that starts with digits, a dot, a space and two consecutive
capitalized words (an upper-case letter followed by lower-case letters, as in
"1. Getting Started") is treated as plain paragraph text in every state outside
a code fence: the classifier hands the whole right-trimmed line, its "1. "
prefix included, to the paragraph branch.  Alone it gives one paragraph and no
list block, and between two plain-text lines it merges with them into one
paragraph. -/
theorem numbered_header_is_paragraph (ds l1 ws l2 rest : Str) (u1 u2 : Char)
    (hds : ds ≠ [] ∧ ∀ c ∈ ds, isDigit c = true) (hu1 : isUpper u1 = true)
    (hl1 : l1 ≠ [] ∧ ∀ c ∈ l1, isLower c = true) (hws : ws ≠ [] ∧ ∀ c ∈ ws, isSpace c = true)
    (hu2 : isUpper u2 = true) (hl2 : l2 ≠ [] ∧ ∀ c ∈ l2, isLower c = true)
    (hnl : '\n' ∉ ws ∧ '\n' ∉ rest) :
    (∀ index st, st.inCodeBlock = false →
      processLine index (numberedHeaderLine ds u1 l1 ws u2 l2 rest) st =
        addParagraphLine index (trimEnd (numberedHeaderLine ds u1 l1 ws u2 l2 rest)) st) ∧
    formatContent (.string (numberedHeaderLine ds u1 l1 ws u2 l2 rest)) =
      .ok [.paragraph ⟨"p", 1⟩
        (formatInlineText (trimEnd (numberedHeaderLine ds u1 l1 ws u2 l2 rest)))] ∧
    ∀ a b : Str, isPlainText a = true → isPlainText b = true → '\n' ∉ a → '\n' ∉ b →
      formatContent (.string (join ['\n'] [a, numberedHeaderLine ds u1 l1 ws u2 l2 rest, b])) =
        .ok [.paragraph ⟨"p", 3⟩ (formatInlineText (join [' ']
          [trimEnd a, trimEnd (numberedHeaderLine ds u1 l1 ws u2 l2 rest), trimEnd b]))] := by
  have hline : ∀ r index st, st.inCodeBlock = false →
      processLine index (numberedHeaderLine ds u1 l1 ws u2 l2 r) st =
        addParagraphLine index (trimEnd (numberedHeaderLine ds u1 l1 ws u2 l2 r)) st :=
    fun r index st hc => processLine_sectionHeader r hds hu1 hl1 hws hu2 hl2 index st hc
  have hstrip : stripCR (numberedHeaderLine ds u1 l1 ws u2 l2 rest) =
      numberedHeaderLine ds u1 l1 ws u2 l2 (stripCR rest) := by
    have := stripCR_append_of_endsWithNonSpace rest
      (endsWithNonSpace_headerPrefix ds l1 ws u1 u2 hl2)
    simpa [numberedHeaderLine] using this
  have hstripped : ∀ index st, st.inCodeBlock = false →
      processLine index (stripCR (numberedHeaderLine ds u1 l1 ws u2 l2 rest)) st =
        addParagraphLine index (trimEnd (stripCR (numberedHeaderLine ds u1 l1 ws u2 l2 rest)))
          st := by
    intro index st hc
    rw [hstrip]
    exact hline _ index st hc
  have hnl1 : '\n' ∉ numberedHeaderLine ds u1 l1 ws u2 l2 rest := by
    intro hm
    simp only [numberedHeaderLine, List.mem_append, List.mem_cons] at hm
    rcases hm with h | h | h | h | h | h | h | h | h
    · have := hds.2 _ h; revert this; decide
    · revert h; decide
    · revert h; decide
    · subst h; revert hu1; decide
    · have := hl1.2 _ h; revert this; decide
    · exact hnl.1 h
    · subst h; revert hu2; decide
    · have := hl2.2 _ h; revert this; decide
    · exact hnl.2 h
  have hne : numberedHeaderLine ds u1 l1 ws u2 l2 rest ≠ [] := by
    simp [numberedHeaderLine]
  refine ⟨hline rest, ?_, ?_⟩
  · have hrun := forEachLine_paragraphRun
      (stripCR (numberedHeaderLine ds u1 l1 ws u2 l2 rest)) []
      (by
        intro x hx index st hc
        simp only [List.mem_singleton] at hx
        subst hx
        exact hstripped index st hc) 0 [] 0 [] 0
    rw [@formatContent_of_sections (numberedHeaderLine ds u1 l1 ws u2 l2 rest)
      [.element (.paragraph ⟨"p", 1⟩
        (formatInlineText (trimEnd (numberedHeaderLine ds u1 l1 ws u2 l2 rest))))] hne
      (by
        unfold splitLines
        rw [split_of_not_mem hnl1]
        simp only [List.map_cons, List.map_nil, formatSections, State.init, hrun]
        simp [closeCurrentSection, State.push, join_singleton, trimEnd_stripCR])]
    rfl
  · intro a b ha hb hna hnb
    have hrun := forEachLine_paragraphRun (stripCR a)
      [stripCR (numberedHeaderLine ds u1 l1 ws u2 l2 rest), stripCR b]
      (by
        intro x hx index st hc
        simp only [List.mem_cons, List.mem_singleton, List.not_mem_nil, or_false] at hx
        rcases hx with rfl | rfl | rfl
        · exact processLine_plainText (by rw [isPlainText_stripCR]; exact ha) index st hc
        · exact hstripped index st hc
        · exact processLine_plainText (by rw [isPlainText_stripCR]; exact hb) index st hc)
      0 [] 0 [] 0
    have hjoin : join ['\n'] [a, numberedHeaderLine ds u1 l1 ws u2 l2 rest, b] ≠ [] := by
      rw [join_cons_cons, join_cons_cons]
      simp
    rw [@formatContent_of_sections _
      [.element (.paragraph ⟨"p", 3⟩ (formatInlineText (join [' ']
        [trimEnd a, trimEnd (numberedHeaderLine ds u1 l1 ws u2 l2 rest), trimEnd b])))] hjoin
      (by
        rw [splitLines_join_map (by simp) (by
          intro l hl
          simp only [List.mem_cons, List.mem_singleton, List.not_mem_nil, or_false] at hl
          rcases hl with rfl | rfl | rfl
          · exact hna
          · exact hnl1
          · exact hnb)]
        simp only [List.map_cons, List.map_nil, formatSections, State.init, hrun]
        simp [closeCurrentSection, State.push, trimEnd_stripCR])]
    rfl

/-- Witness of C13: the line "1. Getting Started", alone and between the lines
"intro" and "more". -/
theorem numbered_header_is_paragraph_witness :
    formatContent (.string "1. Getting Started".toList) =
      .ok [.paragraph ⟨"p", 1⟩ "1. Getting Started".toList] ∧
    formatContent (.string "intro\n1. Getting Started\nmore".toList) =
      .ok [.paragraph ⟨"p", 3⟩ "intro 1. Getting Started more".toList] :=
  have h := numbered_header_is_paragraph "1".toList "etting".toList " ".toList "tarted".toList
    [] 'G' 'S' (by decide) (by decide) (by decide) (by decide) (by decide) (by decide)
    (by decide)
  ⟨h.2.1, h.2.2 "intro".toList "more".toList (by decide) (by decide) (by decide) (by decide)⟩

/-! ## Source order -/

theorem closeOrigins_spec (i : Nat) {index : Nat} {t : Traced} (hg : TraceInv index t) :
    (closeOrigins t).length = (closeCurrentSection i t.state).formattedSections.length ∧
    (closeOrigins t).Pairwise (fun a b => a < b) ∧ ∀ o ∈ closeOrigins t, o < index := by
  obtain ⟨⟨fs, cur, ll, icb, cl, sc⟩, origins, current⟩ := t
  obtain ⟨h1, h2, h3, h4⟩ := hg
  cases cur with
  | null => exact ⟨h1, h2, h3⟩
  | list o r => exact ⟨h1, h2, h3⟩
  | paragraph c =>
    simp only [closeOrigins, closeCurrentSection, State.push, List.length_append,
      List.length_singleton, List.pairwise_append, List.mem_append, List.mem_singleton] at *
    refine ⟨by omega, ⟨h2, List.pairwise_singleton _ _, ?_⟩, ?_⟩
    · intro a ha b hb; subst hb; exact h4.2 a ha
    · intro o ho; rcases ho with ho | ho
      · exact h3 o ho
      · subst ho; exact h4.1
  | code c =>
    simp only [closeOrigins, closeCurrentSection, State.push, List.length_append,
      List.length_singleton, List.pairwise_append, List.mem_append, List.mem_singleton] at *
    refine ⟨by omega, ⟨h2, List.pairwise_singleton _ _, ?_⟩, ?_⟩
    · intro a ha b hb; subst hb; exact h4.2 a ha
    · intro o ho; rcases ho with ho | ho
      · exact h3 o ho
      · subst ho; exact h4.1

theorem traceInv_succ_of_null {index : Nat} {st : State} {origins : List Nat} (current : Nat)
    (hcur : st.currentSection = .null) (hlen : origins.length = st.formattedSections.length)
    (hpw : origins.Pairwise (fun a b => a < b)) (hlt : ∀ o ∈ origins, o < index + 1) :
    TraceInv (index + 1) ⟨st, origins, current⟩ := by
  refine ⟨hlen, hpw, hlt, ?_⟩
  simp only [hcur]

theorem traceInv_succ_of_list {index : Nat} {st : State} {origins : List Nat} (current : Nat)
    (hcur : ∃ o r, st.currentSection = .list o r)
    (hlen : origins.length = st.formattedSections.length)
    (hpw : origins.Pairwise (fun a b => a < b)) (hlt : ∀ o ∈ origins, o < index + 1) :
    TraceInv (index + 1) ⟨st, origins, current⟩ := by
  obtain ⟨o, r, hcur⟩ := hcur
  refine ⟨hlen, hpw, hlt, ?_⟩
  simp only [hcur]

theorem pairwise_concat_of_lt {origins : List Nat} {index : Nat}
    (hpw : origins.Pairwise (fun a b => a < b)) (hlt : ∀ o ∈ origins, o < index) :
    (origins ++ [index]).Pairwise (fun a b => a < b) := by
  rw [List.pairwise_append]
  refine ⟨hpw, List.pairwise_singleton _ _, ?_⟩
  intro a ha b hb
  simp only [List.mem_singleton] at hb
  subst hb
  exact hlt a ha

theorem lt_succ_of_mem_concat {origins : List Nat} {index : Nat}
    (hlt : ∀ o ∈ origins, o < index) : ∀ o ∈ origins ++ [index], o < index + 1 := by
  intro o ho
  rcases List.mem_append.1 ho with h | h
  · exact Nat.lt_succ_of_lt (hlt o h)
  · simp only [List.mem_singleton] at h; omega

/-- The state after a branch that closes the open section and pushes one
element. -/
theorem traceInv_element (e : Block) {index : Nat} {t : Traced} (hg : TraceInv index t) :
    TraceInv (index + 1)
      ⟨(closeCurrentSection index t.state).push (.element e), closeOrigins t ++ [index],
        t.current⟩ := by
  obtain ⟨h1, h2, h3⟩ := closeOrigins_spec index hg
  exact traceInv_succ_of_null _ (by simp [State.push])
    (by simp [State.push, h1]) (pairwise_concat_of_lt h2 h3) (lt_succ_of_mem_concat h3)

theorem pushItemAt_length {item : ListItem} {n : Nat} {es es1 : List Entry}
    (h : pushItemAt item n es = .ok es1) : es1.length = es.length := by
  induction es generalizing n es1 with
  | nil => cases n <;> simp [pushItemAt] at h
  | cons e es ih =>
    cases n with
    | zero =>
      cases e with
      | element b => simp [pushItemAt] at h
      | listSection o items level =>
        simp only [pushItemAt, Except.ok.injEq] at h
        subst h; rfl
    | succ n =>
      simp only [pushItemAt] at h
      cases hp : pushItemAt item n es with
      | error err => rw [hp] at h; cases h
      | ok es2 =>
        rw [hp] at h
        simp only [Except.ok.injEq] at h
        subst h
        simp [ih hp]

theorem pushItem_shape {item : ListItem} {st st1 : State} (h : pushItem item st = .ok st1) :
    st1.currentSection = st.currentSection ∧
    st1.formattedSections.length = st.formattedSections.length := by
  unfold pushItem at h
  cases hc : st.currentSection with
  | list o r =>
    rw [hc] at h
    simp only [] at h
    cases hp : pushItemAt item r st.formattedSections with
    | error err => rw [hp] at h; cases h
    | ok es =>
      rw [hp] at h
      simp only [Except.ok.injEq] at h
      subst h
      exact ⟨rfl, pushItemAt_length hp⟩
  | null => rw [hc] at h; cases h
  | paragraph c => rw [hc] at h; cases h
  | code c => rw [hc] at h; cases h

theorem traceInv_addListItem {ordered : Bool} {index nestLevel : Nat} {marker content : Str}
    {t : Traced} {st1 : State}
    (h : addListItem ordered index nestLevel marker content t.state = .ok st1)
    (hg : TraceInv index t) :
    TraceInv (index + 1)
      ⟨st1, (listOrigins ordered nestLevel index t).1, (listOrigins ordered nestLevel index t).2⟩ := by
  unfold addListItem at h
  unfold listOrigins
  by_cases hn : needsNewList ordered nestLevel t.state = true
  · simp only [hn, if_true] at h ⊢
    obtain ⟨hc, hl⟩ := pushItem_shape h
    obtain ⟨h1, h2, h3⟩ := closeOrigins_spec index hg
    exact traceInv_succ_of_list _ ⟨ordered, _, by rw [hc]; rfl⟩
      (by rw [hl]; simp [openList, h1])
      (pairwise_concat_of_lt h2 h3) (lt_succ_of_mem_concat h3)
  · simp only [hn] at h ⊢
    obtain ⟨hc, hl⟩ := pushItem_shape h
    obtain ⟨g1, g2, g3, _⟩ := hg
    unfold needsNewList at hn
    cases hcur : t.state.currentSection with
    | list o r =>
      exact traceInv_succ_of_list _ ⟨o, r, hc.trans hcur⟩ (by rw [hl]; exact g1) g2
        (fun o ho => Nat.lt_succ_of_lt (g3 o ho))
    | null => simp [hcur] at hn
    | paragraph c => simp [hcur] at hn
    | code c => simp [hcur] at hn

theorem traceInv_addParagraphLine (index : Nat) (line : Str) {t : Traced}
    (hg : TraceInv index t) :
    ∃ st1, addParagraphLine index line t.state = .ok st1 ∧
      TraceInv (index + 1) ⟨st1, (paragraphOrigins index t).1, (paragraphOrigins index t).2⟩ := by
  obtain ⟨h1, h2, h3⟩ := closeOrigins_spec index hg
  obtain ⟨⟨fs, cur, ll, icb, cl, sc⟩, origins, current⟩ := t
  obtain ⟨g1, g2, g3, g4⟩ := hg
  cases cur with
  | paragraph c =>
    refine ⟨_, rfl, g1, g2, fun o ho => Nat.lt_succ_of_lt (g3 o ho), ?_⟩
    exact ⟨Nat.lt_succ_of_lt g4.1, g4.2⟩
  | null =>
    exact ⟨_, rfl, h1, h2, fun o ho => Nat.lt_succ_of_lt (h3 o ho), Nat.lt_succ_self _, h3⟩
  | code c =>
    exact ⟨_, rfl, h1, h2, fun o ho => Nat.lt_succ_of_lt (h3 o ho), Nat.lt_succ_self _, h3⟩
  | list o r =>
    exact ⟨_, rfl, h1, h2, fun o ho => Nat.lt_succ_of_lt (h3 o ho), Nat.lt_succ_self _, h3⟩

theorem traceInv_congr {index : Nat} {st st1 : State} {origins : List Nat} {current : Nat}
    (hfs : st1.formattedSections.length = st.formattedSections.length)
    (hcur : st1.currentSection = st.currentSection)
    (hg : TraceInv index ⟨st, origins, current⟩) : TraceInv index ⟨st1, origins, current⟩ := by
  obtain ⟨g1, g2, g3, g4⟩ := hg
  refine ⟨by rw [hfs]; exact g1, g2, g3, ?_⟩
  simp only [hcur]
  exact g4

theorem traceInv_classifyLine {index : Nat} {t : Str} {indent : Nat} {tr : Traced} {st1 : State}
    (h : classifyLine index t indent tr.state = .ok st1) (hg : TraceInv index tr) :
    TraceInv (index + 1)
      ⟨st1,
        (if matchDivider t || matchH1 t || (matchHashes 2 t).isSome ||
            (matchHashes 3 t).isSome || (matchHashes 4 t).isSome || (matchCoreIdea t).isSome then
          (closeOrigins tr ++ [index], tr.current)
        else if (matchUnordered t).isSome then listOrigins false (indent / 2) index tr
        else
          match matchOrdered t with
          | some _ =>
            if !isSectionHeader t then listOrigins true (indent / 2) index tr
            else paragraphOrigins index tr
          | none =>
            if !(trim t).isEmpty then paragraphOrigins index tr
            else if t.isEmpty then (closeOrigins tr, tr.current)
            else (tr.origins, tr.current)).1,
        (if matchDivider t || matchH1 t || (matchHashes 2 t).isSome ||
            (matchHashes 3 t).isSome || (matchHashes 4 t).isSome || (matchCoreIdea t).isSome then
          (closeOrigins tr ++ [index], tr.current)
        else if (matchUnordered t).isSome then listOrigins false (indent / 2) index tr
        else
          match matchOrdered t with
          | some _ =>
            if !isSectionHeader t then listOrigins true (indent / 2) index tr
            else paragraphOrigins index tr
          | none =>
            if !(trim t).isEmpty then paragraphOrigins index tr
            else if t.isEmpty then (closeOrigins tr, tr.current)
            else (tr.origins, tr.current)).2⟩ := by
  unfold classifyLine at h
  by_cases h1 : matchDivider t = true
  · simp only [h1, if_true, Bool.true_or, Except.ok.injEq] at h ⊢
    subst h
    exact traceInv_element _ hg
  simp only [h1, Bool.false_or, Bool.false_eq_true, if_false] at h ⊢
  by_cases h2 : matchH1 t = true
  · simp only [h2, if_true, Bool.true_or, Except.ok.injEq] at h ⊢
    subst h
    exact traceInv_congr (by simp [State.push]) (by simp [State.push])
      (traceInv_element (.heading 1 ⟨"h1", index⟩ none []) hg)
  simp only [h2, Bool.false_or, Bool.false_eq_true, if_false] at h ⊢
  cases h3 : matchHashes 2 t with
  | some x =>
    simp only [h3, Option.isSome_some, Bool.true_or, if_true, Except.ok.injEq] at h ⊢
    subst h
    exact traceInv_element _ hg
  | none =>
  simp only [h3, Option.isSome_none, Bool.false_or] at h ⊢
  cases h4 : matchHashes 3 t with
  | some x =>
    simp only [h4, Option.isSome_some, Bool.true_or, if_true, Except.ok.injEq] at h ⊢
    subst h
    exact traceInv_element _ hg
  | none =>
  simp only [h4, Option.isSome_none, Bool.false_or] at h ⊢
  cases h5 : matchHashes 4 t with
  | some x =>
    simp only [h5, Option.isSome_some, Bool.true_or, if_true, Except.ok.injEq] at h ⊢
    subst h
    exact traceInv_element _ hg
  | none =>
  simp only [h5, Option.isSome_none, Bool.false_or] at h ⊢
  cases h6 : matchCoreIdea t with
  | some x =>
    simp only [h6, Option.isSome_some, if_true, Except.ok.injEq] at h ⊢
    subst h
    exact traceInv_element _ hg
  | none =>
  simp only [h6, Option.isSome_none, Bool.false_eq_true, if_false] at h ⊢
  cases h7 : matchUnordered t with
  | some x =>
    simp only [h7, Option.isSome_some, if_true] at h ⊢
    exact traceInv_addListItem h hg
  | none =>
  simp only [h7, Option.isSome_none, Bool.false_eq_true, if_false] at h ⊢
  cases h8 : matchOrdered t with
  | some x =>
    obtain ⟨bullet, content⟩ := x
    simp only [h8] at h ⊢
    by_cases h9 : (!isSectionHeader t) = true
    · simp only [h9, if_true] at h ⊢
      exact traceInv_addListItem h hg
    · simp only [h9, Bool.false_eq_true, if_false] at h ⊢
      obtain ⟨st2, e2, g2⟩ := traceInv_addParagraphLine index t hg
      rw [e2] at h
      cases h
      exact g2
  | none =>
    simp only [h8] at h ⊢
    by_cases h9 : (!(trim t).isEmpty) = true
    · simp only [h9, if_true] at h ⊢
      obtain ⟨st2, e2, g2⟩ := traceInv_addParagraphLine index t hg
      rw [e2] at h
      cases h
      exact g2
    simp only [h9, Bool.false_eq_true, if_false] at h ⊢
    by_cases h10 : t.isEmpty = true
    · simp only [h10, if_true, Except.ok.injEq] at h ⊢
      subst h
      obtain ⟨c1, c2, c3⟩ := closeOrigins_spec index hg
      exact traceInv_succ_of_null _ (by simp) (by simp [c1]) c2
        (fun o ho => Nat.lt_succ_of_lt (c3 o ho))
    · simp only [h10, Bool.false_eq_true, if_false, Except.ok.injEq] at h ⊢
      subst h
      obtain ⟨g1, g2, g3, g4⟩ := hg
      refine ⟨g1, g2, fun o ho => Nat.lt_succ_of_lt (g3 o ho), ?_⟩
      cases hc : tr.state.currentSection with
      | null => trivial
      | list o r => trivial
      | paragraph c => rw [hc] at g4; exact ⟨Nat.lt_succ_of_lt g4.1, g4.2⟩
      | code c => rw [hc] at g4; exact ⟨Nat.lt_succ_of_lt g4.1, g4.2⟩

theorem traceInv_processLine {index : Nat} {line : Str} {tr : Traced} {st1 : State}
    (h : processLine index line tr.state = .ok st1) (hg : TraceInv index tr) :
    TraceInv (index + 1)
      ⟨st1, (lineOrigins index line tr).1, (lineOrigins index line tr).2⟩ := by
  unfold lineOrigins
  cases hf : matchFence (trimEnd line) with
  | some g =>
    rw [processLine_fence index tr.state hf] at h
    obtain ⟨c1, c2, c3⟩ := closeOrigins_spec index hg
    cases hb : tr.state.inCodeBlock
    · simp only [hb, Bool.not_false, if_true, Except.ok.injEq] at h ⊢
      subst h
      exact ⟨c1, c2, fun o ho => Nat.lt_succ_of_lt (c3 o ho), Nat.lt_succ_self _, c3⟩
    · simp only [hb, Bool.not_true, Bool.false_eq_true, if_false, Except.ok.injEq] at h ⊢
      subst h
      refine traceInv_succ_of_null _ (by simp) ?_ c2 (fun o ho => Nat.lt_succ_of_lt (c3 o ho))
      rw [c1]
      obtain ⟨⟨fs, cur, ll, icb, cl, sc⟩, origins, current⟩ := tr
      cases cur <;> rfl
  | none =>
    rw [processLine_noFence index tr.state hf] at h
    dsimp only
    split at h
    · rename_i h1
      split
      · obtain ⟨⟨fs, cur, ll, icb, cl, sc⟩, origins, current⟩ := tr
        obtain ⟨g1, g2, g3, g4⟩ := hg
        cases cur with
        | code c =>
          simp only [pushContent, Except.ok.injEq] at h
          subst h
          exact ⟨g1, g2, fun o ho => Nat.lt_succ_of_lt (g3 o ho), Nat.lt_succ_of_lt g4.1, g4.2⟩
        | null => simp at h1
        | paragraph c => simp at h1
        | list o r => simp at h1
      · rename_i h2
        exfalso
        obtain ⟨⟨fs, cur, ll, icb, cl, sc⟩, origins, current⟩ := tr
        cases cur <;> cases icb <;> simp at h1 h2
    · rename_i h1
      split
      · rename_i h2
        exfalso
        obtain ⟨⟨fs, cur, ll, icb, cl, sc⟩, origins, current⟩ := tr
        cases cur <;> cases icb <;> simp at h1 h2
      · exact traceInv_classifyLine h hg

theorem forEachLineTraced_ok (lines : List Str) (index : Nat) {tr : Traced}
    (hinv : Inv tr.state) (hg : TraceInv index tr) :
    ∃ tr1, forEachLineTraced index lines tr = .ok tr1 ∧
      forEachLine index lines tr.state = .ok tr1.state ∧
      TraceInv (index + lines.length) tr1 := by
  induction lines generalizing index tr with
  | nil => exact ⟨tr, rfl, rfl, hg⟩
  | cons l ls ih =>
    obtain ⟨st1, h1, i1, _⟩ := processLine_ok index l hinv
    have g1 := traceInv_processLine h1 hg
    obtain ⟨tr2, h2, e2, g2⟩ := ih (index + 1) i1 g1
    refine ⟨tr2, ?_, ?_, ?_⟩
    · simp only [forEachLineTraced, processLineTraced, h1, h2]
    · simp only [forEachLine, h1]
      exact e2
    · rw [List.length_cons, show index + (ls.length + 1) = index + 1 + ls.length from by omega]
      exact g2

theorem renderSections_length (index : Nat) (es : List Entry) :
    (renderSections index es).length = es.length := by
  induction es generalizing index with
  | nil => rfl
  | cons e es ih =>
    cases e with
    | element b => simp [renderSections, ih]
    | listSection o items level => cases o <;> simp [renderSections, ih]

theorem formatSectionsTraced_sorted (lines : List Str) :
    ∃ entries origins,
      formatSectionsTraced lines = .ok (entries, origins) ∧
      formatSections lines = .ok entries ∧
      (renderSections 0 entries).length = entries.length ∧
      origins.length = entries.length ∧
      origins.Pairwise (fun a b => a < b) ∧
      ∀ o ∈ origins, o < lines.length := by
  have hinit : TraceInv 0 Traced.init :=
    ⟨rfl, List.Pairwise.nil, fun o ho => absurd ho (List.not_mem_nil o), trivial⟩
  obtain ⟨tr, h1, h2, g⟩ := @forEachLineTraced_ok lines 0 Traced.init inv_init hinit
  obtain ⟨c1, c2, c3⟩ := closeOrigins_spec lines.length g
  refine ⟨(closeCurrentSection lines.length tr.state).formattedSections, closeOrigins tr,
    ?_, ?_, renderSections_length _ _, c1, c2, ?_⟩
  · simp only [formatSectionsTraced, h1]
  · have : forEachLine 0 lines State.init = .ok tr.state := h2
    simp only [formatSections, this]
  · intro o ho
    have := c3 o ho
    omega

theorem traced_origins_example :
    (formatSectionsTraced (splitLines
      "intro\n- x\n- y\n\n```js\ncode\n```\n# T\nlast line\nmore".toList)).toOption.map Prod.snd =
      some [0, 1, 4, 7, 8] := by
  rfl

/-! ## Global replacement -/

theorem replaceAll_nil (m : Str → Option (Str × Str)) (k : Nat) : replaceAll m k [] = [] := by
  cases k <;> rfl

theorem replaceAll_skip (m : Str → Option (Str × Str)) (k : Nat) (cs : Str) :
    replaceAll m k cs = replaceAll m 0 (cs.drop k) := by
  induction cs generalizing k with
  | nil => simp [replaceAll_nil]
  | cons c cs ih =>
    cases k with
    | zero => rfl
    | succ k => simpa [replaceAll] using ih k

theorem replaceAll_none {m : Str → Option (Str × Str)} {c : Char} {cs : Str}
    (h : m (c :: cs) = none) : replaceAll m 0 (c :: cs) = c :: replaceAll m 0 cs := by
  simp [replaceAll, h]

theorem replaceAll_some {m : Str → Option (Str × Str)} {t rep rest body : Str}
    (h : m t = some (rep, rest)) (ht : t = body ++ rest) (hb : body ≠ []) :
    replaceAll m 0 t = rep ++ replaceAll m 0 rest := by
  cases body with
  | nil => exact absurd rfl hb
  | cons c body =>
    subst ht
    have h1 : replaceAll m 0 (c :: (body ++ rest)) =
        rep ++ replaceAll m ((body ++ rest).length - rest.length) (body ++ rest) := by
      have h2 : m (c :: (body ++ rest)) = some (rep, rest) := h
      simp [replaceAll, h2]
    rw [List.cons_append, h1, replaceAll_skip]
    simp

theorem replaceAll_id {m : Str → Option (Str × Str)} {s : Str}
    (h : ∀ t, t <:+ s → m t = none) : replaceAll m 0 s = s := by
  induction s with
  | nil => rfl
  | cons c cs ih =>
    rw [replaceAll_none (h _ (List.suffix_refl _)),
      ih (fun t ht => h t (ht.trans (List.suffix_cons c cs)))]

theorem replaceAll_append_of_head {m : Str → Option (Str × Str)} (p s : Str)
    (h : ∀ c ∈ p, ∀ r, m (c :: r) = none) : replaceAll m 0 (p ++ s) = p ++ replaceAll m 0 s := by
  induction p with
  | nil => rfl
  | cons c p ih =>
    rw [List.cons_append, replaceAll_none (h c (List.mem_cons_self _ _) _),
      ih (fun d hd r => h d (List.mem_cons_of_mem _ hd) r), List.cons_append]

theorem replaceAll_id_of_head {m : Str → Option (Str × Str)} (s : Str)
    (h : ∀ c ∈ s, ∀ r, m (c :: r) = none) : replaceAll m 0 s = s := by
  have := replaceAll_append_of_head s [] h
  simpa [replaceAll_nil] using this

theorem replaceChar_eq_replaceAll (c : Char) (rep s : Str) :
    replaceChar c rep s = replaceAll (matchChar c rep) 0 s := by
  induction s with
  | nil => rfl
  | cons x xs ih =>
    by_cases hx : x = c
    · have h : matchChar c rep (x :: xs) = some (rep, xs) := by simp [matchChar, hx]
      rw [@replaceAll_some _ _ _ _ [x] h rfl (by simp), ← ih]
      simp [replaceChar, hx]
    · have h : matchChar c rep (x :: xs) = none := by simp [matchChar, hx]
      rw [replaceAll_none h, ← ih]
      simp [replaceChar, hx]

/-! ## The patterns of the inline formatter -/

theorem dropLiteral_some {lit s r : Str} (h : dropLiteral lit s = some r) : s = lit ++ r := by
  induction lit generalizing s with
  | nil =>
    cases s <;> simp [dropLiteral] at h <;> simp [h]
  | cons p ps ih =>
    cases s with
    | nil => simp [dropLiteral] at h
    | cons c cs =>
      simp only [dropLiteral] at h
      split at h
      · rename_i hpc
        rw [hpc, ih h]; rfl
      · cases h

theorem dropLiteral_append (lit r : Str) : dropLiteral lit (lit ++ r) = some r := by
  induction lit with
  | nil => cases r <;> rfl
  | cons p ps ih => simp [dropLiteral, ih]

theorem lazyUntil_some {d r cap rest : Str} (h : lazyUntil d r = some (cap, rest)) :
    r = cap ++ (d ++ rest) := by
  induction r generalizing cap rest with
  | nil =>
    simp only [lazyUntil] at h
    split at h
    · rename_i hd
      cases d with
      | nil => simp at h; simp [h.1, h.2]
      | cons _ _ => simp at hd
    · cases h
  | cons c cs ih =>
    simp only [lazyUntil] at h
    split at h
    · rename_i rest1 hd
      simp only [Option.some.injEq, Prod.mk.injEq] at h
      rw [← h.1, ← h.2, dropLiteral_some hd]; rfl
    · split at h
      · cases h
      · split at h
        · rename_i cap1 rest1 hl
          simp only [Option.some.injEq, Prod.mk.injEq] at h
          rw [← h.1, ← h.2, ih hl]; rfl
        · cases h

theorem lazyUntil_append (x : Char) (d cap rest : Str) (h1 : x ∉ cap)
    (h2 : ∀ c ∈ cap, isLineTerminator c = false) :
    lazyUntil (x :: d) (cap ++ (x :: d ++ rest)) = some (cap, rest) := by
  induction cap with
  | nil =>
    have := dropLiteral_append (x :: d) rest
    simp only [List.nil_append, List.cons_append] at this ⊢
    simp [lazyUntil, this]
  | cons c cap ih =>
    have hc : x ≠ c := fun e => h1 (e ▸ List.mem_cons_self _ _)
    have ih1 := ih (fun hm => h1 (List.mem_cons_of_mem _ hm))
      (fun d hd => h2 d (List.mem_cons_of_mem _ hd))
    simp only [List.cons_append] at ih1 ⊢
    simp [lazyUntil, dropLiteral, hc, h2 c (List.mem_cons_self _ _), ih1]

theorem lazyUntil_none_of_not_mem (x : Char) (d r : Str) (h : x ∉ r) :
    lazyUntil (x :: d) r = none := by
  cases hl : lazyUntil (x :: d) r with
  | none => rfl
  | some p =>
    obtain ⟨cap, rest⟩ := p
    have := lazyUntil_some hl
    exact absurd (this ▸ by simp) h

/-! ## Key terms -/

theorem isUpper_ofNat_sub (n : Nat) (h1 : 97 ≤ n) (h2 : n ≤ 122) :
    isUpper (Char.ofNat (n - 32)) = true := by
  interval_cases n <;> rfl

theorem isLetter_of_eqIgnoreCase {p c : Char} (hp : isLetter p = true)
    (h : eqIgnoreCase p c = true) : isLetter c = true := by
  cases hc : isLower c with
  | true => simp [isLetter, hc]
  | false =>
    have e : asciiUpper p = c := by
      simpa [eqIgnoreCase, asciiUpper, hc] using h
    cases hl : isLower p with
    | true =>
      have hr : 97 ≤ p.toNat ∧ p.toNat ≤ 122 := by simpa [isLower] using hl
      have := isUpper_ofNat_sub p.toNat hr.1 hr.2
      simp only [asciiUpper, hl, if_true] at e
      rw [e] at this
      simp [isLetter, this]
    | false =>
      simp only [asciiUpper, hl, Bool.false_eq_true, if_false] at e
      rw [← e]; exact hp

theorem keywords_letters : ∀ k ∈ keywords, ∀ c ∈ k, isLetter c = true := by
  decide

theorem dropLiteralCI_some {lit s m r : Str} (h : dropLiteralCI lit s = some (m, r)) :
    s = m ++ r ∧ m.length = lit.length ∧
      ((∀ c ∈ lit, isLetter c = true) → ∀ c ∈ m, isLetter c = true) := by
  induction lit generalizing s m r with
  | nil =>
    cases s <;> simp only [dropLiteralCI, Option.some.injEq, Prod.mk.injEq] at h <;>
      obtain ⟨rfl, rfl⟩ := h <;> simp
  | cons p ps ih =>
    cases s with
    | nil => simp [dropLiteralCI] at h
    | cons c cs =>
      simp only [dropLiteralCI] at h
      split at h
      · rename_i hpc
        split at h
        · rename_i m1 r1 hd
          simp only [Option.some.injEq, Prod.mk.injEq] at h
          obtain ⟨i1, i2, i3⟩ := ih hd
          rw [← h.1, ← h.2]
          refine ⟨by rw [i1]; rfl, by simp [i2], ?_⟩
          intro hl d hd
          rcases List.mem_cons.1 hd with rfl | hd
          · exact isLetter_of_eqIgnoreCase (hl p (List.mem_cons_self _ _)) hpc
          · exact i3 (fun c hc => hl c (List.mem_cons_of_mem _ hc)) d hd
        · cases h
      · cases h

/-- Appending `u` does not change the match of a literal of letters on `t`, when
`t` holds a character that is not a letter or no letter starts `u`. -/
theorem dropLiteralCI_append_boundary (lit t u : Str) (hl : ∀ c ∈ lit, isLetter c = true)
    (hb : (∃ c ∈ t, isLetter c = false) ∨ noLetterAtStart u = true) :
    dropLiteralCI lit (t ++ u) = (dropLiteralCI lit t).map (fun p => (p.1, p.2 ++ u)) := by
  induction lit generalizing t with
  | nil => cases t <;> cases u <;> simp [dropLiteralCI]
  | cons p ps ih =>
    cases t with
    | nil =>
      rcases hb with ⟨c, hc, _⟩ | hb
      · cases hc
      · cases u with
        | nil => simp [dropLiteralCI]
        | cons c u =>
          have : eqIgnoreCase p c = false := by
            cases he : eqIgnoreCase p c with
            | false => rfl
            | true =>
              have := isLetter_of_eqIgnoreCase (hl p (List.mem_cons_self _ _)) he
              simp [noLetterAtStart, this] at hb
          simp [dropLiteralCI, this]
    | cons d t =>
      cases he : eqIgnoreCase p d with
      | false => simp [dropLiteralCI, he]
      | true =>
        have hd := isLetter_of_eqIgnoreCase (hl p (List.mem_cons_self _ _)) he
        have hb1 : (∃ c ∈ t, isLetter c = false) ∨ noLetterAtStart u = true := by
          rcases hb with ⟨c, hc, hc2⟩ | hb
          · rcases List.mem_cons.1 hc with rfl | hc
            · rw [hd] at hc2; cases hc2
            · exact Or.inl ⟨c, hc, hc2⟩
          · exact Or.inr hb
        have := ih t (fun c hc => hl c (List.mem_cons_of_mem _ hc)) hb1
        rw [List.cons_append]
        simp only [dropLiteralCI, he, if_true]
        rw [this]
        cases dropLiteralCI ps t with
        | none => rfl
        | some q => rfl

theorem matchAlternatives_append_boundary (ks : List Str) (t u : Str)
    (hl : ∀ k ∈ ks, ∀ c ∈ k, isLetter c = true)
    (hb : (∃ c ∈ t, isLetter c = false) ∨ noLetterAtStart u = true) :
    matchAlternatives ks (t ++ u) =
      (matchAlternatives ks t).map (fun p => (p.1, p.2 ++ u)) := by
  induction ks with
  | nil => rfl
  | cons k ks ih =>
    have h1 := dropLiteralCI_append_boundary k t u (hl k (List.mem_cons_self _ _)) hb
    have h2 := ih (fun k1 hk1 => hl k1 (List.mem_cons_of_mem _ hk1))
    simp only [matchAlternatives, h1]
    cases dropLiteralCI k t with
    | none => simpa using h2
    | some q => rfl

theorem matchKeyword_append_boundary (t u : Str)
    (hb : (∃ c ∈ t, isLetter c = false) ∨ noLetterAtStart u = true) :
    matchKeyword (t ++ u) = (matchKeyword t).map (fun p => (p.1, p.2 ++ u)) := by
  simp only [matchKeyword, matchAlternatives_append_boundary keywords t u keywords_letters hb]
  cases matchAlternatives keywords t with
  | none => rfl
  | some q => rfl

theorem matchAlternatives_some {ks : List Str} {s m r : Str}
    (hl : ∀ k ∈ ks, ∀ c ∈ k, isLetter c = true) (hk : ∀ k ∈ ks, k ≠ [])
    (h : matchAlternatives ks s = some (m, r)) :
    s = m ++ r ∧ m ≠ [] ∧ ∀ c ∈ m, isLetter c = true := by
  induction ks with
  | nil => cases h
  | cons k ks ih =>
    simp only [matchAlternatives] at h
    split at h
    · rename_i q hd
      cases h
      obtain ⟨i1, i2, i3⟩ := dropLiteralCI_some hd
      refine ⟨i1, ?_, i3 (hl k (List.mem_cons_self _ _))⟩
      intro e
      rw [e] at i2
      exact hk k (List.mem_cons_self _ _) (List.length_eq_zero.1 i2.symm)
    · exact ih (fun k1 hk1 => hl k1 (List.mem_cons_of_mem _ hk1))
        (fun k1 hk1 => hk k1 (List.mem_cons_of_mem _ hk1)) h

theorem matchKeyword_some {s rep r : Str} (h : matchKeyword s = some (rep, r)) :
    ∃ m, s = m ++ r ∧ m ≠ [] ∧ (∀ c ∈ m, isLetter c = true) ∧
      rep = "<span class=\"bg-purple-100 text-purple-800 px-1 rounded-sm font-medium\">".toList
        ++ m ++ spanClose := by
  simp only [matchKeyword] at h
  split at h
  · rename_i m rest hm
    simp only [Option.some.injEq, Prod.mk.injEq] at h
    obtain ⟨i1, i2, i3⟩ := matchAlternatives_some keywords_letters (by decide) hm
    exact ⟨m, by rw [← h.2]; exact i1, i2, i3, h.1.symm⟩
  · cases h

theorem hasKeyword_eq_false_iff (s : Str) :
    hasKeyword s = false ↔ ∀ t, t <:+ s → matchKeyword t = none := by
  induction s with
  | nil =>
    constructor
    · intro _ t ht
      rw [List.suffix_nil.1 ht]; rfl
    · intro _; rfl
  | cons c cs ih =>
    have hm : matchKeyword (c :: cs) = none ↔ matchAlternatives keywords (c :: cs) = none := by
      simp only [matchKeyword]
      cases matchAlternatives keywords (c :: cs) with
      | none => simp
      | some q => simp
    simp only [hasKeyword, Bool.or_eq_false_iff, ih]
    constructor
    · rintro ⟨h1, h2⟩ t ht
      rcases List.suffix_cons_iff.1 ht with rfl | ht
      · rw [hm]
        cases h : matchAlternatives keywords (c :: cs) with
        | none => rfl
        | some q => rw [h] at h1; cases h1
      · exact h2 t ht
    · intro h
      refine ⟨?_, fun t ht => h t (ht.trans (List.suffix_cons c cs))⟩
      have := hm.1 (h _ (List.suffix_refl _))
      simp [this]

theorem replaceAll_keyword_id {s : Str} (h : hasKeyword s = false) :
    replaceAll matchKeyword 0 s = s :=
  replaceAll_id ((hasKeyword_eq_false_iff s).1 h)

theorem matchKeyword_of_noLetter {c : Char} (r : Str) (h : isLetter c = false) :
    matchKeyword (c :: r) = none := by
  cases hm : matchKeyword (c :: r) with
  | none => rfl
  | some q =>
    obtain ⟨rep, rest⟩ := q
    obtain ⟨m, i1, i2, i3, _⟩ := matchKeyword_some hm
    cases m with
    | nil => exact absurd rfl i2
    | cons d m =>
      simp only [List.cons_append, List.cons.injEq] at i1
      have := i3 d (List.mem_cons_self _ _)
      rw [← i1.1, h] at this
      cases this

theorem hasKeyword_of_noLetters {s : Str} (h : ∀ c ∈ s, isLetter c = false) :
    hasKeyword s = false := by
  rw [hasKeyword_eq_false_iff]
  intro t ht
  cases t with
  | nil => rfl
  | cons c t => exact matchKeyword_of_noLetter t (h c (ht.subset (List.mem_cons_self _ _)))

theorem noLetterAtEnd_append (a b : Str) (hb : b ≠ []) :
    noLetterAtEnd (a ++ b) = noLetterAtEnd b := by
  cases hr : b.reverse with
  | nil => exact absurd (List.reverse_eq_nil_iff.1 hr) hb
  | cons c r => simp [noLetterAtEnd, hr, noLetterAtStart]

theorem noLetterAtEnd_concat (a : Str) (c : Char) :
    noLetterAtEnd (a ++ [c]) = !isLetter c := by
  simp [noLetterAtEnd, noLetterAtStart]

theorem exists_noLetter_of_suffix {a t : Str} (ha : noLetterAtEnd a = true) (ht : t <:+ a)
    (hne : t ≠ []) : ∃ c ∈ t, isLetter c = false := by
  rcases List.eq_nil_or_concat t with rfl | ⟨t1, c, rfl⟩
  · exact absurd rfl hne
  · simp only [List.concat_eq_append] at *
    obtain ⟨p, rfl⟩ := ht
    rw [← List.append_assoc, noLetterAtEnd_concat] at ha
    exact ⟨c, by simp, by simpa using ha⟩

theorem suffix_append_cases {t x y : Str} (h : t <:+ x ++ y) :
    (∃ t1, t = t1 ++ y ∧ t1 <:+ x) ∨ t <:+ y := by
  induction x with
  | nil => exact Or.inr h
  | cons c x ih =>
    rcases List.suffix_cons_iff.1 h with rfl | h1
    · exact Or.inl ⟨c :: x, rfl, List.suffix_refl _⟩
    · rcases ih h1 with ⟨t1, e, h2⟩ | h2
      · exact Or.inl ⟨t1, e, h2.trans (List.suffix_cons c x)⟩
      · exact Or.inr h2

theorem dropLiteralCI_isSome_append (lit t y : Str) (h : (dropLiteralCI lit t).isSome = true) :
    (dropLiteralCI lit (t ++ y)).isSome = true := by
  induction lit generalizing t with
  | nil => cases t <;> cases y <;> rfl
  | cons p ps ih =>
    cases t with
    | nil => simp [dropLiteralCI] at h
    | cons d t =>
      rw [List.cons_append]
      simp only [dropLiteralCI] at h ⊢
      split at h
      · rename_i he
        simp only [he, if_true]
        have := ih t (by cases hd : dropLiteralCI ps t with
          | none => rw [hd] at h; cases h
          | some q => rfl)
        cases hd : dropLiteralCI ps (t ++ y) with
        | none => rw [hd] at this; cases this
        | some q => rfl
      · cases h

theorem matchAlternatives_isSome_append (ks : List Str) (t y : Str)
    (h : (matchAlternatives ks t).isSome = true) :
    (matchAlternatives ks (t ++ y)).isSome = true := by
  induction ks with
  | nil => cases h
  | cons k ks ih =>
    simp only [matchAlternatives] at h ⊢
    cases hd : dropLiteralCI k t with
    | some q =>
      have := dropLiteralCI_isSome_append k t y (by rw [hd]; rfl)
      cases hd2 : dropLiteralCI k (t ++ y) with
      | none => rw [hd2] at this; cases this
      | some q2 => rfl
    | none =>
      rw [hd] at h
      cases hd2 : dropLiteralCI k (t ++ y) with
      | none => exact ih h
      | some q2 => rfl

theorem matchKeyword_eq_none_iff (s : Str) :
    matchKeyword s = none ↔ (matchAlternatives keywords s).isSome = false := by
  simp only [matchKeyword]
  cases matchAlternatives keywords s with
  | none => simp
  | some q => simp

/-- Key terms do not arise where two texts free of them meet at a character
that is not a letter. -/
theorem hasKeyword_append {x y : Str} (hx : hasKeyword x = false) (hy : hasKeyword y = false)
    (hb : noLetterAtEnd x = true ∨ noLetterAtStart y = true) : hasKeyword (x ++ y) = false := by
  rw [hasKeyword_eq_false_iff] at hx hy ⊢
  intro t ht
  rcases suffix_append_cases ht with ⟨t1, rfl, h1⟩ | h2
  · by_cases ht1 : t1 = []
    · subst ht1
      exact hy _ (List.suffix_refl _)
    · have hb1 : (∃ c ∈ t1, isLetter c = false) ∨ noLetterAtStart y = true := by
        rcases hb with hb | hb
        · exact Or.inl (exists_noLetter_of_suffix hb h1 ht1)
        · exact Or.inr hb
      rw [matchKeyword_append_boundary t1 y hb1, hx t1 h1]; rfl
  · exact hy t h2

theorem hasKeyword_of_append {x y : Str} (h : hasKeyword (x ++ y) = false) :
    hasKeyword x = false ∧ hasKeyword y = false := by
  rw [hasKeyword_eq_false_iff] at h
  constructor
  · rw [hasKeyword_eq_false_iff]
    intro t ht
    have h1 : matchKeyword (t ++ y) = none := by
      obtain ⟨p, rfl⟩ := ht
      exact h _ ⟨p, by simp⟩
    rw [matchKeyword_eq_none_iff] at h1 ⊢
    cases hm : (matchAlternatives keywords t).isSome with
    | false => rfl
    | true => rw [matchAlternatives_isSome_append keywords t y hm] at h1; cases h1
  · rw [hasKeyword_eq_false_iff]
    intro t ht
    exact h t (ht.trans (List.suffix_append x y))

/-! ## The inline formatter on texts without the characters of a rule -/

theorem includes_of_not_mem (x : Char) (n s : Str) (h : x ∉ s) : includes (x :: n) s = false := by
  induction s with
  | nil => rfl
  | cons c cs ih =>
    have hc : x ≠ c := fun e => h (e ▸ List.mem_cons_self _ _)
    simp [includes, dropLiteral, hc, ih (fun hm => h (List.mem_cons_of_mem _ hm))]

theorem openBracket_some {s r : Str} (h : openBracket s = some r) :
    s = '(' :: r ∨ s = '\\' :: '(' :: r := by
  unfold openBracket at h
  split at h
  · simp only [Option.some.injEq] at h; exact Or.inr (h ▸ rfl)
  · simp only [Option.some.injEq] at h; exact Or.inl (h ▸ rfl)
  · cases h

theorem closeBracket_some {s r : Str} (h : closeBracket s = some r) :
    s = ')' :: r ∨ s = '\\' :: ')' :: r := by
  unfold closeBracket at h
  split at h
  · simp only [Option.some.injEq] at h; exact Or.inr (h ▸ rfl)
  · simp only [Option.some.injEq] at h; exact Or.inl (h ▸ rfl)
  · cases h

theorem openBracket_none {s : Str} (h : '(' ∉ s) : openBracket s = none := by
  cases ho : openBracket s with
  | none => rfl
  | some r =>
    rcases openBracket_some ho with e | e <;> exact absurd (e ▸ by simp) h

theorem matchVariable_none {s : Str} (h : '(' ∉ s) : matchVariable s = none := by
  simp [matchVariable, openBracket_none h]

theorem matchFunction_none {s : Str} (h : '(' ∉ s) : matchFunction s = none := by
  simp [matchFunction, openBracket_none h]

theorem matchSuperscript_none {s : Str} (h : '(' ∉ s) : matchSuperscript s = none := by
  simp [matchSuperscript, openBracket_none h]

theorem matchExpression_none {s : Str} (h : '(' ∉ s) : matchExpression s = none := by
  simp [matchExpression, openBracket_none h]

theorem formatMathNotation_id {s : Str} (h : '(' ∉ s) : formatMathNotation s = s := by
  have hs : ∀ t, t <:+ s → '(' ∉ t := fun t ht hm => h (ht.subset hm)
  unfold formatMathNotation
  rw [replaceAll_id (fun t ht => matchVariable_none (hs t ht)),
    replaceAll_id (fun t ht => matchFunction_none (hs t ht)),
    replaceAll_id (fun t ht => matchSuperscript_none (hs t ht)),
    replaceAll_id (fun t ht => matchExpression_none (hs t ht))]

theorem matchBoldItalic_of_ne {c : Char} (r : Str) (h : c ≠ '*') :
    matchBoldItalic (c :: r) = none := by
  have : dropLiteral "***".toList (c :: r) = none := by
    show dropLiteral ('*' :: "**".toList) (c :: r) = none
    simp [dropLiteral, Ne.symm h]
  simp only [matchBoldItalic, this]

theorem matchBold_of_ne {c : Char} (r : Str) (h : c ≠ '*') : matchBold (c :: r) = none := by
  have : dropLiteral "**".toList (c :: r) = none := by
    show dropLiteral ('*' :: "*".toList) (c :: r) = none
    simp [dropLiteral, Ne.symm h]
  simp only [matchBold, this]

theorem matchItalic_of_ne {c : Char} (r : Str) (h : c ≠ '*') : matchItalic (c :: r) = none := by
  unfold matchItalic
  split
  · rename_i heq
    simp only [List.cons.injEq] at heq
    exact absurd heq.1 h
  · rfl

theorem matchInlineCode_of_ne {c : Char} (r : Str) (h : c ≠ backtick) :
    matchInlineCode (c :: r) = none := by
  simp [matchInlineCode, h]

theorem ne_of_not_mem {x : Char} {s : Str} (h : x ∉ s) : ∀ c ∈ s, c ≠ x :=
  fun _ hc e => h (e ▸ hc)

/-- A text without brackets, stars, backticks and key terms, and without the
two markers, is left as it is by the rules of the inline formatter. -/
theorem inlineRules_id {s : Str} (h1 : '(' ∉ s) (h2 : '*' ∉ s) (h3 : backtick ∉ s)
    (h4 : hasKeyword s = false) :
    replaceAll matchKeyword 0 (replaceAll matchInlineCode 0 (replaceAll matchItalic 0
      (replaceAll matchBold 0 (replaceAll matchBoldItalic 0 (formatMathNotation s))))) = s := by
  rw [formatMathNotation_id h1,
    replaceAll_id_of_head s (fun c hc r => matchBoldItalic_of_ne r (ne_of_not_mem h2 c hc)),
    replaceAll_id_of_head s (fun c hc r => matchBold_of_ne r (ne_of_not_mem h2 c hc)),
    replaceAll_id_of_head s (fun c hc r => matchItalic_of_ne r (ne_of_not_mem h2 c hc)),
    replaceAll_id_of_head s (fun c hc r => matchInlineCode_of_ne r (ne_of_not_mem h3 c hc)),
    replaceAll_keyword_id h4]

theorem formatInlineText_of_unmarked {s : Str} (hs : s ≠ [])
    (h1 : includes "<span class=\"font-serif".toList s = false)
    (h2 : includes "<sup class=\"text-xs\">".toList s = false) :
    formatInlineText s =
      replaceAll matchKeyword 0 (replaceAll matchInlineCode 0 (replaceAll matchItalic 0
        (replaceAll matchBold 0 (replaceAll matchBoldItalic 0 (formatMathNotation s))))) := by
  cases s with
  | nil => exact absurd rfl hs
  | cons c cs =>
    simp only [formatInlineText, h1, h2, List.isEmpty_cons, Bool.false_eq_true, if_false,
      Bool.or_self]

theorem formatInlineText_of_no_lt {s : Str} (hs : s ≠ []) (h : '<' ∉ s) :
    formatInlineText s =
      replaceAll matchKeyword 0 (replaceAll matchInlineCode 0 (replaceAll matchItalic 0
        (replaceAll matchBold 0 (replaceAll matchBoldItalic 0 (formatMathNotation s))))) :=
  formatInlineText_of_unmarked hs (includes_of_not_mem '<' _ s h) (includes_of_not_mem '<' _ s h)

theorem formatInlineText_of_marked {text : Str}
    (h : includes "<span class=\"font-serif".toList text = true ∨
      includes "<sup class=\"text-xs\">".toList text = true) :
    formatInlineText text = text := by
  cases text with
  | nil => rfl
  | cons c cs =>
    rcases h with h | h <;>
      simp only [formatInlineText, h, List.isEmpty_cons, Bool.false_eq_true, if_false,
        Bool.true_or, Bool.or_true, if_true]

/-! ## Emphasis, the short-circuit and key terms -/

set_option maxRecDepth 8000

theorem matchBoldItalic_triple (x rest : Str) (h1 : '*' ∉ x)
    (h2 : ∀ c ∈ x, isLineTerminator c = false) :
    matchBoldItalic ('*' :: '*' :: '*' :: (x ++ ('*' :: '*' :: '*' :: rest))) =
      some ("<span class=\"font-bold italic text-purple-800\">".toList ++ x ++ spanClose, rest) := by
  have e1 : dropLiteral "***".toList ('*' :: '*' :: '*' :: (x ++ ('*' :: '*' :: '*' :: rest))) =
      some (x ++ ('*' :: '*' :: '*' :: rest)) := rfl
  have e2 := lazyUntil_append '*' ['*', '*'] x rest h1 h2
  have e3 : lazyUntil "***".toList (x ++ ('*' :: '*' :: '*' :: rest)) = some (x, rest) := e2
  simp only [matchBoldItalic, e1, e3]

theorem matchBold_double (x rest : Str) (h1 : '*' ∉ x)
    (h2 : ∀ c ∈ x, isLineTerminator c = false) :
    matchBold ('*' :: '*' :: (x ++ ('*' :: '*' :: rest))) =
      some ("<span class=\"font-bold text-purple-700\">".toList ++ x ++ spanClose, rest) := by
  have e1 : dropLiteral "**".toList ('*' :: '*' :: (x ++ ('*' :: '*' :: rest))) =
      some (x ++ ('*' :: '*' :: rest)) := rfl
  have e2 := lazyUntil_append '*' ['*'] x rest h1 h2
  have e3 : lazyUntil "**".toList (x ++ ('*' :: '*' :: rest)) = some (x, rest) := e2
  simp only [matchBold, e1, e3]

theorem matchItalic_single (c : Char) (y rest : Str) (h1 : '*' ∉ c :: y) :
    matchItalic ('*' :: (c :: y ++ '*' :: rest)) =
      some ("<span class=\"italic text-purple-600\">".toList ++ (c :: y) ++ spanClose, rest) := by
  have hp : ∀ a ∈ c :: y, (fun a => a != '*') a = true := by
    intro a ha
    have : a ≠ '*' := ne_of_not_mem h1 a ha
    simpa using this
  have e1 : (c :: y ++ '*' :: rest).takeWhile (fun a => a != '*') = c :: y := by
    rw [List.takeWhile_append_of_pos hp]
    simp
  have e2 : (c :: y ++ '*' :: rest).dropWhile (fun a => a != '*') = '*' :: rest := by
    rw [List.dropWhile_append_of_pos hp]
    simp
  unfold matchItalic
  simp only [e1, e2]

/-- C17: for every string that contains `<span class="font-serif` or
`<sup class="text-xs">`, `formatInlineText` returns the string unchanged: none of
the math, bold, italic, code and key-term substitutions is applied. -/
theorem already_formatted_unchanged (text : Str)
    (h : includes "<span class=\"font-serif".toList text = true ∨
      includes "<sup class=\"text-xs\">".toList text = true) :
    formatInlineText text = text :=
  formatInlineText_of_marked h

theorem already_formatted_unchanged_witness :
    includes "<sup class=\"text-xs\">".toList
        "(x) **growth** <sup class=\"text-xs\">2</sup>".toList = true ∧
      formatInlineText "(x) **growth** <sup class=\"text-xs\">2</sup>".toList =
        "(x) **growth** <sup class=\"text-xs\">2</sup>".toList :=
  ⟨by rfl, already_formatted_unchanged _ (Or.inr (by rfl))⟩

/-- C19: key-term highlighting is not idempotent.  For the input `confidence`
the second application of `formatInlineText` differs from the first: it wraps
the key term, already inside a highlight span, in a second highlight span. -/
theorem keyword_highlight_not_idempotent :
    formatInlineText "confidence".toList =
      "<span class=\"bg-purple-100 text-purple-800 px-1 rounded-sm font-medium\">confidence</span>".toList ∧
    formatInlineText (formatInlineText "confidence".toList) =
      "<span class=\"bg-purple-100 text-purple-800 px-1 rounded-sm font-medium\"><span class=\"bg-purple-100 text-purple-800 px-1 rounded-sm font-medium\">confidence</span></span>".toList ∧
    formatInlineText (formatInlineText "confidence".toList) ≠
      formatInlineText "confidence".toList := by
  refine ⟨by rfl, by rfl, ?_⟩
  rw [show formatInlineText (formatInlineText "confidence".toList) =
      "<span class=\"bg-purple-100 text-purple-800 px-1 rounded-sm font-medium\"><span class=\"bg-purple-100 text-purple-800 px-1 rounded-sm font-medium\">confidence</span></span>".toList
      from by rfl,
    show formatInlineText "confidence".toList =
      "<span class=\"bg-purple-100 text-purple-800 px-1 rounded-sm font-medium\">confidence</span>".toList
      from by rfl]
  decide

/-- C16 (amended): for every text x that is not empty, holds no line
terminator and is free of `*`, the backtick, `(`, `<` and key terms,
`formatInlineText("***" + x + "***")` is the single bold-italic span
`<span class="font-bold italic text-purple-800">` + x + `</span>`: the triple
marker is consumed by the bold+italic rule before the bold and italic rules
run, and no `*` is left in the output. -/
theorem triple_marker_bold_italic (x : Str) (_hx : x ≠ []) (h1 : '*' ∉ x) (h2 : backtick ∉ x)
    (h3 : '(' ∉ x) (h4 : '<' ∉ x) (h5 : hasKeyword x = false)
    (h6 : ∀ c ∈ x, isLineTerminator c = false) :
    formatInlineText ("***".toList ++ x ++ "***".toList) =
      "<span class=\"font-bold italic text-purple-800\">".toList ++ x ++ "</span>".toList ∧
    '*' ∉ formatInlineText ("***".toList ++ x ++ "***".toList) := by
  have key : formatInlineText ("***".toList ++ x ++ "***".toList) =
      "<span class=\"font-bold italic text-purple-800\">".toList ++ x ++ "</span>".toList := by
    have hlt : '<' ∉ "***".toList ++ x ++ "***".toList := by
      simp only [List.mem_append, not_or]
      exact ⟨⟨by decide, h4⟩, by decide⟩
    have hpar : '(' ∉ "***".toList ++ x ++ "***".toList := by
      simp only [List.mem_append, not_or]
      exact ⟨⟨by decide, h3⟩, by decide⟩
    rw [formatInlineText_of_no_lt (by simp) hlt, formatMathNotation_id hpar]
    have hm := matchBoldItalic_triple x [] h1 h6
    have hr : replaceAll matchBoldItalic 0 ("***".toList ++ x ++ "***".toList) =
        "<span class=\"font-bold italic text-purple-800\">".toList ++ x ++ spanClose := by
      have := @replaceAll_some matchBoldItalic
        ('*' :: '*' :: '*' :: (x ++ ('*' :: '*' :: '*' :: []))) _ []
        ('*' :: '*' :: '*' :: (x ++ ('*' :: '*' :: '*' :: []))) hm (by simp) (by simp)
      rw [replaceAll_nil, List.append_nil] at this
      rw [← this]
      simp
    rw [hr]
    have n1 : '*' ∉ "<span class=\"font-bold italic text-purple-800\">".toList ++ x ++ spanClose := by
      simp only [List.mem_append, not_or]
      exact ⟨⟨by decide, h1⟩, by decide⟩
    have n2 : backtick ∉
        "<span class=\"font-bold italic text-purple-800\">".toList ++ x ++ spanClose := by
      simp only [List.mem_append, not_or]
      exact ⟨⟨by decide, h2⟩, by decide⟩
    have n3 : hasKeyword
        ("<span class=\"font-bold italic text-purple-800\">".toList ++ x ++ spanClose) = false :=
      hasKeyword_append (hasKeyword_append (by rfl) h5 (Or.inl (by rfl))) (by rfl)
        (Or.inr (by rfl))
    rw [replaceAll_id_of_head _ (fun c hc r => matchBold_of_ne r (ne_of_not_mem n1 c hc)),
      replaceAll_id_of_head _ (fun c hc r => matchItalic_of_ne r (ne_of_not_mem n1 c hc)),
      replaceAll_id_of_head _ (fun c hc r => matchInlineCode_of_ne r (ne_of_not_mem n2 c hc)),
      replaceAll_keyword_id n3]
    rfl
  refine ⟨key, ?_⟩
  rw [key]
  simp only [List.mem_append, not_or]
  exact ⟨⟨by decide, h1⟩, by decide⟩

theorem triple_marker_bold_italic_witness :
    formatInlineText "***very bold***".toList =
      "<span class=\"font-bold italic text-purple-800\">very bold</span>".toList ∧
    '*' ∉ formatInlineText "***very bold***".toList :=
  triple_marker_bold_italic "very bold".toList (by decide) (by decide) (by decide) (by decide)
    (by decide) (by rfl) (by decide)

theorem triple_marker_bold_italic_counterexample :
    "a\rb".toList ≠ [] ∧ '*' ∉ "a\rb".toList ∧ backtick ∉ "a\rb".toList ∧
    '(' ∉ "a\rb".toList ∧ '<' ∉ "a\rb".toList ∧ hasKeyword "a\rb".toList = false ∧
    formatInlineText ("***".toList ++ "a\rb".toList ++ "***".toList) =
      "**<span class=\"italic text-purple-600\">a\rb</span>**".toList ∧
    formatInlineText ("***".toList ++ "a\rb".toList ++ "***".toList) ≠
      "<span class=\"font-bold italic text-purple-800\">".toList ++ "a\rb".toList ++
        "</span>".toList := by
  refine ⟨by decide, by decide, by decide, by decide, by decide, by rfl, by rfl, ?_⟩
  rw [show formatInlineText ("***".toList ++ "a\rb".toList ++ "***".toList) =
      "**<span class=\"italic text-purple-600\">a\rb</span>**".toList from by rfl]
  decide

theorem lazyUntil_none_of_count (d r : Str) (h : r.count '*' < d.count '*') :
    lazyUntil d r = none := by
  cases hl : lazyUntil d r with
  | none => rfl
  | some p =>
    obtain ⟨cap, rest⟩ := p
    have := lazyUntil_some hl
    rw [this] at h
    simp only [List.count_append] at h
    omega

theorem matchBoldItalic_none_of_count {t : Str} (h : t.count '*' < 6) :
    matchBoldItalic t = none := by
  cases hd : dropLiteral "***".toList t with
  | none => simp only [matchBoldItalic, hd]
  | some r =>
    have e := dropLiteral_some hd
    have hr : r.count '*' < 3 := by
      rw [e, List.count_append] at h
      have : "***".toList.count '*' = 3 := by decide
      omega
    have := lazyUntil_none_of_count "***".toList r (by
      have : "***".toList.count '*' = 3 := by decide
      omega)
    simp only [matchBoldItalic, hd, this]

theorem matchBold_none_of_count {t : Str} (h : t.count '*' < 4) : matchBold t = none := by
  cases hd : dropLiteral "**".toList t with
  | none => simp only [matchBold, hd]
  | some r =>
    have e := dropLiteral_some hd
    have hr : r.count '*' < 2 := by
      rw [e, List.count_append] at h
      have : "**".toList.count '*' = 2 := by decide
      omega
    have := lazyUntil_none_of_count "**".toList r (by
      have : "**".toList.count '*' = 2 := by decide
      omega)
    simp only [matchBold, hd, this]

theorem count_le_of_suffix {t s : Str} (h : t <:+ s) (c : Char) : t.count c ≤ s.count c :=
  h.sublist.count_le c

/-- C15 (amended): `formatInlineText("**bold** and *italic*")` is the bold span
around `bold`, ` and `, and the italic span around `italic` (the instance
x = bold, y = italic).  In general, for texts x and y free of `*`, the
backtick, `(`, `<` and key terms, with x free of line terminators and y not
empty, `"**" + x + "** and *" + y + "*"` is rendered with x inside the bold
span and y inside the italic span, and the two spans have different class
attributes. -/
theorem bold_then_italic (x y : Str) (hx1 : '*' ∉ x) (hx2 : backtick ∉ x) (hx3 : '(' ∉ x)
    (hx4 : '<' ∉ x) (hx5 : hasKeyword x = false) (hx6 : ∀ c ∈ x, isLineTerminator c = false)
    (hy1 : '*' ∉ y) (hy2 : backtick ∉ y) (hy3 : '(' ∉ y) (hy4 : '<' ∉ y)
    (hy5 : hasKeyword y = false) (hy : y ≠ []) :
    formatInlineText ("**".toList ++ x ++ "** and *".toList ++ y ++ "*".toList) =
      "<span class=\"font-bold text-purple-700\">".toList ++ x ++ "</span> and ".toList ++
        "<span class=\"italic text-purple-600\">".toList ++ y ++ "</span>".toList ∧
    "<span class=\"font-bold text-purple-700\">".toList ≠
      "<span class=\"italic text-purple-600\">".toList := by
  refine ⟨?_, by decide⟩
  obtain ⟨d, y1, rfl⟩ : ∃ d y1, y = d :: y1 := by
    cases y with
    | nil => exact absurd rfl hy
    | cons d y1 => exact ⟨d, y1, rfl⟩
  have cx : x.count '*' = 0 := List.count_eq_zero_of_not_mem hx1
  have cy : (d :: y1).count '*' = 0 := List.count_eq_zero_of_not_mem hy1
  have hlt : '<' ∉ "**".toList ++ x ++ "** and *".toList ++ (d :: y1) ++ "*".toList := by
    simp only [List.mem_append, not_or]
    exact ⟨⟨⟨⟨by decide, hx4⟩, by decide⟩, hy4⟩, by decide⟩
  have hpar : '(' ∉ "**".toList ++ x ++ "** and *".toList ++ (d :: y1) ++ "*".toList := by
    simp only [List.mem_append, not_or]
    exact ⟨⟨⟨⟨by decide, hx3⟩, by decide⟩, hy3⟩, by decide⟩
  rw [formatInlineText_of_no_lt (by simp) hlt, formatMathNotation_id hpar]
  -- the bold+italic rule finds no match
  have s1 : replaceAll matchBoldItalic 0
      ("**".toList ++ x ++ "** and *".toList ++ (d :: y1) ++ "*".toList) =
      '*' :: '*' :: (x ++ ('*' :: '*' :: (" and ".toList ++ '*' :: (d :: y1 ++ '*' :: [])))) := by
    have e : "**".toList ++ x ++ "** and *".toList ++ (d :: y1) ++ "*".toList =
        '*' :: ('*' :: (x ++ ('*' :: '*' :: (" and ".toList ++ '*' :: (d :: y1 ++ '*' :: []))))) := by
      simp
    rw [e]
    have h0 : matchBoldItalic
        ('*' :: ('*' :: (x ++ ('*' :: '*' :: (" and ".toList ++ '*' :: (d :: y1 ++ '*' :: [])))))) =
        none := by
      cases x with
      | nil =>
        have e1 : dropLiteral "***".toList ('*' :: ('*' :: ([] ++
            ('*' :: '*' :: (" and ".toList ++ '*' :: (d :: y1 ++ '*' :: [])))))) =
            some ('*' :: (" and ".toList ++ '*' :: (d :: y1 ++ '*' :: []))) := rfl
        have e2 : lazyUntil "***".toList ('*' :: (" and ".toList ++ '*' :: (d :: y1 ++ '*' :: []))) =
            none := by
          have e3 : lazyUntil "***".toList (" and ".toList ++ '*' :: (d :: y1 ++ '*' :: [])) =
              none := by
            apply lazyUntil_none_of_count
            have : "***".toList.count '*' = 3 := by decide
            rw [this, List.count_append, List.count_cons, List.count_append, cy]
            decide
          have e4 : lazyUntil "***".toList
              ('*' :: (" and ".toList ++ '*' :: (d :: y1 ++ '*' :: []))) =
              match lazyUntil "***".toList (" and ".toList ++ '*' :: (d :: y1 ++ '*' :: [])) with
              | some (cap, rest) => some ('*' :: cap, rest)
              | none => none := rfl
          rw [e4, e3]
        simp only [matchBoldItalic, e1, e2]
      | cons c x =>
        have hc : '*' ≠ c := fun e => hx1 (e ▸ List.mem_cons_self _ _)
        have e1 : dropLiteral "***".toList ('*' :: ('*' :: (c :: x ++
            ('*' :: '*' :: (" and ".toList ++ '*' :: (d :: y1 ++ '*' :: [])))))) = none := by
          show dropLiteral ['*', '*', '*'] _ = none
          simp [dropLiteral, hc]
        simp only [matchBoldItalic, e1]
    rw [replaceAll_none h0]
    congr 1
    apply replaceAll_id
    intro t ht
    apply matchBoldItalic_none_of_count
    have := count_le_of_suffix ht '*'
    simp only [List.count_cons, List.count_append, cx, cy, List.count_nil] at this
    have e5 : " and ".toList.count '*' = 0 := by decide
    rw [e5] at this
    simp at this
    omega
  rw [s1]
  -- the bold rule matches once, at the start
  have s2 : replaceAll matchBold 0
      ('*' :: '*' :: (x ++ ('*' :: '*' :: (" and ".toList ++ '*' :: (d :: y1 ++ '*' :: []))))) =
      ("<span class=\"font-bold text-purple-700\">".toList ++ x ++ spanClose) ++
        (" and ".toList ++ '*' :: (d :: y1 ++ '*' :: [])) := by
    have hm := matchBold_double x (" and ".toList ++ '*' :: (d :: y1 ++ '*' :: [])) hx1 hx6
    rw [@replaceAll_some matchBold _ _ _ ('*' :: '*' :: (x ++ ['*', '*'])) hm (by simp) (by simp)]
    congr 1
    apply replaceAll_id
    intro t ht
    apply matchBold_none_of_count
    have := count_le_of_suffix ht '*'
    simp only [List.count_cons, List.count_append, cy, List.count_nil] at this
    have e5 : " and ".toList.count '*' = 0 := by decide
    rw [e5] at this
    simp at this
    omega
  rw [s2]
  -- the italic rule matches once, after the bold span
  have n1 : '*' ∉ "<span class=\"font-bold text-purple-700\">".toList ++ x ++ spanClose ++
      " and ".toList := by
    simp only [List.mem_append, not_or]
    exact ⟨⟨⟨by decide, hx1⟩, by decide⟩, by decide⟩
  have s3 : replaceAll matchItalic 0
      (("<span class=\"font-bold text-purple-700\">".toList ++ x ++ spanClose) ++
        (" and ".toList ++ '*' :: (d :: y1 ++ '*' :: []))) =
      ("<span class=\"font-bold text-purple-700\">".toList ++ x ++ spanClose ++ " and ".toList) ++
        ("<span class=\"italic text-purple-600\">".toList ++ (d :: y1) ++ spanClose) := by
    rw [← List.append_assoc,
      replaceAll_append_of_head _ _ (fun c hc r => matchItalic_of_ne r (ne_of_not_mem n1 c hc)),
      @replaceAll_some matchItalic _ _ _ ('*' :: (d :: y1 ++ ['*']))
        (matchItalic_single d y1 [] hy1) (by simp) (by simp), replaceAll_nil, List.append_nil]
  rw [s3]
  have n2 : backtick ∉
      ("<span class=\"font-bold text-purple-700\">".toList ++ x ++ spanClose ++ " and ".toList) ++
        ("<span class=\"italic text-purple-600\">".toList ++ (d :: y1) ++ spanClose) := by
    simp only [List.mem_append, not_or]
    exact ⟨⟨⟨⟨by decide, hx2⟩, by decide⟩, by decide⟩, ⟨by decide, hy2⟩, by decide⟩
  have n3 : hasKeyword
      (("<span class=\"font-bold text-purple-700\">".toList ++ x ++ spanClose ++ " and ".toList) ++
        ("<span class=\"italic text-purple-600\">".toList ++ (d :: y1) ++ spanClose)) = false := by
    have k1 : hasKeyword ("<span class=\"font-bold text-purple-700\">".toList ++ x) = false :=
      hasKeyword_append (by rfl) hx5 (Or.inl (by rfl))
    have k2 : hasKeyword (spanClose ++ " and ".toList ++
        "<span class=\"italic text-purple-600\">".toList) = false := by rfl
    have k3 : hasKeyword (d :: y1 ++ spanClose) = false :=
      hasKeyword_append hy5 (by rfl) (Or.inr (by rfl))
    have k4 : hasKeyword ((spanClose ++ " and ".toList ++
        "<span class=\"italic text-purple-600\">".toList) ++ (d :: y1 ++ spanClose)) = false :=
      hasKeyword_append k2 k3 (Or.inl (by rfl))
    have k5 := hasKeyword_append k1 k4 (Or.inr (by rfl))
    simpa [List.append_assoc] using k5
  rw [replaceAll_id_of_head _ (fun c hc r => matchInlineCode_of_ne r (ne_of_not_mem n2 c hc)),
    replaceAll_keyword_id n3]
  simp [spanClose]

theorem bold_then_italic_witness :
    formatInlineText ("**".toList ++ "bold".toList ++ "** and *".toList ++ "italic".toList ++
        "*".toList) =
      "<span class=\"font-bold text-purple-700\">".toList ++ "bold".toList ++
        "</span> and ".toList ++ "<span class=\"italic text-purple-600\">".toList ++
        "italic".toList ++ "</span>".toList ∧
    "<span class=\"font-bold text-purple-700\">".toList ≠
      "<span class=\"italic text-purple-600\">".toList :=
  bold_then_italic "bold".toList "italic".toList (by decide) (by decide) (by decide) (by decide)
    (by rfl) (by decide) (by decide) (by decide) (by decide) (by decide) (by rfl) (by decide)

theorem bold_then_italic_counterexample :
    (hasKeyword "x".toList = false ∧ hasKeyword "".toList = false ∧
      (∀ c ∈ ['*', backtick, '(', '<'], c ∉ "x".toList ∧ c ∉ "".toList) ∧
      formatInlineText ("**".toList ++ "x".toList ++ "** and *".toList ++ "".toList ++
          "*".toList) =
        "<span class=\"font-bold text-purple-700\">x</span> and **".toList ∧
      includes "<span class=\"italic".toList
        (formatInlineText ("**".toList ++ "x".toList ++ "** and *".toList ++ "".toList ++
          "*".toList)) = false) ∧
    (hasKeyword "a\rb".toList = false ∧ hasKeyword "y".toList = false ∧
      (∀ c ∈ ['*', backtick, '(', '<'], c ∉ "a\rb".toList ∧ c ∉ "y".toList) ∧
      formatInlineText ("**".toList ++ "a\rb".toList ++ "** and *".toList ++ "y".toList ++
          "*".toList) =
        "*<span class=\"italic text-purple-600\">a\rb</span><span class=\"italic text-purple-600\"> and </span>y*".toList ∧
      includes "<span class=\"font-bold".toList
        (formatInlineText ("**".toList ++ "a\rb".toList ++ "** and *".toList ++ "y".toList ++
          "*".toList)) = false) := by
  refine ⟨⟨by rfl, by rfl, by decide, by rfl, by rfl⟩, by rfl, by rfl, by decide, by rfl, by rfl⟩

/-! ## Substitutions that put tags around a capture -/

theorem noLetterAtStart_append (a b : Str) (ha : a ≠ []) :
    noLetterAtStart (a ++ b) = noLetterAtStart a := by
  cases a with
  | nil => exact absurd rfl ha
  | cons c a => rfl

theorem noLetterAtEnd_cons (c : Char) (a : Str) (ha : a ≠ []) :
    noLetterAtEnd (c :: a) = noLetterAtEnd a :=
  noLetterAtEnd_append [c] a ha

theorem noLetterAtEnd_of_noLetters {a : Str} (h : ∀ c ∈ a, isLetter c = false) :
    noLetterAtEnd a = true := by
  rcases List.eq_nil_or_concat a with rfl | ⟨a1, c, rfl⟩
  · rfl
  · simp only [List.concat_eq_append] at *
    rw [noLetterAtEnd_concat, h c (by simp)]
    rfl

theorem noLetterAtEnd_of_letters {a : Str} (h : ∀ c ∈ a, isLetter c = true) (ha : a ≠ []) :
    noLetterAtEnd a = false := by
  rcases List.eq_nil_or_concat a with rfl | ⟨a1, c, rfl⟩
  · exact absurd rfl ha
  · simp only [List.concat_eq_append] at *
    rw [noLetterAtEnd_concat, h c (by simp)]
    rfl

theorem noLetterAtEnd_of_suffix {a t : Str} (ha : noLetterAtEnd a = true) (ht : t <:+ a) :
    noLetterAtEnd t = true := by
  by_cases hne : t = []
  · subst hne; rfl
  · obtain ⟨p, rfl⟩ := ht
    rwa [noLetterAtEnd_append p t hne] at ha

theorem tagLike_body {g : Str → Str} {m : Str → Option (Str × Str)} (hm : TagLike g m)
    {t rep rest : Str} (h : m t = some (rep, rest)) :
    ∃ o cap cl o1 cl1, t = (o ++ (cap ++ cl)) ++ rest ∧ rep = o1 ++ (g cap ++ cl1) ∧
      o ≠ [] ∧ (∀ c ∈ o, isLetter c = false) ∧ (∀ c ∈ cl, isLetter c = false) ∧
      (cl = [] → cap = []) ∧ IsTag o1 ∧ IsTag cl1 ∧ noLetterAtEnd (o ++ (cap ++ cl)) = true ∧
      o ++ (cap ++ cl) ≠ [] := by
  obtain ⟨o, cap, cl, o1, cl1, e1, e2, h1, h2, h3, h4, h5, h6⟩ := hm t rep rest h
  refine ⟨o, cap, cl, o1, cl1, by simp [e1], e2, h1, h2, h3, h4, h5, h6, ?_, by simp [h1]⟩
  by_cases hcl : cl = []
  · rw [hcl, h4 hcl]
    simpa using noLetterAtEnd_of_noLetters h2
  · rw [← List.append_assoc, noLetterAtEnd_append _ _ hcl]
    exact noLetterAtEnd_of_noLetters h3

theorem tagLike_of_letter {g : Str → Str} {m : Str → Option (Str × Str)} (hm : TagLike g m)
    {c : Char} (hc : isLetter c = true) (r : Str) : m (c :: r) = none := by
  cases h : m (c :: r) with
  | none => rfl
  | some q =>
    obtain ⟨rep, rest⟩ := q
    obtain ⟨o, cap, cl, o1, cl1, e1, _, h1, h2, _⟩ := hm _ rep rest h
    cases o with
    | nil => exact absurd rfl h1
    | cons x o =>
      simp only [List.cons_append, List.cons.injEq] at e1
      have := h2 x (List.mem_cons_self _ _)
      rw [← e1.1, hc] at this
      cases this

theorem noLetterAtStart_replaceAll {g : Str → Str} {m : Str → Option (Str × Str)}
    (hm : TagLike g m) {b : Str} (hb : noLetterAtStart b = true) :
    noLetterAtStart (replaceAll m 0 b) = true := by
  cases b with
  | nil => rfl
  | cons c b =>
    cases h : m (c :: b) with
    | none => rw [replaceAll_none h]; exact hb
    | some q =>
      obtain ⟨rep, rest⟩ := q
      obtain ⟨o, cap, cl, o1, cl1, e1, e2, h1, h2, h3, h4, h5, h6, h7, h8⟩ := tagLike_body hm h
      rw [replaceAll_some h e1 h8, e2, List.append_assoc, noLetterAtStart_append _ _ h5.1]
      exact h5.2.1

/-- A substitution that puts tags around a capture brings no key term into a
text: behind a run of letters `p` the output holds a key term only if the
input does. -/
theorem hasKeyword_replaceAll_aux {g : Str → Str} {m : Str → Option (Str × Str)}
    (hm : TagLike g m) (hg : ∀ cap, hasKeyword cap = false → hasKeyword (g cap) = false)
    (n : Nat) : ∀ t : Str, t.length ≤ n → ∀ p : Str, (∀ c ∈ p, isLetter c = true) →
      hasKeyword (p ++ t) = false → hasKeyword (p ++ replaceAll m 0 t) = false := by
  induction n with
  | zero =>
    intro t ht p _ h
    have : t = [] := List.length_eq_zero.1 (Nat.le_zero.1 ht)
    subst this
    exact h
  | succ n ih =>
    intro t ht p hp h
    cases t with
    | nil => exact h
    | cons c cs =>
      have hcs : cs.length ≤ n := by simpa using ht
      cases hmt : m (c :: cs) with
      | none =>
        rw [replaceAll_none hmt]
        cases hc : isLetter c with
        | true =>
          have e : ∀ z : Str, p ++ c :: z = (p ++ [c]) ++ z := by intro z; simp
          rw [e] at h ⊢
          refine ih cs hcs (p ++ [c]) ?_ h
          intro d hd
          rcases List.mem_append.1 hd with hd | hd
          · exact hp d hd
          · rw [List.mem_singleton.1 hd]; exact hc
        | false =>
          have e : ∀ z : Str, p ++ c :: z = (p ++ [c]) ++ z := by intro z; simp
          rw [e] at h ⊢
          obtain ⟨k1, k2⟩ := hasKeyword_of_append h
          have k3 := ih cs hcs [] (fun _ hd => absurd hd (List.not_mem_nil _)) k2
          exact hasKeyword_append k1 k3 (Or.inl (by rw [noLetterAtEnd_concat, hc]; rfl))
      | some q =>
        obtain ⟨rep, rest⟩ := q
        obtain ⟨o, cap, cl, o1, cl1, e1, e2, h1, h2, h3, h4, h5, h6, h7, h8⟩ := tagLike_body hm hmt
        rw [replaceAll_some hmt e1 h8]
        have hrest : rest.length ≤ n := by
          have := congrArg List.length e1
          have hb : 0 < (o ++ (cap ++ cl)).length := List.length_pos.2 h8
          simp only [List.length_cons, List.length_append] at this hb ht
          omega
        obtain ⟨kp, kt⟩ := hasKeyword_of_append h
        rw [e1] at kt
        obtain ⟨kbody, krest⟩ := hasKeyword_of_append kt
        have kcap : hasKeyword cap = false := (hasKeyword_of_append (hasKeyword_of_append kbody).2).1
        have kout := ih rest hrest [] (fun _ hd => absurd hd (List.not_mem_nil _)) krest
        have krep : hasKeyword rep = false := by
          rw [e2]
          exact hasKeyword_append h5.2.2.2 (hasKeyword_append (hg cap kcap) h6.2.2.2
            (Or.inr h6.2.1)) (Or.inl h5.2.2.1)
        have erep : noLetterAtEnd rep = true := by
          rw [e2, ← List.append_assoc, noLetterAtEnd_append _ _ h6.1]
          exact h6.2.2.1
        have srep : noLetterAtStart (rep ++ replaceAll m 0 rest) = true := by
          rw [e2, List.append_assoc, noLetterAtStart_append _ _ h5.1]
          exact h5.2.1
        exact hasKeyword_append kp (hasKeyword_append krep kout (Or.inl erep)) (Or.inr srep)

theorem hasKeyword_replaceAll {g : Str → Str} {m : Str → Option (Str × Str)}
    (hm : TagLike g m) (hg : ∀ cap, hasKeyword cap = false → hasKeyword (g cap) = false)
    {t : Str} (h : hasKeyword t = false) : hasKeyword (replaceAll m 0 t) = false :=
  hasKeyword_replaceAll_aux hm hg t.length t (Nat.le_refl _) []
    (fun _ hd => absurd hd (List.not_mem_nil _)) h

/-- A run of letters inside a match lies inside the capture. -/
theorem run_inside_capture {o cap cl a r b : Str} (e : o ++ (cap ++ cl) = a ++ (r ++ b))
    (ho : ∀ c ∈ o, isLetter c = false) (hcl : ∀ c ∈ cl, isLetter c = false)
    (hr : ∀ c ∈ r, isLetter c = true) (hne : r ≠ []) :
    ∃ a2 b2, a = o ++ a2 ∧ b = b2 ++ cl ∧ cap = a2 ++ (r ++ b2) := by
  have step1 : ∃ a2, a = o ++ a2 ∧ cap ++ cl = a2 ++ (r ++ b) := by
    rcases List.append_eq_append_iff.1 e with ⟨a2, e1, e2⟩ | ⟨c1, e1, e2⟩
    · exact ⟨a2, e1, e2⟩
    · cases c1 with
      | nil => exact ⟨[], by simp [e1], by simpa using e2.symm⟩
      | cons x c1 =>
        exfalso
        cases r with
        | nil => exact hne rfl
        | cons y r =>
          simp only [List.cons_append, List.cons.injEq] at e2
          have h1 := ho x (by rw [e1]; simp)
          have h2 := hr y (List.mem_cons_self _ _)
          rw [e2.1, h1] at h2
          cases h2
  obtain ⟨a2, e1, e2⟩ := step1
  refine ⟨a2, ?_⟩
  have e3 : cap ++ cl = (a2 ++ r) ++ b := by rw [e2, List.append_assoc]
  rcases List.append_eq_append_iff.1 e3 with ⟨a3, e4, e5⟩ | ⟨c3, e4, e5⟩
  · by_cases ha3 : a3 = []
    · subst ha3
      refine ⟨[], e1, by simpa using e5.symm, ?_⟩
      simpa using e4.symm
    · exfalso
      have k1 : noLetterAtEnd (a2 ++ r) = false := by
        rw [noLetterAtEnd_append _ _ hne]
        exact noLetterAtEnd_of_letters hr hne
      have k2 : noLetterAtEnd (cap ++ a3) = true := by
        rw [noLetterAtEnd_append _ _ ha3]
        exact noLetterAtEnd_of_noLetters (fun c hc => hcl c (by rw [e5]; simp [hc]))
      rw [e4, k2] at k1
      cases k1
  · exact ⟨c3, e1, e5, by rw [e4, List.append_assoc]⟩

/-- A substitution that puts tags around a capture keeps every word of the
text: a run of letters with no letter before and after it stands in the output
as it stood in the input. -/
theorem hasRun_replaceAll_aux {g : Str → Str} {m : Str → Option (Str × Str)}
    (hm : TagLike g m) {r b : Str} (hr : ∀ c ∈ r, isLetter c = true) (hne : r ≠ [])
    (hg : ∀ cap, HasRun r cap → HasRun r (g cap)) (hb : noLetterAtStart b = true) (n : Nat) :
    ∀ a : Str, a.length ≤ n → noLetterAtEnd a = true →
      ∃ a1 b1, replaceAll m 0 (a ++ (r ++ b)) = a1 ++ (r ++ b1) ∧ noLetterAtEnd a1 = true ∧
        noLetterAtStart b1 = true ∧ (a1 = [] → a = []) := by
  induction n with
  | zero =>
    intro a ha _
    have : a = [] := List.length_eq_zero.1 (Nat.le_zero.1 ha)
    subst this
    refine ⟨[], replaceAll m 0 b, ?_, rfl, noLetterAtStart_replaceAll hm hb, fun _ => rfl⟩
    simpa using replaceAll_append_of_head r b (fun c hc z => tagLike_of_letter hm (hr c hc) z)
  | succ n ih =>
    intro a ha hae
    cases a with
    | nil =>
      refine ⟨[], replaceAll m 0 b, ?_, rfl, noLetterAtStart_replaceAll hm hb, fun _ => rfl⟩
      simpa using replaceAll_append_of_head r b (fun c hc z => tagLike_of_letter hm (hr c hc) z)
    | cons c a0 =>
      have ha0 : a0.length ≤ n := by simpa using ha
      cases hmt : m (c :: a0 ++ (r ++ b)) with
      | none =>
        have hae0 : noLetterAtEnd a0 = true :=
          noLetterAtEnd_of_suffix hae (List.suffix_cons c a0)
        obtain ⟨a1, b1, e, k1, k2, k3⟩ := ih a0 ha0 hae0
        refine ⟨c :: a1, b1, ?_, ?_, k2, fun h => by cases h⟩
        · have hmt1 : m (c :: (a0 ++ (r ++ b))) = none := hmt
          rw [List.cons_append, replaceAll_none hmt1, e]; rfl
        · by_cases h1 : a1 = []
          · have := k3 h1
            subst this; subst h1
            exact hae
          · rw [noLetterAtEnd_cons c a1 h1]; exact k1
      | some q =>
        obtain ⟨rep, rest⟩ := q
        obtain ⟨o, cap, cl, o1, cl1, e1, e2, h1, h2, h3, h4, h5, h6, h7, h8⟩ := tagLike_body hm hmt
        have erep : noLetterAtEnd rep = true := by
          rw [e2, ← List.append_assoc, noLetterAtEnd_append _ _ h6.1]
          exact h6.2.2.1
        have hrep : rep ≠ [] := by rw [e2]; simp [h5.1]
        rw [replaceAll_some hmt e1 h8]
        -- the match ends before the run
        have before : ∀ c1 : Str, c :: a0 = (o ++ (cap ++ cl)) ++ c1 → rest = c1 ++ (r ++ b) →
            ∃ a1 b1, rep ++ replaceAll m 0 rest = a1 ++ (r ++ b1) ∧ noLetterAtEnd a1 = true ∧
              noLetterAtStart b1 = true ∧ (a1 = [] → c :: a0 = []) := by
          intro c1 i1 i2
          have hlen : c1.length ≤ n := by
            have l1 := congrArg List.length i1
            rw [List.length_append, List.length_cons] at l1
            have l2 : 0 < (o ++ (cap ++ cl)).length := List.length_pos.2 h8
            omega
          have hce : noLetterAtEnd c1 = true :=
            noLetterAtEnd_of_suffix hae ⟨o ++ (cap ++ cl), i1.symm⟩
          obtain ⟨a1, b1, e, k1, k2, _⟩ := ih c1 hlen hce
          refine ⟨rep ++ a1, b1, by rw [i2, e, List.append_assoc], ?_, k2, ?_⟩
          · by_cases ha1 : a1 = []
            · rw [ha1, List.append_nil]; exact erep
            · rw [noLetterAtEnd_append _ _ ha1]; exact k1
          · intro h; exact absurd (List.append_eq_nil.1 h).1 hrep
        rcases List.append_eq_append_iff.1 e1 with ⟨a1, i1, i2⟩ | ⟨c1, i1, i2⟩
        · by_cases ha1 : a1 = []
          · subst ha1
            exact before [] (by simpa using i1.symm) (by simpa using i2.symm)
          · -- the match reaches into the run, so it holds the whole run
            rcases List.append_eq_append_iff.1 i2 with ⟨r2, j1, j2⟩ | ⟨r1, j1, j2⟩
            · by_cases hr2 : r2 = []
              · exfalso
                subst hr2
                rw [List.append_nil] at j1
                rw [i1, j1, noLetterAtEnd_append _ _ hne, noLetterAtEnd_of_letters hr hne] at h7
                cases h7
              · have i3 : o ++ (cap ++ cl) = (c :: a0) ++ (r ++ r2) := by rw [i1, j1]
                obtain ⟨a2, b2, l1, l2, l3⟩ := run_inside_capture i3 h2 h3 hr hne
                have hrun : HasRun r cap := by
                  refine ⟨a2, b2, l3, ?_, ?_⟩
                  · exact noLetterAtEnd_of_suffix hae ⟨o, l1.symm⟩
                  · by_cases hb2 : b2 = []
                    · subst hb2; rfl
                    · have : noLetterAtStart r2 = true := by
                        rw [j2, noLetterAtStart_append _ _ hr2] at hb
                        exact hb
                      rw [l2, noLetterAtStart_append _ _ hb2] at this
                      exact this
                obtain ⟨a3, b3, l4, l5, l6⟩ := hg cap hrun
                refine ⟨o1 ++ a3, b3 ++ (cl1 ++ replaceAll m 0 rest), ?_, ?_, ?_, ?_⟩
                · rw [e2, l4]; simp
                · by_cases ha3 : a3 = []
                  · rw [ha3, List.append_nil]; exact h5.2.2.1
                  · rw [noLetterAtEnd_append _ _ ha3]; exact l5
                · by_cases hb3 : b3 = []
                  · rw [hb3, List.nil_append, noLetterAtStart_append _ _ h6.1]; exact h6.2.1
                  · rw [noLetterAtStart_append _ _ hb3]; exact l6
                · intro h; exact absurd (List.append_eq_nil.1 h).1 h5.1
            · exfalso
              have hlet : ∀ d ∈ a1, isLetter d = true := fun d hd => hr d (by rw [j1]; simp [hd])
              have := noLetterAtEnd_of_letters hlet ha1
              rw [i1, noLetterAtEnd_append _ _ ha1, this] at h7
              cases h7
        · exact before c1 i1 i2

theorem hasRun_replaceAll {g : Str → Str} {m : Str → Option (Str × Str)}
    (hm : TagLike g m) {r : Str} (hr : ∀ c ∈ r, isLetter c = true) (hne : r ≠ [])
    (hg : ∀ cap, HasRun r cap → HasRun r (g cap)) {t : Str} (h : HasRun r t) :
    HasRun r (replaceAll m 0 t) := by
  obtain ⟨a, b, rfl, ha, hb⟩ := h
  obtain ⟨a1, b1, e, k1, k2, _⟩ := hasRun_replaceAll_aux hm hr hne hg hb a.length a (Nat.le_refl _) ha
  exact ⟨a1, b1, e, k1, k2⟩

/-! ## The shape of the patterns of the inline formatter -/

theorem isLetter_eq_false_of_digit {c : Char} (h : isDigit c = true) : isLetter c = false := by
  cases hl : isLetter c with
  | false => rfl
  | true => rw [isDigit_eq_false_of_letter hl] at h; cases h

theorem noLetters_takeWhile_isDigit (r : Str) : ∀ c ∈ r.takeWhile isDigit, isLetter c = false :=
  fun _ hc => isLetter_eq_false_of_digit (List.mem_takeWhile_imp hc)

theorem openBracket_shape {t r : Str} (h : openBracket t = some r) :
    ∃ o, t = o ++ r ∧ o ≠ [] ∧ ∀ c ∈ o, isLetter c = false := by
  rcases openBracket_some h with e | e
  · exact ⟨['('], e, by simp, by decide⟩
  · exact ⟨['\\', '('], e, by simp, by decide⟩

theorem closeBracket_shape {t r : Str} (h : closeBracket t = some r) :
    ∃ o, t = o ++ r ∧ o ≠ [] ∧ ∀ c ∈ o, isLetter c = false := by
  rcases closeBracket_some h with e | e
  · exact ⟨[')'], e, by simp, by decide⟩
  · exact ⟨['\\', ')'], e, by simp, by decide⟩

theorem isTag_mathSpanOpen : IsTag mathSpanOpen := ⟨by decide, by rfl, by rfl, by rfl⟩

theorem isTag_mathExprSpanOpen : IsTag mathExprSpanOpen := ⟨by decide, by rfl, by rfl, by rfl⟩

theorem isTag_spanClose : IsTag spanClose := ⟨by decide, by rfl, by rfl, by rfl⟩

theorem isTag_supOpen : IsTag supOpen := ⟨by decide, by rfl, by rfl, by rfl⟩

theorem isTag_digits_append {ds x : Str} (hd : ∀ c ∈ ds, isLetter c = false) (hx : IsTag x) :
    IsTag (ds ++ x) := by
  refine ⟨by simp [hx.1], ?_, ?_, ?_⟩
  · cases ds with
    | nil => exact hx.2.1
    | cons d ds => simpa [noLetterAtStart] using hd d (List.mem_cons_self _ _)
  · rw [noLetterAtEnd_append _ _ hx.1]; exact hx.2.2.1
  · exact hasKeyword_append (hasKeyword_of_noLetters hd) hx.2.2.2 (Or.inr hx.2.1)

theorem isTag_append {x y : Str} (hx : IsTag x) (hy : IsTag y) : IsTag (x ++ y) := by
  refine ⟨by simp [hx.1], ?_, ?_, ?_⟩
  · rw [noLetterAtStart_append _ _ hx.1]; exact hx.2.1
  · rw [noLetterAtEnd_append _ _ hy.1]; exact hy.2.2.1
  · exact hasKeyword_append hx.2.2.2 hy.2.2.2 (Or.inr hy.2.1)

theorem tagLike_matchVariable : TagLike id matchVariable := by
  intro t rep rest h
  unfold matchVariable at h
  split at h
  · rename_i c r ho
    split at h
    · split at h
      · rename_i rest1 hc
        simp only [Option.some.injEq, Prod.mk.injEq] at h
        obtain ⟨rfl, rfl⟩ := h
        obtain ⟨o, e1, o1, o2⟩ := openBracket_shape ho
        obtain ⟨cl, e2, c1, c2⟩ := closeBracket_shape hc
        exact ⟨o, [c], cl, mathSpanOpen, spanClose, by rw [e1, e2]; rfl, by simp, o1, o2, c2,
          fun h => absurd h c1, isTag_mathSpanOpen, isTag_spanClose⟩
      · cases h
    · cases h
  · cases h

theorem tagLike_matchFunction : TagLike id matchFunction := by
  intro t rep rest h
  unfold matchFunction at h
  split at h
  · rename_i r ho
    simp only at h
    split at h
    · rename_i x1 x2 n ns r2 hn hd
      split at h
      · rename_i y1 y2 a as r3 ha hd2
        split at h
        · rename_i rest1 hc
          simp only [Option.some.injEq, Prod.mk.injEq] at h
          obtain ⟨rfl, rfl⟩ := h
          obtain ⟨o, e1, o1, o2⟩ := openBracket_shape ho
          obtain ⟨cl, e2, c1, c2⟩ := closeBracket_shape hc
          refine ⟨o, r.takeWhile isAlnum ++ '(' :: r2.takeWhile isAlnum ++ [')'], cl,
            mathSpanOpen, spanClose, ?_, by simp, o1, o2, c2, fun h => absurd h c1,
            isTag_mathSpanOpen, isTag_spanClose⟩
          have k1 := List.takeWhile_append_dropWhile isAlnum r
          have k2 := List.takeWhile_append_dropWhile isAlnum r2
          rw [hd] at k1
          rw [hd2, e2] at k2
          rw [e1]
          conv_lhs => rw [← k1, ← k2]
          simp
        · cases h
      · cases h
    · cases h
  · cases h

theorem tagLike_matchSuperscript : TagLike id matchSuperscript := by
  intro t rep rest h
  unfold matchSuperscript at h
  split at h
  · rename_i c r ho
    split at h
    · simp only at h
      split at h
      · rename_i x1 x2 d ds rest1 hd hc
        simp only [Option.some.injEq, Prod.mk.injEq] at h
        obtain ⟨rfl, rfl⟩ := h
        obtain ⟨o, e1, o1, o2⟩ := openBracket_shape ho
        obtain ⟨cl, e2, c1, c2⟩ := closeBracket_shape hc
        have hdig := noLetters_takeWhile_isDigit r
        refine ⟨o, [c], '^' :: (r.takeWhile isDigit ++ cl), mathSpanOpen,
          supOpen ++ (r.takeWhile isDigit ++ (supClose ++ spanClose)), ?_, by simp, o1, o2, ?_,
          fun h => absurd h (List.cons_ne_nil _ _), isTag_mathSpanOpen,
          isTag_append isTag_supOpen (isTag_digits_append hdig
            (isTag_append ⟨by decide, by rfl, by rfl, by rfl⟩ isTag_spanClose))⟩
        · have k1 := List.takeWhile_append_dropWhile isDigit r
          rw [e2] at k1
          rw [e1]
          conv_lhs => rw [← k1]
          simp
        · intro x hx
          rcases List.mem_cons.1 hx with rfl | hx
          · rfl
          · rcases List.mem_append.1 hx with hx | hx
            · exact hdig x hx
            · exact c2 x hx
      · cases h
    · cases h
  · cases h

theorem tagLike_matchExpression : TagLike formatOperators matchExpression := by
  intro t rep rest h
  unfold matchExpression at h
  split at h
  · rename_i r ho
    split at h
    · rename_i x1 x2 c p1 rest1 hp hd
      simp only [Option.some.injEq, Prod.mk.injEq] at h
      obtain ⟨rfl, rfl⟩ := h
      obtain ⟨o, e1, o1, o2⟩ := openBracket_shape ho
      refine ⟨o, c :: p1, [')'], mathExprSpanOpen, spanClose, ?_, ?_, o1, o2, by decide,
        fun h => absurd h (List.cons_ne_nil _ _), isTag_mathExprSpanOpen, isTag_spanClose⟩
      · have k1 := List.takeWhile_append_dropWhile (fun c => c != ')') r
        rw [hp, hd] at k1
        rw [e1, ← k1]
        simp
      · simp [formatExpression, formatOperators]
    · cases h
  · cases h

theorem tagLike_matchBoldItalic : TagLike id matchBoldItalic := by
  intro t rep rest h
  unfold matchBoldItalic at h
  split at h
  · rename_i r hd
    split at h
    · rename_i cap rest1 hl
      simp only [Option.some.injEq, Prod.mk.injEq] at h
      obtain ⟨rfl, rfl⟩ := h
      refine ⟨"***".toList, cap, "***".toList,
        "<span class=\"font-bold italic text-purple-800\">".toList, spanClose, ?_, by simp,
        by decide, by decide, by decide, fun h => absurd h (by decide),
        ⟨by decide, by rfl, by rfl, by rfl⟩, isTag_spanClose⟩
      rw [dropLiteral_some hd, lazyUntil_some hl]
    · cases h
  · cases h

theorem tagLike_matchBold : TagLike id matchBold := by
  intro t rep rest h
  unfold matchBold at h
  split at h
  · rename_i r hd
    split at h
    · rename_i cap rest1 hl
      simp only [Option.some.injEq, Prod.mk.injEq] at h
      obtain ⟨rfl, rfl⟩ := h
      refine ⟨"**".toList, cap, "**".toList,
        "<span class=\"font-bold text-purple-700\">".toList, spanClose, ?_, by simp,
        by decide, by decide, by decide, fun h => absurd h (by decide),
        ⟨by decide, by rfl, by rfl, by rfl⟩, isTag_spanClose⟩
      rw [dropLiteral_some hd, lazyUntil_some hl]
    · cases h
  · cases h

theorem tagLike_matchItalic : TagLike id matchItalic := by
  intro t rep rest h
  unfold matchItalic at h
  split at h
  · rename_i r
    split at h
    · rename_i x1 x2 c cap rest1 hp hd
      simp only [Option.some.injEq, Prod.mk.injEq] at h
      obtain ⟨rfl, rfl⟩ := h
      refine ⟨['*'], c :: cap, ['*'], "<span class=\"italic text-purple-600\">".toList,
        spanClose, ?_, by simp, by decide, by decide, by decide,
        fun h => absurd h (List.cons_ne_nil _ _), ⟨by decide, by rfl, by rfl, by rfl⟩,
        isTag_spanClose⟩
      have k1 := List.takeWhile_append_dropWhile (fun c => c != '*') r
      rw [hp, hd] at k1
      rw [← k1]
      simp
    · cases h
  · cases h

theorem tagLike_matchInlineCode : TagLike id matchInlineCode := by
  intro t rep rest h
  unfold matchInlineCode at h
  split at h
  · cases h
  · rename_i c r
    split at h
    · rename_i hc
      split at h
      · rename_i cap rest1 hl
        simp only [Option.some.injEq, Prod.mk.injEq] at h
        obtain ⟨rfl, rfl⟩ := h
        refine ⟨[backtick], cap, [backtick],
          "<code class=\"bg-purple-50 border border-purple-200 px-1.5 py-0.5 rounded font-mono text-sm text-purple-800\">".toList,
          "</code>".toList, ?_, by simp, by decide,
          by decide, by decide, fun h => absurd h (List.cons_ne_nil _ _),
          ⟨by decide, by rfl, by rfl, by rfl⟩, ⟨by decide, by rfl, by rfl, by rfl⟩⟩
        rw [hc, lazyUntil_some hl]
        rfl
      · cases h
    · cases h

theorem tagLike_matchExponent : TagLike id matchExponent := by
  intro t rep rest h
  unfold matchExponent at h
  split at h
  · rename_i r
    split at h
    · cases h
    · rename_i d ds hd
      simp only [Option.some.injEq, Prod.mk.injEq] at h
      obtain ⟨rfl, rfl⟩ := h
      have hdig := noLetters_takeWhile_isDigit r
      rw [hd] at hdig
      refine ⟨['^'], [], d :: ds, supOpen, (d :: ds) ++ supClose, ?_, by simp, by decide,
        by decide, hdig, fun _ => rfl, isTag_supOpen,
        isTag_digits_append hdig ⟨by decide, by rfl, by rfl, by rfl⟩⟩
      have k1 := List.takeWhile_append_dropWhile isDigit r
      rw [hd] at k1
      conv_lhs => rw [← k1]
      simp
  · cases h

theorem tagLike_matchChar (c : Char) (o1 cl1 : Str) (hc : isLetter c = false) (ho : IsTag o1)
    (hcl : IsTag cl1) : TagLike id (matchChar c (o1 ++ cl1)) := by
  intro t rep rest h
  cases t with
  | nil => cases h
  | cons x r =>
    simp only [matchChar] at h
    split at h
    · rename_i hx
      simp only [Option.some.injEq, Prod.mk.injEq] at h
      obtain ⟨rfl, rfl⟩ := h
      refine ⟨[c], [], [], o1, cl1, by simp [hx], by simp, by simp, ?_, by simp, fun _ => rfl,
        ho, hcl⟩
      intro y hy
      rw [List.mem_singleton.1 hy]; exact hc
    · cases h

/-! ## Key terms and words through the rules of the inline formatter -/

theorem operatorSpan_eq (op : Str) :
    operatorSpan op = "<span class=\"mx-1\">".toList ++ (op ++ spanClose) := by
  simp [operatorSpan]

theorem tagLike_operator (c : Char) (op : Str) (hc : isLetter c = false)
    (hop : ∀ x ∈ op, isLetter x = false) : TagLike id (matchChar c (operatorSpan op)) := by
  rw [operatorSpan_eq]
  exact tagLike_matchChar c _ _ hc ⟨by decide, by rfl, by rfl, by rfl⟩
    (isTag_digits_append hop isTag_spanClose)

theorem hasKeyword_formatOperators {p : Str} (h : hasKeyword p = false) :
    hasKeyword (formatOperators p) = false := by
  unfold formatOperators
  simp only [replaceChar_eq_replaceAll]
  exact hasKeyword_replaceAll (tagLike_operator '/' _ (by rfl) (by decide)) (fun _ h => h)
    (hasKeyword_replaceAll (tagLike_operator '*' _ (by rfl) (by decide)) (fun _ h => h)
    (hasKeyword_replaceAll (tagLike_operator '=' _ (by rfl) (by decide)) (fun _ h => h)
    (hasKeyword_replaceAll (tagLike_operator '-' _ (by rfl) (by decide)) (fun _ h => h)
    (hasKeyword_replaceAll (tagLike_operator '+' _ (by rfl) (by decide)) (fun _ h => h)
    (hasKeyword_replaceAll tagLike_matchExponent (fun _ h => h) h)))))

theorem hasRun_formatOperators {r p : Str} (hr : ∀ c ∈ r, isLetter c = true) (hne : r ≠ [])
    (h : HasRun r p) : HasRun r (formatOperators p) := by
  unfold formatOperators
  simp only [replaceChar_eq_replaceAll]
  exact hasRun_replaceAll (tagLike_operator '/' _ (by rfl) (by decide)) hr hne (fun _ h => h)
    (hasRun_replaceAll (tagLike_operator '*' _ (by rfl) (by decide)) hr hne (fun _ h => h)
    (hasRun_replaceAll (tagLike_operator '=' _ (by rfl) (by decide)) hr hne (fun _ h => h)
    (hasRun_replaceAll (tagLike_operator '-' _ (by rfl) (by decide)) hr hne (fun _ h => h)
    (hasRun_replaceAll (tagLike_operator '+' _ (by rfl) (by decide)) hr hne (fun _ h => h)
    (hasRun_replaceAll tagLike_matchExponent hr hne (fun _ h => h) h)))))

/-- The rules before the key-term rule bring no key term into a text. -/
theorem hasKeyword_rules {s : Str} (h : hasKeyword s = false) :
    hasKeyword (replaceAll matchInlineCode 0 (replaceAll matchItalic 0
      (replaceAll matchBold 0 (replaceAll matchBoldItalic 0 (formatMathNotation s))))) = false := by
  unfold formatMathNotation
  exact hasKeyword_replaceAll tagLike_matchInlineCode (fun _ h => h)
    (hasKeyword_replaceAll tagLike_matchItalic (fun _ h => h)
    (hasKeyword_replaceAll tagLike_matchBold (fun _ h => h)
    (hasKeyword_replaceAll tagLike_matchBoldItalic (fun _ h => h)
    (hasKeyword_replaceAll tagLike_matchExpression (fun _ h => hasKeyword_formatOperators h)
    (hasKeyword_replaceAll tagLike_matchSuperscript (fun _ h => h)
    (hasKeyword_replaceAll tagLike_matchFunction (fun _ h => h)
    (hasKeyword_replaceAll tagLike_matchVariable (fun _ h => h) h)))))))

/-- The rules before the key-term rule keep every word of the text. -/
theorem hasRun_rules {r s : Str} (hr : ∀ c ∈ r, isLetter c = true) (hne : r ≠ [])
    (h : HasRun r s) :
    HasRun r (replaceAll matchInlineCode 0 (replaceAll matchItalic 0
      (replaceAll matchBold 0 (replaceAll matchBoldItalic 0 (formatMathNotation s))))) := by
  unfold formatMathNotation
  exact hasRun_replaceAll tagLike_matchInlineCode hr hne (fun _ h => h)
    (hasRun_replaceAll tagLike_matchItalic hr hne (fun _ h => h)
    (hasRun_replaceAll tagLike_matchBold hr hne (fun _ h => h)
    (hasRun_replaceAll tagLike_matchBoldItalic hr hne (fun _ h => h)
    (hasRun_replaceAll tagLike_matchExpression hr hne
      (fun _ h => hasRun_formatOperators hr hne h)
    (hasRun_replaceAll tagLike_matchSuperscript hr hne (fun _ h => h)
    (hasRun_replaceAll tagLike_matchFunction hr hne (fun _ h => h)
    (hasRun_replaceAll tagLike_matchVariable hr hne (fun _ h => h) h)))))))

theorem hasKeyword_formatInlineText {s : Str} (h : hasKeyword s = false) :
    hasKeyword (formatInlineText s) = false := by
  by_cases hs : s = []
  · subst hs; rfl
  · cases h1 : includes "<span class=\"font-serif".toList s with
    | true => rw [formatInlineText_of_marked (Or.inl h1)]; exact h
    | false =>
      cases h2 : includes "<sup class=\"text-xs\">".toList s with
      | true => rw [formatInlineText_of_marked (Or.inr h2)]; exact h
      | false =>
        rw [formatInlineText_of_unmarked hs h1 h2, replaceAll_keyword_id (hasKeyword_rules h)]
        exact hasKeyword_rules h

theorem formatInlineText_id {u : Str} (h1 : '(' ∉ u) (h2 : '*' ∉ u) (h3 : backtick ∉ u)
    (h4 : hasKeyword u = false) : formatInlineText u = u := by
  by_cases hs : u = []
  · subst hs; rfl
  · cases k1 : includes "<span class=\"font-serif".toList u with
    | true => exact formatInlineText_of_marked (Or.inl k1)
    | false =>
      cases k2 : includes "<sup class=\"text-xs\">".toList u with
      | true => exact formatInlineText_of_marked (Or.inr k2)
      | false => rw [formatInlineText_of_unmarked hs k1 k2, inlineRules_id h1 h2 h3 h4]

/-- C18 (amended): for every string s that contains none of the eight key terms
(in any letter case) and whose formatted text `formatInlineText(s)` either
contains one of the markers `<span class="font-serif` and
`<sup class="text-xs">` of the short-circuit, or contains no `*`, no backtick
and no `(`, formatting a second time changes nothing:
`formatInlineText(formatInlineText(s)) = formatInlineText(s)`. -/
theorem reformat_stable (s : Str) (hk : hasKeyword s = false)
    (h : includes "<span class=\"font-serif".toList (formatInlineText s) = true ∨
      includes "<sup class=\"text-xs\">".toList (formatInlineText s) = true ∨
      ('*' ∉ formatInlineText s ∧ backtick ∉ formatInlineText s ∧ '(' ∉ formatInlineText s)) :
    formatInlineText (formatInlineText s) = formatInlineText s := by
  rcases h with h | h | ⟨h1, h2, h3⟩
  · exact formatInlineText_of_marked (Or.inl h)
  · exact formatInlineText_of_marked (Or.inr h)
  · exact formatInlineText_id h3 h1 h2 (hasKeyword_formatInlineText hk)

theorem reformat_stable_witness :
    formatInlineText (formatInlineText "area (x^2) of *it*".toList) =
      formatInlineText "area (x^2) of *it*".toList ∧
    formatInlineText (formatInlineText "a **b** c".toList) =
      formatInlineText "a **b** c".toList :=
  ⟨reformat_stable "area (x^2) of *it*".toList (by rfl) (Or.inl (by rfl)),
   reformat_stable "a **b** c".toList (by rfl)
    (Or.inr (Or.inr (by
      rw [show formatInlineText "a **b** c".toList =
        "a <span class=\"font-bold text-purple-700\">b</span> c".toList from by rfl]
      decide)))⟩

theorem reformat_stable_counterexample :
    hasKeyword "**a*b*".toList = false ∧
    formatInlineText "**a*b*".toList =
      "*<span class=\"italic text-purple-600\">a</span>b*".toList ∧
    formatInlineText (formatInlineText "**a*b*".toList) =
      "<span class=\"italic text-purple-600\"><span class=\"italic text-purple-600\">a</span>b</span>".toList ∧
    formatInlineText (formatInlineText "**a*b*".toList) ≠ formatInlineText "**a*b*".toList := by
  refine ⟨by rfl, by rfl, by rfl, ?_⟩
  rw [show formatInlineText (formatInlineText "**a*b*".toList) =
      "<span class=\"italic text-purple-600\"><span class=\"italic text-purple-600\">a</span>b</span>".toList
      from by rfl,
    show formatInlineText "**a*b*".toList =
      "*<span class=\"italic text-purple-600\">a</span>b*".toList from by rfl]
  decide

/-! ## The key-term rule on the words of a text -/

theorem replaceAll_append_of_boundary {m : Str → Option (Str × Str)} (u : Str)
    (hprog : ∀ t rep rest, m t = some (rep, rest) → ∃ body, t = body ++ rest ∧ body ≠ [])
    (n : Nat) : ∀ s : Str, s.length ≤ n →
      (∀ t, t ≠ [] → t <:+ s → m (t ++ u) = (m t).map (fun p => (p.1, p.2 ++ u))) →
      replaceAll m 0 (s ++ u) = replaceAll m 0 s ++ replaceAll m 0 u := by
  induction n with
  | zero =>
    intro s hs _
    have : s = [] := List.length_eq_zero.1 (Nat.le_zero.1 hs)
    subst this
    rfl
  | succ n ih =>
    intro s hs h
    cases s with
    | nil => rfl
    | cons c cs =>
      have h0 := h (c :: cs) (List.cons_ne_nil _ _) (List.suffix_refl _)
      cases hm : m (c :: cs) with
      | none =>
        rw [hm] at h0
        have h1 : m (c :: (cs ++ u)) = none := h0
        rw [List.cons_append, replaceAll_none h1, replaceAll_none hm,
          ih cs (by simpa using hs) (fun t ht hts => h t ht (hts.trans (List.suffix_cons c cs)))]
        rfl
      | some q =>
        obtain ⟨rep, rest⟩ := q
        rw [hm] at h0
        have h1 : m ((c :: cs) ++ u) = some (rep, rest ++ u) := h0
        obtain ⟨body, e, hb⟩ := hprog _ _ _ hm
        have hlen : rest.length ≤ n := by
          have l1 := congrArg List.length e
          rw [List.length_append, List.length_cons] at l1
          have l2 : 0 < body.length := List.length_pos.2 hb
          have l3 : cs.length + 1 ≤ n + 1 := by simpa using hs
          omega
        have hsuf : rest <:+ c :: cs := ⟨body, e.symm⟩
        rw [@replaceAll_some m _ _ _ body h1 (by rw [e, List.append_assoc]) hb,
          replaceAll_some hm e hb,
          ih rest hlen (fun t ht hts => h t ht (hts.trans hsuf)), List.append_assoc]

theorem matchKeyword_progress (t rep rest : Str) (h : matchKeyword t = some (rep, rest)) :
    ∃ body, t = body ++ rest ∧ body ≠ [] := by
  obtain ⟨m, e, hne, _⟩ := matchKeyword_some h
  exact ⟨m, e, hne⟩

/-- The key-term rule works on a word as it works on the word alone. -/
theorem replaceAll_keyword_run (a r b : Str)
    (ha : noLetterAtEnd a = true) (hb : noLetterAtStart b = true) :
    replaceAll matchKeyword 0 (a ++ (r ++ b)) =
      replaceAll matchKeyword 0 a ++ (replaceAll matchKeyword 0 r ++ replaceAll matchKeyword 0 b) := by
  rw [replaceAll_append_of_boundary (r ++ b) matchKeyword_progress a.length a (Nat.le_refl _)
      (fun t ht hts => matchKeyword_append_boundary t _
        (Or.inl (exists_noLetter_of_suffix ha hts ht))),
    replaceAll_append_of_boundary b matchKeyword_progress r.length r (Nat.le_refl _)
      (fun t _ _ => matchKeyword_append_boundary t _ (Or.inr hb))]

theorem hasRun_of_append {a r b : Str} (ha : noLetterAtEnd a = true)
    (hb : noLetterAtStart b = true) : HasRun r (a ++ r ++ b) :=
  ⟨a, b, by simp, ha, hb⟩

/-- What `formatInlineText` does with a word of its input. -/
theorem formatInlineText_run {s a r b : Str}
    (h1 : includes "<span class=\"font-serif".toList s = false)
    (h2 : includes "<sup class=\"text-xs\">".toList s = false)
    (he : s = a ++ r ++ b) (hr : ∀ c ∈ r, isLetter c = true)
    (ha : noLetterAtEnd a = true) (hb : noLetterAtStart b = true) :
    ∃ a1 b1, formatInlineText s = a1 ++ replaceAll matchKeyword 0 r ++ b1 := by
  by_cases hne : r = []
  · subst hne
    exact ⟨formatInlineText s, [], by simp [replaceAll_nil]⟩
  · have hs : s ≠ [] := by
      rw [he]
      simp [hne]
    rw [formatInlineText_of_unmarked hs h1 h2]
    have hrun : HasRun r s := he ▸ hasRun_of_append ha hb
    obtain ⟨a2, b2, e, k1, k2⟩ := hasRun_rules hr hne hrun
    rw [e, replaceAll_keyword_run a2 r b2 k1 k2]
    exact ⟨replaceAll matchKeyword 0 a2, replaceAll matchKeyword 0 b2, by simp⟩

theorem replaceAll_keyword_of_not_begins (u w : Str) (h : keywordBeginsIn u w = false) :
    replaceAll matchKeyword 0 (u ++ w) = u ++ replaceAll matchKeyword 0 w := by
  induction u with
  | nil => rfl
  | cons c cs ih =>
    simp only [keywordBeginsIn, Bool.or_eq_false_iff] at h
    have hm : matchKeyword (c :: (cs ++ w)) = none :=
      (matchKeyword_eq_none_iff _).2 h.1
    rw [List.cons_append, replaceAll_none hm, ih h.2]
    rfl

theorem dropLiteralCI_map {lit s m r : Str} (h : dropLiteralCI lit s = some (m, r)) :
    m.map asciiUpper = lit.map asciiUpper := by
  induction lit generalizing s m r with
  | nil =>
    cases s <;> simp only [dropLiteralCI, Option.some.injEq, Prod.mk.injEq] at h <;>
      obtain ⟨rfl, rfl⟩ := h <;> rfl
  | cons p ps ih =>
    cases s with
    | nil => simp [dropLiteralCI] at h
    | cons c cs =>
      simp only [dropLiteralCI] at h
      split at h
      · rename_i hpc
        split at h
        · rename_i m1 r1 hd
          simp only [Option.some.injEq, Prod.mk.injEq] at h
          rw [← h.1, List.map_cons, List.map_cons, ih hd]
          have : asciiUpper p = asciiUpper c := by simpa [eqIgnoreCase] using hpc
          rw [this]
        · cases h
      · cases h

theorem matchAlternatives_mem {ks : List Str} {s : Str} {q : Str × Str}
    (h : matchAlternatives ks s = some q) : ∃ kw ∈ ks, dropLiteralCI kw s = some q := by
  induction ks with
  | nil => cases h
  | cons k ks ih =>
    simp only [matchAlternatives] at h
    split at h
    · rename_i r hd
      cases h
      exact ⟨k, List.mem_cons_self _ _, hd⟩
    · obtain ⟨kw, hkw, hd⟩ := ih h
      exact ⟨kw, List.mem_cons_of_mem _ hkw, hd⟩

theorem matchAlternatives_isSome_of_mem {ks : List Str} {s kw : Str} {q : Str × Str}
    (hkw : kw ∈ ks) (h : dropLiteralCI kw s = some q) :
    (matchAlternatives ks s).isSome = true := by
  induction ks with
  | nil => cases hkw
  | cons k ks ih =>
    simp only [matchAlternatives]
    cases hd : dropLiteralCI k s with
    | some r => rfl
    | none =>
      rcases List.mem_cons.1 hkw with rfl | hkw
      · rw [h] at hd; cases hd
      · exact ih hkw

theorem keywords_head_unique : ∀ k1 ∈ keywords, ∀ k2 ∈ keywords,
    (k1.map asciiUpper).take 2 = (k2.map asciiUpper).take 2 → k1 = k2 := by
  decide

theorem keywords_length : ∀ k ∈ keywords, 2 ≤ k.length := by
  decide

/-- At an occurrence `k` of the key term `kw` the key-term pattern matches
exactly `k`: no other key term matches at that place. -/
theorem matchAlternatives_occurrence {kw k : Str} (v : Str) (hkw : kw ∈ keywords)
    (hk : k.map asciiUpper = kw.map asciiUpper) :
    matchAlternatives keywords (k ++ v) = some (k, v) := by
  have hd := dropLiteralCI_append kw k v hk
  cases hm : matchAlternatives keywords (k ++ v) with
  | none =>
    have := matchAlternatives_isSome_of_mem hkw hd
    rw [hm] at this
    cases this
  | some q =>
    obtain ⟨kw1, hkw1, hd1⟩ := matchAlternatives_mem hm
    obtain ⟨m1, r1⟩ := q
    have e1 := dropLiteralCI_map hd1
    have e2 := (dropLiteralCI_some hd1).1
    have l1 : 2 ≤ (m1.map asciiUpper).length := by
      rw [e1, List.length_map]; exact keywords_length kw1 hkw1
    have l2 : 2 ≤ (k.map asciiUpper).length := by
      rw [hk, List.length_map]; exact keywords_length kw hkw
    have t1 : ((k ++ v).map asciiUpper).take 2 = (kw1.map asciiUpper).take 2 := by
      rw [e2, List.map_append, List.take_append_of_le_length l1, e1]
    have t2 : ((k ++ v).map asciiUpper).take 2 = (kw.map asciiUpper).take 2 := by
      rw [List.map_append, List.take_append_of_le_length l2, hk]
    have := keywords_head_unique kw1 hkw1 kw hkw (t1.symm.trans t2)
    subst this
    rw [hd] at hd1
    exact hd1.symm ▸ rfl

theorem replaceAll_keyword_occurrence {kw u k v : Str} (hkw : kw ∈ keywords)
    (hk : k.map asciiUpper = kw.map asciiUpper) (hu : keywordBeginsIn u (k ++ v) = false) :
    replaceAll matchKeyword 0 (u ++ k ++ v) =
      u ++ (("<span class=\"bg-purple-100 text-purple-800 px-1 rounded-sm font-medium\">".toList
        ++ k ++ spanClose) ++ replaceAll matchKeyword 0 v) := by
  have hne : k ≠ [] := by
    intro e
    have := congrArg List.length hk
    rw [e, List.length_map] at this
    have := keywords_length kw hkw
    simp at *
    omega
  have hm : matchKeyword (k ++ v) = some
      ("<span class=\"bg-purple-100 text-purple-800 px-1 rounded-sm font-medium\">".toList
        ++ k ++ spanClose, v) := by
    simp only [matchKeyword, matchAlternatives_occurrence v hkw hk]
  rw [List.append_assoc, replaceAll_keyword_of_not_begins u (k ++ v) hu,
    replaceAll_some hm rfl hne]

/-- C20 (amended): for every string input that contains neither
`<span class="font-serif` nor `<sup class="text-xs">`, and every word `r` of
the input (a run of ASCII letters with no letter before and after it), the
output of `formatInlineText` holds the word as the key-term rule rewrites it on
its own: scanning the word from left to right, each occurrence (in any letter
case) of confidence, strategy, growth, progress, achievement, believe, overcome
or challenge at which the scan arrives is wrapped in
`<span class="bg-purple-100 text-purple-800 px-1 rounded-sm font-medium">...</span>`
with its original letter case, and the scan resumes after it, whatever other
inline rules did or did not match.  In particular an occurrence `k` of a key
term before which no key term begins in its word is wrapped. -/
theorem keyword_scan_of_words (s a r b : Str)
    (h1 : includes "<span class=\"font-serif".toList s = false)
    (h2 : includes "<sup class=\"text-xs\">".toList s = false)
    (he : s = a ++ r ++ b) (hr : ∀ c ∈ r, isLetter c = true)
    (ha : noLetterAtEnd a = true) (hb : noLetterAtStart b = true) :
    (∃ a1 b1, formatInlineText s = a1 ++ replaceAll matchKeyword 0 r ++ b1) ∧
    ∀ kw u k v, kw ∈ keywords → k.map asciiUpper = kw.map asciiUpper → r = u ++ k ++ v →
      keywordBeginsIn u (k ++ v) = false →
      ∃ a1 b1, formatInlineText s = a1 ++
        ("<span class=\"bg-purple-100 text-purple-800 px-1 rounded-sm font-medium\">".toList ++
          k ++ "</span>".toList) ++ b1 := by
  obtain ⟨a1, b1, e⟩ := formatInlineText_run h1 h2 he hr ha hb
  refine ⟨⟨a1, b1, e⟩, ?_⟩
  intro kw u k v hkw hk hrk hu
  rw [hrk, replaceAll_keyword_occurrence hkw hk hu] at e
  exact ⟨a1 ++ u, replaceAll matchKeyword 0 v ++ b1, by rw [e]; simp [spanClose]⟩

theorem keyword_scan_of_words_witness :
    replaceAll matchKeyword 0 "selfConfidence".toList =
      "self<span class=\"bg-purple-100 text-purple-800 px-1 rounded-sm font-medium\">Confidence</span>".toList ∧
    (∃ a1 b1, formatInlineText "**my selfConfidence** (x)".toList =
      a1 ++ replaceAll matchKeyword 0 "selfConfidence".toList ++ b1) ∧
    ∃ a1 b1, formatInlineText "**my selfConfidence** (x)".toList = a1 ++
      ("<span class=\"bg-purple-100 text-purple-800 px-1 rounded-sm font-medium\">".toList ++
        "Confidence".toList ++ "</span>".toList) ++ b1 :=
  ⟨by rfl,
   (keyword_scan_of_words "**my selfConfidence** (x)".toList "**my ".toList
    "selfConfidence".toList "** (x)".toList (by rfl) (by rfl) (by rfl) (by decide) (by rfl)
    (by rfl)).1,
   (keyword_scan_of_words "**my selfConfidence** (x)".toList "**my ".toList
    "selfConfidence".toList "** (x)".toList (by rfl) (by rfl) (by rfl) (by decide) (by rfl)
    (by rfl)).2 "confidence".toList "self".toList "Confidence".toList [] (by decide) (by rfl)
    (by rfl) (by rfl)⟩

theorem keyword_scan_of_words_counterexample :
    ("confidence <span class=\"font-serif".toList ≠ [] ∧
      formatInlineText "confidence <span class=\"font-serif".toList =
        "confidence <span class=\"font-serif".toList ∧
      includes "<span class=\"bg-purple-100".toList
        (formatInlineText "confidence <span class=\"font-serif".toList) = false) ∧
    ("progresstrategy".toList = "progres".toList ++ "strategy".toList ++ [] ∧
      formatInlineText "progresstrategy".toList =
        "<span class=\"bg-purple-100 text-purple-800 px-1 rounded-sm font-medium\">progress</span>trategy".toList ∧
      includes "strategy".toList (formatInlineText "progresstrategy".toList) = false) := by
  refine ⟨⟨by decide, by rfl, by rfl⟩, by rfl, by rfl, by rfl⟩

/-! ## The math rules on their own markup -/

/-- C21: the claim fails on the code at its own witness.  For `(a + b)` the
general math rule inserts `<span class="mx-1">+</span>`, and the substitutions
for `-`, `=` and `/` that follow rewrite the hyphen of `mx-1`, the `=` of
`class=` and the `/` of `</span>` inside that markup: the output of
`formatMathNotation` does not hold the intact spacing span.  Only the markup of
the last substitution, for `/`, stays as it was inserted. -/
theorem operator_markup_rewritten :
    formatMathNotation "(a + b)".toList =
      "<span class=\"font-serif italic text-purple-800 bg-purple-50 px-1 rounded\">a <span class<span class=\"mx-1\">=<<span class=\"mx-1\">//</span>span>\"mx<span class<span class=\"mx-1\">=<<span class=\"mx-1\">//</span>span>\"mx-1\">-<<span class=\"mx-1\">//</span>span>1\">+<<span class=\"mx-1\">//</span>span> b</span>".toList ∧
    includes "<span class=\"mx-1\">+</span>".toList (formatMathNotation "(a + b)".toList) = false ∧
    formatMathNotation "(a/b)".toList =
      "<span class=\"font-serif italic text-purple-800 bg-purple-50 px-1 rounded\">a<span class=\"mx-1\">//</span>b</span>".toList := by
  refine ⟨by rfl, by rfl, by rfl⟩

/-- C22: the claim fails on the code at the example of the source comment.  In
`\(f(x)\)` the variable rule, which runs first, rewrites the inner `(x)`; the
function rule then finds no match, and the general rule takes the whole text,
markup included, as an expression.  With a longer argument, as in `(fun(xy))`,
the function rule does match, and the general rule rewrites the `(xy)` inside
its output.  In neither case is the output the single span around `f(x)`. -/
theorem function_call_rewritten :
    replaceAll matchVariable 0 "\\(f(x)\\)".toList =
      "\\(f<span class=\"font-serif italic text-purple-800\">x</span>\\)".toList ∧
    formatMathNotation "\\(f(x)\\)".toList =
      formatExpression "f<span class=\"font-serif italic text-purple-800\">x</span>\\".toList ∧
    formatMathNotation "\\(f(x)\\)".toList ≠
      "<span class=\"font-serif italic text-purple-800\">f(x)</span>".toList ∧
    formatMathNotation "(f(x))".toList ≠
      "<span class=\"font-serif italic text-purple-800\">f(x)</span>".toList ∧
    formatMathNotation "(fun(xy))".toList =
      "<span class=\"font-serif italic text-purple-800\">fun<span class=\"font-serif italic text-purple-800 bg-purple-50 px-1 rounded\">xy</span></span>".toList ∧
    formatMathNotation "(fun(xy))".toList ≠
      "<span class=\"font-serif italic text-purple-800\">fun(xy)</span>".toList := by
  refine ⟨by rfl, by rfl, ?_, ?_, by rfl, ?_⟩
  · intro h
    have h1 := congrArg List.length h
    rw [show (formatMathNotation "\\(f(x)\\)".toList).length = 537 from by rfl] at h1
    revert h1
    decide
  · intro h
    have h1 := congrArg List.length h
    rw [show (formatMathNotation "(f(x))".toList).length = 536 from by rfl] at h1
    revert h1
    decide
  · rw [show formatMathNotation "(fun(xy))".toList =
      "<span class=\"font-serif italic text-purple-800\">fun<span class=\"font-serif italic text-purple-800 bg-purple-50 px-1 rounded\">xy</span></span>".toList from by rfl]
    decide

/-! ## Markers and white space around a line -/

/-- C24: the claim fails on the code for the bullet glyph.  The class of the
unordered list pattern, as the source file spells it, holds `*`, `-` and the
three characters U+00E2, U+20AC, U+00A2 (the bytes of U+2022 read in another
encoding), not U+2022 itself: the line `• item` gives a paragraph and no list,
while `€ item` gives a list.  The markers `*` and `-` are recognised and `+`
is not, as the claim says. -/
theorem bullet_glyph_not_recognised :
    isBulletChar '•' = false ∧ isBulletChar '€' = true ∧
    formatContent (.string "• item".toList) = .ok [.paragraph ⟨"p", 1⟩ "• item".toList] ∧
    formatContent (.string "€ item".toList) =
      .ok [.list false ⟨"ul", 0⟩ [⟨⟨"ul", 0⟩, 0, bulletGlyph, "item".toList⟩]] ∧
    formatContent (.string "* item".toList) =
      .ok [.list false ⟨"ul", 0⟩ [⟨⟨"ul", 0⟩, 0, bulletGlyph, "item".toList⟩]] ∧
    formatContent (.string "- item".toList) =
      .ok [.list false ⟨"ul", 0⟩ [⟨⟨"ul", 0⟩, 0, bulletGlyph, "item".toList⟩]] ∧
    formatContent (.string "+ item".toList) = .ok [.paragraph ⟨"p", 1⟩ "+ item".toList] := by
  refine ⟨by decide, by decide, by rfl, by rfl, by rfl, by rfl, by rfl⟩

theorem trimEnd_append_spaces {p ws : Str} (hp : endsWithNonSpace p = true)
    (hws : ∀ c ∈ ws, isSpace c = true) : trimEnd (p ++ ws) = p := by
  rw [trimEnd_append_of_endsWithNonSpace ws hp]
  have : trimEnd ws = [] := by
    unfold trimEnd
    exact List.rdropWhile_eq_nil_iff.2 hws
  rw [this, List.append_nil]

theorem matchFence_of_space {c : Char} (rest : Str) (hc : isSpace c = true) :
    matchFence (trimEnd (c :: rest)) = none := by
  cases ht : trimEnd (c :: rest) with
  | nil => rfl
  | cons d r =>
    have hd : d = c := by
      have hp : (trimEnd (c :: rest)) <+: (c :: rest) := by
        unfold trimEnd
        exact List.rdropWhile_prefix _ _
      rw [ht] at hp
      obtain ⟨s, hs⟩ := hp
      simp only [List.cons_append, List.cons.injEq] at hs
      exact hs.1
    subst hd
    exact matchFence_cons_of_ne _ (by rintro rfl; revert hc; decide)

/-- C25 (amended): white space after a fence delimiter is ignored.  A line made
of three backticks, an optional language tag `g` of word characters and
optional trailing white space toggles the code fence in every state: outside a
fence it opens a code block with language `g`, inside a fence it closes the
block.  White space before the backticks is not ignored: a line that starts
with a white space character is no fence delimiter. -/
theorem fence_trailing_space (g ws : Str) (hg : ∀ c ∈ g, isWord c = true)
    (hws : ∀ c ∈ ws, isSpace c = true) (index : Nat) (st : State) :
    (∃ st1, processLine index (fence ++ g ++ ws) st = .ok st1 ∧
      st1.inCodeBlock = !st.inCodeBlock ∧
      (st.inCodeBlock = false → st1.codeLanguage = g ∧ st1.currentSection = .code []) ∧
      (st.inCodeBlock = true → st1.codeLanguage = [] ∧ st1.currentSection = .null)) ∧
    ∀ (c : Char) (rest : Str), isSpace c = true → matchFence (trimEnd (c :: rest)) = none := by
  refine ⟨?_, fun c rest hc => matchFence_of_space rest hc⟩
  have ht : trimEnd (fence ++ g ++ ws) = fence ++ g :=
    trimEnd_append_spaces (endsWithNonSpace_fence g hg) hws
  have hf : matchFence (trimEnd (fence ++ g ++ ws)) = some g := by
    rw [ht]; exact matchFence_fence g hg
  rw [processLine_fence index st hf]
  cases hb : st.inCodeBlock with
  | false =>
    refine ⟨_, rfl, rfl, ?_, ?_⟩
    · intro _; exact ⟨rfl, rfl⟩
    · intro h; cases h
  | true =>
    refine ⟨_, rfl, ?_, ?_, ?_⟩
    · simp
    · intro h; cases h
    · intro _
      refine ⟨rfl, ?_⟩
      simp

theorem fence_trailing_space_witness :
    (∃ st1, processLine 0 (fence ++ "js".toList ++ "  ".toList) State.init = .ok st1 ∧
      st1.inCodeBlock = !State.init.inCodeBlock ∧
      (State.init.inCodeBlock = false →
        st1.codeLanguage = "js".toList ∧ st1.currentSection = .code []) ∧
      (State.init.inCodeBlock = true → st1.codeLanguage = [] ∧ st1.currentSection = .null)) ∧
    formatContent (.string "```js  \nx\n```  ".toList) =
      .ok [.code ⟨"code-container", 2⟩ "js".toList ["x".toList]] :=
  ⟨(fence_trailing_space "js".toList "  ".toList (by decide) (by decide) 0 State.init).1, by rfl⟩

theorem fence_trailing_space_counterexample :
    formatContent (.string "  ```js\nx\n  ```".toList) =
      .ok [.paragraph ⟨"p", 3⟩ (formatInlineText "  ```js x   ```".toList)] ∧
    formatInlineText "  ```js x   ```".toList =
      "  <code class=\"bg-purple-50 border border-purple-200 px-1.5 py-0.5 rounded font-mono text-sm text-purple-800\"></code><code class=\"bg-purple-50 border border-purple-200 px-1.5 py-0.5 rounded font-mono text-sm text-purple-800\">js x   </code><code class=\"bg-purple-50 border border-purple-200 px-1.5 py-0.5 rounded font-mono text-sm text-purple-800\"></code>".toList ∧
    formatContent (.string "  ```js\nx\n  ```".toList) ≠
      .ok [.code ⟨"code-container", 2⟩ "js".toList ["x".toList]] := by
  refine ⟨by rfl, by rfl, ?_⟩
  rw [show formatContent (.string "  ```js\nx\n  ```".toList) =
      .ok [.paragraph ⟨"p", 3⟩ (formatInlineText "  ```js x   ```".toList)] from by rfl]
  intro h
  injection h with h
  injection h with h _
  cases h

/-- C26 (amended): every plain-text line contributes its content without its
trailing white space to the open paragraph; leading white space is kept.  For
plain-text lines a and b the paragraph produced for `a + "\n" + b` has the
content `formatInlineText` of a without its trailing white space, one space,
and b without its trailing white space. -/
theorem adjacent_lines_right_trimmed (a b : Str) (ha : isPlainText a = true)
    (hb : isPlainText b = true) (hna : '\n' ∉ a) (hnb : '\n' ∉ b) :
    formatContent (.string (a ++ '\n' :: b)) =
      .ok [.paragraph ⟨"p", 2⟩ (formatInlineText (trimEnd a ++ ' ' :: trimEnd b))] := by
  have hrun := forEachLine_paragraphRun (stripCR a) [stripCR b]
    (by
      intro x hx index st hc
      simp only [List.mem_cons, List.mem_singleton, List.not_mem_nil, or_false] at hx
      rcases hx with rfl | rfl
      · exact processLine_plainText (by rw [isPlainText_stripCR]; exact ha) index st hc
      · exact processLine_plainText (by rw [isPlainText_stripCR]; exact hb) index st hc)
    0 [] 0 [] 0
  rw [@formatContent_of_sections (a ++ '\n' :: b)
    [.element (.paragraph ⟨"p", 2⟩ (formatInlineText (trimEnd a ++ ' ' :: trimEnd b)))] (by simp)
    (by
      rw [splitLines_two_lines hna hnb]
      simp only [formatSections, State.init, hrun]
      simp [closeCurrentSection, State.push, join_cons_cons, join_singleton, trimEnd_stripCR])]
  rfl

theorem adjacent_lines_right_trimmed_witness :
    formatContent (.string ("alpha  ".toList ++ '\n' :: "   beta".toList)) =
      .ok [.paragraph ⟨"p", 2⟩
        (formatInlineText (trimEnd "alpha  ".toList ++ ' ' :: trimEnd "   beta".toList))] ∧
    formatInlineText (trimEnd "alpha  ".toList ++ ' ' :: trimEnd "   beta".toList) =
      "alpha    beta".toList :=
  ⟨adjacent_lines_right_trimmed "alpha  ".toList "   beta".toList (by decide) (by decide)
    (by decide) (by decide), by rfl⟩

theorem adjacent_lines_right_trimmed_counterexample :
    isPlainText "alpha".toList = true ∧ isPlainText "   beta".toList = true ∧
    formatContent (.string "alpha\n   beta".toList) =
      .ok [.paragraph ⟨"p", 2⟩ "alpha    beta".toList] ∧
    formatInlineText (trim "alpha".toList ++ " ".toList ++ trim "   beta".toList) =
      "alpha beta".toList ∧
    formatContent (.string "alpha\n   beta".toList) ≠
      .ok [.paragraph ⟨"p", 2⟩
        (formatInlineText (trim "alpha".toList ++ " ".toList ++ trim "   beta".toList))] := by
  refine ⟨by decide, by decide, by rfl, by rfl, ?_⟩
  rw [show formatContent (.string "alpha\n   beta".toList) =
      .ok [.paragraph ⟨"p", 2⟩ "alpha    beta".toList] from by rfl,
    show formatInlineText (trim "alpha".toList ++ " ".toList ++ trim "   beta".toList) =
      "alpha beta".toList from by rfl]
  intro h
  injection h with h
  injection h with h _
  injection h with _ h
  revert h
  decide

/-! ## Indented list items -/

theorem ne_of_isSpace {c d : Char} (hc : isSpace c = true) (hd : isSpace d = false) : c ≠ d := by
  rintro rfl
  rw [hc] at hd
  cases hd

theorem eqIgnoreCase_C_of_space {c : Char} (hc : isSpace c = true) :
    eqIgnoreCase 'C' c = false := by
  have hne : c ≠ 'C' := ne_of_isSpace hc (by decide)
  have hu : asciiUpper 'C' = 'C' := by decide
  simp only [eqIgnoreCase, asciiUpper_of_isSpace hc, hu, beq_eq_false_iff_ne, ne_eq]
  exact fun e => hne e.symm

theorem isDigit_eq_false_of_space {c : Char} (hc : isSpace c = true) : isDigit c = false := by
  cases hd : isDigit c with
  | false => rfl
  | true =>
    rw [isDigit_iff] at hd
    rw [isSpace_eq_false_of_lt (by omega) (by omega)] at hc
    cases hc

theorem indentSize_append {ws t : Str} (hall : ∀ c ∈ ws, isSpace c = true)
    (ht : headSatisfies (fun c => !isSpace c) t = true) : indentSize (ws ++ t) = ws.length := by
  cases t with
  | nil => simp [headSatisfies] at ht
  | cons x r =>
    have hx : isSpace x = false := by simpa [headSatisfies] using ht
    unfold indentSize
    rw [(takeWhile_dropWhile_append_stop r hall hx).1]

theorem isSectionHeader_of_space {c : Char} (r : Str) (hc : isSpace c = true) :
    isSectionHeader (c :: r) = false := by
  simp [isSectionHeader, List.takeWhile, isDigit_eq_false_of_space hc]

/-- What the classifier does with a line that starts with white space and is
not blank: only the list patterns and the paragraph branch remain. -/
theorem classifyLine_of_space {w : Char} (r : Str) (hw : isSpace w = true) (index indent : Nat)
    (st : State) :
    classifyLine index (w :: r) indent st =
      match matchUnordered (w :: r) with
      | some listItemContent =>
        addListItem false index (indent / 2) bulletGlyph listItemContent st
      | none =>
        match matchOrdered (w :: r) with
        | some (bullet, listItemContent) =>
          addListItem true index (indent / 2) bullet listItemContent st
        | none =>
          if !(trim (w :: r)).isEmpty then addParagraphLine index (w :: r) st
          else .ok st := by
  have h1 : matchDivider (w :: r) = false :=
    matchDivider_cons_of_ne _ (ne_of_isSpace hw (by decide))
  have h2 : matchH1 (w :: r) = false := matchH1_cons_of_ne _ (ne_of_isSpace hw (by decide))
  have h3 : ∀ n, matchHashes (n + 1) (w :: r) = none :=
    fun n => matchHashes_succ_cons_of_ne n _ (ne_of_isSpace hw (by decide))
  have h4 : matchCoreIdea (w :: r) = none := matchCoreIdea_cons_of_ne _ (eqIgnoreCase_C_of_space hw)
  have h5 : isSectionHeader (w :: r) = false := isSectionHeader_of_space r hw
  cases hU : matchUnordered (w :: r) with
  | some content => simp only [classifyLine, h1, h2, h3, h4, hU, Bool.false_eq_true, if_false]
  | none =>
    cases hO : matchOrdered (w :: r) with
    | some q =>
      simp only [classifyLine, h1, h2, h3, h4, h5, hU, hO, Bool.false_eq_true, if_false,
        Bool.not_false, if_true]
    | none =>
      simp only [classifyLine, h1, h2, h3, h4, hU, hO, Bool.false_eq_true, if_false,
        List.isEmpty_cons]

theorem matchUnordered_indent {ws t : Str} (hall : ∀ c ∈ ws, isSpace c = true)
    (ht : headSatisfies (fun c => !isSpace c) t = true) :
    matchUnordered (ws ++ t) = matchUnordered t := by
  have e : t.dropWhile isSpace = t := by
    simpa using @dropWhile_spaces_append [] t (by simp) ht
  unfold matchUnordered
  rw [dropWhile_spaces_append hall ht, e]

theorem matchOrdered_indent {ws t : Str} (hall : ∀ c ∈ ws, isSpace c = true)
    (ht : headSatisfies (fun c => !isSpace c) t = true) :
    matchOrdered (ws ++ t) = matchOrdered t := by
  have e : t.dropWhile isSpace = t := by
    simpa using @dropWhile_spaces_append [] t (by simp) ht
  unfold matchOrdered
  rw [dropWhile_spaces_append hall ht, e]

theorem matchUnordered_marker {m : Char} (c : Str) (hm : m = '*' ∨ m = '-') :
    matchUnordered (m :: ' ' :: c) = some c := by
  have e2 : isSpace ' ' = true := by decide
  rcases hm with rfl | rfl
  · have e1 : isSpace '*' = false := by decide
    have e3 : isBulletChar '*' = true := by decide
    simp [matchUnordered, List.dropWhile, e1, e2, e3]
  · have e1 : isSpace '-' = false := by decide
    have e3 : isBulletChar '-' = true := by decide
    simp [matchUnordered, List.dropWhile, e1, e2, e3]

theorem processLine_indentedUnordered {ws c : Str} {m : Char}
    (hws : ∀ x ∈ ws, isSpace x = true) (hm : m = '*' ∨ m = '-')
    (he : endsWithNonSpace c = true) (index : Nat) (st : State) (hc : st.inCodeBlock = false) :
    processLine index (ws ++ m :: ' ' :: c) st =
      addListItem false index (ws.length / 2) bulletGlyph c st := by
  have hms : isSpace m = false := by rcases hm with rfl | rfl <;> decide
  have hhead : headSatisfies (fun c => !isSpace c) (m :: ' ' :: c) = true := by
    simp [headSatisfies, hms]
  have htrim : trimEnd (ws ++ m :: ' ' :: c) = ws ++ m :: ' ' :: c := by
    have := trimEnd_of_endsWithNonSpace (endsWithNonSpace_append (ws ++ [m, ' ']) he)
    simpa using this
  have hind := @indentSize_append ws (m :: ' ' :: c) hws hhead
  have hun : matchUnordered (ws ++ m :: ' ' :: c) = some c := by
    rw [matchUnordered_indent hws hhead, matchUnordered_marker c hm]
  cases ws with
  | nil =>
    have hbt : m ≠ backtick := by rcases hm with rfl | rfl <;> decide
    have hsh : m ≠ '#' := by rcases hm with rfl | rfl <;> decide
    rw [processLine_noFence index _ (by rw [htrim]; exact matchFence_cons_of_ne _ hbt), htrim]
    simp only [hc, Bool.false_and, Bool.false_eq_true, if_false]
    have h1 : matchDivider ([] ++ m :: ' ' :: c) = false := by
      rcases hm with rfl | rfl
      · exact matchDivider_cons_of_ne _ (by decide)
      · cases c with
        | nil => rfl
        | cons d r => simp [matchDivider]
    have h2 : matchH1 ([] ++ m :: ' ' :: c) = false := matchH1_cons_of_ne _ hsh
    have h3 : ∀ n, matchHashes (n + 1) ([] ++ m :: ' ' :: c) = none :=
      fun n => matchHashes_succ_cons_of_ne n _ hsh
    have h4 : matchCoreIdea ([] ++ m :: ' ' :: c) = none :=
      matchCoreIdea_cons_of_ne _ (by rcases hm with rfl | rfl <;> decide)
    simp only [classifyLine, h1, h2, h3, h4, hun, hind, Bool.false_eq_true, if_false]
  | cons w ws =>
    have hw := hws w (List.mem_cons_self _ _)
    have hf : matchFence (trimEnd (w :: ws ++ m :: ' ' :: c)) = none :=
      matchFence_of_space _ hw
    rw [processLine_noFence index _ hf, htrim]
    simp only [hc, Bool.false_and, Bool.false_eq_true, if_false]
    rw [List.cons_append] at hun hind ⊢
    rw [classifyLine_of_space _ hw, hun, hind]

theorem processLine_indentedOrdered {ws m c : Str} (hws : ∀ x ∈ ws, isSpace x = true)
    (hm : isOrderedMarker m = true) (he : endsWithNonSpace c = true)
    (hh : isSectionHeader (m ++ '.' :: ' ' :: c) = false)
    (index : Nat) (st : State) (hc : st.inCodeBlock = false) :
    processLine index (ws ++ (m ++ '.' :: ' ' :: c)) st =
      addListItem true index (ws.length / 2) m c st := by
  cases ws with
  | nil => exact processLine_orderedLine hm he hh index st hc
  | cons w ws =>
    have hw := hws w (List.mem_cons_self _ _)
    obtain ⟨a, m1, rfl⟩ : ∃ a m1, m = a :: m1 := by
      cases m with
      | nil => simp [isOrderedMarker] at hm
      | cons a m1 => exact ⟨a, m1, rfl⟩
    have ha := alnum_of_isOrderedMarker hm a (List.mem_cons_self _ _)
    have hr := alnum_range ha
    have hsp : isSpace a = false := isSpace_eq_false_of_lt (by omega) (by omega)
    have hb : isBulletChar a = false := isBulletChar_eq_false_of_range hr.1 hr.2
    have hhead : headSatisfies (fun c => !isSpace c) (a :: m1 ++ '.' :: ' ' :: c) = true := by
      simp [headSatisfies, hsp]
    have htrim : trimEnd (w :: ws ++ (a :: m1 ++ '.' :: ' ' :: c)) =
        w :: ws ++ (a :: m1 ++ '.' :: ' ' :: c) := by
      have := trimEnd_of_endsWithNonSpace
        (endsWithNonSpace_append (w :: ws ++ (a :: m1 ++ ['.', ' '])) he)
      simpa using this
    have hind := @indentSize_append (w :: ws) (a :: m1 ++ '.' :: ' ' :: c) hws hhead
    have hun : matchUnordered (w :: ws ++ (a :: m1 ++ '.' :: ' ' :: c)) = none := by
      rw [matchUnordered_indent hws hhead]
      exact matchUnordered_cons_of_not_bullet _ hsp hb
    have hord : matchOrdered (w :: ws ++ (a :: m1 ++ '.' :: ' ' :: c)) = some (a :: m1, c) := by
      rw [matchOrdered_indent hws hhead]
      simp only [isOrderedMarker, Bool.or_eq_true, Bool.and_eq_true, Bool.not_eq_true',
        List.isEmpty_eq_false, List.all_eq_true, beq_iff_eq] at hm
      rcases hm with ⟨_, hall⟩ | ⟨hlen, hall⟩
      · exact matchOrdered_digits (by simp) hall
      · match m1, hlen with
        | [], _ => exact matchOrdered_letter c (hall a (List.mem_cons_self _ _))
    have hf : matchFence (trimEnd (w :: ws ++ (a :: m1 ++ '.' :: ' ' :: c))) = none :=
      matchFence_of_space _ hw
    rw [processLine_noFence index _ hf, htrim]
    simp only [hc, Bool.false_and, Bool.false_eq_true, if_false]
    rw [List.cons_append] at hun hord hind ⊢
    rw [classifyLine_of_space _ hw, hun, hord, hind]

theorem addListItem_of_other_level (ordered : Bool) (index nestLevel : Nat)
    (marker content : Str) (pre : List Entry) (items : List ListItem) (level : Nat) (icb : Bool)
    (cl : Str) (sc : Nat) (h : level ≠ nestLevel) :
    addListItem ordered index nestLevel marker content
        ⟨pre ++ [.listSection ordered items level], .list ordered pre.length, level, icb, cl,
          sc⟩ =
      .ok ⟨pre ++ [.listSection ordered items level] ++ [.listSection ordered
          [⟨⟨if ordered then "ol" else "ul", index⟩, nestLevel, marker,
            formatInlineText content⟩] nestLevel],
        .list ordered (pre.length + 1), nestLevel, icb, cl, sc⟩ := by
  have h1 : needsNewList ordered nestLevel
      ⟨pre ++ [.listSection ordered items level], .list ordered pre.length, level, icb, cl,
        sc⟩ = true := by
    simp [needsNewList, h]
  have h2 := pushItemAt_last
    ⟨⟨if ordered then "ol" else "ul", index⟩, nestLevel, marker, formatInlineText content⟩
    (pre ++ [.listSection ordered items level]) ordered [] nestLevel
  simp only [addListItem, h1, if_true, openList, closeCurrentSection, pushItem]
  simp only [List.length_append, List.length_singleton, List.nil_append] at h2 ⊢
  rw [h2]

/-- C27: the nesting level of a list item line with k leading white space
characters is k / 2 (rounded down), for unordered and ordered items; an item
whose level differs from that of the open list of the same kind starts a new
list object, an item of the same level is added to the open one.  The input
`"- a\n  - b\n- c"` yields three unordered lists with levels 0, 1, 0 holding one
item each, and `"- a\n - b"` (one space, level 0) a single list with two
items. -/
theorem list_nesting_levels :
    (∀ (ws c : Str) (m : Char) (index : Nat) (st : State), (∀ x ∈ ws, isSpace x = true) →
      (m = '*' ∨ m = '-') → endsWithNonSpace c = true → st.inCodeBlock = false →
      processLine index (ws ++ m :: ' ' :: c) st =
        addListItem false index (ws.length / 2) bulletGlyph c st) ∧
    (∀ (ws m c : Str) (index : Nat) (st : State), (∀ x ∈ ws, isSpace x = true) →
      isOrderedMarker m = true → endsWithNonSpace c = true →
      isSectionHeader (m ++ '.' :: ' ' :: c) = false → st.inCodeBlock = false →
      processLine index (ws ++ (m ++ '.' :: ' ' :: c)) st =
        addListItem true index (ws.length / 2) m c st) ∧
    (∀ (ordered : Bool) (index nestLevel : Nat) (marker content : Str) (pre : List Entry)
      (items : List ListItem) (level : Nat) (icb : Bool) (cl : Str) (sc : Nat),
      level ≠ nestLevel →
      addListItem ordered index nestLevel marker content
          ⟨pre ++ [.listSection ordered items level], .list ordered pre.length, level, icb, cl,
            sc⟩ =
        .ok ⟨pre ++ [.listSection ordered items level] ++ [.listSection ordered
            [⟨⟨if ordered then "ol" else "ul", index⟩, nestLevel, marker,
              formatInlineText content⟩] nestLevel],
          .list ordered (pre.length + 1), nestLevel, icb, cl, sc⟩) ∧
    (∀ (ordered : Bool) (index nestLevel : Nat) (marker content : Str) (pre : List Entry)
      (items : List ListItem) (icb : Bool) (cl : Str) (sc : Nat),
      addListItem ordered index nestLevel marker content
          ⟨pre ++ [.listSection ordered items nestLevel], .list ordered pre.length, nestLevel,
            icb, cl, sc⟩ =
        .ok ⟨pre ++ [.listSection ordered
            (items ++ [⟨⟨if ordered then "ol" else "ul", index⟩, nestLevel, marker,
              formatInlineText content⟩]) nestLevel],
          .list ordered pre.length, nestLevel, icb, cl, sc⟩) ∧
    formatSections (splitLines "- a\n  - b\n- c".toList) =
      .ok [.listSection false [⟨⟨"ul", 0⟩, 0, bulletGlyph, "a".toList⟩] 0,
           .listSection false [⟨⟨"ul", 1⟩, 1, bulletGlyph, "b".toList⟩] 1,
           .listSection false [⟨⟨"ul", 2⟩, 0, bulletGlyph, "c".toList⟩] 0] ∧
    formatContent (.string "- a\n  - b\n- c".toList) =
      .ok [.list false ⟨"ul", 0⟩ [⟨⟨"ul", 0⟩, 0, bulletGlyph, "a".toList⟩],
           .list false ⟨"ul", 1⟩ [⟨⟨"ul", 1⟩, 1, bulletGlyph, "b".toList⟩],
           .list false ⟨"ul", 2⟩ [⟨⟨"ul", 2⟩, 0, bulletGlyph, "c".toList⟩]] ∧
    formatSections (splitLines "- a\n - b".toList) =
      .ok [.listSection false [⟨⟨"ul", 0⟩, 0, bulletGlyph, "a".toList⟩,
            ⟨⟨"ul", 1⟩, 0, bulletGlyph, "b".toList⟩] 0] ∧
    formatContent (.string "- a\n - b".toList) =
      .ok [.list false ⟨"ul", 0⟩ [⟨⟨"ul", 0⟩, 0, bulletGlyph, "a".toList⟩,
            ⟨⟨"ul", 1⟩, 0, bulletGlyph, "b".toList⟩]] := by
  refine ⟨?_, ?_, ?_, ?_, by rfl, by rfl, by rfl, by rfl⟩
  · intro ws c m index st hws hm he hc
    exact processLine_indentedUnordered hws hm he index st hc
  · intro ws m c index st hws hm he hh hc
    exact processLine_indentedOrdered hws hm he hh index st hc
  · intro ordered index nestLevel marker content pre items level icb cl sc h
    exact addListItem_of_other_level ordered index nestLevel marker content pre items level icb
      cl sc h
  · intro ordered index nestLevel marker content pre items icb cl sc
    exact addListItem_of_open ordered index nestLevel marker content pre items nestLevel icb cl sc

theorem list_nesting_levels_witness :
    processLine 1 ("  ".toList ++ '-' :: ' ' :: "b".toList)
        ⟨[.listSection false [⟨⟨"ul", 0⟩, 0, bulletGlyph, "a".toList⟩] 0], .list false 0, 0,
          false, [], 0⟩ =
      addListItem false 1 ("  ".toList.length / 2) bulletGlyph "b".toList
        ⟨[.listSection false [⟨⟨"ul", 0⟩, 0, bulletGlyph, "a".toList⟩] 0], .list false 0, 0,
          false, [], 0⟩ ∧
    addListItem false 1 1 bulletGlyph "b".toList
        ⟨[] ++ [.listSection false [⟨⟨"ul", 0⟩, 0, bulletGlyph, "a".toList⟩] 0],
          .list false ([] : List Entry).length, 0, false, [], 0⟩ =
      .ok ⟨[] ++ [.listSection false [⟨⟨"ul", 0⟩, 0, bulletGlyph, "a".toList⟩] 0] ++
          [.listSection false [⟨⟨if false then "ol" else "ul", 1⟩, 1, bulletGlyph,
            formatInlineText "b".toList⟩] 1],
        .list false (([] : List Entry).length + 1), 1, false, [], 0⟩ :=
  ⟨list_nesting_levels.1 "  ".toList "b".toList '-' 1 _ (by decide) (Or.inr rfl) (by decide) rfl,
   list_nesting_levels.2.2.1 false 1 1 bulletGlyph "b".toList [] _ 0 false [] 0 (by decide)⟩

/-! ## Single variables and exponents -/

theorem alnum_ne_marks {v : Char} (hv : isAlnum v = true) :
    v ≠ '(' ∧ v ≠ ')' ∧ v ≠ '<' ∧ v ≠ '*' ∧ v ≠ backtick ∧ v ≠ '\\' ∧ v ≠ '^' := by
  refine ⟨?_, ?_, ?_, ?_, ?_, ?_, ?_⟩ <;> (rintro rfl; revert hv; decide)

theorem digit_ne_marks {d : Char} (hd : isDigit d = true) :
    d ≠ '(' ∧ d ≠ ')' ∧ d ≠ '<' ∧ d ≠ '*' ∧ d ≠ backtick ∧ d ≠ '\\' ∧ d ≠ '^' := by
  refine ⟨?_, ?_, ?_, ?_, ?_, ?_, ?_⟩ <;> (rintro rfl; revert hd; decide)

theorem not_mem_of_forall_ne {x : Char} {s : Str} (h : ∀ c ∈ s, c ≠ x) : x ∉ s :=
  fun hm => h x hm rfl

theorem hasKeyword_singleton (v : Char) : hasKeyword [v] = false := by
  rw [hasKeyword_eq_false_iff]
  intro t ht
  rcases List.suffix_cons_iff.1 ht with rfl | ht
  · cases hm : matchKeyword [v] with
    | none => rfl
    | some q =>
      exfalso
      obtain ⟨rep, rest⟩ := q
      simp only [matchKeyword] at hm
      split at hm
      · rename_i m r hma
        obtain ⟨kw, hkw, hd⟩ := matchAlternatives_mem hma
        have h1 := (dropLiteralCI_some hd).1
        have h2 := (dropLiteralCI_some hd).2.1
        have h3 := keywords_length kw hkw
        have h4 := congrArg List.length h1
        simp only [List.length_singleton, List.length_append] at h4
        omega
      · cases hm
  · rw [List.suffix_nil.1 ht]; rfl

/-- After the math rules have left a text `r` without brackets, stars,
backticks and key terms, the remaining rules keep it. -/
theorem formatInlineText_of_math {s r : Str} (hs : s ≠ []) (hlt : '<' ∉ s)
    (hm : formatMathNotation s = r) (h2 : '*' ∉ r) (h3 : backtick ∉ r)
    (h4 : hasKeyword r = false) : formatInlineText s = r := by
  rw [formatInlineText_of_no_lt hs hlt, hm,
    replaceAll_id_of_head r (fun c hc z => matchBoldItalic_of_ne z (ne_of_not_mem h2 c hc)),
    replaceAll_id_of_head r (fun c hc z => matchBold_of_ne z (ne_of_not_mem h2 c hc)),
    replaceAll_id_of_head r (fun c hc z => matchItalic_of_ne z (ne_of_not_mem h2 c hc)),
    replaceAll_id_of_head r (fun c hc z => matchInlineCode_of_ne z (ne_of_not_mem h3 c hc)),
    replaceAll_keyword_id h4]

theorem replaceAll_math_tail {r : Str} (h : '(' ∉ r) :
    replaceAll matchExpression 0 (replaceAll matchSuperscript 0 (replaceAll matchFunction 0 r)) =
      r := by
  have hs : ∀ t, t <:+ r → '(' ∉ t := fun t ht hm => h (ht.subset hm)
  rw [replaceAll_id (fun t ht => matchFunction_none (hs t ht)),
    replaceAll_id (fun t ht => matchSuperscript_none (hs t ht)),
    replaceAll_id (fun t ht => matchExpression_none (hs t ht))]

/-- The brackets of the math rules: a bracket with or without a backslash. -/
theorem bracket_cases {ob cb : Str} (ho : ob = ['('] ∨ ob = ['\\', '('])
    (hc : cb = [')'] ∨ cb = ['\\', ')']) :
    (∀ r, openBracket (ob ++ r) = some r) ∧ closeBracket cb = some [] ∧ ob ≠ [] ∧
      '<' ∉ ob ∧ '<' ∉ cb ∧ isDigit (cb.headD ' ') = false ∧ cb ≠ [] := by
  rcases ho with rfl | rfl <;> rcases hc with rfl | rfl <;>
    exact ⟨fun _ => rfl, rfl, by decide, by decide, by decide, by decide, by decide⟩

theorem formatMathNotation_variable {ob cb : Str} {v : Char}
    (ho : ob = ['('] ∨ ob = ['\\', '(']) (hc : cb = [')'] ∨ cb = ['\\', ')'])
    (hv : isAlnum v = true) :
    formatMathNotation (ob ++ v :: cb) = mathSpanOpen ++ [v] ++ spanClose := by
  obtain ⟨b1, b2, b3, _⟩ := bracket_cases ho hc
  obtain ⟨n1, _⟩ := alnum_ne_marks hv
  have hm : matchVariable (ob ++ v :: cb) = some (mathSpanOpen ++ [v] ++ spanClose, []) := by
    simp only [matchVariable, b1, hv, b2, if_true]
  have h1 : replaceAll matchVariable 0 (ob ++ v :: cb) = mathSpanOpen ++ [v] ++ spanClose := by
    rw [@replaceAll_some matchVariable _ _ _ (ob ++ v :: cb) hm (by simp) (by simp [b3]),
      replaceAll_nil, List.append_nil]
  have hp : '(' ∉ mathSpanOpen ++ [v] ++ spanClose := by
    simp only [List.mem_append, List.mem_singleton, not_or]
    exact ⟨⟨by decide, fun e => n1 e.symm⟩, by decide⟩
  unfold formatMathNotation
  rw [h1, replaceAll_math_tail hp]

theorem replaceAll_bracket_id {m : Str → Option (Str × Str)} {ob x : Str}
    (ho : ob = ['('] ∨ ob = ['\\', '(']) (hnone : ∀ t, '(' ∉ t → m t = none)
    (h1 : m ('(' :: x) = none) (h2 : m ('\\' :: '(' :: x) = none) (hx : '(' ∉ x) :
    replaceAll m 0 (ob ++ x) = ob ++ x := by
  have hid : replaceAll m 0 x = x :=
    replaceAll_id (fun t ht => hnone t (fun hm => hx (ht.subset hm)))
  rcases ho with rfl | rfl
  · rw [List.singleton_append, replaceAll_none h1, hid]
  · have e : ['\\', '('] ++ x = '\\' :: '(' :: x := rfl
    rw [e, replaceAll_none h2, replaceAll_none h1, hid]

theorem formatMathNotation_superscript {ob cb n : Str} {v : Char}
    (ho : ob = ['('] ∨ ob = ['\\', '(']) (hc : cb = [')'] ∨ cb = ['\\', ')'])
    (hv : isAlnum v = true) (hn : n ≠ []) (hd : ∀ d ∈ n, isDigit d = true) :
    formatMathNotation (ob ++ v :: '^' :: (n ++ cb)) =
      mathSpanOpen ++ [v] ++ supOpen ++ n ++ supClose ++ spanClose := by
  obtain ⟨b1, b2, b3, _⟩ := bracket_cases ho hc
  obtain ⟨n1, _⟩ := alnum_ne_marks hv
  have hcb : '(' ∉ cb := by rcases hc with rfl | rfl <;> decide
  have hx : '(' ∉ v :: '^' :: (n ++ cb) := by
    simp only [List.mem_cons, List.mem_append, not_or]
    exact ⟨fun e => n1 e.symm, by decide, fun h => (digit_ne_marks (hd _ h)).1 rfl, hcb⟩
  have hcaret : isAlnum '^' = false := by decide
  -- the variable rule and the function rule find no match
  have s1 : replaceAll matchVariable 0 (ob ++ v :: '^' :: (n ++ cb)) =
      ob ++ v :: '^' :: (n ++ cb) :=
    replaceAll_bracket_id ho (fun t ht => matchVariable_none ht)
      (by simp [matchVariable, openBracket, closeBracket, hv])
      (by simp [matchVariable, openBracket, closeBracket, hv]) hx
  have s2 : replaceAll matchFunction 0 (ob ++ v :: '^' :: (n ++ cb)) =
      ob ++ v :: '^' :: (n ++ cb) :=
    replaceAll_bracket_id ho (fun t ht => matchFunction_none ht)
      (by simp [matchFunction, openBracket, List.takeWhile, List.dropWhile, hv, hcaret])
      (by simp [matchFunction, openBracket, List.takeWhile, List.dropWhile, hv, hcaret]) hx
  -- the superscript rule takes the whole text
  have hsplit : (n ++ cb).takeWhile isDigit = n ∧ (n ++ cb).dropWhile isDigit = cb := by
    rcases hc with rfl | rfl
    · exact takeWhile_dropWhile_append_stop [] hd (by decide)
    · exact takeWhile_dropWhile_append_stop [')'] hd (by decide)
  obtain ⟨d, ds, rfl⟩ : ∃ d ds, n = d :: ds := by
    cases n with
    | nil => exact absurd rfl hn
    | cons d ds => exact ⟨d, ds, rfl⟩
  have hm : matchSuperscript (ob ++ v :: '^' :: (d :: ds ++ cb)) =
      some (mathSpanOpen ++ [v] ++ supOpen ++ (d :: ds) ++ supClose ++ spanClose, []) := by
    simp only [matchSuperscript, b1, hv, if_true, hsplit.1, hsplit.2, b2]
  have s3 : replaceAll matchSuperscript 0 (ob ++ v :: '^' :: (d :: ds ++ cb)) =
      mathSpanOpen ++ [v] ++ supOpen ++ (d :: ds) ++ supClose ++ spanClose := by
    rw [@replaceAll_some matchSuperscript _ _ _ (ob ++ v :: '^' :: (d :: ds ++ cb)) hm (by simp)
      (by simp [b3]), replaceAll_nil, List.append_nil]
  have hp : '(' ∉ mathSpanOpen ++ [v] ++ supOpen ++ (d :: ds) ++ supClose ++ spanClose := by
    simp only [List.mem_append, List.mem_singleton, not_or]
    exact ⟨⟨⟨⟨⟨by decide, fun e => n1 e.symm⟩, by decide⟩,
      fun h => (digit_ne_marks (hd _ h)).1 rfl⟩, by decide⟩, by decide⟩
  unfold formatMathNotation
  rw [s1, s2, s3, replaceAll_id (fun t ht => matchExpression_none (fun hm => hp (ht.subset hm)))]

/-- C23: for every single alphanumeric character v (an ASCII letter or digit)
and every non-empty digit string n, `formatInlineText("(" + v + ")")` and
`formatInlineText("\(" + v + "\)")` are the serif span around v, and
`formatInlineText("(" + v + "^" + n + ")")` is the serif span around v and the
superscript n, with the backslashes too (`ob` and `cb` are the brackets, each
with or without its backslash). -/
theorem variable_and_superscript (ob cb : Str) (v : Char)
    (ho : ob = ['('] ∨ ob = ['\\', '(']) (hc : cb = [')'] ∨ cb = ['\\', ')'])
    (hv : isAlnum v = true) :
    formatInlineText (ob ++ v :: cb) =
      "<span class=\"font-serif italic text-purple-800\">".toList ++ [v] ++ "</span>".toList ∧
    ∀ n : Str, n ≠ [] → (∀ d ∈ n, isDigit d = true) →
      formatInlineText (ob ++ v :: '^' :: (n ++ cb)) =
        "<span class=\"font-serif italic text-purple-800\">".toList ++ [v] ++
          "<sup class=\"text-xs\">".toList ++ n ++ "</sup></span>".toList := by
  obtain ⟨_, _, b3, b4, b5, _⟩ := bracket_cases ho hc
  obtain ⟨n1, n2, n3, n4, n5, n6, n7⟩ := alnum_ne_marks hv
  constructor
  · have hlt : '<' ∉ ob ++ v :: cb := by
      simp only [List.mem_append, List.mem_cons, not_or]
      exact ⟨b4, fun e => n3 e.symm, b5⟩
    have := @formatInlineText_of_math (ob ++ v :: cb) (mathSpanOpen ++ [v] ++ spanClose)
      (by simp) hlt (formatMathNotation_variable ho hc hv)
      (by
        simp only [List.mem_append, List.mem_singleton, not_or]
        exact ⟨⟨by decide, fun e => n4 e.symm⟩, by decide⟩)
      (by
        simp only [List.mem_append, List.mem_singleton, not_or]
        exact ⟨⟨by decide, fun e => n5 e.symm⟩, by decide⟩)
      (by
        rw [List.append_assoc]
        exact hasKeyword_append isTag_mathSpanOpen.2.2.2
          (hasKeyword_append (hasKeyword_singleton v) isTag_spanClose.2.2.2
            (Or.inr isTag_spanClose.2.1)) (Or.inl isTag_mathSpanOpen.2.2.1))
    rw [this]
    rfl
  · intro n hn hd
    have hdig : ∀ c ∈ n, isLetter c = false := fun c hc => isLetter_eq_false_of_digit (hd c hc)
    have hlt : '<' ∉ ob ++ v :: '^' :: (n ++ cb) := by
      simp only [List.mem_append, List.mem_cons, not_or]
      exact ⟨b4, fun e => n3 e.symm, by decide, fun h => (digit_ne_marks (hd _ h)).2.2.1 rfl, b5⟩
    have htag : IsTag (supOpen ++ (n ++ (supClose ++ spanClose))) :=
      isTag_append isTag_supOpen (isTag_digits_append hdig
        (isTag_append ⟨by decide, by rfl, by rfl, by rfl⟩ isTag_spanClose))
    have := @formatInlineText_of_math (ob ++ v :: '^' :: (n ++ cb))
      (mathSpanOpen ++ [v] ++ supOpen ++ n ++ supClose ++ spanClose)
      (by simp) hlt (formatMathNotation_superscript ho hc hv hn hd)
      (by
        simp only [List.mem_append, List.mem_singleton, not_or]
        exact ⟨⟨⟨⟨⟨by decide, fun e => n4 e.symm⟩, by decide⟩,
          fun h => (digit_ne_marks (hd _ h)).2.2.2.1 rfl⟩, by decide⟩, by decide⟩)
      (by
        simp only [List.mem_append, List.mem_singleton, not_or]
        exact ⟨⟨⟨⟨⟨by decide, fun e => n5 e.symm⟩, by decide⟩,
          fun h => (digit_ne_marks (hd _ h)).2.2.2.2.1 rfl⟩, by decide⟩, by decide⟩)
      (by
        have e : mathSpanOpen ++ [v] ++ supOpen ++ n ++ supClose ++ spanClose =
            mathSpanOpen ++ ([v] ++ (supOpen ++ (n ++ (supClose ++ spanClose)))) := by simp
        rw [e]
        exact hasKeyword_append isTag_mathSpanOpen.2.2.2
          (hasKeyword_append (hasKeyword_singleton v) htag.2.2.2 (Or.inr htag.2.1))
          (Or.inl isTag_mathSpanOpen.2.2.1))
    rw [this]
    simp [mathSpanOpen, supOpen, supClose, spanClose]

theorem variable_and_superscript_witness :
    formatInlineText ("\\(".toList ++ 'x' :: "\\)".toList) =
      "<span class=\"font-serif italic text-purple-800\">".toList ++ ['x'] ++ "</span>".toList ∧
    formatInlineText ("\\(".toList ++ 'x' :: '^' :: ("2".toList ++ "\\)".toList)) =
      "<span class=\"font-serif italic text-purple-800\">".toList ++ ['x'] ++
        "<sup class=\"text-xs\">".toList ++ "2".toList ++ "</sup></span>".toList :=
  ⟨(variable_and_superscript "\\(".toList "\\)".toList 'x' (Or.inr rfl) (Or.inr rfl)
      (by decide)).1,
   (variable_and_superscript "\\(".toList "\\)".toList 'x' (Or.inr rfl) (Or.inr rfl)
      (by decide)).2 "2".toList (by decide) (by decide)⟩

/-! ## The line loop as a sequence of operations -/

theorem classifyLine_eq_applyOp (index : Nat) (t : Str) (indent : Nat) (st : State) :
    classifyLine index t indent st = applyOp index (classifyOp t indent) st := by
  unfold classifyLine classifyOp
  by_cases h1 : matchDivider t = true
  · simp only [h1, if_true, applyOp]
  simp only [h1, Bool.false_eq_true, if_false]
  by_cases h2 : matchH1 t = true
  · simp only [h2, if_true, applyOp]
  simp only [h2, Bool.false_eq_true, if_false]
  cases h3 : matchHashes 2 t with
  | some text => rfl
  | none =>
  cases h4 : matchHashes 3 t with
  | some text => rfl
  | none =>
  cases h5 : matchHashes 4 t with
  | some text => rfl
  | none =>
  cases h6 : matchCoreIdea t with
  | some rest => rfl
  | none =>
  cases h7 : matchUnordered t with
  | some content => rfl
  | none =>
  cases h8 : matchOrdered t with
  | some q =>
    obtain ⟨bullet, content⟩ := q
    by_cases h9 : isSectionHeader t = true
    · simp only [h9, Bool.not_true, Bool.false_eq_true, if_false, applyOp]
    · simp only [h9, Bool.not_false, if_true, applyOp]
  | none =>
    by_cases h9 : (trim t).isEmpty = true
    · by_cases h10 : t.isEmpty = true
      · simp only [h9, h10, Bool.not_true, Bool.false_eq_true, if_false, if_true, applyOp]
      · simp only [h9, h10, Bool.not_true, Bool.false_eq_true, if_false, applyOp]
    · simp only [h9, Bool.not_false, if_true, applyOp]

theorem processLine_eq_applyOp (index : Nat) (line : Str) (st : State) :
    processLine index line st = applyOp index (lineOp st.inCode line) st := by
  unfold lineOp
  cases hf : matchFence (trimEnd line) with
  | some g => rw [processLine_fence index st hf]; rfl
  | none =>
    rw [processLine_noFence index st hf]
    obtain ⟨fs, cur, ll, icb, cl, sc⟩ := st
    cases icb <;> cases cur <;>
      first
      | exact classifyLine_eq_applyOp index _ _ _
      | rfl

/-! ## The level of the open list -/

theorem classifyOp_item {t : Str} {indent : Nat} {o : Bool} {k : Nat} {m c : Str}
    (h : classifyOp t indent = .item o k m c) : k = indent / 2 := by
  unfold classifyOp at h
  split at h
  · cases h
  split at h
  · cases h
  split at h
  · cases h
  split at h
  · cases h
  split at h
  · cases h
  split at h
  · cases h
  split at h
  · cases h; rfl
  split at h
  · split at h
    · cases h; rfl
    · cases h
  · split at h
    · cases h
    · split at h <;> cases h

theorem lineOp_item {b : Bool} {line : Str} {o : Bool} {k : Nat} {m c : Str}
    (h : lineOp b line = .item o k m c) : k = indentSize line / 2 := by
  unfold lineOp at h
  split at h
  · cases h
  · split at h
    · cases h
    · exact classifyOp_item h

theorem addListItem_of_new (ordered : Bool) (index nestLevel : Nat) (marker content : Str)
    {st : State} (h : needsNewList ordered nestLevel st = true) :
    addListItem ordered index nestLevel marker content st =
      .ok { closeCurrentSection index st with
        formattedSections := (closeCurrentSection index st).formattedSections ++
          [.listSection ordered [⟨⟨if ordered then "ol" else "ul", index⟩, nestLevel, marker,
            formatInlineText content⟩] nestLevel],
        currentSection := .list ordered (closeCurrentSection index st).formattedSections.length,
        listLevel := nestLevel } := by
  have h2 := pushItemAt_last
    ⟨⟨if ordered then "ol" else "ul", index⟩, nestLevel, marker, formatInlineText content⟩
    (closeCurrentSection index st).formattedSections ordered [] nestLevel
  simp only [addListItem, h, if_true, openList, pushItem]
  simp only [List.nil_append] at h2
  rw [h2]

theorem wellFormed_append_element {lines : List Str} {es : List Entry} (b : Block)
    (h : ListsWellFormed lines es) : ListsWellFormed lines (es ++ [.element b]) := by
  intro o items level hm
  rcases List.mem_append.1 hm with hm | hm
  · exact h o items level hm
  · simp at hm

theorem wellFormed_close {lines : List Str} (index : Nat) {st : State}
    (h : ListsWellFormed lines st.formattedSections) :
    ListsWellFormed lines (closeCurrentSection index st).formattedSections := by
  obtain ⟨fs, cur, ll, icb, cl, sc⟩ := st
  cases cur with
  | null => exact h
  | list o r => exact h
  | paragraph c => exact wellFormed_append_element _ h
  | code c => exact wellFormed_append_element _ h

theorem openListLevel_of_not_list {st : State} (h : ∀ o r, st.currentSection ≠ .list o r) :
    OpenListLevel st :=
  fun o r e => absurd e (h o r)

theorem closeCurrentSection_not_list (index : Nat) (st : State) :
    ∀ o r, (closeCurrentSection index st).currentSection ≠ .list o r := by
  intro o r
  rw [closeCurrentSection_currentSection]
  intro h
  cases h

theorem wellFormed_addListItem {lines : List Str} {index : Nat} {o : Bool} {k : Nat}
    {m c : Str} {st st1 : State} {line : Str} (hl : lines.get? index = some line)
    (hk : k = indentSize line / 2) (h : addListItem o index k m c st = .ok st1)
    (h1 : OpenListLevel st) (h2 : ListsWellFormed lines st.formattedSections) :
    OpenListLevel st1 ∧ ListsWellFormed lines st1.formattedSections := by
  have hitem : ∀ it ∈ [(⟨⟨if o then "ol" else "ul", index⟩, k, m, formatInlineText c⟩ : ListItem)],
      it.nestLevel = k ∧ ∃ line, lines.get? it.key.index = some line ∧
        it.nestLevel = indentSize line / 2 := by
    intro it hit
    rw [List.mem_singleton.1 hit]
    exact ⟨rfl, line, hl, hk⟩
  by_cases hn : needsNewList o k st = true
  · rw [addListItem_of_new o index k m c hn] at h
    cases h
    constructor
    · intro o1 r1 e
      cases e
      exact ⟨_, _, rfl, rfl⟩
    · intro o1 items level hm
      rcases List.mem_append.1 hm with hm | hm
      · exact wellFormed_close index h2 o1 items level hm
      · simp only [List.mem_singleton, Entry.listSection.injEq] at hm
        obtain ⟨rfl, rfl, rfl⟩ := hm
        exact ⟨by simp, hitem⟩
  · obtain ⟨fs, cur, ll, icb, cl, sc⟩ := st
    cases cur with
    | null => simp [needsNewList] at hn
    | paragraph _ => simp [needsNewList] at hn
    | code _ => simp [needsNewList] at hn
    | list o1 r =>
      simp only [needsNewList, Bool.or_eq_true, bne_iff_ne, ne_eq, not_or, not_not] at hn
      obtain ⟨rfl, rfl⟩ := hn
      obtain ⟨pre, items, e1, rfl⟩ := h1 o1 r rfl
      simp only at e1
      subst e1
      rw [addListItem_of_open] at h
      cases h
      constructor
      · intro o2 r2 e
        cases e
        exact ⟨_, _, rfl, rfl⟩
      · intro o2 items2 level hm
        rcases List.mem_append.1 hm with hm | hm
        · exact h2 o2 items2 level (List.mem_append_left _ hm)
        · simp only [List.mem_singleton, Entry.listSection.injEq] at hm
          obtain ⟨rfl, rfl, rfl⟩ := hm
          obtain ⟨_, i2⟩ := h2 o2 items level
            (List.mem_append_right _ (List.mem_singleton_self _))
          refine ⟨by simp, ?_⟩
          intro it hit
          rcases List.mem_append.1 hit with hit | hit
          · exact i2 it hit
          · exact hitem it hit

theorem listInv_applyOp {lines : List Str} {index : Nat} {op : LineOp} {st st1 : State}
    (hop : ∀ o k m c, op = .item o k m c →
      ∃ line, lines.get? index = some line ∧ k = indentSize line / 2)
    (h : applyOp index op st = .ok st1) (h1 : OpenListLevel st)
    (h2 : ListsWellFormed lines st.formattedSections) :
    OpenListLevel st1 ∧ ListsWellFormed lines st1.formattedSections := by
  cases op with
  | item o k m c =>
    obtain ⟨line, hl, hk⟩ := hop o k m c rfl
    exact wellFormed_addListItem hl hk h h1 h2
  | skip =>
    cases h
    exact ⟨h1, h2⟩
  | fence g =>
    simp only [applyOp] at h
    split at h <;> cases h
    · exact ⟨openListLevel_of_not_list (fun o r e => by cases e), wellFormed_close index h2⟩
    · refine ⟨openListLevel_of_not_list (fun o r => ?_), ?_⟩
      · exact closeCurrentSection_not_list index _ o r
      · exact @wellFormed_close lines index { st with inCodeBlock := false } h2
  | codeLine line =>
    obtain ⟨fs, cur, ll, icb, cl, sc⟩ := st
    cases cur <;> simp only [applyOp, pushContent] at h <;> cases h <;>
      exact ⟨openListLevel_of_not_list (fun o r e => by cases e), h2⟩
  | divider =>
    cases h
    exact ⟨openListLevel_of_not_list (closeCurrentSection_not_list index st),
      wellFormed_append_element _ (wellFormed_close index h2)⟩
  | heading1 text =>
    cases h
    exact ⟨openListLevel_of_not_list (closeCurrentSection_not_list index st),
      wellFormed_append_element _ (wellFormed_close index h2)⟩
  | heading level text =>
    cases h
    exact ⟨openListLevel_of_not_list (closeCurrentSection_not_list index st),
      wellFormed_append_element _ (wellFormed_close index h2)⟩
  | callout text =>
    cases h
    exact ⟨openListLevel_of_not_list (closeCurrentSection_not_list index st),
      wellFormed_append_element _ (wellFormed_close index h2)⟩
  | blank =>
    cases h
    exact ⟨openListLevel_of_not_list (closeCurrentSection_not_list index st),
      wellFormed_close index h2⟩
  | paragraph t =>
    obtain ⟨fs, cur, ll, icb, cl, sc⟩ := st
    cases cur <;> simp only [applyOp, addParagraphLine, pushContent, closeCurrentSection] at h <;>
      cases h
    · exact ⟨openListLevel_of_not_list (fun o r e => by cases e), h2⟩
    · exact ⟨openListLevel_of_not_list (fun o r e => by cases e), h2⟩
    · exact ⟨openListLevel_of_not_list (fun o r e => by cases e),
        wellFormed_append_element _ h2⟩
    · exact ⟨openListLevel_of_not_list (fun o r e => by cases e), h2⟩

theorem listInv_forEachLine (lines : List Str) :
    ∀ (rest : List Str) (index : Nat) (st st1 : State),
      (∀ k line, rest.get? k = some line → lines.get? (index + k) = some line) →
      OpenListLevel st → ListsWellFormed lines st.formattedSections →
      forEachLine index rest st = .ok st1 →
      OpenListLevel st1 ∧ ListsWellFormed lines st1.formattedSections := by
  intro rest
  induction rest with
  | nil =>
    intro index st st1 _ h1 h2 h
    cases h
    exact ⟨h1, h2⟩
  | cons l ls ih =>
    intro index st st1 hg h1 h2 h
    simp only [forEachLine] at h
    cases hp : processLine index l st with
    | error e => rw [hp] at h; cases h
    | ok st2 =>
      rw [hp] at h
      rw [processLine_eq_applyOp] at hp
      have hl : lines.get? index = some l := hg 0 l rfl
      obtain ⟨i1, i2⟩ := listInv_applyOp
        (fun o k m c e => ⟨l, hl, lineOp_item e⟩) hp h1 h2
      refine ih (index + 1) st2 st1 ?_ i1 i2 h
      intro k line hk
      have := hg (k + 1) line hk
      rwa [show index + (k + 1) = index + 1 + k from by omega] at this

theorem openListLevel_init : OpenListLevel State.init :=
  openListLevel_of_not_list (fun o r e => by cases e)

theorem wellFormed_nil (lines : List Str) : ListsWellFormed lines [] :=
  fun _ _ _ hm => absurd hm (List.not_mem_nil _)

/-! ## The reset of the level on an empty line -/

theorem sameUpToLevel_refl (st : State) : SameUpToLevel st st :=
  ⟨rfl, rfl, rfl, rfl, rfl, fun _ _ _ => rfl⟩

theorem sameUpToLevel_of_not_list {st st1 : State}
    (h1 : st1.formattedSections = st.formattedSections)
    (h2 : st1.currentSection = st.currentSection) (h3 : st1.inCodeBlock = st.inCodeBlock)
    (h4 : st1.codeLanguage = st.codeLanguage) (h5 : st1.sectionCount = st.sectionCount)
    (h6 : ∀ o r, st.currentSection ≠ .list o r) : SameUpToLevel st st1 :=
  ⟨h1, h2, h3, h4, h5, fun o r e => absurd e (h6 o r)⟩

theorem sameUpToLevel_applyOp {index : Nat} {op : LineOp} {st st1 s1 : State}
    (hs : SameUpToLevel st st1) (h : applyOp index op st = .ok s1) :
    ∃ s2, applyOp index op st1 = .ok s2 ∧ SameUpToLevel s1 s2 := by
  obtain ⟨fs, cur, ll, icb, cl, sc⟩ := st
  obtain ⟨fs1, cur1, ll1, icb1, cl1, sc1⟩ := st1
  obtain ⟨e1, e2, e3, e4, e5, e6⟩ := hs
  simp only at e1 e2 e3 e4 e5 e6
  subst e1 e2 e3 e4 e5
  cases cur1 with
  | list o r =>
    have := e6 o r rfl
    subst this
    exact ⟨s1, h, sameUpToLevel_refl s1⟩
  | null =>
    cases op with
    | item o k m c =>
      have hn : ∀ l, needsNewList o k ⟨fs1, .null, l, icb1, cl1, sc1⟩ = true := fun _ => rfl
      simp only [applyOp] at h ⊢
      rw [addListItem_of_new o index k m c (hn ll)] at h
      rw [addListItem_of_new o index k m c (hn ll1)]
      cases h
      exact ⟨_, rfl, rfl, rfl, rfl, rfl, rfl, fun _ _ _ => rfl⟩
    | fence g =>
      simp only [applyOp] at h ⊢
      cases icb1 <;> cases h <;>
        exact ⟨_, rfl, sameUpToLevel_of_not_list rfl rfl rfl rfl rfl (fun o r e => by cases e)⟩
    | codeLine line => cases h
    | divider =>
      cases h
      exact ⟨_, rfl, sameUpToLevel_of_not_list rfl rfl rfl rfl rfl (fun o r e => by cases e)⟩
    | heading1 text =>
      cases h
      exact ⟨_, rfl, sameUpToLevel_of_not_list rfl rfl rfl rfl rfl (fun o r e => by cases e)⟩
    | heading level text =>
      cases h
      exact ⟨_, rfl, sameUpToLevel_of_not_list rfl rfl rfl rfl rfl (fun o r e => by cases e)⟩
    | callout text =>
      cases h
      exact ⟨_, rfl, sameUpToLevel_of_not_list rfl rfl rfl rfl rfl (fun o r e => by cases e)⟩
    | paragraph t =>
      cases h
      exact ⟨_, rfl, sameUpToLevel_of_not_list rfl rfl rfl rfl rfl (fun o r e => by cases e)⟩
    | blank =>
      cases h
      exact ⟨_, rfl, sameUpToLevel_of_not_list rfl rfl rfl rfl rfl (fun o r e => by cases e)⟩
    | skip =>
      cases h
      exact ⟨_, rfl, sameUpToLevel_of_not_list rfl rfl rfl rfl rfl (fun o r e => by cases e)⟩
  | paragraph content =>
    cases op with
    | item o k m c =>
      have hn : ∀ l, needsNewList o k ⟨fs1, .paragraph content, l, icb1, cl1, sc1⟩ = true := fun _ => rfl
      simp only [applyOp] at h ⊢
      rw [addListItem_of_new o index k m c (hn ll)] at h
      rw [addListItem_of_new o index k m c (hn ll1)]
      cases h
      exact ⟨_, rfl, rfl, rfl, rfl, rfl, rfl, fun _ _ _ => rfl⟩
    | fence g =>
      simp only [applyOp] at h ⊢
      cases icb1 <;> cases h <;>
        exact ⟨_, rfl, sameUpToLevel_of_not_list rfl rfl rfl rfl rfl (fun o r e => by cases e)⟩
    | codeLine line =>
      cases h
      exact ⟨_, rfl, sameUpToLevel_of_not_list rfl rfl rfl rfl rfl (fun o r e => by cases e)⟩
    | divider =>
      cases h
      exact ⟨_, rfl, sameUpToLevel_of_not_list rfl rfl rfl rfl rfl (fun o r e => by cases e)⟩
    | heading1 text =>
      cases h
      exact ⟨_, rfl, sameUpToLevel_of_not_list rfl rfl rfl rfl rfl (fun o r e => by cases e)⟩
    | heading level text =>
      cases h
      exact ⟨_, rfl, sameUpToLevel_of_not_list rfl rfl rfl rfl rfl (fun o r e => by cases e)⟩
    | callout text =>
      cases h
      exact ⟨_, rfl, sameUpToLevel_of_not_list rfl rfl rfl rfl rfl (fun o r e => by cases e)⟩
    | paragraph t =>
      cases h
      exact ⟨_, rfl, sameUpToLevel_of_not_list rfl rfl rfl rfl rfl (fun o r e => by cases e)⟩
    | blank =>
      cases h
      exact ⟨_, rfl, sameUpToLevel_of_not_list rfl rfl rfl rfl rfl (fun o r e => by cases e)⟩
    | skip =>
      cases h
      exact ⟨_, rfl, sameUpToLevel_of_not_list rfl rfl rfl rfl rfl (fun o r e => by cases e)⟩
  | code content =>
    cases op with
    | item o k m c =>
      have hn : ∀ l, needsNewList o k ⟨fs1, .code content, l, icb1, cl1, sc1⟩ = true := fun _ => rfl
      simp only [applyOp] at h ⊢
      rw [addListItem_of_new o index k m c (hn ll)] at h
      rw [addListItem_of_new o index k m c (hn ll1)]
      cases h
      exact ⟨_, rfl, rfl, rfl, rfl, rfl, rfl, fun _ _ _ => rfl⟩
    | fence g =>
      simp only [applyOp] at h ⊢
      cases icb1 <;> cases h <;>
        exact ⟨_, rfl, sameUpToLevel_of_not_list rfl rfl rfl rfl rfl (fun o r e => by cases e)⟩
    | codeLine line =>
      cases h
      exact ⟨_, rfl, sameUpToLevel_of_not_list rfl rfl rfl rfl rfl (fun o r e => by cases e)⟩
    | divider =>
      cases h
      exact ⟨_, rfl, sameUpToLevel_of_not_list rfl rfl rfl rfl rfl (fun o r e => by cases e)⟩
    | heading1 text =>
      cases h
      exact ⟨_, rfl, sameUpToLevel_of_not_list rfl rfl rfl rfl rfl (fun o r e => by cases e)⟩
    | heading level text =>
      cases h
      exact ⟨_, rfl, sameUpToLevel_of_not_list rfl rfl rfl rfl rfl (fun o r e => by cases e)⟩
    | callout text =>
      cases h
      exact ⟨_, rfl, sameUpToLevel_of_not_list rfl rfl rfl rfl rfl (fun o r e => by cases e)⟩
    | paragraph t =>
      cases h
      exact ⟨_, rfl, sameUpToLevel_of_not_list rfl rfl rfl rfl rfl (fun o r e => by cases e)⟩
    | blank =>
      cases h
      exact ⟨_, rfl, sameUpToLevel_of_not_list rfl rfl rfl rfl rfl (fun o r e => by cases e)⟩
    | skip =>
      cases h
      exact ⟨_, rfl, sameUpToLevel_of_not_list rfl rfl rfl rfl rfl (fun o r e => by cases e)⟩

theorem lineOp_blank {line : Str} (h : (trimEnd line).isEmpty = true) :
    lineOp false line = .blank := by
  have e : trimEnd line = [] := List.isEmpty_iff.1 h
  unfold lineOp
  rw [e]
  rfl

theorem sameUpToLevel_close (index : Nat) {st st1 : State} (hs : SameUpToLevel st st1) :
    (closeCurrentSection index st1).formattedSections =
      (closeCurrentSection index st).formattedSections := by
  obtain ⟨fs, cur, ll, icb, cl, sc⟩ := st
  obtain ⟨fs1, cur1, ll1, icb1, cl1, sc1⟩ := st1
  obtain ⟨e1, e2, e3, e4, e5, _⟩ := hs
  simp only at e1 e2 e3 e4 e5
  subst e1 e2 e3 e4 e5
  cases cur1 <;> rfl

theorem sameUpToLevel_inCode {st st1 : State} (hs : SameUpToLevel st st1) :
    st1.inCode = st.inCode := by
  obtain ⟨_, e2, e3, _⟩ := hs
  unfold State.inCode
  rw [e2, e3]

theorem sameUpToLevel_processLine {index : Nat} {line : Str} {st st1 s1 : State}
    (hs : SameUpToLevel st st1) (h : processLine index line st = .ok s1) :
    ∃ s2, processLineNoReset index line st1 = .ok s2 ∧ SameUpToLevel s1 s2 := by
  have hc := sameUpToLevel_inCode hs
  unfold processLineNoReset
  rw [processLine_eq_applyOp] at h
  by_cases hb : (!st1.inCode && (trimEnd line).isEmpty) = true
  · rw [if_pos hb]
    simp only [Bool.and_eq_true, Bool.not_eq_true'] at hb
    obtain ⟨hb1, hb2⟩ := hb
    rw [← hc, hb1, lineOp_blank hb2] at h
    cases h
    obtain ⟨_, _, e3, e4, e5, _⟩ := hs
    refine ⟨_, rfl, sameUpToLevel_of_not_list (sameUpToLevel_close index
      ⟨by assumption, by assumption, e3, e4, e5, by assumption⟩) ?_ ?_ ?_ ?_ ?_⟩
    · simp
    · simp [e3]
    · simp [e4]
    · simp [e5]
    · intro o r
      exact closeCurrentSection_not_list index st o r
  · rw [if_neg hb, processLine_eq_applyOp, hc]
    exact sameUpToLevel_applyOp hs h

theorem sameUpToLevel_forEachLine :
    ∀ (lines : List Str) (index : Nat) (st st1 s1 : State),
      SameUpToLevel st st1 → forEachLine index lines st = .ok s1 →
      ∃ s2, forEachLineNoReset index lines st1 = .ok s2 ∧ SameUpToLevel s1 s2 := by
  intro lines
  induction lines with
  | nil =>
    intro index st st1 s1 hs h
    cases h
    exact ⟨st1, rfl, hs⟩
  | cons l ls ih =>
    intro index st st1 s1 hs h
    simp only [forEachLine] at h
    cases hp : processLine index l st with
    | error e => rw [hp] at h; cases h
    | ok st2 =>
      rw [hp] at h
      obtain ⟨s2, q1, q2⟩ := sameUpToLevel_processLine hs hp
      obtain ⟨s3, q3, q4⟩ := ih (index + 1) st2 s2 s1 q2 h
      exact ⟨s3, by simp only [forEachLineNoReset, q1, q3], q4⟩

theorem formatSectionsNoReset_eq (lines : List Str) :
    formatSectionsNoReset lines = formatSections lines := by
  obtain ⟨st, h, _, _⟩ := forEachLine_ok lines 0 inv_init
  obtain ⟨s2, q1, q2⟩ := sameUpToLevel_forEachLine lines 0 State.init State.init st
    (sameUpToLevel_refl _) h
  simp only [formatSectionsNoReset, formatSections, h, q1, sameUpToLevel_close lines.length q2]

/-! ## List elements are made by the final map only -/

theorem notLists_append_element {es : List Entry} {b : Block}
    (hb : ∀ o k items, b ≠ .list o k items) (h : ElementsNotLists es) :
    ElementsNotLists (es ++ [.element b]) := by
  intro o k items hm
  rcases List.mem_append.1 hm with hm | hm
  · exact h o k items hm
  · simp only [List.mem_singleton, Entry.element.injEq] at hm
    exact hb o k items hm.symm

theorem notLists_append_list {es : List Entry} (o : Bool) (items : List ListItem) (level : Nat)
    (h : ElementsNotLists es) : ElementsNotLists (es ++ [.listSection o items level]) := by
  intro o1 k items1 hm
  rcases List.mem_append.1 hm with hm | hm
  · exact h o1 k items1 hm
  · simp at hm

theorem notLists_close (index : Nat) {st : State} (h : ElementsNotLists st.formattedSections) :
    ElementsNotLists (closeCurrentSection index st).formattedSections := by
  obtain ⟨fs, cur, ll, icb, cl, sc⟩ := st
  cases cur with
  | null => exact h
  | list o r => exact h
  | paragraph c => exact notLists_append_element (fun _ _ _ e => by cases e) h
  | code c => exact notLists_append_element (fun _ _ _ e => by cases e) h

theorem notLists_pushItemAt (item : ListItem) :
    ∀ (es : List Entry) (n : Nat) (es1 : List Entry),
      pushItemAt item n es = .ok es1 → ElementsNotLists es → ElementsNotLists es1 := by
  intro es
  induction es with
  | nil =>
    intro n es1 h _
    cases n <;> cases h
  | cons e es ih =>
    intro n es1 h h1
    have ht : ElementsNotLists es := fun o k items hm => h1 o k items (List.mem_cons_of_mem _ hm)
    cases n with
    | zero =>
      cases e with
      | element b => cases h
      | listSection o items level =>
        cases h
        intro o1 k items1 hm
        rcases List.mem_cons.1 hm with hm | hm
        · cases hm
        · exact ht o1 k items1 hm
    | succ n =>
      simp only [pushItemAt] at h
      cases hp : pushItemAt item n es with
      | error err => rw [hp] at h; cases h
      | ok es2 =>
        rw [hp] at h
        cases h
        intro o1 k items1 hm
        rcases List.mem_cons.1 hm with hm | hm
        · exact h1 o1 k items1 (hm ▸ List.mem_cons_self _ _)
        · exact ih n es2 hp ht o1 k items1 hm

theorem notLists_addListItem {index : Nat} {o : Bool} {k : Nat} {m c : Str} {st st1 : State}
    (h : addListItem o index k m c st = .ok st1) (h1 : ElementsNotLists st.formattedSections) :
    ElementsNotLists st1.formattedSections := by
  by_cases hn : needsNewList o k st = true
  · rw [addListItem_of_new o index k m c hn] at h
    cases h
    exact notLists_append_list _ _ _ (notLists_close index h1)
  · obtain ⟨fs, cur, ll, icb, cl, sc⟩ := st
    simp only [addListItem, hn, Bool.false_eq_true, if_false] at h
    cases cur with
    | null => cases h
    | paragraph _ => cases h
    | code _ => cases h
    | list o1 r =>
      simp only [pushItem] at h
      cases hp : pushItemAt ⟨⟨if o then "ol" else "ul", index⟩, k, m, formatInlineText c⟩ r fs with
      | error err => rw [hp] at h; cases h
      | ok es2 =>
        rw [hp] at h
        cases h
        exact notLists_pushItemAt _ fs r es2 hp h1

theorem notLists_applyOp {index : Nat} {op : LineOp} {st st1 : State}
    (h : applyOp index op st = .ok st1) (h1 : ElementsNotLists st.formattedSections) :
    ElementsNotLists st1.formattedSections := by
  cases op with
  | item o k m c => exact notLists_addListItem h h1
  | skip =>
    cases h
    exact h1
  | fence g =>
    simp only [applyOp] at h
    split at h <;> cases h
    · exact notLists_close index h1
    · exact @notLists_close index { st with inCodeBlock := false } h1
  | codeLine line =>
    obtain ⟨fs, cur, ll, icb, cl, sc⟩ := st
    cases cur <;> simp only [applyOp, pushContent] at h <;> cases h <;> exact h1
  | divider =>
    cases h
    exact notLists_append_element (fun _ _ _ e => by cases e) (notLists_close index h1)
  | heading1 text =>
    cases h
    exact notLists_append_element (fun _ _ _ e => by cases e) (notLists_close index h1)
  | heading level text =>
    cases h
    exact notLists_append_element (fun _ _ _ e => by cases e) (notLists_close index h1)
  | callout text =>
    cases h
    exact notLists_append_element (fun _ _ _ e => by cases e) (notLists_close index h1)
  | blank =>
    cases h
    exact notLists_close index h1
  | paragraph t =>
    obtain ⟨fs, cur, ll, icb, cl, sc⟩ := st
    cases cur <;> simp only [applyOp, addParagraphLine, pushContent, closeCurrentSection] at h <;>
      cases h
    · exact h1
    · exact h1
    · exact notLists_append_element (fun _ _ _ e => by cases e) h1
    · exact h1

theorem notLists_forEachLine :
    ∀ (lines : List Str) (index : Nat) (st st1 : State),
      ElementsNotLists st.formattedSections → forEachLine index lines st = .ok st1 →
      ElementsNotLists st1.formattedSections := by
  intro lines
  induction lines with
  | nil =>
    intro index st st1 h1 h
    cases h
    exact h1
  | cons l ls ih =>
    intro index st st1 h1 h
    simp only [forEachLine] at h
    cases hp : processLine index l st with
    | error e => rw [hp] at h; cases h
    | ok st2 =>
      rw [hp] at h
      rw [processLine_eq_applyOp] at hp
      exact ih (index + 1) st2 st1 (notLists_applyOp hp h1) h

theorem mem_renderSections {o : Bool} {key : Key} {items : List ListItem} :
    ∀ (es : List Entry) (index : Nat), Block.list o key items ∈ renderSections index es →
      Entry.element (.list o key items) ∈ es ∨ ∃ level, Entry.listSection o items level ∈ es := by
  intro es
  induction es with
  | nil =>
    intro index hm
    simp [renderSections] at hm
  | cons e es ih =>
    intro index hm
    cases e with
    | element b =>
      simp only [renderSections, List.mem_cons] at hm
      rcases hm with hm | hm
      · exact Or.inl (hm ▸ List.mem_cons_self _ _)
      · rcases ih (index + 1) hm with q | ⟨level, q⟩
        · exact Or.inl (List.mem_cons_of_mem _ q)
        · exact Or.inr ⟨level, List.mem_cons_of_mem _ q⟩
    | listSection o1 items1 level1 =>
      cases o1 <;> simp only [renderSections, List.mem_cons, Block.list.injEq] at hm <;>
        rcases hm with ⟨rfl, _, rfl⟩ | hm
      · exact Or.inr ⟨level1, List.mem_cons_self _ _⟩
      · rcases ih (index + 1) hm with q | ⟨level, q⟩
        · exact Or.inl (List.mem_cons_of_mem _ q)
        · exact Or.inr ⟨level, List.mem_cons_of_mem _ q⟩
      · exact Or.inr ⟨level1, List.mem_cons_self _ _⟩
      · rcases ih (index + 1) hm with q | ⟨level, q⟩
        · exact Or.inl (List.mem_cons_of_mem _ q)
        · exact Or.inr ⟨level, List.mem_cons_of_mem _ q⟩

theorem listBlocks_of_entries {lines : List Str} {es : List Entry}
    (h1 : ElementsNotLists es) (h2 : ListsWellFormed lines es) :
    ListBlocksWellFormed lines (renderSections 0 es) := by
  intro o key items hm
  rcases mem_renderSections es 0 hm with q | ⟨level, q⟩
  · exact absurd q (h1 o key items)
  · obtain ⟨a, b⟩ := h2 o items level q
    refine ⟨a, level, ?_⟩
    intro it hit
    obtain ⟨b1, line, b2, b3⟩ := b it hit
    exact ⟨b1, line, b2, by rw [← b3, b1]⟩

/-- C29: in every state the line loop reaches, an open list object is the last
entry of `formattedSections` and its field `level` equals `listLevel`.  Hence every
list object of the result, ordered or not, holds at least one item, and each of
its items was made from a line whose nesting level, half the indent rounded
down, is the level of the object; the same holds of the `ul` and `ol` elements
that `formatContent` returns.  The loop without the statement `listLevel = 0`
of its empty-line branch yields the same result. -/
theorem list_level_invariant (lines : List Str) :
    (∀ done rest st, lines = done ++ rest → forEachLine 0 done State.init = .ok st →
      OpenListLevel st) ∧
    (∃ entries, formatSections lines = .ok entries ∧ ListsWellFormed lines entries ∧
      ListBlocksWellFormed lines (renderSections 0 entries)) ∧
    (∀ s, splitLines s = lines →
      ∃ blocks, formatContent (.string s) = .ok blocks ∧ ListBlocksWellFormed lines blocks) ∧
    formatSectionsNoReset lines = formatSections lines := by
  have hsec : ∃ entries, formatSections lines = .ok entries ∧ ListsWellFormed lines entries ∧
      ListBlocksWellFormed lines (renderSections 0 entries) := by
    obtain ⟨st, h, _, _⟩ := forEachLine_ok lines 0 inv_init
    obtain ⟨_, i2⟩ := listInv_forEachLine lines lines 0 State.init st
      (fun k line hk => by rwa [Nat.zero_add]) openListLevel_init (wellFormed_nil lines) h
    have i3 := notLists_forEachLine lines 0 State.init st
      (fun _ _ _ hm => absurd hm (List.not_mem_nil _)) h
    refine ⟨(closeCurrentSection lines.length st).formattedSections, ?_,
      wellFormed_close _ i2, listBlocks_of_entries (notLists_close _ i3) (wellFormed_close _ i2)⟩
    simp only [formatSections, h]
  refine ⟨?_, hsec, ?_, formatSectionsNoReset_eq lines⟩
  · intro done rest st hl h
    refine (listInv_forEachLine lines done 0 State.init st ?_ openListLevel_init
      (wellFormed_nil lines) h).1
    intro k line hk
    rw [Nat.zero_add, hl, List.get?_eq_getElem?]
    rw [List.get?_eq_getElem?] at hk
    have hlt : k < done.length := by
      by_contra hge
      rw [List.getElem?_eq_none (Nat.le_of_not_lt hge)] at hk
      cases hk
    rw [List.getElem?_append_left hlt]
    exact hk
  · intro s hs
    obtain ⟨entries, h1, _, h3⟩ := hsec
    cases s with
    | nil => exact ⟨[], rfl, fun _ _ _ hm => absurd hm (List.not_mem_nil _)⟩
    | cons c cs =>
      refine ⟨renderSections 0 entries, formatContent_of_sections (by simp) ?_, h3⟩
      rw [hs]
      exact h1

theorem list_level_invariant_witness :
    OpenListLevel ⟨[.listSection false [⟨⟨"ul", 0⟩, 1, bulletGlyph, ['a']⟩] 1], .list false 0, 1,
      false, [], 0⟩ ∧
    ListsWellFormed ["  - a".toList, [], "  - b".toList]
      [.listSection false [⟨⟨"ul", 0⟩, 1, bulletGlyph, ['a']⟩] 1,
       .listSection false [⟨⟨"ul", 2⟩, 1, bulletGlyph, ['b']⟩] 1] ∧
    ListBlocksWellFormed ["  - a".toList, [], "  - b".toList]
      [.list false ⟨"ul", 0⟩ [⟨⟨"ul", 0⟩, 1, bulletGlyph, ['a']⟩],
       .list false ⟨"ul", 1⟩ [⟨⟨"ul", 2⟩, 1, bulletGlyph, ['b']⟩]] ∧
    (∃ blocks, formatContent (.string "  - a\n\n  - b".toList) = .ok blocks ∧
      ListBlocksWellFormed ["  - a".toList, [], "  - b".toList] blocks) ∧
    formatSectionsNoReset ["  - a".toList, [], "  - b".toList] =
      .ok [.listSection false [⟨⟨"ul", 0⟩, 1, bulletGlyph, ['a']⟩] 1,
       .listSection false [⟨⟨"ul", 2⟩, 1, bulletGlyph, ['b']⟩] 1] := by
  obtain ⟨h1, ⟨entries, h2, h3, h4⟩, h5, h6⟩ :=
    list_level_invariant ["  - a".toList, [], "  - b".toList]
  have e : formatSections ["  - a".toList, [], "  - b".toList] =
      .ok [.listSection false [⟨⟨"ul", 0⟩, 1, bulletGlyph, ['a']⟩] 1,
       .listSection false [⟨⟨"ul", 2⟩, 1, bulletGlyph, ['b']⟩] 1] := by rfl
  rw [e] at h2 h6
  cases h2
  exact ⟨h1 ["  - a".toList] [[], "  - b".toList] _ rfl (by rfl), h3, h4,
    h5 "  - a\n\n  - b".toList (by rfl), h6⟩

/-! ## Two texts joined by an empty line -/

theorem split_ne_nil (sep : Char) (s : Str) : split sep s ≠ [] := by
  induction s with
  | nil => simp [split]
  | cons c cs ih =>
    unfold split
    split
    · simp
    · split <;> simp

theorem split_append (sep : Char) (a b : Str) :
    split sep (a ++ sep :: b) = split sep a ++ split sep b := by
  induction a with
  | nil => simp [split]
  | cons c cs ih =>
    by_cases hc : c = sep
    · simp [split, hc, ih]
    · cases hs : split sep cs with
      | nil => exact absurd hs (split_ne_nil sep cs)
      | cons l ls =>
        have e : split sep (cs ++ sep :: b) = l :: (ls ++ split sep b) := by
          rw [ih, hs]
          rfl
        simp only [List.cons_append, split, hc, if_false, hs, List.append_eq, e]

theorem splitLines_blank_between (a b : Str) :
    splitLines (a ++ '\n' :: '\n' :: b) = splitLines a ++ [] :: splitLines b := by
  unfold splitLines
  rw [split_append, show split '\n' ('\n' :: b) = [] :: split '\n' b from by simp [split]]
  simp [stripCR]

/-! ## Lines that are neither fences nor level-1 headings -/

theorem classifyOp_ne_fence (t : Str) (indent : Nat) (g : Str) :
    classifyOp t indent ≠ .fence g := by
  intro h
  unfold classifyOp at h
  split at h
  · cases h
  split at h
  · cases h
  split at h
  · cases h
  split at h
  · cases h
  split at h
  · cases h
  split at h
  · cases h
  split at h
  · cases h
  split at h
  · split at h <;> cases h
  · split at h
    · cases h
    · split at h <;> cases h

theorem classifyOp_heading1 {t : Str} {indent : Nat} {text : Str}
    (h : classifyOp t indent = .heading1 text) : matchH1 t = true := by
  unfold classifyOp at h
  split at h
  · cases h
  split at h
  · assumption
  split at h
  · cases h
  split at h
  · cases h
  split at h
  · cases h
  split at h
  · cases h
  split at h
  · cases h
  split at h
  · split at h <;> cases h
  · split at h
    · cases h
    · split at h <;> cases h

theorem unfenced_inCode {st : State} (h : Unfenced st) : st.inCode = false := by
  unfold State.inCode
  rw [h.1]
  rfl

theorem lineOp_of_unfenced {line : Str} (hf : matchFence (trimEnd line) = none)
    (hh : matchH1 (trimEnd line) = false) :
    (∀ g, lineOp false line ≠ .fence g) ∧ ∀ text, lineOp false line ≠ .heading1 text := by
  have e : lineOp false line = classifyOp (trimEnd line) (indentSize line) := by
    unfold lineOp
    rw [hf]
    rfl
  rw [e]
  refine ⟨fun g => classifyOp_ne_fence _ _ g, fun text h => ?_⟩
  rw [classifyOp_heading1 h] at hh
  cases hh

theorem unfenced_close (index : Nat) {st : State} (h : Unfenced st) :
    Unfenced (closeCurrentSection index st) := by
  obtain ⟨h1, h2, h3⟩ := h
  exact ⟨by simp [h1], by simp [h2], by simp [h3]⟩

theorem unfenced_addListItem {index : Nat} {o : Bool} {k : Nat} {m c : Str} {st st1 : State}
    (h : addListItem o index k m c st = .ok st1) (h1 : Unfenced st) : Unfenced st1 := by
  by_cases hn : needsNewList o k st = true
  · rw [addListItem_of_new o index k m c hn] at h
    cases h
    exact unfenced_close index h1
  · obtain ⟨fs, cur, ll, icb, cl, sc⟩ := st
    simp only [addListItem, hn, Bool.false_eq_true, if_false] at h
    cases cur with
    | null => cases h
    | paragraph _ => cases h
    | code _ => cases h
    | list o1 r =>
      simp only [pushItem] at h
      cases hp : pushItemAt ⟨⟨if o then "ol" else "ul", index⟩, k, m, formatInlineText c⟩ r fs with
      | error err => rw [hp] at h; cases h
      | ok es2 =>
        rw [hp] at h
        cases h
        exact h1

theorem unfenced_applyOp {index : Nat} {op : LineOp} {st st1 : State}
    (hf : ∀ g, op ≠ .fence g) (hh : ∀ text, op ≠ .heading1 text)
    (h : applyOp index op st = .ok st1) (h1 : Unfenced st) : Unfenced st1 := by
  cases op with
  | item o k m c => exact unfenced_addListItem h h1
  | skip =>
    cases h
    exact h1
  | fence g => exact absurd rfl (hf g)
  | heading1 text => exact absurd rfl (hh text)
  | codeLine line =>
    obtain ⟨fs, cur, ll, icb, cl, sc⟩ := st
    cases cur <;> simp only [applyOp, pushContent] at h <;> cases h <;> exact h1
  | divider =>
    cases h
    exact unfenced_close index h1
  | heading level text =>
    cases h
    exact unfenced_close index h1
  | callout text =>
    cases h
    exact unfenced_close index h1
  | blank =>
    cases h
    exact unfenced_close index h1
  | paragraph t =>
    obtain ⟨fs, cur, ll, icb, cl, sc⟩ := st
    cases cur <;> simp only [applyOp, addParagraphLine, pushContent, closeCurrentSection] at h <;>
      cases h <;> exact h1

theorem unfenced_forEachLine :
    ∀ (lines : List Str) (index : Nat) (st st1 : State),
      (∀ l ∈ lines, matchFence (trimEnd l) = none ∧ matchH1 (trimEnd l) = false) →
      Unfenced st → forEachLine index lines st = .ok st1 → Unfenced st1 := by
  intro lines
  induction lines with
  | nil =>
    intro index st st1 _ h1 h
    cases h
    exact h1
  | cons l ls ih =>
    intro index st st1 hl h1 h
    simp only [forEachLine] at h
    cases hp : processLine index l st with
    | error e => rw [hp] at h; cases h
    | ok st2 =>
      rw [hp] at h
      rw [processLine_eq_applyOp, unfenced_inCode h1] at hp
      obtain ⟨q1, q2⟩ := hl l (List.mem_cons_self _ _)
      obtain ⟨q3, q4⟩ := lineOp_of_unfenced q1 q2
      exact ih (index + 1) st2 st1 (fun x hx => hl x (List.mem_cons_of_mem _ hx))
        (unfenced_applyOp q3 q4 hp h1) h

theorem processLine_empty (index : Nat) {st : State} (h : st.inCode = false) :
    processLine index [] st = .ok { closeCurrentSection index st with listLevel := 0 } := by
  rw [processLine_eq_applyOp, h, lineOp_blank (by rfl)]
  rfl

/-! ## The line loop behind entries made earlier -/

theorem sameBehind_length {pre : List Entry} {s l : State} (h : SameBehind pre s l) :
    l.formattedSections.length = pre.length + s.formattedSections.length := by
  obtain ⟨⟨es, e1, e2⟩, _⟩ := h
  have := congrArg List.length e2
  simp only [List.length_map] at this
  rw [e1, List.length_append, this]

theorem sameBehind_close (i j : Nat) {pre : List Entry} {s l : State} (h : SameBehind pre s l) :
    SameBehind pre (closeCurrentSection i s) (closeCurrentSection j l) := by
  obtain ⟨fs, cur, ll, icb, cl, sc⟩ := s
  obtain ⟨fs1, cur1, ll1, icb1, cl1, sc1⟩ := l
  obtain ⟨⟨es, e1, e2⟩, hc, h3, h4, h5, h6⟩ := h
  simp only at e1 e2 hc h3 h4 h5 h6
  subst e1 h3 h4 h5 h6
  cases cur with
  | null =>
    cases cur1 with
    | null => exact ⟨⟨es, rfl, e2⟩, hc, rfl, rfl, rfl, rfl⟩
    | paragraph d => exact False.elim hc
    | code d => exact False.elim hc
    | list p q => exact False.elim hc
  | paragraph c =>
    cases cur1 with
    | null => exact False.elim hc
    | paragraph d =>
      have hd : d = c := hc
      subst hd
      refine ⟨⟨es ++ [.element (.paragraph ⟨"p", j⟩ (formatInlineText (join [' '] d)))], ?_, ?_⟩,
        trivial, rfl, rfl, rfl, rfl⟩
      · simp [closeCurrentSection, State.push]
      · simp [closeCurrentSection, State.push, e2, Entry.eraseKeys, Block.eraseKeys]
    | code d => exact False.elim hc
    | list p q => exact False.elim hc
  | code c =>
    cases cur1 with
    | null => exact False.elim hc
    | paragraph d => exact False.elim hc
    | code d =>
      have hd : d = c := hc
      subst hd
      refine ⟨⟨es ++ [.element (.code ⟨"code-container", j⟩ cl1 d)], ?_, ?_⟩,
        trivial, rfl, rfl, rfl, rfl⟩
      · simp [closeCurrentSection, State.push]
      · simp [closeCurrentSection, State.push, e2, Entry.eraseKeys, Block.eraseKeys]
    | list p q => exact False.elim hc
  | list o r =>
    cases cur1 with
    | null => exact False.elim hc
    | paragraph d => exact False.elim hc
    | code d => exact False.elim hc
    | list p q => exact ⟨⟨es, rfl, e2⟩, trivial, rfl, rfl, rfl, rfl⟩

theorem sameBehind_push {pre : List Entry} {s l : State} {b b1 : Block}
    (h : SameBehind pre s l) (hb : b1.eraseKeys = b.eraseKeys) :
    SameBehind pre (s.push (.element b)) (l.push (.element b1)) := by
  obtain ⟨⟨es, e1, e2⟩, hc, h3, h4, h5, h6⟩ := h
  refine ⟨⟨es ++ [.element b1], ?_, ?_⟩, hc, h3, h4, h5, h6⟩
  · simp [State.push, e1]
  · simp [State.push, e2, Entry.eraseKeys, hb]

theorem needsNewList_sameBehind {pre : List Entry} {s l : State} (o : Bool) (k : Nat)
    (h : SameBehind pre s l) : needsNewList o k l = needsNewList o k s := by
  obtain ⟨fs, cur, ll, icb, cl, sc⟩ := s
  obtain ⟨fs1, cur1, ll1, icb1, cl1, sc1⟩ := l
  obtain ⟨_, hc, h3, _⟩ := h
  simp only at hc h3
  subst h3
  cases cur <;> cases cur1 <;> first
    | exact False.elim hc
    | rfl
    | (obtain ⟨rfl, _⟩ := hc; rfl)

theorem pushItemAt_behind (item : ListItem) (pre es : List Entry) (r : Nat) :
    pushItemAt item (pre.length + r) (pre ++ es) =
      match pushItemAt item r es with
      | .ok es1 => .ok (pre ++ es1)
      | .error err => .error err := by
  induction pre with
  | nil =>
    simp only [List.length_nil, Nat.zero_add, List.nil_append]
    cases pushItemAt item r es <;> rfl
  | cons e pre ih =>
    rw [show (e :: pre).length + r = (pre.length + r) + 1 from by simp; omega]
    simp only [List.cons_append, pushItemAt, List.append_eq, ih]
    cases pushItemAt item r es <;> rfl

theorem pushItemAt_eraseKeys {item item1 : ListItem} (hi : item1.eraseKey = item.eraseKey) :
    ∀ (fs : List Entry) (r : Nat) (es fs1 : List Entry),
      es.map Entry.eraseKeys = fs.map Entry.eraseKeys → pushItemAt item r fs = .ok fs1 →
      ∃ es1, pushItemAt item1 r es = .ok es1 ∧
        es1.map Entry.eraseKeys = fs1.map Entry.eraseKeys := by
  intro fs
  induction fs with
  | nil =>
    intro r es fs1 _ h
    cases r <;> cases h
  | cons f fs ih =>
    intro r es fs1 he h
    cases es with
    | nil => simp at he
    | cons e es =>
      simp only [List.map_cons, List.cons.injEq] at he
      obtain ⟨he1, he2⟩ := he
      cases r with
      | zero =>
        cases f with
        | element b => cases h
        | listSection o items level =>
          cases h
          cases e with
          | element b1 => simp [Entry.eraseKeys] at he1
          | listSection o1 items1 level1 =>
            simp only [Entry.eraseKeys, Entry.listSection.injEq] at he1
            obtain ⟨rfl, q, rfl⟩ := he1
            refine ⟨_, rfl, ?_⟩
            simp [Entry.eraseKeys, q, hi, he2]
      | succ r =>
        simp only [pushItemAt] at h
        cases hp : pushItemAt item r fs with
        | error err => rw [hp] at h; cases h
        | ok fs2 =>
          rw [hp] at h
          cases h
          obtain ⟨es2, q1, q2⟩ := ih r es fs2 he2 hp
          refine ⟨e :: es2, ?_, ?_⟩
          · simp only [pushItemAt, q1]
          · simp [he1, q2]

theorem sameBehind_addListItem {pre : List Entry} {i j : Nat} {o : Bool} {k : Nat} {m c : Str}
    {s l s1 : State} (h : SameBehind pre s l) (hs : addListItem o i k m c s = .ok s1) :
    ∃ l1, addListItem o j k m c l = .ok l1 ∧ SameBehind pre s1 l1 := by
  have hnl := needsNewList_sameBehind o k h
  by_cases hn : needsNewList o k s = true
  · rw [addListItem_of_new o i k m c hn] at hs
    rw [addListItem_of_new o j k m c (hnl.trans hn)]
    cases hs
    have hc := sameBehind_close i j h
    have hlen := sameBehind_length hc
    obtain ⟨⟨es, e1, e2⟩, _, _, h4, h5, h6⟩ := hc
    refine ⟨_, rfl, ⟨es ++ [.listSection o [⟨⟨if o then "ol" else "ul", j⟩, k, m,
      formatInlineText c⟩] k], ?_, ?_⟩, ⟨rfl, hlen⟩, rfl, h4, h5, h6⟩
    · simp [e1]
    · simp [e2, Entry.eraseKeys, ListItem.eraseKey]
  · have hn1 : ¬ needsNewList o k l = true := by rw [hnl]; exact hn
    obtain ⟨fs, cur, ll, icb, cl, sc⟩ := s
    obtain ⟨fs1, cur1, ll1, icb1, cl1, sc1⟩ := l
    simp only [addListItem, hn, Bool.false_eq_true, if_false] at hs
    simp only [addListItem, hn1, Bool.false_eq_true, if_false]
    obtain ⟨⟨es, e1, e2⟩, hc, h3, h4, h5, h6⟩ := h
    simp only at e1 e2 hc h3 h4 h5 h6
    subst e1 h3 h4 h5 h6
    cases cur with
    | null => cases hs
    | paragraph _ => cases hs
    | code _ => cases hs
    | list o1 r =>
      cases cur1 with
      | null => exact False.elim hc
      | paragraph d => exact False.elim hc
      | code d => exact False.elim hc
      | list p q =>
        obtain ⟨rfl, rfl⟩ := hc
        simp only [pushItem] at hs ⊢
        cases hp : pushItemAt ⟨⟨if o then "ol" else "ul", i⟩, k, m, formatInlineText c⟩ r fs with
        | error err => rw [hp] at hs; cases hs
        | ok fs2 =>
          rw [hp] at hs
          cases hs
          obtain ⟨es2, q1, q2⟩ := @pushItemAt_eraseKeys
            ⟨⟨if o then "ol" else "ul", i⟩, k, m, formatInlineText c⟩
            ⟨⟨if o then "ol" else "ul", j⟩, k, m, formatInlineText c⟩ rfl fs r es fs2 e2 hp
          rw [pushItemAt_behind, q1]
          exact ⟨_, rfl, ⟨es2, rfl, q2⟩, ⟨rfl, rfl⟩, rfl, rfl, rfl, rfl⟩

theorem sameBehind_pushContent {pre : List Entry} {line : Str} {s l s1 : State}
    (h : SameBehind pre s l) (hs : pushContent line s = .ok s1) :
    ∃ l1, pushContent line l = .ok l1 ∧ SameBehind pre s1 l1 := by
  obtain ⟨fs, cur, ll, icb, cl, sc⟩ := s
  obtain ⟨fs1, cur1, ll1, icb1, cl1, sc1⟩ := l
  obtain ⟨hfs, hc, h3, h4, h5, h6⟩ := h
  simp only at hfs hc h3 h4 h5 h6
  cases cur with
  | null => cases hs
  | list o r => cases hs
  | paragraph c =>
    cases cur1 with
    | null => exact False.elim hc
    | code d => exact False.elim hc
    | list p q => exact False.elim hc
    | paragraph d =>
      have hd : d = c := hc
      subst hd
      cases hs
      exact ⟨_, rfl, hfs, rfl, h3, h4, h5, h6⟩
  | code c =>
    cases cur1 with
    | null => exact False.elim hc
    | paragraph d => exact False.elim hc
    | list p q => exact False.elim hc
    | code d =>
      have hd : d = c := hc
      subst hd
      cases hs
      exact ⟨_, rfl, hfs, rfl, h3, h4, h5, h6⟩

theorem sameBehind_addParagraphLine {pre : List Entry} {i j : Nat} {t : Str} {s l s1 : State}
    (h : SameBehind pre s l) (hs : addParagraphLine i t s = .ok s1) :
    ∃ l1, addParagraphLine j t l = .ok l1 ∧ SameBehind pre s1 l1 := by
  have hcl := sameBehind_close i j h
  obtain ⟨fs, cur, ll, icb, cl, sc⟩ := s
  obtain ⟨fs1, cur1, ll1, icb1, cl1, sc1⟩ := l
  have hc := h.2.1
  simp only at hc
  cases cur with
  | paragraph c =>
    cases cur1 with
    | null => exact False.elim hc
    | code d => exact False.elim hc
    | list p q => exact False.elim hc
    | paragraph d => exact sameBehind_pushContent h hs
  | null =>
    cases cur1 with
    | paragraph d => exact False.elim hc
    | code d => exact False.elim hc
    | list p q => exact False.elim hc
    | null =>
      cases hs
      obtain ⟨hfs, _, h3, h4, h5, h6⟩ := hcl
      exact ⟨_, rfl, hfs, rfl, h3, h4, h5, h6⟩
  | code c =>
    cases cur1 with
    | paragraph d => exact False.elim hc
    | null => exact False.elim hc
    | list p q => exact False.elim hc
    | code d =>
      cases hs
      obtain ⟨hfs, _, h3, h4, h5, h6⟩ := hcl
      exact ⟨_, rfl, hfs, rfl, h3, h4, h5, h6⟩
  | list o r =>
    cases cur1 with
    | paragraph d => exact False.elim hc
    | null => exact False.elim hc
    | code d => exact False.elim hc
    | list p q =>
      cases hs
      obtain ⟨hfs, _, h3, h4, h5, h6⟩ := hcl
      exact ⟨_, rfl, hfs, rfl, h3, h4, h5, h6⟩

theorem sameBehind_applyOp {pre : List Entry} {i j : Nat} {op : LineOp} {s l s1 : State}
    (h : SameBehind pre s l) (hs : applyOp i op s = .ok s1) :
    ∃ l1, applyOp j op l = .ok l1 ∧ SameBehind pre s1 l1 := by
  cases op with
  | item o k m c => exact sameBehind_addListItem h hs
  | paragraph t => exact sameBehind_addParagraphLine h hs
  | codeLine line => exact sameBehind_pushContent h hs
  | skip =>
    cases hs
    exact ⟨l, rfl, h⟩
  | divider =>
    cases hs
    exact ⟨_, rfl, sameBehind_push (sameBehind_close i j h) rfl⟩
  | heading level text =>
    cases hs
    exact ⟨_, rfl, sameBehind_push (sameBehind_close i j h) rfl⟩
  | callout text =>
    cases hs
    exact ⟨_, rfl, sameBehind_push (sameBehind_close i j h) rfl⟩
  | blank =>
    cases hs
    obtain ⟨hfs, hc, _, h4, h5, h6⟩ := sameBehind_close i j h
    exact ⟨_, rfl, hfs, hc, rfl, h4, h5, h6⟩
  | heading1 text =>
    cases hs
    obtain ⟨hfs, hc, h3, h4, h5, h6⟩ := sameBehind_close i j h
    refine ⟨_, rfl, @sameBehind_push pre
      { closeCurrentSection i s with sectionCount := (closeCurrentSection i s).sectionCount + 1 }
      { closeCurrentSection j l with sectionCount := (closeCurrentSection j l).sectionCount + 1 }
      _ _ ⟨hfs, hc, h3, h4, h5, congrArg (· + 1) h6⟩ ?_⟩
    simp only [Block.eraseKeys, h6]
  | fence g =>
    have hicb := h.2.2.2.1
    simp only [applyOp] at hs ⊢
    rw [hicb]
    by_cases hb : s.inCodeBlock = true
    · simp only [hb, Bool.not_true, Bool.false_eq_true, if_false] at hs ⊢
      cases hs
      obtain ⟨hfs, hc, h3, _, h5, h6⟩ := h
      obtain ⟨qfs, qc, q3, q4, _, q6⟩ := @sameBehind_close i j pre
        { s with inCodeBlock := false } { l with inCodeBlock := false }
        ⟨hfs, hc, h3, rfl, h5, h6⟩
      exact ⟨_, rfl, qfs, qc, q3, q4, rfl, q6⟩
    · simp only [hb, Bool.not_false, if_true] at hs ⊢
      cases hs
      obtain ⟨qfs, _, q3, _, _, q6⟩ := sameBehind_close i j h
      exact ⟨_, rfl, qfs, rfl, q3, rfl, rfl, q6⟩

theorem sameBehind_inCode {pre : List Entry} {s l : State} (h : SameBehind pre s l) :
    l.inCode = s.inCode := by
  obtain ⟨fs, cur, ll, icb, cl, sc⟩ := s
  obtain ⟨fs1, cur1, ll1, icb1, cl1, sc1⟩ := l
  obtain ⟨_, hc, _, h4, _⟩ := h
  simp only at hc h4
  subst h4
  cases cur <;> cases cur1 <;> first
    | exact False.elim hc
    | rfl

theorem sameBehind_forEachLine (pre : List Entry) :
    ∀ (lines : List Str) (i j : Nat) (s l s1 : State),
      SameBehind pre s l → forEachLine i lines s = .ok s1 →
      ∃ l1, forEachLine j lines l = .ok l1 ∧ SameBehind pre s1 l1 := by
  intro lines
  induction lines with
  | nil =>
    intro i j s l s1 h hs
    cases hs
    exact ⟨l, rfl, h⟩
  | cons x xs ih =>
    intro i j s l s1 h hs
    simp only [forEachLine] at hs
    cases hp : processLine i x s with
    | error e => rw [hp] at hs; cases hs
    | ok s2 =>
      rw [hp] at hs
      rw [processLine_eq_applyOp, ← sameBehind_inCode h] at hp
      obtain ⟨l2, q1, q2⟩ := @sameBehind_applyOp pre i j _ s l s2 h hp
      rw [← processLine_eq_applyOp] at q1
      obtain ⟨l3, q3, q4⟩ := ih (i + 1) (j + 1) s2 l2 s1 q2 hs
      exact ⟨l3, by simp only [forEachLine, q1, q3], q4⟩

theorem renderSections_eraseKeys :
    ∀ (es fs : List Entry) (i j : Nat), es.map Entry.eraseKeys = fs.map Entry.eraseKeys →
      (renderSections i es).map Block.eraseKeys = (renderSections j fs).map Block.eraseKeys := by
  intro es
  induction es with
  | nil =>
    intro fs i j h
    cases fs with
    | nil => rfl
    | cons f fs => simp at h
  | cons e es ih =>
    intro fs i j h
    cases fs with
    | nil => simp at h
    | cons f fs =>
      simp only [List.map_cons, List.cons.injEq] at h
      obtain ⟨h1, h2⟩ := h
      have ht := ih fs (i + 1) (j + 1) h2
      cases e with
      | element b =>
        cases f with
        | element c =>
          simp only [Entry.eraseKeys, Entry.element.injEq] at h1
          simp only [renderSections, List.map_cons, h1, ht]
        | listSection p items1 level1 => simp [Entry.eraseKeys] at h1
      | listSection o items level =>
        cases f with
        | element c => simp [Entry.eraseKeys] at h1
        | listSection p items1 level1 =>
          simp only [Entry.eraseKeys, Entry.listSection.injEq] at h1
          obtain ⟨rfl, q, _⟩ := h1
          cases o <;> simp only [renderSections, List.map_cons, Block.eraseKeys, q, ht]

theorem renderSections_append (es fs : List Entry) (i : Nat) :
    renderSections i (es ++ fs) = renderSections i es ++ renderSections (i + es.length) fs := by
  induction es generalizing i with
  | nil => simp [renderSections]
  | cons e es ih =>
    have hi : i + (e :: es).length = i + 1 + es.length := by simp; omega
    cases e with
    | element b => simp only [List.cons_append, renderSections, List.append_eq, ih, hi]
    | listSection o items level =>
      cases o <;> simp only [List.cons_append, renderSections, List.append_eq, ih, hi]

theorem formatContent_string {s : Str} {entries : List Entry}
    (h : formatSections (splitLines s) = .ok entries) :
    formatContent (.string s) = .ok (renderSections 0 entries) := by
  cases s with
  | nil =>
    have e : formatSections (splitLines []) = .ok [] := by rfl
    rw [e] at h
    cases h
    rfl
  | cons c cs => exact formatContent_of_sections (by simp) h

theorem unfenced_reset (index : Nat) {st : State} (h : Unfenced st) :
    ({ closeCurrentSection index st with listLevel := 0 } : State) =
      { State.init with formattedSections := (closeCurrentSection index st).formattedSections } := by
  have hu := unfenced_close index h
  have hc := closeCurrentSection_currentSection index st
  generalize closeCurrentSection index st = c at hu hc
  obtain ⟨fs, cur, ll, icb, cl, sc⟩ := c
  obtain ⟨h1, h2, h3⟩ := hu
  simp only at hc h1 h2 h3
  subst hc h1 h2 h3
  rfl

/-- C28: for all texts `a` and `b`, when no line of `a` is a fence line or a
level-1 heading line, `formatContent` of `a`, an empty line and `b` returns the
blocks of `a` followed by the blocks of `b`, keys apart.  The line loop over the
lines of `a` and one empty line ends in the initial state but for the entries
made for `a`; and in any state without an open code block the empty line closes
the current section and sets `listLevel` to 0, leaving `inCodeBlock`,
`codeLanguage` and `sectionCount` as they are. -/
theorem blank_line_concatenation (a b : Str)
    (ha : ∀ l ∈ splitLines a, matchFence (trimEnd l) = none ∧ matchH1 (trimEnd l) = false) :
    (∃ xs ys zs,
      formatContent (.string a) = .ok xs ∧ formatContent (.string b) = .ok ys ∧
      formatContent (.string (a ++ '\n' :: '\n' :: b)) = .ok zs ∧
      zs.map Block.eraseKeys = (xs ++ ys).map Block.eraseKeys) ∧
    (∃ entries, formatSections (splitLines a) = .ok entries ∧
      forEachLine 0 (splitLines a ++ [[]]) State.init =
        .ok { State.init with formattedSections := entries }) ∧
    ∀ index st, st.inCode = false →
      processLine index [] st = .ok { closeCurrentSection index st with listLevel := 0 } := by
  obtain ⟨sa, ha1, _, _⟩ := forEachLine_ok (splitLines a) 0 inv_init
  obtain ⟨sb, hb1, _, _⟩ := forEachLine_ok (splitLines b) 0 inv_init
  have hu : Unfenced sa :=
    unfenced_forEachLine (splitLines a) 0 State.init sa ha ⟨rfl, rfl, rfl⟩ ha1
  have hblank := processLine_empty (splitLines a).length (unfenced_inCode hu)
  rw [unfenced_reset _ hu] at hblank
  have hEa : formatSections (splitLines a) =
      .ok (closeCurrentSection (splitLines a).length sa).formattedSections := by
    simp only [formatSections, ha1]
  have hEb : formatSections (splitLines b) =
      .ok (closeCurrentSection (splitLines b).length sb).formattedSections := by
    simp only [formatSections, hb1]
  refine ⟨?_, ⟨_, hEa, ?_⟩, fun index st h => processLine_empty index h⟩
  · have hsim : SameBehind (closeCurrentSection (splitLines a).length sa).formattedSections
        State.init { State.init with
          formattedSections := (closeCurrentSection (splitLines a).length sa).formattedSections } :=
      ⟨⟨[], by simp, rfl⟩, trivial, rfl, rfl, rfl, rfl⟩
    obtain ⟨l1, q1, q2⟩ := sameBehind_forEachLine _ (splitLines b) 0
      ((splitLines a).length + 1) _ _ sb hsim hb1
    obtain ⟨⟨es, e1, e2⟩, _⟩ := sameBehind_close (splitLines b).length
      (splitLines a ++ [] :: splitLines b).length q2
    have hloop : forEachLine 0 (splitLines a ++ [] :: splitLines b) State.init = .ok l1 := by
      rw [forEachLine_append _ _ 0 State.init sa ha1, Nat.zero_add]
      simp only [forEachLine, hblank]
      exact q1
    have hE : formatSections (splitLines (a ++ '\n' :: '\n' :: b)) =
        .ok ((closeCurrentSection (splitLines a).length sa).formattedSections ++ es) := by
      rw [splitLines_blank_between]
      simp only [formatSections, hloop, e1]
    refine ⟨_, _, _, formatContent_string hEa, formatContent_string hEb,
      formatContent_string hE, ?_⟩
    rw [renderSections_append, List.map_append, List.map_append,
      renderSections_eraseKeys es _ _ 0 e2]
  · rw [forEachLine_append _ _ 0 State.init sa ha1, Nat.zero_add]
    simp only [forEachLine, hblank]

theorem blank_line_concatenation_witness :
    (∀ l ∈ splitLines "- x".toList,
      matchFence (trimEnd l) = none ∧ matchH1 (trimEnd l) = false) ∧
    formatContent (.string "- x".toList) =
      .ok [.list false ⟨"ul", 0⟩ [⟨⟨"ul", 0⟩, 0, bulletGlyph, ['x']⟩]] ∧
    formatContent (.string "- y\n# T".toList) =
      .ok [.list false ⟨"ul", 0⟩ [⟨⟨"ul", 0⟩, 0, bulletGlyph, ['y']⟩],
        .heading 1 ⟨"h1", 1⟩ (some 1) ['T']] ∧
    formatContent (.string "- x\n\n- y\n# T".toList) =
      .ok [.list false ⟨"ul", 0⟩ [⟨⟨"ul", 0⟩, 0, bulletGlyph, ['x']⟩],
        .list false ⟨"ul", 1⟩ [⟨⟨"ul", 2⟩, 0, bulletGlyph, ['y']⟩],
        .heading 1 ⟨"h1", 3⟩ (some 1) ['T']] ∧
    List.map Block.eraseKeys
        [.list false ⟨"ul", 0⟩ [⟨⟨"ul", 0⟩, 0, bulletGlyph, ['x']⟩],
          .list false ⟨"ul", 1⟩ [⟨⟨"ul", 2⟩, 0, bulletGlyph, ['y']⟩],
          .heading 1 ⟨"h1", 3⟩ (some 1) ['T']] =
      List.map Block.eraseKeys
        ([.list false ⟨"ul", 0⟩ [⟨⟨"ul", 0⟩, 0, bulletGlyph, ['x']⟩]] ++
          [.list false ⟨"ul", 0⟩ [⟨⟨"ul", 0⟩, 0, bulletGlyph, ['y']⟩],
            .heading 1 ⟨"h1", 1⟩ (some 1) ['T']]) ∧
    forEachLine 0 (splitLines "- x".toList ++ [[]]) State.init =
      .ok { State.init with
        formattedSections := [.listSection false [⟨⟨"ul", 0⟩, 0, bulletGlyph, ['x']⟩] 0] } := by
  have hyp : ∀ l ∈ splitLines "- x".toList,
      matchFence (trimEnd l) = none ∧ matchH1 (trimEnd l) = false := by
    intro l hl
    have e : splitLines "- x".toList = ["- x".toList] := by rfl
    rw [e, List.mem_singleton] at hl
    subst hl
    exact ⟨by rfl, by rfl⟩
  obtain ⟨⟨xs, ys, zs, h1, h2, h3, h4⟩, ⟨entries, h5, h6⟩, _⟩ :=
    blank_line_concatenation "- x".toList "- y\n# T".toList hyp
  have e1 : formatContent (.string "- x".toList) =
      .ok [.list false ⟨"ul", 0⟩ [⟨⟨"ul", 0⟩, 0, bulletGlyph, ['x']⟩]] := by rfl
  have e2 : formatContent (.string "- y\n# T".toList) =
      .ok [.list false ⟨"ul", 0⟩ [⟨⟨"ul", 0⟩, 0, bulletGlyph, ['y']⟩],
        .heading 1 ⟨"h1", 1⟩ (some 1) ['T']] := by rfl
  have e3 : formatContent (.string "- x\n\n- y\n# T".toList) =
      .ok [.list false ⟨"ul", 0⟩ [⟨⟨"ul", 0⟩, 0, bulletGlyph, ['x']⟩],
        .list false ⟨"ul", 1⟩ [⟨⟨"ul", 2⟩, 0, bulletGlyph, ['y']⟩],
        .heading 1 ⟨"h1", 3⟩ (some 1) ['T']] := by rfl
  have e5 : formatSections (splitLines "- x".toList) =
      .ok [.listSection false [⟨⟨"ul", 0⟩, 0, bulletGlyph, ['x']⟩] 0] := by rfl
  have h3b : formatContent (.string "- x\n\n- y\n# T".toList) = .ok zs := h3
  rw [e1] at h1
  rw [e2] at h2
  rw [e3] at h3b
  rw [e5] at h5
  cases h1
  cases h2
  cases h3b
  cases h5
  exact ⟨hyp, e1, e2, e3, h4, h6⟩

/-! ## The confidence score -/

theorem foldl_sub (f : Str → Bool) (k : Int) (phrases : List Str) (s : Int) :
    phrases.foldl (fun score phrase => if f phrase then score - k else score) s =
      s - k * (phrases.filter f).length := by
  induction phrases generalizing s with
  | nil => simp
  | cons p ps ih =>
    simp only [List.foldl_cons, ih, List.filter_cons]
    by_cases hp : f p = true
    · simp only [hp, if_true, List.length_cons]
      push_cast
      ring
    · simp only [hp, Bool.false_eq_true, if_false]

theorem foldl_add (f : Str → Bool) (k : Int) (phrases : List Str) (s : Int) :
    phrases.foldl (fun score phrase => if f phrase then score + k else score) s =
      s + k * (phrases.filter f).length := by
  induction phrases generalizing s with
  | nil => simp
  | cons p ps ih =>
    simp only [List.foldl_cons, ih, List.filter_cons]
    by_cases hp : f p = true
    · simp only [hp, if_true, List.length_cons]
      push_cast
      ring
    · simp only [hp, Bool.false_eq_true, if_false]

theorem plainPhrase_cons {d : Char} {p : Str} (h : plainPhrase (d :: p) = true) :
    d.toNat < 128 ∧ d ≠ 'k' ∧ (p = [] → d ≠ 'i') ∧ plainPhrase p = true := by
  cases p with
  | nil =>
    simp only [plainPhrase, Bool.and_eq_true, decide_eq_true_eq, bne_iff_ne, ne_eq] at h
    exact ⟨h.1.1.1, h.1.2, fun _ => h.2, rfl⟩
  | cons e p =>
    simp only [plainPhrase, Bool.and_eq_true, decide_eq_true_eq, bne_iff_ne, ne_eq] at h
    exact ⟨h.1.1.1, h.1.2, fun e => absurd e (List.cons_ne_nil _ _), h.2⟩

theorem dropLiteral_untouched {image : Str} (hi : Untouched image) {d : Char} {p : Str}
    (hp : plainPhrase (d :: p) = true) (rest : Str) :
    dropLiteral (d :: p) (image ++ rest) = none := by
  obtain ⟨h1, h2, h3, h4⟩ := plainPhrase_cons hp
  rcases hi with rfl | rfl | ⟨hne, hall⟩
  · simp [dropLiteral, h2]
  · by_cases hd : d = 'i'
    · subst hd
      cases p with
      | nil => exact absurd rfl (h3 rfl)
      | cons e p =>
        obtain ⟨q1, _⟩ := plainPhrase_cons h4
        have he : e ≠ Char.ofNat 0x307 := by
          intro he
          rw [he] at q1
          revert q1
          decide
        simp [dropLiteral, he]
    · simp [dropLiteral, hd]
  · cases image with
    | nil => exact absurd rfl hne
    | cons x xs =>
      have hx := hall x (List.mem_cons_self _ _)
      have hd : d ≠ x := by
        intro e
        rw [e] at h1
        omega
      simp [dropLiteral, hd]

theorem includes_high {xs : Str} (hall : ∀ d ∈ xs, 128 ≤ d.toNat) {d : Char} (p : Str)
    (hd : d.toNat < 128) (rest : Str) :
    includes (d :: p) (xs ++ rest) = includes (d :: p) rest := by
  induction xs with
  | nil => rfl
  | cons x xs ih =>
    have hx := hall x (List.mem_cons_self _ _)
    have hne : d ≠ x := by
      intro e
      rw [e] at hd
      omega
    simp only [List.cons_append, includes, dropLiteral, hne, if_false, Option.isSome_none,
      Bool.false_or]
    exact ih (fun y hy => hall y (List.mem_cons_of_mem _ hy))

theorem includes_untouched {image : Str} (hi : Untouched image) {d : Char} {p : Str}
    (hp : plainPhrase (d :: p) = true) (rest : Str) :
    includes (d :: p) (image ++ rest) = includes (d :: p) rest := by
  have hnone := dropLiteral_untouched hi hp rest
  obtain ⟨h1, _⟩ := plainPhrase_cons hp
  rcases hi with rfl | rfl | ⟨hne, hall⟩
  · simp only [List.singleton_append] at hnone ⊢
    simp only [includes, hnone, Option.isSome_none, Bool.false_or]
  · simp only [List.cons_append, List.nil_append] at hnone ⊢
    have hh : ∀ y ∈ [Char.ofNat 0x307], 128 ≤ y.toNat := by
      intro y hy
      rw [List.mem_singleton.1 hy]
      decide
    have := @includes_high [Char.ofNat 0x307] hh d p h1 rest
    simp only [List.singleton_append] at this
    simp only [includes, hnone, Option.isSome_none, Bool.false_or] at this ⊢
    exact this
  · exact includes_high hall p h1 rest

theorem dropLiteral_sameForSearch :
    ∀ (p : Str) (xs ys : List Str), List.Forall₂ SameForSearch xs ys → plainPhrase p = true →
      (dropLiteral p xs.flatten).isSome = true → (dropLiteral p ys.flatten).isSome = true := by
  intro p
  induction p with
  | nil =>
    intro xs ys _ _ _
    cases ys.flatten <;> rfl
  | cons d p ih =>
    intro xs ys hf hp h
    cases hf with
    | nil => simp [dropLiteral] at h
    | @cons x y xs ys hxy hrest =>
      simp only [List.flatten_cons] at h ⊢
      rcases hxy with ⟨a, rfl, rfl⟩ | ⟨ux, _⟩
      · simp only [List.singleton_append, dropLiteral] at h ⊢
        by_cases hda : d = a
        · simp only [hda, if_true] at h ⊢
          exact ih xs ys hrest (plainPhrase_cons hp).2.2.2 h
        · simp [hda] at h
      · rw [dropLiteral_untouched ux hp] at h
        cases h

theorem includes_sameForSearch {d : Char} {p : Str} (hp : plainPhrase (d :: p) = true) :
    ∀ (xs ys : List Str), List.Forall₂ SameForSearch xs ys →
      includes (d :: p) xs.flatten = true → includes (d :: p) ys.flatten = true := by
  intro xs ys hf
  induction hf with
  | nil => exact fun h => h
  | @cons x y xs ys hxy hrest ih =>
    intro h
    have hcons : List.Forall₂ SameForSearch (x :: xs) (y :: ys) := List.Forall₂.cons hxy hrest
    rcases hxy with ⟨a, rfl, rfl⟩ | ⟨ux, uy⟩
    · have hdl := dropLiteral_sameForSearch (d :: p) _ _ hcons hp
      simp only [List.flatten_cons, List.singleton_append] at h hdl ⊢
      simp only [includes, Bool.or_eq_true] at h ⊢
      rcases h with h | h
      · exact Or.inl (hdl h)
      · exact Or.inr (ih h)
    · simp only [List.flatten_cons] at h ⊢
      rw [includes_untouched ux hp] at h
      rw [includes_untouched uy hp]
      exact ih h

theorem forall₂_sameForSearch_symm {xs ys : List Str} (h : List.Forall₂ SameForSearch xs ys) :
    List.Forall₂ SameForSearch ys xs := by
  induction h with
  | nil => exact List.Forall₂.nil
  | cons hxy _ ih =>
    refine List.Forall₂.cons ?_ ih
    rcases hxy with ⟨a, rfl, rfl⟩ | ⟨ux, uy⟩
    · exact Or.inl ⟨a, rfl, rfl⟩
    · exact Or.inr ⟨uy, ux⟩

theorem asciiLower_of_high {c : Char} (h : ¬ c.toNat < 128) : asciiLower c = c := by
  have hu : isUpper c = false := by
    simp only [isUpper, Bool.and_eq_false_imp, decide_eq_true_eq, decide_eq_false_iff_not]
    intro _
    omega
  simp [asciiLower, hu]

theorem sameForSearch_lowerImage {c : Char} {image : Str} (h : LowerImage c image) :
    SameForSearch image [asciiLower c] := by
  unfold LowerImage at h
  by_cases hc : c.toNat < 128
  · rw [if_pos hc] at h
    exact Or.inl ⟨asciiLower c, h, rfl⟩
  · rw [if_neg hc] at h
    have hr : Untouched [asciiLower c] := by
      rw [asciiLower_of_high hc]
      refine Or.inr (Or.inr ⟨by simp, ?_⟩)
      intro d hd
      rw [List.mem_singleton.1 hd]
      omega
    refine Or.inr ⟨?_, hr⟩
    split at h
    · exact Or.inl h
    · split at h
      · exact Or.inr (Or.inl h)
      · exact Or.inr (Or.inr h)

theorem forall₂_lowerImage {text : Str} {images : List Str}
    (h : List.Forall₂ LowerImage text images) :
    List.Forall₂ SameForSearch images (text.map fun c => [asciiLower c]) := by
  induction h with
  | nil => exact List.Forall₂.nil
  | cons hxy _ ih => exact List.Forall₂.cons (sameForSearch_lowerImage hxy) ih

theorem flatten_map_singleton (f : Char → Char) (text : Str) :
    (text.map fun c => [f c]).flatten = text.map f := by
  induction text with
  | nil => rfl
  | cons c cs ih => simp [ih]

theorem includes_toLowerCase {toLowerCase : Str → Str} (h : IsLowerCase toLowerCase)
    {d : Char} {p : Str} (hp : plainPhrase (d :: p) = true) (text : Str) :
    includes (d :: p) (toLowerCase text) = includes (d :: p) (text.map asciiLower) := by
  obtain ⟨images, h1, h2⟩ := h text
  have hf := forall₂_lowerImage h1
  rw [h2, ← flatten_map_singleton asciiLower text]
  rw [Bool.eq_iff_iff]
  exact ⟨includes_sameForSearch hp _ _ hf,
    includes_sameForSearch hp _ _ (forall₂_sameForSearch_symm hf)⟩

theorem isLowerCase_basic : IsLowerCase toLowerCaseBasic := by
  intro text
  refine ⟨_, ?_, rfl⟩
  induction text with
  | nil => exact List.Forall₂.nil
  | cons c cs ih =>
    refine List.Forall₂.cons ?_ ih
    unfold LowerImage
    by_cases hc : c.toNat < 128
    · have h1 : c ≠ Char.ofNat 0x212A := by
        intro e
        rw [e] at hc
        revert hc
        decide
      have h2 : c ≠ Char.ofNat 0x130 := by
        intro e
        rw [e] at hc
        revert hc
        decide
      simp only [hc, h1, h2, if_true, if_false]
    · simp only [hc, if_false]
      by_cases h1 : c = Char.ofNat 0x212A
      · simp only [h1, if_true]
      · simp only [h1, if_false]
        by_cases h2 : c = Char.ofNat 0x130
        · simp only [h2, if_true]
        · simp only [h2, if_false]
          rw [asciiLower_of_high hc]
          refine ⟨by simp, ?_⟩
          intro d hd
          rw [List.mem_singleton.1 hd]
          omega

theorem phrases_plain :
    ∀ p ∈ negativePhrases ++ moderatePhrases ++ positivePhrases,
      ∃ d q, p = d :: q ∧ plainPhrase (d :: q) = true ∧ (d :: q).map asciiLower = d :: q := by
  intro p hp
  simp only [negativePhrases, moderatePhrases, positivePhrases, List.cons_append,
    List.nil_append, List.mem_cons, List.mem_singleton, List.not_mem_nil, or_false] at hp
  rcases hp with rfl | rfl | rfl | rfl | rfl | rfl | rfl | rfl | rfl | rfl <;>
    exact ⟨_, _, rfl, by rfl, by rfl⟩

theorem filter_includes_toLowerCase {toLowerCase : Str → Str} (h : IsLowerCase toLowerCase)
    (text : Str) (phrases : List Str)
    (hp : ∀ p ∈ phrases, p ∈ negativePhrases ++ moderatePhrases ++ positivePhrases) :
    phrases.filter (fun phrase => includes phrase (toLowerCase text)) =
      phrases.filter fun phrase => presentIgnoreCase phrase text := by
  apply List.filter_congr
  intro p hm
  obtain ⟨d, q, rfl, h1, h2⟩ := phrases_plain p (hp p hm)
  unfold presentIgnoreCase
  rw [h2]
  exact includes_toLowerCase h h1 text

theorem max_min_eq_clamp (x : Int) : max 0 (min 100 x) = clamp x := by
  unfold clamp
  split
  · omega
  · split <;> omega

/-- C30: for every string `text`, and every `toLowerCase` that lower-cases
character by character as the built-in does, `estimateConfidenceScore` returns
an integer from 0 to 100: the clamped value of 50, less 10 for each of the 4
negative phrases present, less 5 for each of the 3 moderate phrases present,
plus 10 for each of the 3 positive phrases present, where presence ignores
case and every phrase counts once; so the result is at most 80. -/
theorem confidence_score_formula (toLowerCase : Str → Str) (h : IsLowerCase toLowerCase)
    (text : Str) :
    estimateConfidenceScore toLowerCase text = confidenceFormula text ∧
    0 ≤ estimateConfidenceScore toLowerCase text ∧
    estimateConfidenceScore toLowerCase text ≤ 100 ∧
    estimateConfidenceScore toLowerCase text ≤ 80 := by
  have e : estimateConfidenceScore toLowerCase text = confidenceFormula text := by
    unfold estimateConfidenceScore confidenceFormula countPresent
    simp only []
    rw [foldl_sub (fun phrase => includes phrase (toLowerCase text)) 10,
      foldl_sub (fun phrase => includes phrase (toLowerCase text)) 5,
      foldl_add (fun phrase => includes phrase (toLowerCase text)) 10,
      filter_includes_toLowerCase h text negativePhrases (fun p hp => by simp [hp]),
      filter_includes_toLowerCase h text moderatePhrases (fun p hp => by simp [hp]),
      filter_includes_toLowerCase h text positivePhrases (fun p hp => by simp [hp]),
      max_min_eq_clamp]
  have h1 : countPresent negativePhrases text ≤ 4 := List.length_filter_le _ _
  have h2 : countPresent moderatePhrases text ≤ 3 := List.length_filter_le _ _
  have h3 : countPresent positivePhrases text ≤ 3 := List.length_filter_le _ _
  rw [e]
  unfold confidenceFormula clamp
  refine ⟨rfl, ?_, ?_, ?_⟩ <;> split <;> try split
  all_goals omega

theorem confidence_score_formula_witness :
    IsLowerCase toLowerCaseBasic ∧
    estimateConfidenceScore toLowerCaseBasic
      "I am VERY ANXIOUS and Worried, but improving".toList = 45 ∧
    confidenceFormula "I am VERY ANXIOUS and Worried, but improving".toList = 45 ∧
    (0 : Int) ≤ 45 ∧ (45 : Int) ≤ 100 ∧ (45 : Int) ≤ 80 := by
  have h := confidence_score_formula toLowerCaseBasic isLowerCase_basic
    "I am VERY ANXIOUS and Worried, but improving".toList
  have e : estimateConfidenceScore toLowerCaseBasic
      "I am VERY ANXIOUS and Worried, but improving".toList = 45 := by rfl
  rw [e] at h
  exact ⟨isLowerCase_basic, e, h.1.symm, h.2.1, h.2.2.1, h.2.2.2⟩

/-! ## Blocks in source order -/

theorem growsTo_trans {a b c : Block} (h1 : a.GrowsTo b) (h2 : b.GrowsTo c) : a.GrowsTo c := by
  rcases h1 with rfl | ⟨k, h, k1, h1, rfl, rfl⟩ | ⟨k, k1, lang, ls, more, rfl, rfl⟩ |
    ⟨o, key, items, more, rfl, rfl⟩
  · exact h2
  · rcases h2 with rfl | ⟨_, _, _, _, e, rfl⟩ | ⟨_, _, _, _, _, e, _⟩ | ⟨_, _, _, _, e, _⟩
    · exact Or.inr (Or.inl ⟨_, _, _, _, rfl, rfl⟩)
    · exact Or.inr (Or.inl ⟨_, _, _, _, rfl, rfl⟩)
    · cases e
    · cases e
  · rcases h2 with rfl | ⟨_, _, _, _, e, _⟩ | ⟨_, _, _, _, more2, e, rfl⟩ | ⟨_, _, _, _, e, _⟩
    · exact Or.inr (Or.inr (Or.inl ⟨_, _, _, _, _, rfl, rfl⟩))
    · cases e
    · cases e
      exact Or.inr (Or.inr (Or.inl ⟨_, _, _, _, more ++ more2, rfl,
        by rw [List.append_assoc]⟩))
    · cases e
  · rcases h2 with rfl | ⟨_, _, _, _, e, _⟩ | ⟨_, _, _, _, _, e, _⟩ | ⟨_, _, _, more2, e, rfl⟩
    · exact Or.inr (Or.inr (Or.inr ⟨_, _, _, _, rfl, rfl⟩))
    · cases e
    · cases e
    · cases e
      exact Or.inr (Or.inr (Or.inr ⟨_, _, _, more ++ more2, rfl, by rw [List.append_assoc]⟩))

theorem renderSections_one (i : Nat) (e : Entry) : ∃ b, renderSections i [e] = [b] := by
  cases e with
  | element b => exact ⟨b, rfl⟩
  | listSection o items level => cases o <;> exact ⟨_, rfl⟩

theorem grows_append (es : List Entry) (e : Entry) :
    Grows (renderSections 0 es) (renderSections 0 (es ++ [e])) := by
  obtain ⟨b, hb⟩ := renderSections_one (0 + es.length) e
  exact Or.inr (Or.inr ⟨b, by rw [renderSections_append, hb]⟩)

theorem grows_last (pre : List Entry) {e e1 : Entry}
    (h : ∀ i, ∃ b b1, renderSections i [e] = [b] ∧ renderSections i [e1] = [b1] ∧ b.GrowsTo b1) :
    Grows (renderSections 0 (pre ++ [e])) (renderSections 0 (pre ++ [e1])) := by
  obtain ⟨b, b1, h1, h2, h3⟩ := h (0 + pre.length)
  exact Or.inr (Or.inl ⟨renderSections 0 pre, b, b1, by rw [renderSections_append, h1],
    by rw [renderSections_append, h2], h3⟩)

theorem grows_paragraph (pre : List Entry) (k k1 : Key) (h h1 : Str) :
    Grows (renderSections 0 (pre ++ [.element (.paragraph k h)]))
      (renderSections 0 (pre ++ [.element (.paragraph k1 h1)])) :=
  grows_last pre fun _ => ⟨_, _, rfl, rfl, Or.inr (Or.inl ⟨_, _, _, _, rfl, rfl⟩)⟩

theorem grows_code (pre : List Entry) (k k1 : Key) (language : Str) (ls more : List Str) :
    Grows (renderSections 0 (pre ++ [.element (.code k language ls)]))
      (renderSections 0 (pre ++ [.element (.code k1 language (ls ++ more))])) :=
  grows_last pre fun _ => ⟨_, _, rfl, rfl, Or.inr (Or.inr (Or.inl ⟨_, _, _, _, _, rfl, rfl⟩))⟩

theorem grows_code_same (pre : List Entry) (k k1 : Key) (language : Str) (ls : List Str) :
    Grows (renderSections 0 (pre ++ [.element (.code k language ls)]))
      (renderSections 0 (pre ++ [.element (.code k1 language ls)])) := by
  have h := grows_code pre k k1 language ls []
  rwa [List.append_nil] at h

theorem grows_list (pre : List Entry) (o : Bool) (items more : List ListItem) (level : Nat) :
    Grows (renderSections 0 (pre ++ [.listSection o items level]))
      (renderSections 0 (pre ++ [.listSection o (items ++ more) level])) :=
  grows_last pre fun _ => by
    cases o <;> exact ⟨_, _, rfl, rfl, Or.inr (Or.inr (Or.inr ⟨_, _, _, _, rfl, rfl⟩))⟩

theorem grows_addListItem {n : Nat} {o : Bool} {k : Nat} {m c : Str} {st st1 : State}
    (hinv : Inv st) (h : addListItem o n k m c st = .ok st1) :
    Grows (renderSections 0 (closeCurrentSection n st).formattedSections)
      (renderSections 0 (closeCurrentSection (n + 1) st1).formattedSections) := by
  by_cases hn : needsNewList o k st = true
  · rw [addListItem_of_new o n k m c hn] at h
    cases h
    exact grows_append _ _
  · obtain ⟨fs, cur, ll, icb, cl, sc⟩ := st
    cases cur with
    | null => simp [needsNewList] at hn
    | paragraph _ => simp [needsNewList] at hn
    | code _ => simp [needsNewList] at hn
    | list o1 r =>
      simp only [needsNewList, Bool.or_eq_true, bne_iff_ne, ne_eq, not_or, not_not] at hn
      obtain ⟨rfl, rfl⟩ := hn
      obtain ⟨pre, items, level, e1, rfl⟩ := hinv o1 r rfl
      simp only at e1
      subst e1
      rw [addListItem_of_open] at h
      cases h
      exact grows_list pre o1 items _ level

theorem grows_applyOp {n : Nat} {op : LineOp} {st st1 : State} (hinv : Inv st)
    (h : applyOp n op st = .ok st1) :
    Grows (renderSections 0 (closeCurrentSection n st).formattedSections)
      (renderSections 0 (closeCurrentSection (n + 1) st1).formattedSections) := by
  cases op with
  | item o k m c => exact grows_addListItem hinv h
  | fence g =>
    obtain ⟨fs, cur, ll, icb, cl, sc⟩ := st
    cases icb <;> cases cur <;> cases h <;>
      first
      | exact Or.inl rfl
      | exact grows_append _ _
  | divider =>
    obtain ⟨fs, cur, ll, icb, cl, sc⟩ := st
    cases cur <;> cases h <;> exact grows_append _ _
  | heading1 text =>
    obtain ⟨fs, cur, ll, icb, cl, sc⟩ := st
    cases cur <;> cases h <;> exact grows_append _ _
  | heading level text =>
    obtain ⟨fs, cur, ll, icb, cl, sc⟩ := st
    cases cur <;> cases h <;> exact grows_append _ _
  | callout text =>
    obtain ⟨fs, cur, ll, icb, cl, sc⟩ := st
    cases cur <;> cases h <;> exact grows_append _ _
  | blank =>
    cases h
    obtain ⟨fs, cur, ll, icb, cl, sc⟩ := st
    cases cur <;> exact Or.inl rfl
  | skip =>
    cases h
    obtain ⟨fs, cur, ll, icb, cl, sc⟩ := st
    cases cur with
    | null => exact Or.inl rfl
    | list o r => exact Or.inl rfl
    | paragraph c => exact grows_paragraph _ _ _ _ _
    | code c => exact grows_code_same _ _ _ _ _
  | codeLine line =>
    obtain ⟨fs, cur, ll, icb, cl, sc⟩ := st
    cases cur with
    | null => cases h
    | list o r => cases h
    | paragraph c =>
      cases h
      exact grows_paragraph _ _ _ _ _
    | code c =>
      cases h
      exact grows_code _ _ _ _ _ [line]
  | paragraph t =>
    obtain ⟨fs, cur, ll, icb, cl, sc⟩ := st
    cases cur with
    | null =>
      cases h
      exact grows_append _ _
    | list o r =>
      cases h
      exact grows_append _ _
    | paragraph c =>
      cases h
      exact grows_paragraph _ _ _ _ _
    | code c =>
      cases h
      exact grows_append _ _

theorem blocksAfter_eq {lines : List Str} {n : Nat} (hn : n ≤ lines.length) {st : State}
    (h : forEachLine 0 (lines.take n) State.init = .ok st) :
    blocksAfter lines n = renderSections 0 (closeCurrentSection n st).formattedSections := by
  unfold blocksAfter formatSections
  rw [h]
  simp only [List.length_take, min_eq_left hn]

theorem blocksAfter_zero (lines : List Str) : blocksAfter lines 0 = [] := by
  unfold blocksAfter
  rw [List.take_zero]
  rfl

theorem grows_blocksAfter (lines : List Str) (n : Nat) (hn : n < lines.length) :
    Grows (blocksAfter lines n) (blocksAfter lines (n + 1)) := by
  obtain ⟨st, h, hinv, _⟩ := forEachLine_ok (lines.take n) 0 inv_init
  obtain ⟨st1, h1, _, _⟩ := processLine_ok n (lines.get ⟨n, hn⟩) hinv
  have hlen : (lines.take n).length = n := by
    rw [List.length_take]
    exact min_eq_left (Nat.le_of_lt hn)
  have htake : lines.take (n + 1) = lines.take n ++ [lines.get ⟨n, hn⟩] := by
    rw [List.take_succ, List.getElem?_eq_getElem hn]
    rfl
  have h2 : forEachLine 0 (lines.take (n + 1)) State.init = .ok st1 := by
    rw [htake, forEachLine_append _ _ 0 State.init st h, hlen, Nat.zero_add]
    simp only [forEachLine, h1]
  rw [blocksAfter_eq (Nat.le_of_lt hn) h, blocksAfter_eq hn h2]
  rw [processLine_eq_applyOp] at h1
  exact grows_applyOp hinv h1

theorem grows_length {bs bs1 : List Block} (h : Grows bs bs1) :
    bs1.length = bs.length ∨ bs1.length = bs.length + 1 := by
  rcases h with rfl | ⟨pre, b, b1, rfl, rfl, _⟩ | ⟨b, rfl⟩
  · exact Or.inl rfl
  · exact Or.inl (by simp)
  · exact Or.inr (by simp)

theorem grows_new {bs bs1 : List Block} (h : Grows bs bs1) (hl : bs.length < bs1.length) :
    ∃ b, bs1 = bs ++ [b] := by
  rcases h with rfl | ⟨pre, b, b1, rfl, rfl, _⟩ | ⟨b, rfl⟩
  · exact absurd hl (Nat.lt_irrefl _)
  · simp at hl
  · exact ⟨b, rfl⟩

theorem grows_getElem {bs bs1 : List Block} (h : Grows bs bs1) {p : Nat} {b : Block}
    (hp : bs[p]? = some b) : ∃ b1, bs1[p]? = some b1 ∧ b.GrowsTo b1 := by
  rcases h with rfl | ⟨pre, c, c1, rfl, rfl, hg⟩ | ⟨c, rfl⟩
  · exact ⟨b, hp, Or.inl rfl⟩
  · by_cases hlt : p < pre.length
    · rw [List.getElem?_append_left hlt] at hp
      exact ⟨b, by rw [List.getElem?_append_left hlt]; exact hp, Or.inl rfl⟩
    · have hge : pre.length ≤ p := Nat.le_of_not_lt hlt
      rw [List.getElem?_append_right hge] at hp
      by_cases h0 : p - pre.length = 0
      · rw [h0] at hp
        simp only [List.getElem?_cons_zero, Option.some.injEq] at hp
        subst hp
        refine ⟨c1, ?_, hg⟩
        rw [List.getElem?_append_right hge, h0]
        rfl
      · obtain ⟨q, hq⟩ : ∃ q, p - pre.length = q + 1 := ⟨p - pre.length - 1, by omega⟩
        rw [hq] at hp
        simp at hp
  · have hlt : p < bs.length := by
      by_contra hge
      rw [List.getElem?_eq_none (Nat.le_of_not_lt hge)] at hp
      cases hp
    exact ⟨b, by rw [List.getElem?_append_left hlt]; exact hp, Or.inl rfl⟩

theorem growsTo_blocksAfter (lines : List Str) {n : Nat} {p : Nat} {b : Block}
    (hp : (blocksAfter lines n)[p]? = some b) :
    ∀ m, n ≤ m → m ≤ lines.length →
      ∃ b1, (blocksAfter lines m)[p]? = some b1 ∧ b.GrowsTo b1 := by
  intro m hnm
  induction m, hnm using Nat.le_induction with
  | base => exact fun _ => ⟨b, hp, Or.inl rfl⟩
  | succ m _ ih =>
    intro hm
    obtain ⟨b1, q1, q2⟩ := ih (Nat.le_of_succ_le hm)
    obtain ⟨b2, q3, q4⟩ := grows_getElem (grows_blocksAfter lines m hm) q1
    exact ⟨b2, q3, growsTo_trans q2 q4⟩

theorem blocksAfter_step_le (lines : List Str) (n : Nat) (hn : n < lines.length) :
    (blocksAfter lines (n + 1)).length ≤ (blocksAfter lines n).length + 1 := by
  rcases grows_length (grows_blocksAfter lines n hn) with h | h <;> omega

theorem isFirstLine_before {lines : List Str} {p n : Nat} (h : IsFirstLine lines p n) :
    (blocksAfter lines n).length ≤ p := by
  cases n with
  | zero => rw [blocksAfter_zero]; exact Nat.zero_le _
  | succ n => exact h.2 n (Nat.lt_succ_self n)

theorem blocksAfter_length_of_ge (lines : List Str) {n : Nat} (hn : lines.length ≤ n) :
    blocksAfter lines n = blocksAfter lines lines.length := by
  unfold blocksAfter
  rw [List.take_of_length_le hn, List.take_of_length_le (Nat.le_refl _)]

theorem isFirstLine_lt {lines : List Str} {p n : Nat} (h : IsFirstLine lines p n) :
    n < lines.length := by
  by_contra hge
  have hge : lines.length ≤ n := Nat.le_of_not_lt hge
  have h1 := h.1
  have h2 := isFirstLine_before h
  rw [blocksAfter_length_of_ge lines (Nat.le_succ_of_le hge)] at h1
  rw [blocksAfter_length_of_ge lines hge] at h2
  omega

theorem isFirstLine_order {lines : List Str} {p q n m : Nat} (hpq : p < q)
    (hp : IsFirstLine lines p n) (hq : IsFirstLine lines q m) : n < m := by
  by_contra hge
  have hmn : m ≤ n := Nat.le_of_not_lt hge
  rcases Nat.lt_or_eq_of_le hmn with hlt | heq
  · have := hp.2 m hlt
    have := hq.1
    omega
  · subst heq
    have h1 := isFirstLine_before hp
    have h2 := blocksAfter_step_le lines m (isFirstLine_lt hp)
    have := hq.1
    omega

theorem isFirstLine_exists (lines : List Str) {p : Nat}
    (hp : p < (blocksAfter lines lines.length).length) :
    ∃ n b b1, IsFirstLine lines p n ∧ n < lines.length ∧
      (blocksAfter lines n).length = p ∧
      blocksAfter lines (n + 1) = blocksAfter lines n ++ [b] ∧
      (blocksAfter lines lines.length)[p]? = some b1 ∧ b.GrowsTo b1 := by
  have hpos : 0 < lines.length := by
    rcases Nat.eq_zero_or_pos lines.length with h0 | h0
    · rw [h0, blocksAfter_zero] at hp
      cases hp
    · exact h0
  have hex : ∃ j, p < (blocksAfter lines (j + 1)).length :=
    ⟨lines.length - 1, by rw [Nat.sub_add_cancel hpos]; exact hp⟩
  have hfirst : IsFirstLine lines p (Nat.find hex) :=
    ⟨Nat.find_spec hex, fun j hj => Nat.le_of_not_lt (Nat.find_min hex hj)⟩
  have hlt := isFirstLine_lt hfirst
  have h1 := isFirstLine_before hfirst
  have h2 := blocksAfter_step_le lines _ hlt
  have h3 := hfirst.1
  have hlen : (blocksAfter lines (Nat.find hex)).length = p := by omega
  obtain ⟨b, hb⟩ := grows_new (grows_blocksAfter lines _ hlt) (by omega)
  have hget : (blocksAfter lines (Nat.find hex + 1))[p]? = some b := by
    rw [hb, List.getElem?_append_right (by omega), hlen, Nat.sub_self]
    rfl
  obtain ⟨b1, q1, q2⟩ := growsTo_blocksAfter lines hget lines.length hlt (Nat.le_refl _)
  exact ⟨_, b, b1, hfirst, hlt, hlen, hb, q1, q2⟩

theorem formatContent_blocksAfter (text : Str) :
    formatContent (.string text) =
      .ok (blocksAfter (splitLines text) (splitLines text).length) := by
  obtain ⟨entries, h⟩ := formatContent_total.1 (splitLines text)
  rw [formatContent_string h]
  unfold blocksAfter
  rw [List.take_of_length_le (Nat.le_refl _), h]

/-- C14: for every input the blocks returned by `formatContent` are in source
order.  The output is what the lines make of it one after the other: one more
line leaves the blocks as they are, gives more lines to the last block, or puts
one new block at the end, so a block, once made, keeps its position.  Every
block of the output has a first source line that contributed to it, the line
whose reading put the block, as it then was, at the end of the output; and if
block A precedes block B in the output, the first line of A precedes the first
line of B.  List objects are pushed when they are opened, paragraph and code
objects only when they are closed: the output after a line counts the open
object in both cases. -/
theorem blocks_in_source_order (text : Str) :
    ∃ blocks, formatContent (.string text) = .ok blocks ∧
      blocks = blocksAfter (splitLines text) (splitLines text).length ∧
      (∀ n, n < (splitLines text).length →
        Grows (blocksAfter (splitLines text) n) (blocksAfter (splitLines text) (n + 1))) ∧
      (∀ p, p < blocks.length → ∃ n b b1, IsFirstLine (splitLines text) p n ∧
        n < (splitLines text).length ∧ (blocksAfter (splitLines text) n).length = p ∧
        blocksAfter (splitLines text) (n + 1) = blocksAfter (splitLines text) n ++ [b] ∧
        blocks[p]? = some b1 ∧ b.GrowsTo b1) ∧
      ∀ p q n m, p < q → IsFirstLine (splitLines text) p n → IsFirstLine (splitLines text) q m →
        n < m :=
  ⟨_, formatContent_blocksAfter text, rfl, grows_blocksAfter (splitLines text),
    fun _ hp => isFirstLine_exists (splitLines text) hp,
    fun _ _ _ _ hpq hp hq => isFirstLine_order hpq hp hq⟩

theorem blocks_in_source_order_witness :
    formatContent (.string "a\nb\n\n# T\n- x\n- y".toList) =
      .ok [.paragraph ⟨"p", 2⟩ "a b".toList, .heading 1 ⟨"h1", 3⟩ (some 1) "T".toList,
        .list false ⟨"ul", 2⟩ [⟨⟨"ul", 4⟩, 0, bulletGlyph, "x".toList⟩,
          ⟨⟨"ul", 5⟩, 0, bulletGlyph, "y".toList⟩]] ∧
    IsFirstLine (splitLines "a\nb\n\n# T\n- x\n- y".toList) 0 0 ∧
    IsFirstLine (splitLines "a\nb\n\n# T\n- x\n- y".toList) 1 3 ∧
    IsFirstLine (splitLines "a\nb\n\n# T\n- x\n- y".toList) 2 4 ∧
    Grows (blocksAfter (splitLines "a\nb\n\n# T\n- x\n- y".toList) 1)
      (blocksAfter (splitLines "a\nb\n\n# T\n- x\n- y".toList) 2) ∧
    0 < 3 ∧ 3 < 4 := by
  obtain ⟨blocks, _, _, h3, _, h5⟩ := blocks_in_source_order "a\nb\n\n# T\n- x\n- y".toList
  have f0 : IsFirstLine (splitLines "a\nb\n\n# T\n- x\n- y".toList) 0 0 :=
    ⟨by decide, fun j hj => absurd hj (Nat.not_lt_zero j)⟩
  have f1 : IsFirstLine (splitLines "a\nb\n\n# T\n- x\n- y".toList) 1 3 := by
    refine ⟨by decide, ?_⟩
    intro j hj
    interval_cases j <;> decide
  have f2 : IsFirstLine (splitLines "a\nb\n\n# T\n- x\n- y".toList) 2 4 := by
    refine ⟨by decide, ?_⟩
    intro j hj
    interval_cases j <;> decide
  exact ⟨by rfl, f0, f1, f2, h3 1 (by decide), h5 0 1 0 3 (by decide) f0 f1,
    h5 1 2 3 4 (by decide) f1 f2⟩

end FormattedMessage
